import Mathlib

/-!
# mlsgpu: ring allocator, welding mesher, octree limits, driver, event timing, memory writer

Shallow embedding of the parts of mlsgpu that the specification talks about,
with the properties proved about them.

Code that is not among the sources (`circular_buffer.cpp`, `work_queue.h`, `mesher.cpp`, and
the headers `grid.h`, `splat.h`, `files.h`, `errors.h`, `ply.h` that the driver includes) is
modelled from the specification and from the unit tests that exercise it;
every such definition says so in its doc comment. The calls of the driver into OpenCL
are parameters: an execution is described by the outcome of each call. Of `statistics.h`,
which `statistics_cl.cpp` includes, only the calls made are kept: the samples added to a
statistic are recorded in order, and the `events.peak` counter is an integer.

Machine integers are integers reduced modulo `2^w`. The types `float` and `double` are the
binary formats of 24 and 53 digits with rounding to nearest, ties to even, infinities and
NaN; the arithmetic of `makeGrid` and of the event times is done in them.
-/

set_option autoImplicit false

/-! ## Ring allocator (`CircularBuffer`) -/

/-- One outstanding allocation of the arena: where it starts and how many bytes it spans. -/
structure Allocation where
  offset : Nat
  bytes : Nat
deriving DecidableEq, Repr

/-- Modelled from the spec: `circular_buffer.h` and `circular_buffer.cpp` are missing; only
`test/test_circular_buffer.cpp` is present.

A fixed-size contiguous byte region (`capacity` bytes, `CircularBuffer::size()`) from which
contiguous runs are checked out and released in strict FIFO order. The outstanding runs are kept
oldest first; because the region wraps circularly they form at most two ascending segments:
`older` (laid out before the wrap point) and `newer` (laid out again from offset 0, behind the
oldest run). `tail` is the offset at which the next run would start.

`maxElement` is the largest element size `allocate` accepts. The spec only says that an element
larger than the whole arena is rejected; `testElementTooLarge` expects a stricter limit (a
16-byte buffer is to reject 12-byte elements), and the rule lives in the missing file. The limit
is therefore a field that the constructor receives and that nothing below gives a value to:
what is proved about the arena holds for every limit, and nothing is proved about which
element sizes the allocator rejects beyond those above the capacity. -/
structure CircularBuffer where
  capacity : Nat
  maxElement : Nat
  older : List Allocation
  newer : List Allocation
  tail : Nat
deriving DecidableEq, Repr

/-- Outcome of `CircularBuffer::allocate`. `blocked` stands for the call suspending until a
concurrent `free` makes room. -/
inductive AllocResult where
  | invalidArgument
  | blocked
  | granted (ptr : Nat) (actual : Nat) (next : CircularBuffer)
deriving DecidableEq, Repr

namespace CircularBuffer

/-- Modelled from the spec: the constructor `CircularBuffer(name, size)`; the arena starts with
no outstanding allocation. -/
def new (size maxElement : Nat) : CircularBuffer :=
  { capacity := size, maxElement := maxElement, older := [], newer := [], tail := 0 }

/-- Modelled from the spec: "the largest contiguous run satisfying `actual*elementSize ≤` free
contiguous space available without wraparound, and `actual ≤ requestedCount`". -/
def runLength (space elementSize requestedCount : Nat) : Nat :=
  if elementSize = 0 then requestedCount else min requestedCount (space / elementSize)

/-- Modelled from the spec: `CircularBuffer::allocate(elementSize, requestedCount)`.

Fails with `InvalidArgument` when `requestedCount = 0`, when `elementSize` exceeds the arena's
total capacity, and when it exceeds the element limit of the arena (see `CircularBuffer`).
Otherwise the run is carved from the free contiguous space at `tail`; when not even one element
fits before the end of the arena the allocator wraps to offset 0 and uses the space in front of
the oldest outstanding run; when no element fits there either the call blocks. An arena with
nothing outstanding hands out space from offset 0. -/
def allocate (b : CircularBuffer) (elementSize requestedCount : Nat) : AllocResult :=
  if requestedCount = 0 ∨ b.capacity < elementSize ∨ b.maxElement < elementSize then
    .invalidArgument
  else
    match b.older with
    | [] =>
      let k := runLength b.capacity elementSize requestedCount
      .granted 0 k { b with older := [⟨0, k * elementSize⟩], newer := [],
                            tail := k * elementSize }
    | a :: _ =>
      if b.newer = [] then
        if elementSize ≤ b.capacity - b.tail then
          let k := runLength (b.capacity - b.tail) elementSize requestedCount
          .granted b.tail k { b with older := b.older ++ [⟨b.tail, k * elementSize⟩],
                                     tail := b.tail + k * elementSize }
        else if elementSize ≤ a.offset then
          let k := runLength a.offset elementSize requestedCount
          .granted 0 k { b with newer := [⟨0, k * elementSize⟩], tail := k * elementSize }
        else .blocked
      else
        if elementSize ≤ a.offset - b.tail then
          let k := runLength (a.offset - b.tail) elementSize requestedCount
          .granted b.tail k { b with newer := b.newer ++ [⟨b.tail, k * elementSize⟩],
                                     tail := b.tail + k * elementSize }
        else .blocked

/-- Modelled from the spec: `CircularBuffer::free(ptr, elementSize, count)`. Frees are expected in
allocation order; releasing anything but the oldest outstanding run is undefined behaviour and has
no successor state here (`none`). -/
def free (b : CircularBuffer) (ptr elementSize count : Nat) : Option CircularBuffer :=
  match b.older with
  | [] => none
  | a :: rest =>
    if a.offset = ptr ∧ a.bytes = count * elementSize then
      match rest with
      | [] =>
        match b.newer with
        | [] => some { b with older := [], newer := [], tail := 0 }
        | n :: ns => some { b with older := n :: ns, newer := [] }
      | r :: rs => some { b with older := r :: rs }
    else none

/-- The outstanding allocations, oldest first. -/
def live (b : CircularBuffer) : List Allocation := b.older ++ b.newer

/-- Total number of bytes in outstanding allocations. -/
def liveBytes (b : CircularBuffer) : Nat := (b.live.map Allocation.bytes).sum

/-- States reachable from a fresh arena by successful `allocate` calls and FIFO `free` calls. -/
inductive Reachable : CircularBuffer → Prop where
  | fresh (size maxElement : Nat) : Reachable (new size maxElement)
  | alloc {b b' : CircularBuffer} {elementSize requestedCount ptr actual : Nat} :
      Reachable b → b.allocate elementSize requestedCount = .granted ptr actual b' → Reachable b'
  | release {b b' : CircularBuffer} {ptr elementSize count : Nat} :
      Reachable b → b.free ptr elementSize count = some b' → Reachable b'

/-- Runs laid out in ascending order, without overlap, inside `[lo, hi]`. -/
def Chain (lo hi : Nat) : List Allocation → Prop
  | [] => lo ≤ hi
  | a :: l => lo ≤ a.offset ∧ Chain (a.offset + a.bytes) hi l

/-- Layout invariant of the arena. -/
def Inv (b : CircularBuffer) : Prop :=
  match b.older, b.newer with
  | [], newer => newer = [] ∧ b.tail = 0
  | a :: l, [] => Chain 0 b.tail (a :: l) ∧ b.tail ≤ b.capacity
  | a :: l, n :: ns =>
      Chain a.offset b.capacity (a :: l) ∧ Chain 0 b.tail (n :: ns) ∧ b.tail ≤ a.offset

end CircularBuffer

/-- The arena of `testAllocateFree` after its first allocation (10 bytes, any element limit of at
least `sizeof(short)`; here 2). -/
def testAllocateFreeBuffer : CircularBuffer :=
  { capacity := 10, maxElement := 2, older := [⟨0, 4⟩], newer := [], tail := 4 }

/-! ## Bounded work queue (`WorkQueue`) -/

namespace WorkQueue

/-- Modelled from the spec: `work_queue.h` is missing. `WorkQueue<T>::push(item)` "blocks until
space is available"; the queue is the list of its items, oldest first, and `none` stands for
the call blocking. -/
def push {α : Type} (capacity : Nat) (queue : List α) (item : α) : Option (List α) :=
  if queue.length < capacity then some (queue ++ [item]) else none

/-- Modelled from the spec: `WorkQueue<T>::pop()` "blocks until an item is available and removes
it in FIFO order"; the result is the item with the rest of the queue, and `none` stands for the
call blocking. -/
def pop {α : Type} (queue : List α) : Option (α × List α) :=
  match queue with
  | [] => none
  | item :: rest => some (item, rest)

end WorkQueue

/-! ## The stress test of the ring allocator (`TestCircularBufferStress`)

The producer thread and the consuming test thread of `testStress` are taken as two sequential
programs whose steps interleave in any order. A step is one call or one access to the arena;
a call that blocks is a step that is not enabled. The locks inside `CircularBuffer` and
`WorkQueue` are not represented: every call is one step. -/

namespace TestCircularBufferStress

/-- The state of the two threads and of what they share. `memory` gives the 64-bit word stored
at a byte offset of the arena, if a word was stored there and no later store overlaps it.
`workQueue` holds the items pushed and not yet popped; an item is a pointer into the arena
with a number of elements, or `none` for the item with the `NULL` pointer. `cur` and
`producing` are the locals of `producerThread`: the chunk being filled is its offset, its
number of elements and the index `i`. `expect`, `consuming` and `observed` belong to
`testStress`: the item being read with its index `i`, and the words read so far. `failed`
records a failed assertion of either thread. -/
structure Stress where
  total : Nat
  buffer : CircularBuffer
  memory : Nat → Option Nat
  workQueue : List (Option (Nat × Nat))
  cur : Nat
  producing : Option (Nat × Nat × Nat)
  producerDone : Bool
  expect : Nat
  consuming : Option (Nat × Nat × Nat)
  consumerDone : Bool
  observed : List (Option Nat)
  failed : Bool

/-- `sizeof(std::tr1::uint64_t)`. -/
def elementSize : Nat := 8

/-- The capacity of `workQueue`. -/
def queueCapacity : Nat := 10

/-- The upper end of `chunkDist`: `buffer.size() * 2 / sizeof(cur)`. -/
def maxChunk (b : CircularBuffer) : Nat := b.capacity * 2 / elementSize

/-- The fixture and the start of `testStress`: a buffer of 123 bytes, an empty queue, and both
threads at their first statement. The element limit of the allocator is a parameter, as in
`CircularBuffer.new`. -/
def start (total maxElement : Nat) : Stress :=
  { total := total, buffer := CircularBuffer.new 123 maxElement, memory := fun _ => none,
    workQueue := [], cur := 0, producing := none, producerDone := false, expect := 0,
    consuming := none, consumerDone := false, observed := [], failed := false }

/-- A store of a 64-bit word at a byte offset: words that overlap it are no longer intact. -/
def store (memory : Nat → Option Nat) (address value : Nat) : Nat → Option Nat := fun offset =>
  if offset = address then some value
  else if offset + elementSize ≤ address ∨ address + elementSize ≤ offset then memory offset
  else none

/-- The steps of the two threads. `allocate max` is the call `buffer.allocate(sizeof(cur), max)`
of the producer for the value `max` drawn from `chunkDist`; `write` is one round of its inner
loop; `push` is `workQueue.push(item)` for a filled chunk and `finish` the push of the last
item. `pop`, `read` and `free` are the call `workQueue.pop()`, one round of the inner loop and
the call `buffer.free` of the consumer. -/
inductive Action where
  | allocate (max : Nat)
  | write
  | push
  | finish
  | pop
  | read
  | free
deriving DecidableEq, Repr

/-- One step. The result is `none` if the thread is not at that statement, if the call blocks
(a full arena, a full or an empty queue), or if the call has no defined outcome (an exception
of `allocate`, a `free` out of order). The consumer stops at its first failed assertion. -/
def step (s : Stress) : Action → Option Stress
  | .allocate max =>
    match s.producing with
    | some _ => none
    | none =>
      if s.producerDone = false ∧ s.cur < s.total ∧ 1 ≤ max ∧ max ≤ maxChunk s.buffer then
        match s.buffer.allocate elementSize (min max (s.total - s.cur)) with
        | .granted ptr actual next =>
          some { s with buffer := next, producing := some (ptr, actual, 0),
                        failed := s.failed
                          || !(decide (0 < actual ∧ actual ≤ min max (s.total - s.cur))) }
        | _ => none
      else none
  | .write =>
    match s.producing with
    | some (ptr, elements, i) =>
      if i < elements then
        some { s with memory := store s.memory (ptr + elementSize * i) s.cur,
                      cur := s.cur + 1, producing := some (ptr, elements, i + 1) }
      else none
    | none => none
  | .push =>
    match s.producing with
    | some (ptr, elements, i) =>
      if i = elements then
        match WorkQueue.push queueCapacity s.workQueue (some (ptr, elements)) with
        | some queue => some { s with workQueue := queue, producing := none }
        | none => none
      else none
    | none => none
  | .finish =>
    match s.producing with
    | some _ => none
    | none =>
      if s.producerDone = false ∧ ¬ s.cur < s.total then
        match WorkQueue.push queueCapacity s.workQueue none with
        | some queue => some { s with workQueue := queue, producerDone := true }
        | none => none
      else none
  | .pop =>
    match s.consuming with
    | some _ => none
    | none =>
      if s.consumerDone = false ∧ s.failed = false then
        match WorkQueue.pop s.workQueue with
        | none => none
        | some (none, rest) => some { s with workQueue := rest, consumerDone := true }
        | some (some (ptr, elements), rest) =>
          some { s with workQueue := rest, consuming := some (ptr, elements, 0),
                        failed := !(decide (0 < elements ∧ elements < s.buffer.capacity)) }
      else none
  | .read =>
    match s.consuming with
    | some (ptr, elements, i) =>
      if i < elements ∧ s.failed = false then
        some { s with observed := s.observed ++ [s.memory (ptr + elementSize * i)],
                      expect := s.expect + 1, consuming := some (ptr, elements, i + 1),
                      failed := !(decide (s.memory (ptr + elementSize * i) = some s.expect)) }
      else none
    | none => none
  | .free =>
    match s.consuming with
    | some (ptr, elements, i) =>
      if i = elements ∧ s.failed = false then
        match s.buffer.free ptr elementSize elements with
        | some next => some { s with buffer := next, consuming := none }
        | none => none
      else none
    | none => none

/-- The state after a sequence of steps, if every one of them is enabled. -/
def run (s : Stress) : List Action → Option Stress
  | [] => some s
  | a :: rest => (step s a).bind (fun next => run next rest)

/-- The chunk a thread holds, as a list of at most one pair of offset and number of
elements. -/
def held : Option (Nat × Nat × Nat) → List (Nat × Nat)
  | some (ptr, elements, _) => [(ptr, elements)]
  | none => []

/-- The index `i` of the inner loop of a thread. -/
def index : Option (Nat × Nat × Nat) → Nat
  | some (_, _, i) => i
  | none => 0

/-- The chunks in the queue. -/
def queued (workQueue : List (Option (Nat × Nat))) : List (Nat × Nat) :=
  workQueue.filterMap id

/-- The chunks hold consecutive integers from `value` on, each chunk at least one. -/
def Filled (memory : Nat → Option Nat) : Nat → List (Nat × Nat) → Prop
  | _, [] => True
  | value, (ptr, elements) :: rest =>
    1 ≤ elements
      ∧ (∀ k, k < elements → memory (ptr + elementSize * k) = some (value + k))
      ∧ Filled memory (value + elements) rest

/-- What holds of every state the two threads can reach from `start total maxElement`. -/
structure Invariant (total maxElement : Nat) (s : Stress) : Prop where
  total_eq : s.total = total
  reachable : s.buffer.Reachable
  capacity : s.buffer.capacity = 123
  maxElement_eq : s.buffer.maxElement = maxElement
  live : s.buffer.live
    = (held s.consuming ++ queued s.workQueue ++ held s.producing).map
        (fun chunk => ⟨chunk.1, chunk.2 * elementSize⟩)
  queue : ∃ chunks : List (Nat × Nat), s.workQueue
    = chunks.map some ++ (if s.producerDone = true ∧ s.consumerDone = false then [none] else [])
  length : s.workQueue.length ≤ queueCapacity
  filled : Filled s.memory (s.expect - index s.consuming) (held s.consuming ++ queued s.workQueue)
  count : s.cur - index s.producing
    = s.expect - index s.consuming
      + ((held s.consuming ++ queued s.workQueue).map Prod.snd).sum
  producing : ∀ ptr elements i, s.producing = some (ptr, elements, i) →
    i ≤ elements ∧ 1 ≤ elements ∧ i ≤ s.cur ∧ s.cur - i + elements ≤ s.total
      ∧ ∀ k, k < i → s.memory (ptr + elementSize * k) = some (s.cur - i + k)
  consuming : ∀ ptr elements i, s.consuming = some (ptr, elements, i) →
    i ≤ elements ∧ i ≤ s.expect
  observed : s.observed = (List.range s.expect).map some
  bound : s.cur ≤ s.total
  producerDone : s.producerDone = true → s.cur = s.total ∧ s.producing = none
  consumerDone : s.consumerDone = true →
    s.producerDone = true ∧ s.workQueue = [] ∧ s.consuming = none
  failed : s.failed = false

/-- The number of steps a thread has made at least, from its counter and its inner loop. -/
def progress (count : Nat) (chunk : Option (Nat × Nat × Nat)) (done : Bool) : Nat :=
  3 * (count - index chunk) + (if chunk.isSome then 1 + index chunk else 0)
    + (if done then 1 else 0)

/-- A number that grows with every step of either thread. -/
def measure (s : Stress) : Nat :=
  progress s.cur s.producing s.producerDone + progress s.expect s.consuming s.consumerDone

/-- A run of the stress test with three integers: the producer obtains a chunk of two
elements and one of one element; the consumer reads `0, 1, 2` and sees the last item. -/
def sampleRun : List Action :=
  [.allocate 2, .write, .write, .push, .pop, .allocate 5, .read, .write, .read, .push, .free,
    .finish, .pop, .read, .free, .pop]

end TestCircularBufferStress

/-! ## Welding mesher (`WeldMesher`) -/

/-- Vertex position (`boost::array<cl_float, 3>`). The mesher only copies and compares positions,
so the coordinates are kept as integers (the values of the test data). -/
structure Vertex where
  x : Int
  y : Int
  z : Int
deriving DecidableEq, Repr

/-- Triangle as an index triple (`boost::array<cl_uint, 3>`). -/
abbrev Triangle := Nat × Nat × Nat

/-- One block handed to the mesher, as `TestMesherBase::add` builds it: internal vertices,
external vertices with their 64-bit keys, and triangles indexing the block's vertices, internal
vertices first. -/
structure Block where
  internalVertices : List Vertex
  externalVertices : List Vertex
  externalKeys : List Nat
  indices : List Triangle
deriving DecidableEq, Repr

namespace Block

/-- Number of vertices of the block (`numInternalVertices + numExternalVertices`). -/
def numVertices (b : Block) : Nat := b.internalVertices.length + b.externalVertices.length

/-- Position of the block's vertex with local index `a`. -/
def vertex? (b : Block) (a : Nat) : Option Vertex :=
  (b.internalVertices ++ b.externalVertices)[a]?

/-- Key of the block's vertex with local index `a`, when that vertex is external. -/
def key? (b : Block) (a : Nat) : Option Nat :=
  if a < b.internalVertices.length then none
  else b.externalKeys[a - b.internalVertices.length]?

/-- Every external vertex has a key and every index refers to a vertex of the block. -/
def WellFormed (b : Block) : Prop :=
  b.externalKeys.length = b.externalVertices.length
    ∧ ∀ t ∈ b.indices, t.1 < b.numVertices ∧ t.2.1 < b.numVertices ∧ t.2.2 < b.numVertices

instance (b : Block) : Decidable b.WellFormed := by
  unfold WellFormed
  exact inferInstance

end Block

/-- Output mesh, as streamed to the writer: vertices, then triangles over a dense 0-based
numbering of those vertices. -/
structure Mesh where
  vertices : List Vertex
  triangles : List Triangle
deriving DecidableEq, Repr

/-- Modelled from the spec: `mesher.h` and `mesher.cpp` are missing; only `test/test_mesher.cpp`
is present.

Weld/prune state: the output vertices in canonical-id order, the table from external key to
canonical id, the submitted triangles over canonical ids, and a union-find over canonical ids
kept as the representative (`roots[v]`) of each vertex's component. `pruneNum / pruneDen` is the
prune threshold, a fraction of the vertex count (`setPruneThreshold(6.5 / 22.0)` is 13/44);
the default 0 admits everything. -/
structure WeldMesher where
  pruneNum : Nat
  pruneDen : Nat
  vertices : List Vertex
  keyMap : List (Nat × Nat)
  triangles : List Triangle
  roots : List Nat
deriving DecidableEq, Repr

/-- Re-index a triangle. -/
def Triangle.map (f : Nat → Nat) (t : Triangle) : Triangle := (f t.1, f t.2.1, f t.2.2)

namespace WeldMesher

/-- Modelled from the spec: a mesher with no block submitted and the default prune threshold. -/
def new : WeldMesher :=
  { pruneNum := 0, pruneDen := 1, vertices := [], keyMap := [], triangles := [], roots := [] }

/-- Modelled from the spec: `setPruneThreshold`, called before any block is submitted. -/
def setPruneThreshold (m : WeldMesher) (num den : Nat) : WeldMesher :=
  { m with pruneNum := num, pruneDen := den }

/-- Modelled from the spec: "Internal vertices always get a fresh canonical id (no sharing)". -/
def addInternal (m : WeldMesher) (vs : List Vertex) : WeldMesher :=
  { m with vertices := m.vertices ++ vs,
           roots := m.roots ++ List.range' m.vertices.length vs.length }

/-- Modelled from the spec: "For each external vertex, its 64-bit key is looked up in a global
key→canonical-id table; first occurrence assigns a fresh canonical id, subsequent occurrences
reuse it (this is the weld)". Returns the new state and the vertex's canonical id. -/
def weldVertex (m : WeldMesher) (v : Vertex) (key : Nat) : WeldMesher × Nat :=
  match m.keyMap.lookup key with
  | some id => (m, id)
  | none =>
    ({ m with vertices := m.vertices ++ [v], keyMap := (key, m.vertices.length) :: m.keyMap,
              roots := m.roots ++ [m.vertices.length] }, m.vertices.length)

/-- Weld a block's external vertices in order; returns the canonical ids they receive. -/
def weldExternal (m : WeldMesher) : List (Vertex × Nat) → WeldMesher × List Nat
  | [] => (m, [])
  | (v, key) :: rest =>
    let r := weldExternal (m.weldVertex v key).1 rest
    (r.1, (m.weldVertex v key).2 :: r.2)

/-- Union-find: merge the components of `a` and `b`. -/
def union (roots : List Nat) (a b : Nat) : List Nat :=
  roots.map (fun r => if r = roots.getD b b then roots.getD a a else r)

/-- Modelled from the spec: "Each submitted triangle is remapped to canonical ids and recorded
against the connected component it touches (union-find over canonical ids per triangle)". -/
def addTriangle (m : WeldMesher) (t : Triangle) : WeldMesher :=
  { m with triangles := m.triangles ++ [t],
           roots := union (union m.roots t.1 t.2.1) t.1 t.2.2 }

/-- Canonical ids of a block's vertices (local index order: internal, then external) when the
block is submitted in state `m`. -/
def blockIds (m : WeldMesher) (b : Block) : List Nat :=
  List.range' m.vertices.length b.internalVertices.length
    ++ ((m.addInternal b.internalVertices).weldExternal
          (b.externalVertices.zip b.externalKeys)).2

/-- Modelled from the spec: `submitBlock(block)` in the `Accepting` state. -/
def submitBlock (m : WeldMesher) (b : Block) : WeldMesher :=
  let ids := m.blockIds b
  (b.indices.map (Triangle.map (fun a => ids.getD a 0))).foldl addTriangle
    ((m.addInternal b.internalVertices).weldExternal (b.externalVertices.zip b.externalKeys)).1

/-- Submit blocks in list order. -/
def submitAll (m : WeldMesher) (bs : List Block) : WeldMesher := bs.foldl submitBlock m

/-- Canonical ids every block's vertices receive when the blocks are submitted in list order. -/
def idMaps (m : WeldMesher) : List Block → List (List Nat)
  | [] => []
  | b :: bs => m.blockIds b :: idMaps (m.submitBlock b) bs

/-- Modelled from the spec: the vertex count below which a component is discarded. The product
`pruneThreshold × totalVertexCount` is truncated to a vertex count, as `testPrune` requires: its
comment reads "There are 22 vertices total, and we want a threshold of 6" for the threshold
`6.5 / 22.0`, and its expected output keeps the components of 6 vertices. -/
def thresholdVertices (m : WeldMesher) : Nat := m.pruneNum * m.vertices.length / m.pruneDen

/-- Number of vertices in the component of canonical id `v`. -/
def componentSize (m : WeldMesher) (v : Nat) : Nat := m.roots.count (m.roots.getD v v)

/-- Modelled from the spec: a component is discarded when its vertex count is strictly below the
threshold. -/
def keep (m : WeldMesher) (v : Nat) : Bool := decide (m.thresholdVertices ≤ m.componentSize v)

/-- Dense 0-based post-pruning number of canonical id `v`. -/
def newIndex (m : WeldMesher) (v : Nat) : Nat := ((List.range v).filter m.keep).length

/-- Modelled from the spec: `finalize()` followed by `write`: the surviving vertices in
canonical-id order, then the surviving triangles over the dense post-pruning numbering. -/
def finalize (m : WeldMesher) : Mesh :=
  { vertices := ((List.range m.vertices.length).filter m.keep).filterMap (m.vertices[·]?),
    triangles := (m.triangles.filter (fun t => m.keep t.1)).map (Triangle.map m.newIndex) }

end WeldMesher

/-! ### Welding identities

A submitted vertex is identified for welding by its *name*: an internal vertex by the block and
local index it was submitted with, an external vertex by its key. The table of names in order
of first appearance is the specification that the mesher's key table and vertex list implement.
-/

/-- Welding identity of a submitted vertex. -/
inductive VertexName where
  | internal (block : Nat) (index : Nat)
  | external (key : Nat)
deriving DecidableEq, Repr

namespace Block

/-- Names of the block's internal vertices, the block being the `i`-th submitted. -/
def internalNames (i : Nat) (b : Block) : List VertexName :=
  (List.range b.internalVertices.length).map (VertexName.internal i)

/-- Keys of the external vertices that are welded (those that come with a position). -/
def weldKeys (b : Block) : List Nat := (b.externalVertices.zip b.externalKeys).map Prod.snd

/-- Names of the block's vertices in local index order. -/
def names (i : Nat) (b : Block) : List VertexName :=
  b.internalNames i ++ b.weldKeys.map VertexName.external

end Block

/-- Record a key in the table of names unless it is there already. -/
def nameStep (tbl : List VertexName) (key : Nat) : List VertexName :=
  if VertexName.external key ∈ tbl then tbl else tbl ++ [VertexName.external key]

/-- Table of names after block `b` has been submitted as the `i`-th block. -/
def namesAfter (tbl : List VertexName) (i : Nat) (b : Block) : List VertexName :=
  b.weldKeys.foldl nameStep (tbl ++ b.internalNames i)

/-- Table of names after the blocks `bs` have been submitted, the first of them as the `i`-th. -/
def nameTable : List VertexName → Nat → List Block → List VertexName
  | tbl, _, [] => tbl
  | tbl, i, b :: bs => nameTable (namesAfter tbl i b) (i + 1) bs

/-- Names of every block's vertices, the first block being the `i`-th submitted. -/
def nameLists : Nat → List Block → List (List VertexName)
  | _, [] => []
  | i, b :: bs => b.names i :: nameLists (i + 1) bs

/-- Name of the vertex with local index `a` of the `i`-th submitted block `b`. -/
def Block.nameOf (i : Nat) (b : Block) (a : Nat) : VertexName :=
  match b.key? a with
  | some k => VertexName.external k
  | none => VertexName.internal i a

/-- No internal vertex of block `i` or of a later block is in the table yet. -/
def FreshFrom (tbl : List VertexName) (i : Nat) : Prop :=
  ∀ j a, VertexName.internal j a ∈ tbl → j < i

/-- The mesher's vertex list and key table implement the table of names. -/
def WeldMesher.Sim (m : WeldMesher) (tbl : List VertexName) : Prop :=
  m.vertices.length = tbl.length
    ∧ ∀ k, m.keyMap.lookup k
        = if VertexName.external k ∈ tbl then some (tbl.indexOf (VertexName.external k)) else none

/-! ### Connected components -/

/-- Two vertices are adjacent when some triangle has both as corners. -/
def adjacent (ts : List Triangle) (u v : Nat) : Prop :=
  ∃ t ∈ ts, (u = t.1 ∨ u = t.2.1 ∨ u = t.2.2) ∧ (v = t.1 ∨ v = t.2.1 ∨ v = t.2.2)

/-- Two vertices are in the same connected component of the triangle list. -/
def Connected (ts : List Triangle) : Nat → Nat → Prop := Relation.EqvGen (adjacent ts)

/-- Consistency of the weld state: the union-find covers exactly the canonical ids, triangles
and key table refer to existing vertices, and two vertices have the same representative exactly
when they are connected through submitted triangles. -/
structure WeldMesher.Wf (m : WeldMesher) : Prop where
  roots_length : m.roots.length = m.vertices.length
  roots_lt : ∀ r ∈ m.roots, r < m.vertices.length
  triangles_lt : ∀ t ∈ m.triangles,
    t.1 < m.vertices.length ∧ t.2.1 < m.vertices.length ∧ t.2.2 < m.vertices.length
  keyMap_lt : ∀ p ∈ m.keyMap, p.2 < m.vertices.length
  roots_iff : ∀ u v, u < m.vertices.length → v < m.vertices.length →
    (m.roots.getD u u = m.roots.getD v v ↔ Connected m.triangles u v)

/-! ### Mesh isomorphism -/

namespace TestMesherBase

/-- `operator<` of `boost::array<std::tr1::uint32_t, 3>`: lexicographic comparison. -/
def arrayLess (s t : Triangle) : Bool :=
  decide (s.1 < t.1)
    || (decide (s.1 = t.1)
        && (decide (s.2.1 < t.2.1) || (decide (s.2.1 = t.2.1) && decide (s.2.2 < t.2.2))))

/-- `TestMesherBase::canonicalTriangle`: `*min_element(rot, rot + 3)` over the three rotations
of the triangle; `min_element` keeps the first of equal minima. -/
def canonicalTriangle (idx0 idx1 idx2 : Nat) : Triangle :=
  let rot0 : Triangle := (idx0, idx1, idx2)
  let rot1 : Triangle := (idx1, idx2, idx0)
  let rot2 : Triangle := (idx2, idx0, idx1)
  let smallest := if arrayLess rot1 rot0 then rot1 else rot0
  if arrayLess rot2 smallest then rot2 else smallest

end TestMesherBase

/-- Canonical rotation of a triangle. -/
def Triangle.canonical (t : Triangle) : Triangle :=
  TestMesherBase.canonicalTriangle t.1 t.2.1 t.2.2

/-- Two meshes are isomorphic: the vertices of one are a permutation `σ` of the vertices of the
other, and after renaming the indices by `σ` the triangles are a permutation of each other up
to rotation (but not reflection) of each triangle's indices. -/
def MeshIso (A B : Mesh) : Prop :=
  A.vertices.length = B.vertices.length
    ∧ ∃ σ : Nat → Nat,
        (∀ v, v < A.vertices.length → σ v < A.vertices.length)
        ∧ (∀ u v, u < A.vertices.length → v < A.vertices.length → σ u = σ v → u = v)
        ∧ (∀ v, v < A.vertices.length → B.vertices[σ v]? = A.vertices[v]?)
        ∧ (A.triangles.map (fun t => (Triangle.map σ t).canonical)).Perm
            (B.triangles.map Triangle.canonical)

/-- External vertices that carry the same key are the same point (the glossary's "weld key"). -/
def KeysConsistent (bs : List Block) : Prop :=
  ∀ b ∈ bs, ∀ b' ∈ bs, ∀ p ∈ b.externalVertices.zip b.externalKeys,
    ∀ p' ∈ b'.externalVertices.zip b'.externalKeys, p.2 = p'.2 → p.1 = p'.1

instance (bs : List Block) : Decidable (KeysConsistent bs) := by
  unfold KeysConsistent
  exact inferInstance

/-- Table of names after the tagged blocks have been submitted in list order. -/
def nameTableT : List VertexName → List (Nat × Block) → List VertexName
  | tbl, [] => tbl
  | tbl, p :: rest => nameTableT (namesAfter tbl p.1 p.2) rest

/-- Positions recorded for the names in the table. -/
def WeldMesher.PosOK (pos : VertexName → Vertex) (m : WeldMesher) (tbl : List VertexName) :
    Prop :=
  ∀ (v : Nat) (nm : VertexName), tbl[v]? = some nm → m.vertices[v]? = some (pos nm)

/-- A block, submitted under tag `t`, has its vertices where `pos` says. -/
def Block.Respects (pos : VertexName → Vertex) (t : Nat) (b : Block) : Prop :=
  (∀ (a : Nat) (v : Vertex), b.internalVertices[a]? = some v →
      pos (VertexName.internal t a) = v)
    ∧ ∀ p ∈ b.externalVertices.zip b.externalKeys, pos (VertexName.external p.2) = p.1

/-- Triangles a tagged block contributes, over the ids given by the table `tbl`. -/
def Block.trianglesIn (tbl : List VertexName) (p : Nat × Block) : List Triangle :=
  p.2.indices.map
    (Triangle.map (fun a => ((p.2.names p.1).map (fun n => tbl.indexOf n)).getD a 0))

/-- Relation between two weld states whose vertices correspond under `τ`. -/
structure WeldMesher.Iso (τ : Nat → Nat) (m₁ m₂ : WeldMesher) : Prop where
  length_eq : m₁.vertices.length = m₂.vertices.length
  lt : ∀ v, v < m₁.vertices.length → τ v < m₁.vertices.length
  inj : ∀ u v, u < m₁.vertices.length → v < m₁.vertices.length → τ u = τ v → u = v
  vertices : ∀ v, v < m₁.vertices.length → m₂.vertices[τ v]? = m₁.vertices[v]?
  triangles : m₂.triangles.Perm (m₁.triangles.map (Triangle.map τ))
  pruneNum : m₂.pruneNum = m₁.pruneNum
  pruneDen : m₂.pruneDen = m₁.pruneDen

/-! ### Re-indexing between two submission orders -/

namespace WeldMesher

/-- Re-index: id of a name in the first table to its id in the second. -/
def retag (T₁ T₂ : List VertexName) (v : Nat) : Nat :=
  match T₁[v]? with
  | some nm => T₂.indexOf nm
  | none => v

/-- Re-index the output: the `j`-th surviving vertex of `m₁` to the survivor of `m₂` that
corresponds to it. -/
def outputMap (τ : Nat → Nat) (m₁ m₂ : WeldMesher) (j : Nat) : Nat :=
  match ((List.range m₁.vertices.length).filter m₁.keep)[j]? with
  | some v => m₂.newIndex (τ v)
  | none => j

end WeldMesher

/-- Position of every name, read off the tagged blocks. -/
def positionOf (tb : List (Nat × Block)) : VertexName → Vertex
  | VertexName.internal t a =>
      ((tb.lookup t).bind (fun b => b.internalVertices[a]?)).getD ⟨0, 0, 0⟩
  | VertexName.external k =>
      (((tb.flatMap (fun p => p.2.externalVertices.zip p.2.externalKeys)).find?
          (fun q => q.2 = k)).map Prod.fst).getD ⟨0, 0, 0⟩

/-! ### Test data of `test_mesher.cpp` -/

namespace TestMesherBase

def internalVertices0 : List Vertex := [⟨0, 0, 1⟩, ⟨0, 0, 2⟩, ⟨0, 0, 3⟩, ⟨0, 0, 4⟩, ⟨0, 0, 5⟩]
def indices0 : List Triangle := [(0, 1, 3), (1, 2, 3), (3, 4, 0)]

def externalVertices1 : List Vertex := [⟨1, 0, 1⟩, ⟨1, 0, 2⟩, ⟨1, 0, 3⟩, ⟨1, 0, 4⟩]
def externalKeys1 : List Nat := [0, 0x8000000000000000, 1, 0x8000000000000001]
def indices1 : List Triangle := [(0, 1, 3), (1, 2, 3), (2, 0, 3)]

def internalVertices2 : List Vertex := [⟨0, 1, 0⟩, ⟨0, 2, 0⟩, ⟨0, 3, 0⟩]
def externalVertices2 : List Vertex := [⟨2, 0, 1⟩, ⟨2, 0, 2⟩]
def externalKeys2 : List Nat := [0x1234567812345678, 0x12345678]
def indices2 : List Triangle := [(0, 1, 3), (1, 4, 3), (2, 3, 4), (0, 2, 4), (0, 3, 2)]

def block0 : Block := ⟨internalVertices0, [], [], indices0⟩
def block1 : Block := ⟨[], externalVertices1, externalKeys1, indices1⟩
def block2 : Block := ⟨internalVertices2, externalVertices2, externalKeys2, indices2⟩

/-- The blocks `testSimple` submits on even passes, in order. -/
def testSimpleBlocks : List Block := [block0, block1, block2]

/-- The blocks `testSimple` submits on odd passes: the same blocks in reverse order. -/
def testSimpleReversed : List Block := [block2, block1, block0]

end TestMesherBase

namespace TestWeldMesher

open TestMesherBase

def internalVertices3 : List Vertex := [⟨3, 3, 3⟩]
def externalVertices3 : List Vertex := [⟨4, 5, 6⟩, ⟨1, 0, 2⟩, ⟨1, 0, 3⟩, ⟨2, 0, 2⟩]
def externalKeys3 : List Nat := [100, 0x8000000000000000, 1, 0x12345678]
def indices3 : List Triangle := [(0, 2, 1), (1, 2, 4), (4, 2, 3)]

def block3 : Block := ⟨internalVertices3, externalVertices3, externalKeys3, indices3⟩

/-- The blocks `testWeld` submits, in order. -/
def testWeldBlocks : List Block := [block0, block1, block2, block3]

/-- The mesh `testWeld` expects (up to isomorphism). -/
def testWeldExpected : Mesh :=
  { vertices := [⟨0, 0, 1⟩, ⟨0, 0, 2⟩, ⟨0, 0, 3⟩, ⟨0, 0, 4⟩, ⟨0, 0, 5⟩, ⟨1, 0, 1⟩, ⟨1, 0, 2⟩,
      ⟨1, 0, 3⟩, ⟨1, 0, 4⟩, ⟨0, 1, 0⟩, ⟨0, 2, 0⟩, ⟨0, 3, 0⟩, ⟨2, 0, 1⟩, ⟨2, 0, 2⟩, ⟨3, 3, 3⟩,
      ⟨4, 5, 6⟩],
    triangles := [(0, 1, 3), (1, 2, 3), (3, 4, 0), (5, 6, 8), (6, 7, 8), (7, 5, 8), (9, 10, 12),
      (10, 13, 12), (11, 12, 13), (9, 11, 13), (9, 12, 11), (14, 6, 15), (15, 6, 13),
      (13, 6, 7)] }

/-- The blocks `testPrune` submits, in order. -/
def testPruneBlocks : List Block :=
  [ { internalVertices := [⟨0, 0, 0⟩, ⟨1, 0, 0⟩, ⟨2, 0, 0⟩, ⟨3, 0, 0⟩, ⟨4, 0, 0⟩],
      externalVertices := [⟨0, 3, 0⟩, ⟨1, 3, 0⟩, ⟨2, 3, 0⟩],
      externalKeys := [0x30, 0x31, 0x32],
      indices := [(0, 4, 1), (1, 4, 2), (2, 4, 3), (5, 7, 6)] },
    { internalVertices := [⟨0, 1, 0⟩, ⟨1, 1, 0⟩, ⟨2, 1, 0⟩, ⟨3, 1, 0⟩, ⟨4, 1, 0⟩, ⟨5, 1, 0⟩,
        ⟨0, 2, 0⟩, ⟨3, 2, 0⟩],
      externalVertices := [⟨2, 2, 0⟩, ⟨4, 2, 0⟩, ⟨0, 3, 0⟩, ⟨2, 3, 0⟩, ⟨4, 3, 0⟩],
      externalKeys := [0x22, 0x24, 0x30, 0x32, 0x34],
      indices := [(0, 5, 1), (1, 5, 2), (2, 5, 3), (3, 5, 4), (6, 7, 9), (9, 7, 8),
        (10, 12, 11)] },
    { internalVertices := [],
      externalVertices := [⟨1, 3, 0⟩, ⟨2, 3, 0⟩, ⟨3, 3, 0⟩],
      externalKeys := [0x31, 0x32, 0x33],
      indices := [(0, 1, 2)] },
    { internalVertices := [⟨1, 2, 0⟩, ⟨5, 3, 0⟩],
      externalVertices := [⟨2, 2, 0⟩, ⟨3, 3, 0⟩, ⟨4, 2, 0⟩, ⟨4, 3, 0⟩, ⟨2, 3, 0⟩],
      externalKeys := [0x22, 0x33, 0x24, 0x34, 0x32],
      indices := [(6, 5, 3), (4, 2, 0), (3, 5, 1)] } ]

/-- The mesh `testPrune` expects (up to isomorphism). -/
def testPruneExpected : Mesh :=
  { vertices := [⟨0, 1, 0⟩, ⟨1, 1, 0⟩, ⟨2, 1, 0⟩, ⟨3, 1, 0⟩, ⟨4, 1, 0⟩, ⟨5, 1, 0⟩, ⟨0, 3, 0⟩,
      ⟨1, 3, 0⟩, ⟨2, 3, 0⟩, ⟨3, 3, 0⟩, ⟨4, 3, 0⟩, ⟨5, 3, 0⟩],
    triangles := [(0, 5, 1), (1, 5, 2), (2, 5, 3), (3, 5, 4), (6, 8, 7), (7, 8, 9), (9, 8, 10),
      (9, 10, 11), (6, 10, 8)] }

/-- The mesher of `testPrune` after all four blocks have been submitted
(`setPruneThreshold(6.5 / 22.0)`, that is 13/44). -/
def testPruneMesher : WeldMesher :=
  (WeldMesher.new.setPruneThreshold 13 44).submitAll testPruneBlocks

/-- The mesh the model writes for `testPrune`: component D (ids 0-2 and 9-11 here) and component
B (ids 3-8 here). It is `testPruneExpected` up to the order of vertices and triangles and the
rotation of the triangles. -/
def testPruneOutput : Mesh :=
  { vertices := [⟨0, 3, 0⟩, ⟨1, 3, 0⟩, ⟨2, 3, 0⟩, ⟨0, 1, 0⟩, ⟨1, 1, 0⟩, ⟨2, 1, 0⟩, ⟨3, 1, 0⟩,
      ⟨4, 1, 0⟩, ⟨5, 1, 0⟩, ⟨4, 3, 0⟩, ⟨3, 3, 0⟩, ⟨5, 3, 0⟩],
    triangles := [(0, 2, 1), (3, 8, 4), (4, 8, 5), (5, 8, 6), (6, 8, 7), (0, 9, 2), (1, 2, 10),
      (2, 9, 10), (10, 9, 11)] }

/-- Two blocks of one triangle each whose external vertices carry the same three keys, while the
vertex with key 3 has a different position in each block. -/
def clashingBlocks : List Block :=
  [{ internalVertices := [], externalVertices := [⟨1, 0, 1⟩, ⟨1, 0, 2⟩, ⟨1, 0, 3⟩],
     externalKeys := [1, 2, 3], indices := [(0, 1, 2)] },
   { internalVertices := [], externalVertices := [⟨1, 0, 1⟩, ⟨1, 0, 2⟩, ⟨1, 0, 4⟩],
     externalKeys := [1, 2, 3], indices := [(0, 2, 1)] }]

end TestWeldMesher

/-! ## Octree limits (`splat_tree_cl.h`) -/

namespace SplatTreeCL

/-- The enum value `MAX_LEVELS = 10`: the maximum number of octree levels. -/
def MAX_LEVELS : Nat := 10

/-- The enum value `MAX_SPLATS = 0x7FFFFFFF / 16` (integer division): the maximum number of
splats. -/
def MAX_SPLATS : Nat := 0x7FFFFFFF / 16

/-- The documented precondition of the constructor and of `resourceUsage`:
`1 <= maxLevels <= MAX_LEVELS` and `1 <= maxSplats <= MAX_SPLATS`. -/
def validLimits (maxLevels maxSplats : Nat) : Prop :=
  1 ≤ maxLevels ∧ maxLevels ≤ MAX_LEVELS ∧ 1 ≤ maxSplats ∧ maxSplats ≤ MAX_SPLATS

instance (maxLevels maxSplats : Nat) : Decidable (validLimits maxLevels maxSplats) := by
  unfold validLimits; infer_instance

/-- The number of command-table slots the documentation of `MAX_SPLATS` accounts for: each splat
generates 8 entries plus the same number of jumps. -/
def commandSlots (maxSplats : Nat) : Nat := 8 * maxSplats + 8 * maxSplats

/-- The values of `command_type`, a `typedef` of `int32_t`. -/
def fitsCommandType (x : Int) : Prop := -2147483648 ≤ x ∧ x ≤ 2147483647

instance (x : Int) : Decidable (fitsCommandType x) := by
  unfold fitsCommandType; infer_instance

end SplatTreeCL

/-! ## The output stream (`ply_mesh.h`) -/

namespace PLY

/-- `VertexFetcher::getName`. -/
def VertexFetcher.getName : String := "vertex"

/-- `TriangleFetcher::getName`. -/
def TriangleFetcher.getName : String := "face"

/-- One element stream as the sink receives it: the name its fetcher reports and the number of
elements in the range. -/
structure ElementStream where
  name : String
  count : Nat
deriving DecidableEq, Repr

/-- Modelled from the spec: `ply.h` is missing. `PLY::Writer` is the element sink: `addElement`
registers an element stream after those already registered, and `write` emits the registered
streams once, in the order of registration. -/
structure Writer where
  elements : List ElementStream

/-- A writer with no element registered. -/
def Writer.new : Writer := { elements := [] }

/-- `Writer::addElement`. -/
def Writer.addElement (w : Writer) (e : ElementStream) : Writer :=
  { elements := w.elements ++ [e] }

end PLY

/-! ## Binary floating point (`float`, `double`)

The values of a binary floating-point type and the operations the sources use, rounded to
nearest with ties to even. A finite value is an integer multiple of the smallest positive
value of the type (the unit); it is kept as a sign, a mantissa below `2^precision` and a shift,
and stands for `mantissa * 2^shift` units. One value may have several such forms; they are not
distinguished by any operation. -/

/-- A binary format: the number of significant digits, the number of shifts a finite value can
have, and the exponent of the value 1 in units. -/
structure FloatFormat where
  precision : Nat
  shifts : Nat
  unit : Nat
deriving DecidableEq, Repr

/-- The type `float`: 24 digits, unit `2^-149`, largest value `(2^24 - 1) * 2^104`. -/
def binary32 : FloatFormat := { precision := 24, shifts := 254, unit := 149 }

/-- The type `double`: 53 digits, unit `2^-1074`, largest value `(2^53 - 1) * 2^971`. -/
def binary64 : FloatFormat := { precision := 53, shifts := 2046, unit := 1074 }

/-- A floating-point value. -/
inductive Flt (f : FloatFormat) where
  | finite (negative : Bool) (mantissa : Fin (2 ^ f.precision)) (shift : Fin f.shifts)
  | infinite (negative : Bool)
  | nan
deriving DecidableEq, Repr

/-- The type `float`. -/
abbrev Float32 : Type := Flt binary32

/-- The type `double`. -/
abbrev Float64 : Type := Flt binary64

namespace Flt

/-- Number of binary digits of `n`, for `n ≤ fuel`. -/
def bitLengthAux : Nat → Nat → Nat
  | 0, _ => 0
  | fuel + 1, n => if n = 0 then 0 else bitLengthAux fuel (n / 2) + 1

/-- Number of binary digits of `n`. -/
def bitLength (n : Nat) : Nat := bitLengthAux n n

/-- The ratio `N / D` rounded to a multiple of `2^s` with at most `p` significant digits, where
`s ≥ 0` is the least shift that allows it; ties go to the even multiple. The result is the
pair of the multiplier and `s`. -/
def roundRatio (p N D : Nat) : Nat × Nat :=
  let s := bitLength (N / D) - p
  let G := D * 2 ^ s
  let q := N / G
  let r := N % G
  (if G < 2 * r ∨ (G = 2 * r ∧ q % 2 = 1) then q + 1 else q, s)

/-- The finite value `m * 2^e` units with the given sign; a shift beyond the range of the
format makes the value infinite. The mantissa is below `2^precision` in every use. -/
def pack (f : FloatFormat) (negative : Bool) (m e : Nat) : Flt f :=
  if he : e < f.shifts then
    if hm : m < 2 ^ f.precision then .finite negative ⟨m, hm⟩ ⟨e, he⟩ else .nan
  else .infinite negative

/-- The value with the given sign nearest to `N / D` units; a value beyond the largest finite
one becomes infinite. A multiplier of `2^precision` is written with the next shift. -/
def round (f : FloatFormat) (negative : Bool) (N D : Nat) : Flt f :=
  let r := roundRatio f.precision N D
  if r.1 = 2 ^ f.precision then pack f negative (2 ^ (f.precision - 1)) (r.2 + 1)
  else pack f negative r.1 r.2

/-- The value of a finite number in units, with its sign; 0 for the other values. -/
def code {f : FloatFormat} : Flt f → Int
  | .finite negative mantissa shift =>
    if negative then -((mantissa.1 * 2 ^ shift.1 : Nat) : Int)
    else ((mantissa.1 * 2 ^ shift.1 : Nat) : Int)
  | _ => 0

/-- The value of a finite number as a rational; 0 for the other values. -/
def toRat {f : FloatFormat} (x : Flt f) : ℚ := (x.code : ℚ) / 2 ^ f.unit

/-- The largest integer not above the value of a finite number. -/
def floor {f : FloatFormat} (x : Flt f) : Int := x.code / 2 ^ f.unit

/-- The least integer not below the value of a finite number. -/
def ceil {f : FloatFormat} (x : Flt f) : Int := -((-x.code) / 2 ^ f.unit)

/-- The number is finite. -/
def IsFinite {f : FloatFormat} : Flt f → Prop
  | .finite _ _ _ => True
  | _ => False

instance {f : FloatFormat} (x : Flt f) : Decidable x.IsFinite := by
  cases x <;> unfold IsFinite <;> infer_instance

/-- The value nearest to the rational `N / D`, as a decimal literal such as `0.05f` or `1e-9`
is read. -/
def ofRatio (f : FloatFormat) (negative : Bool) (N D : Nat) : Flt f :=
  round f negative (N * 2 ^ f.unit) D

/-- The value nearest to an integer, as a conversion from an integer type yields it. -/
def ofInt (f : FloatFormat) (n : Int) : Flt f :=
  round f (decide (n < 0)) (n.natAbs * 2 ^ f.unit) 1

/-- The value `0.0`. -/
def zero (f : FloatFormat) : Flt f := round f false 0 1

/-- Negation. -/
def neg {f : FloatFormat} : Flt f → Flt f
  | .finite negative mantissa shift => .finite (!negative) mantissa shift
  | .infinite negative => .infinite (!negative)
  | .nan => .nan

/-- The sign of a finite or infinite value. -/
def sign {f : FloatFormat} : Flt f → Bool
  | .finite negative _ _ => negative
  | .infinite negative => negative
  | .nan => false

/-- The operator `+`. An exact sum of zero is `-0.0` only if both terms are negative. -/
def add {f : FloatFormat} (x y : Flt f) : Flt f :=
  match x, y with
  | .nan, _ => .nan
  | _, .nan => .nan
  | .infinite s, .infinite t => if s = t then .infinite s else .nan
  | .infinite s, .finite _ _ _ => .infinite s
  | .finite _ _ _, .infinite t => .infinite t
  | .finite s m e, .finite t n k =>
    let sum := (Flt.finite s m e).code + (Flt.finite t n k).code
    if sum = 0 then round f (s && t) 0 1 else round f (decide (sum < 0)) sum.natAbs 1

/-- The operator `-`. -/
def sub {f : FloatFormat} (x y : Flt f) : Flt f := add x (neg y)

/-- The operator `*`. -/
def mul {f : FloatFormat} (x y : Flt f) : Flt f :=
  match x, y with
  | .nan, _ => .nan
  | _, .nan => .nan
  | .infinite s, .infinite t => .infinite (xor s t)
  | .infinite s, .finite t n _ => if n.1 = 0 then .nan else .infinite (xor s t)
  | .finite s m _, .infinite t => if m.1 = 0 then .nan else .infinite (xor s t)
  | .finite s m e, .finite t n k =>
    round f (xor s t) ((m.1 * 2 ^ e.1) * (n.1 * 2 ^ k.1)) (2 ^ f.unit)

/-- The operator `/`. -/
def div {f : FloatFormat} (x y : Flt f) : Flt f :=
  match x, y with
  | .nan, _ => .nan
  | _, .nan => .nan
  | .infinite _, .infinite _ => .nan
  | .infinite s, .finite t _ _ => .infinite (xor s t)
  | .finite s _ _, .infinite t => round f (xor s t) 0 1
  | .finite s m e, .finite t n k =>
    if n.1 = 0 then (if m.1 = 0 then .nan else .infinite (xor s t))
    else round f (xor s t) ((m.1 * 2 ^ e.1) * 2 ^ f.unit) (n.1 * 2 ^ k.1)

/-- The operator `<`: false whenever an operand is a NaN. -/
def lt {f : FloatFormat} (x y : Flt f) : Bool :=
  match x, y with
  | .nan, _ => false
  | _, .nan => false
  | .infinite s, .infinite t => s && !t
  | .infinite s, .finite _ _ _ => s
  | .finite _ _ _, .infinite t => !t
  | .finite s m e, .finite t n k => decide ((Flt.finite s m e).code < (Flt.finite t n k).code)

/-- The operator `<=`: false whenever an operand is a NaN. -/
def le {f : FloatFormat} (x y : Flt f) : Bool :=
  match x, y with
  | .nan, _ => false
  | _, .nan => false
  | .infinite s, .infinite t => s || !t
  | .infinite s, .finite _ _ _ => s
  | .finite _ _ _, .infinite t => !t
  | .finite s m e, .finite t n k => decide ((Flt.finite s m e).code ≤ (Flt.finite t n k).code)

/-- The function `std::min(a, b)`, which is `(b < a) ? b : a`. -/
def min {f : FloatFormat} (a b : Flt f) : Flt f := if lt b a then b else a

/-- The function `std::max(a, b)`, which is `(a < b) ? b : a`. -/
def max {f : FloatFormat} (a b : Flt f) : Flt f := if lt a b then b else a

end Flt

instance {f : FloatFormat} {n : Nat} : OfNat (Flt f) n := ⟨Flt.ofInt f n⟩

instance {f : FloatFormat} : Neg (Flt f) := ⟨Flt.neg⟩

instance {f : FloatFormat} : Add (Flt f) := ⟨Flt.add⟩

instance {f : FloatFormat} : Sub (Flt f) := ⟨Flt.sub⟩

instance {f : FloatFormat} : Mul (Flt f) := ⟨Flt.mul⟩

instance {f : FloatFormat} : Div (Flt f) := ⟨Flt.div⟩

instance {f : FloatFormat} : LT (Flt f) := ⟨fun x y => Flt.lt x y = true⟩

instance {f : FloatFormat} : LE (Flt f) := ⟨fun x y => Flt.le x y = true⟩

instance {f : FloatFormat} (x y : Flt f) : Decidable (x < y) :=
  inferInstanceAs (Decidable (Flt.lt x y = true))

instance {f : FloatFormat} (x y : Flt f) : Decidable (x ≤ y) :=
  inferInstanceAs (Decidable (Flt.le x y = true))

/-! ## Exceptions of the driver (`mlsgpu.cpp`) -/

namespace Mlsgpu

open PLY

/-- The exceptions that cross `makeGrid`, `loadInputSplats`, `run` and `main`: those the source
names (`std::invalid_argument`, `std::ios::failure`, `PLY::FormatError`, `cl::Error`), the
`boost::numeric::bad_numeric_cast` of the converters `RoundUp` and `RoundDown`, and any other
one. `what` is the text `e.what()` returns, `err` the code `e.err()` returns. -/
inductive Exn where
  | invalidArgument
  | badNumericCast
  | iosFailure (what : String)
  | formatError (what : String)
  | clError (what : String) (err : Int)
  | other (what : String)
deriving DecidableEq, Repr

/-! ## Fitting the grid (`makeGrid`) -/

/-- An array of three values, indexed by the axis. -/
def vec3 {α : Type} (a b c : α) : Fin 3 → α
  | 0 => a
  | 1 => b
  | 2 => c

/-- Modelled from the spec: `splat.h` is missing. A splat is a position and a radius (the normal
and quality fields play no part in the fit), of type `float`. -/
structure Splat where
  position : Fin 3 → Float32
  radius : Float32

/-- The position and the radius of the splat are finite numbers. -/
def Splat.IsFinite (s : Splat) : Prop := (∀ i, (s.position i).IsFinite) ∧ s.radius.IsFinite

instance (s : Splat) : Decidable s.IsFinite := by
  unfold Splat.IsFinite; infer_instance

/-- Modelled from the spec: `grid.h` is missing. A grid is a reference point, three direction
vectors and an inclusive integer extent per axis; the extents are `int`, as `getExtent` returns
`std::pair<int, int>`. `getExtent` and `setExtent` read and replace the extent of one axis. -/
structure Grid where
  reference : Fin 3 → Float32
  directions : Fin 3 → Fin 3 → Float32
  extents : Fin 3 → Int × Int

/-- `Grid::getExtent`. -/
def Grid.getExtent (g : Grid) (i : Fin 3) : Int × Int := g.extents i

/-- `Grid::setExtent`. -/
def Grid.setExtent (g : Grid) (i : Fin 3) (lo hi : Int) : Grid :=
  { g with extents := fun j => if j = i then (lo, hi) else g.extents j }

/-- The values of `int`. -/
def fitsInt (x : Int) : Prop := -2147483648 ≤ x ∧ x ≤ 2147483647

instance (x : Int) : Decidable (fitsInt x) := by
  unfold fitsInt; infer_instance

/-- `RoundDown::convert`: the Boost converter from `float` to `int` that rounds with `Floor` and
whose `def_overflow_handler` throws `bad_numeric_cast` when the result is not an `int`, which is
also the case of an infinite value. A NaN passes the range check of the converter and its
conversion is undefined; this outcome is the exception `other`. -/
def RoundDown.convert (x : Float32) : Except Exn Int :=
  match x with
  | .finite _ _ _ => if fitsInt x.floor then .ok x.floor else .error .badNumericCast
  | .infinite _ => .error .badNumericCast
  | .nan => .error (.other "conversion of a NaN")

/-- `RoundUp::convert`: as `RoundDown::convert`, rounding with `Ceil`. -/
def RoundUp.convert (x : Float32) : Except Exn Int :=
  match x with
  | .finite _ _ _ => if fitsInt x.ceil then .ok x.ceil else .error .badNumericCast
  | .infinite _ => .error .badNumericCast
  | .nan => .error (.other "conversion of a NaN")

/-- The three arrays `low`, `bboxMin` and `bboxMax` of `makeGrid`. -/
structure Bounds where
  low : Fin 3 → Float32
  bboxMin : Fin 3 → Float32
  bboxMax : Fin 3 → Float32

/-- The arrays after the first splat. -/
def Bounds.first (s : Splat) : Bounds :=
  { low := s.position,
    bboxMin := fun i => s.position i - s.radius,
    bboxMax := fun i => s.position i + s.radius }

/-- One round of the loop over the remaining splats. -/
def Bounds.add (b : Bounds) (s : Splat) : Bounds :=
  { low := fun j => Flt.min (b.low j) (s.position j),
    bboxMin := fun j => Flt.min (b.bboxMin j) (s.position j - s.radius),
    bboxMax := fun j => Flt.max (b.bboxMax j) (s.position j + s.radius) }

/-- The extent of axis `i`: `l` rounded down and `h` rounded up. -/
def Bounds.extent (b : Bounds) (spacing : Float32) (i : Fin 3) : Except Exn (Int × Int) := do
  let l := (b.bboxMin i - b.low i) / spacing
  let h := (b.bboxMax i - b.low i) / spacing
  let lo ← RoundDown.convert l
  let hi ← RoundUp.convert h
  pure (lo, hi)

/-- Modelled from the spec: `errors.h` is missing. `MLSGPU_ASSERT(cond, E)` throws the exception
`E` when `cond` is false and does nothing otherwise. -/
def MLSGPU_ASSERT (cond : Bool) (e : Exn) : Except Exn Unit :=
  if cond then .ok () else .error e

/-- `makeGrid(first, last, spacing)`: the assertion `first != last`, the loop over the splats,
and the conversion of the bounds to extents. The empty case of the `match` is not reached after
the assertion. -/
def makeGrid (splats : List Splat) (spacing : Float32) : Except Exn Grid := do
  MLSGPU_ASSERT (!splats.isEmpty) .invalidArgument
  match splats with
  | [] => .error (.other "empty range")
  | first :: rest =>
    let b := rest.foldl Bounds.add (Bounds.first first)
    let e0 ← b.extent spacing 0
    let e1 ← b.extent spacing 1
    let e2 ← b.extent spacing 2
    pure { reference := b.low,
           directions := fun i j => if i = j then spacing else 0,
           extents := vec3 e0 e1 e2 }

/-! ## Rounding the extents (`run`) -/

/-- The array `wgs` of `run`: the work-group size per axis. -/
def wgs : Fin 3 → Int := vec3 16 16 1

/-- Conversion to `int` (two's complement). -/
def toInt32 (x : Int) : Int := (x + 2147483648) % 4294967296 - 2147483648

/-- Conversion to `unsigned int`. -/
def toUInt32 (x : Int) : Int := x % 4294967296

/-- Conversion to `size_t` (64 bits). -/
def toSizeT (x : Int) : Int := x % 18446744073709551616

/-- The value `(extent.second - extent.first + wgs[i]) / wgs[i] * wgs[i]` stored in the
`unsigned int` `dims[i]`: the difference is an `int`, the sum, quotient and product are `size_t`,
and the store truncates to 32 bits. -/
def roundDims (w lo hi : Int) : Int :=
  toUInt32 (toSizeT (toSizeT (toInt32 (hi - lo) + w) / w * w))

/-- The upper extent `extent.first + dims[i] - 1` handed to `setExtent`: the sum is an
`unsigned int`, the parameter an `int`. -/
def roundUpper (lo dims : Int) : Int := toInt32 (toUInt32 (toUInt32 (lo + dims) - 1))

/-- One round of the loop of `run` over the axes: it returns `dims[i]` and the grid with the
extent of axis `i` rounded. -/
def roundAxis (g : Grid) (i : Fin 3) : Int × Grid :=
  let extent := g.getExtent i
  let d := roundDims (wgs i) extent.1 extent.2
  (d, g.setExtent i extent.1 (roundUpper extent.1 d))

/-- The loop of `run` over the three axes: it returns `dims` and the rounded grid. -/
def roundGrid (g : Grid) : (Fin 3 → Int) × Grid :=
  let r0 := roundAxis g 0
  let r1 := roundAxis r0.2 1
  let r2 := roundAxis r1.2 2
  (vec3 r0.1 r1.1 r2.1, r2.2)

/-- A fitted grid for the examples of the rounding loop: the extents are `[-3, 12]`, `[-3, 13]`
and `[-2, 5]`. -/
def sampleGrid : Grid :=
  { reference := fun _ => 0,
    directions := fun i j => if i = j then 1 else 0,
    extents := vec3 (-3, 12) (-3, 13) (-2, 5) }

/-- Two splats for the examples of `makeGrid`: one at the origin with radius `1/2`, one at
`(3, -1, 2)` with radius `3/4`. -/
def sampleSplats : List Splat :=
  [⟨vec3 0 0 0, 1 / 2⟩, ⟨vec3 3 (-1) 2, 3 / 4⟩]

/-! ## Loading the splats (`loadInputSplats`) -/

/-- Modelled from the spec: `files.h` and `ply.h` are missing. An input file has a `filename`;
what the PLY reader does with its `buffer` in the body of the `try` block is data here: `splats`
are the splats copied to `out` before the body ends, and `failure` is the exception the body
raises, if any. -/
structure InputFile where
  filename : String
  splats : List Splat
  failure : Option Exn

/-- The state of `loadInputSplats`: the splats written to `out`, the names of the files whose
reading was started, in order, and the exception raised, if any. -/
structure LoadState where
  out : List Splat
  read : List String
  result : Except Exn Unit

/-- `loadInputSplats(first, last, out, smooth)`: every file is read in turn inside a `try` block
whose handler rethrows a `PLY::FormatError` with the file name put in front of the message. Any
other exception leaves the function unchanged. -/
def loadInputSplats : List InputFile → List Splat → List String → LoadState
  | [], out, read => { out := out, read := read, result := .ok () }
  | f :: rest, out, read =>
    match f.failure with
    | none => loadInputSplats rest (out ++ f.splats) (read ++ [f.filename])
    | some (.formatError what) =>
      { out := out ++ f.splats, read := read ++ [f.filename],
        result := .error (.formatError (f.filename ++ ": " ++ what)) }
    | some e => { out := out ++ f.splats, read := read ++ [f.filename], result := .error e }

/-- Three input files for the examples of `loadInputSplats`: the second one is malformed. -/
def malformedFiles : List InputFile :=
  [⟨"a.ply", [⟨vec3 0 0 0, 1 / 2⟩], none⟩,
   ⟨"b.ply", [], some (.formatError "Unexpected end of file")⟩,
   ⟨"c.ply", [⟨vec3 3 (-1) 2, 3 / 4⟩], none⟩]

/-- Two input files that hold the two splats of `sampleSplats`. -/
def sampleFiles : List InputFile :=
  [⟨"a.ply", [⟨vec3 0 0 0, 1 / 2⟩], none⟩, ⟨"c.ply", [⟨vec3 3 (-1) 2, 3 / 4⟩], none⟩]

/-! ## The driver (`run` and `main`) -/

/-- A request to read a device buffer into host memory: the number of bytes asked for and the
size in bytes of the host array that receives them. -/
structure ReadRequest where
  bytes : Nat
  hostBytes : Nat
deriving DecidableEq, Repr

/-- What `run` has done to the outside: the element streams written to the output sink and the
buffer reads requested from the device. -/
structure World where
  sink : List ElementStream
  reads : List ReadRequest

/-- The world before `run`. -/
def World.empty : World := { sink := [], reads := [] }

/-- A computation of `run`: it changes the world and returns or raises. What was done before an
exception stays done. -/
def RunM (α : Type) : Type := World → Except Exn α × World

/-- Sequencing: the second computation runs only if the first returned. -/
def RunM.bind {α β : Type} (m : RunM α) (f : α → RunM β) : RunM β := fun w =>
  match m w with
  | (.ok a, w1) => f a w1
  | (.error e, w1) => (.error e, w1)

instance : Monad RunM where
  pure a := fun w => (.ok a, w)
  bind := RunM.bind

/-- A call whose outcome is given: it leaves the world as it is. -/
def RunM.call {α : Type} (x : Except Exn α) : RunM α := fun w => (x, w)

/-- `CommandQueue::enqueueReadBuffer`: the request reaches the device, then the call returns or
raises. -/
def RunM.enqueueReadBuffer (r : ReadRequest) (x : Except Exn Unit) : RunM Unit := fun w =>
  (x, { w with reads := w.reads ++ [r] })

end Mlsgpu

/-- `Writer::write`: the registered streams reach the sink, then the call returns or raises. -/
def PLY.Writer.write (wr : PLY.Writer) (x : Except Mlsgpu.Exn Unit) : Mlsgpu.RunM Unit := fun w =>
  (x, { w with sink := w.sink ++ wr.elements })

namespace Mlsgpu

open PLY

/-- `sizeof(cl_float3)`. -/
def sizeofFloat3 : Nat := 16

/-- `sizeof(cl_uint)`. -/
def sizeofUInt : Nat := 4

/-- What lies outside the program text during one call of `run`: the options, the input files,
and the outcome of every call into OpenCL and into the output sink, in the order of the calls.
`totals` are the vertex and index counts `marching.enqueue` reports. -/
structure RunEnv where
  spacing : Float32
  makeInputFiles : Except Exn (List InputFile)
  createQueue : Except Exn Unit
  createTree : Except Exn Unit
  enqueueBuild : Except Exn Unit
  finishBuild : Except Exn Unit
  buildProgram : Except Exn Unit
  createKernel : Except Exn Unit
  setArgs : Except Exn Unit
  createMarching : Except Exn Unit
  createBuffers : Except Exn Unit
  marchingEnqueue : Except Exn Unit
  finishMarching : Except Exn Unit
  totals : Nat × Nat
  readVertices : Except Exn Unit
  readIndices : Except Exn Unit
  finishRead : Except Exn Unit
  write : Except Exn Unit

/-- `run(context, device, out, vm)`, statement by statement. The prints to `cout` and the timers
are left out. -/
def run (env : RunEnv) : RunM Unit := do
  let inFiles ← RunM.call env.makeInputFiles
  let loaded := loadInputSplats inFiles [] []
  RunM.call loaded.result
  let splats := loaded.out
  let grid ← RunM.call (makeGrid splats env.spacing)
  let _rounded := roundGrid grid
  RunM.call env.createQueue
  RunM.call env.createTree
  RunM.call env.enqueueBuild
  RunM.call env.finishBuild
  RunM.call env.buildProgram
  RunM.call env.createKernel
  RunM.call env.setArgs
  RunM.call env.createMarching
  RunM.call env.createBuffers
  RunM.call env.marchingEnqueue
  RunM.call env.finishMarching
  let hVertices := env.totals.1
  let hIndices := env.totals.2 / 3
  RunM.enqueueReadBuffer ⟨env.totals.1 * sizeofFloat3, hVertices * sizeofFloat3⟩ env.readVertices
  RunM.enqueueReadBuffer ⟨env.totals.2 * sizeofUInt, hIndices * (3 * sizeofUInt)⟩ env.readIndices
  RunM.call env.finishRead
  let writer := Writer.new
  let writer := writer.addElement ⟨VertexFetcher.getName, hVertices⟩
  let writer := writer.addElement ⟨TriangleFetcher.getName, hIndices⟩
  writer.write env.write

/-- What `processOptions` does with the command line: it prints the usage and exits with 0 on
`--help`, prints the error and the usage to `cerr` and exits with 1 on a `po::error`, and
returns the options otherwise. -/
inductive OptionsOutcome where
  | help
  | error (what : String)
  | parsed
deriving DecidableEq, Repr

/-- What lies outside the program text during one call of `main`. -/
structure MainEnv where
  options : OptionsOutcome
  usage : String
  deviceFound : Bool
  makeContext : Except Exn Unit
  openOutput : Except Exn Unit
  run : RunEnv

/-- How `main` ends: `exit` is the exit status, or `none` when an exception leaves `main`;
`stderr` is what was printed to `cerr`; `world` is what `run` did. -/
structure MainOutcome where
  exit : Option Nat
  stderr : List String
  world : World

/-- The `try` block of `main` and its three handlers. -/
def mainTry (env : MainEnv) : MainOutcome :=
  let r := (do RunM.call env.openOutput; run env.run : RunM Unit) World.empty
  match r.1 with
  | .ok () => { exit := some 0, stderr := [], world := r.2 }
  | .error (.iosFailure what) => { exit := some 1, stderr := [what ++ "\n"], world := r.2 }
  | .error (.formatError what) => { exit := some 1, stderr := [what ++ "\n"], world := r.2 }
  | .error (.clError what err) =>
    { exit := some 1, stderr := ["OpenCL error in " ++ what ++ " (" ++ toString err ++ ")\n"],
      world := r.2 }
  | .error _ => { exit := none, stderr := [], world := r.2 }

/-- `main(argc, argv)`. The log line naming the device is left out. -/
def main (env : MainEnv) : MainOutcome :=
  match env.options with
  | .help => { exit := some 0, stderr := [], world := World.empty }
  | .error what =>
    { exit := some 1, stderr := [what ++ "\n\n" ++ env.usage ++ "\n"], world := World.empty }
  | .parsed =>
    if env.deviceFound then
      match env.makeContext with
      | .ok () => mainTry env
      | .error _ => { exit := none, stderr := [], world := World.empty }
    else
      { exit := some 1, stderr := ["No suitable OpenCL device found\n"], world := World.empty }

/-- The outcomes of the calls of `run` into OpenCL, in the order of the calls: the command
queue, the octree and its build, the kernel build, the kernel arguments, the marching pass and
its buffers, the two buffer reads, and the three calls of `queue.finish()`. -/
def RunEnv.deviceOps (env : RunEnv) : List (Except Exn Unit) :=
  [env.createQueue, env.createTree, env.enqueueBuild, env.finishBuild, env.buildProgram,
   env.createKernel, env.setArgs, env.createMarching, env.createBuffers, env.marchingEnqueue,
   env.finishMarching, env.readVertices, env.readIndices, env.finishRead]

/-- The statement `writer.write()` of `run` is reached: the input files were opened and read,
the grid was fitted, and every call into OpenCL returned. -/
def RunEnv.ReachesWrite (env : RunEnv) : Prop :=
  ∃ files grid, env.makeInputFiles = .ok files
    ∧ (loadInputSplats files [] []).result = .ok ()
    ∧ makeGrid (loadInputSplats files [] []).out env.spacing = .ok grid
    ∧ ∀ op ∈ env.deviceOps, op = .ok ()

/-- The world after `writer.write()`: the stream of vertices, then the stream of faces, and the
two buffer reads. -/
def RunEnv.written (env : RunEnv) : World :=
  { sink := [⟨PLY.VertexFetcher.getName, env.totals.1⟩,
             ⟨PLY.TriangleFetcher.getName, env.totals.2 / 3⟩],
    reads := [⟨env.totals.1 * sizeofFloat3, env.totals.1 * sizeofFloat3⟩,
              ⟨env.totals.2 * sizeofUInt, env.totals.2 / 3 * (3 * sizeofUInt)⟩] }

/-- An execution of `run` in which every call returns: the two files of `sampleFiles`, a
spacing of `1/2`, and a device that reports 8 vertices and 36 indices. -/
def sampleEnv : RunEnv :=
  { spacing := 1 / 2,
    makeInputFiles := .ok sampleFiles,
    createQueue := .ok (), createTree := .ok (), enqueueBuild := .ok (), finishBuild := .ok (),
    buildProgram := .ok (), createKernel := .ok (), setArgs := .ok (), createMarching := .ok (),
    createBuffers := .ok (), marchingEnqueue := .ok (), finishMarching := .ok (),
    totals := (8, 36),
    readVertices := .ok (), readIndices := .ok (), finishRead := .ok (), write := .ok () }

/-- The execution of `sampleEnv`, except that the marching pass raises `cl::Error`. -/
def failingEnv : RunEnv :=
  { sampleEnv with marchingEnqueue := .error (.clError "clEnqueueNDRangeKernel" (-5)) }

/-- An execution of `main` around `env` in which the options parse, a device is found, and the
context and the output file are created. -/
def sampleMain (env : RunEnv) : MainEnv :=
  { options := .parsed, usage := "Usage: mlsgpu [options] -o output.ply input.ply [input.ply...]",
    deviceFound := true, makeContext := .ok (), openOutput := .ok (), run := env }

end Mlsgpu

/-! ## The mesh comparison of the tests (`checkIsomorphic`) -/

/-- The second triangle is the first one or one of its two rotations. -/
def Triangle.IsRotation (x y : Triangle) : Prop :=
  y = x ∨ y = (x.2.1, x.2.2, x.1) ∨ y = (x.2.2, x.1, x.2.1)

instance (x y : Triangle) : Decidable (x.IsRotation y) := by
  unfold Triangle.IsRotation; infer_instance

/-- The flat index array of a list of triangles, three indices per triangle, as the tests write
`expectedIndices`. -/
def Triangle.indices : List Triangle → List Nat
  | [] => []
  | t :: ts => t.1 :: t.2.1 :: t.2.2 :: Triangle.indices ts

namespace TestMesherBase

/-- The assertion of `checkIsomorphic` that fails: the two counts, `Vertices must be unique` at
expected vertex `i`, the match of actual vertex `i`, the range of index `j` of actual triangle
`i`, and `Triangle mismatch`. -/
inductive Assertion where
  | vertexCount
  | indexCount
  | unique (i : Nat)
  | vertexMatch (i : Nat)
  | indexRange (i j : Nat)
  | triangleMismatch
deriving DecidableEq, Repr

/-- The loop that fills `vertexMap`, a `std::map` from vertex to position kept as an association
list: `insert` reports whether the key was new, and the assertion fails if it was not. -/
def insertVertices :
    Nat → List Vertex → List (Vertex × Nat) → Except Assertion (List (Vertex × Nat))
  | _, [], vertexMap => .ok vertexMap
  | i, v :: rest, vertexMap =>
    if (vertexMap.lookup v).isSome then .error (.unique i)
    else insertVertices (i + 1) rest (vertexMap ++ [(v, i)])

/-- The triangles the loop over `expectedIndices` reads: `expectedIndices[i]`,
`expectedIndices[i + 1]`, `expectedIndices[i + 2]` for `i = 0, 3, ...`. -/
def triples : List Nat → List Triangle
  | a :: b :: c :: rest => (a, b, c) :: triples rest
  | _ => []

/-- An update `triangleMap[key] += d` of the `std::map` from triangle to `size_t`, kept as an
association list: `operator[]` inserts the key with the value 0 if it is absent, and the
arithmetic of `size_t` is modulo `2^64`. `++` is `d = 1`, `--` is `d = 2^64 - 1`. -/
def bump (d : Nat) (key : Triangle) : List (Triangle × Nat) → List (Triangle × Nat)
  | [] => [(key, d % 18446744073709551616)]
  | p :: rest =>
    if p.1 = key then (p.1, (p.2 + d) % 18446744073709551616) :: rest
    else p :: bump d key rest

/-- The loop `Check that each vertex has a match`: `vertexMap.count(actualVertices[i])` is
asserted for every actual vertex. -/
def matchVertices (vertexMap : List (Vertex × Nat)) : Nat → List Vertex → Except Assertion Unit
  | _, [] => .ok ()
  | i, v :: rest =>
    if (vertexMap.lookup v).isSome then matchVertices vertexMap (i + 1) rest
    else .error (.vertexMatch i)

/-- The value `vertexMap[actualVertices[idx]]`, a `size_t`, stored in the `uint32_t`
`triangle[j]`; `operator[]` gives 0 for an absent key. -/
def mapIndex (vertexMap : List (Vertex × Nat)) (actualVertices : List Vertex) (idx : Nat) : Nat :=
  ((vertexMap.lookup (actualVertices.getD idx ⟨0, 0, 0⟩)).getD 0) % 4294967296

/-- One round of the loop over `j`: `triangle[j] < numVertices` is asserted, then `triangle[j]`
becomes `vertexMap[actualVertices[triangle[j]]]`. -/
def remapIndex (numVertices : Nat) (vertexMap : List (Vertex × Nat)) (actualVertices : List Vertex)
    (i j idx : Nat) : Except Assertion Nat :=
  if idx < numVertices then .ok (mapIndex vertexMap actualVertices idx)
  else .error (.indexRange i j)

/-- The loop `Match up the actual triangles against the expected ones`: the indices of every
actual triangle are mapped to positions of expected vertices, and the count of the canonical
form of the result is decremented. -/
def matchTriangles (numVertices : Nat) (vertexMap : List (Vertex × Nat))
    (actualVertices : List Vertex) :
    Nat → List Triangle → List (Triangle × Nat) → Except Assertion (List (Triangle × Nat))
  | _, [], triangleMap => .ok triangleMap
  | i, t :: rest, triangleMap => do
    let t0 ← remapIndex numVertices vertexMap actualVertices i 0 t.1
    let t1 ← remapIndex numVertices vertexMap actualVertices i 1 t.2.1
    let t2 ← remapIndex numVertices vertexMap actualVertices i 2 t.2.2
    matchTriangles numVertices vertexMap actualVertices (i + 1) rest
      (bump 18446744073709551615 (canonicalTriangle t0 t1 t2) triangleMap)

/-- `TestMesherBase::checkIsomorphic`. The arrays `expectedVertices` and `expectedIndices` are
lists, and `numVertices` and `numIndices` are their lengths, as in every call; `actual` holds the
vertices and triangles of the `MemoryWriter`. The result is `ok` if every assertion passes, and
the first assertion that fails otherwise. -/
def checkIsomorphic (expectedVertices : List Vertex) (expectedIndices : List Nat)
    (actual : Mesh) : Except Assertion Unit :=
  let numVertices := expectedVertices.length
  let numIndices := expectedIndices.length
  if numVertices ≠ actual.vertices.length then .error .vertexCount
  else if numIndices ≠ (3 * actual.triangles.length) % 18446744073709551616 then
    .error .indexCount
  else do
    let vertexMap ← insertVertices 0 expectedVertices []
    let triangleMap := (triples expectedIndices).foldl
      (fun m t => bump 1 (canonicalTriangle t.1 t.2.1 t.2.2) m) []
    matchVertices vertexMap 0 actual.vertices
    let triangleMap ← matchTriangles numVertices vertexMap actual.vertices 0 actual.triangles
      triangleMap
    if triangleMap.all (fun p => p.2 = 0) then .ok () else .error .triangleMismatch

/-- The position in `expectedVertices` of the vertex equal to actual vertex `idx`: the matching
of actual to expected vertices by equality. -/
def matched (expectedVertices actualVertices : List Vertex) (idx : Nat) : Nat :=
  expectedVertices.indexOf (actualVertices.getD idx ⟨0, 0, 0⟩)

/-- The mesh of the examples of a check that passes although the meshes differ: the expected
vertices are `A B C D` with the triangle `(0, 1, 2)`. -/
def duplicateExpected : Mesh :=
  { vertices := [⟨0, 0, 1⟩, ⟨0, 0, 2⟩, ⟨0, 0, 3⟩, ⟨0, 0, 4⟩],
    triangles := [(0, 1, 2)] }

/-- The actual vertices are `A B C A`: `A` occurs twice and `D` is missing. -/
def duplicateActual : Mesh :=
  { vertices := [⟨0, 0, 1⟩, ⟨0, 0, 2⟩, ⟨0, 0, 3⟩, ⟨0, 0, 1⟩],
    triangles := [(3, 1, 2)] }

end TestMesherBase

namespace Mlsgpu

/-- The sum `extent.second - extent.first + wgs[i]` inside the expression for `dims[i]`: the
difference is an `int`, and the sum is a `size_t`. -/
def roundSum (w lo hi : Int) : Int := toSizeT (toInt32 (hi - lo) + w)

/-- One splat at the origin with a radius of `2^30`, for the example of a fitted extent whose
width exceeds the largest `int`. -/
def wideSplats : List Splat := [⟨vec3 0 0 0, 1073741824⟩]

/-- One splat at the origin with the radius `0.05f`, to be fitted with the spacing `0.01f`. -/
def tightSplats : List Splat := [⟨vec3 0 0 0, 1 / 20⟩]

/-- The execution of `sampleEnv`, except that the device reports 37 indices, one more than 12
triangles. -/
def unevenEnv : RunEnv := { sampleEnv with totals := (8, 37) }

end Mlsgpu

/-! ## Timing of OpenCL events (`statistics_cl.cpp`) -/

namespace Statistics

/-- The execution status `CL_COMPLETE`. -/
def CL_COMPLETE : Int := 0

/-- The return code `CL_SUCCESS`. -/
def CL_SUCCESS : Int := 0

/-- The return code `CL_PROFILING_INFO_NOT_AVAILABLE`. -/
def CL_PROFILING_INFO_NOT_AVAILABLE : Int := -7

/-- What `clGetEventProfilingInfo` gives for one field: the return code and the `cl_ulong` it
stores. -/
structure ProfilingInfo where
  status : Int
  value : Nat
deriving DecidableEq, Repr

/-- An event as `flushEventTimes` sees it: what
`getInfo<CL_EVENT_COMMAND_EXECUTION_STATUS>()` returns, and what the queries for
`CL_PROFILING_COMMAND_START` and `CL_PROFILING_COMMAND_END` give. -/
structure Event where
  executionStatus : Int
  commandStart : ProfilingInfo
  commandEnd : ProfilingInfo
deriving DecidableEq, Repr

/-- An entry of `savedEvents`: the events and the statistic they are timed for. `statistics.h`
is missing; a `Variable` is known by its name. -/
abbrev Entry := List Event × String

/-- The state `statistics_cl.cpp` works on: the queue `savedEvents`; the calls `stat.add(total)`
made so far, in order, each with the name of the statistic and the sample (a `double`); and
the value of the statistic `events.peak`, the sum of the amounts its
`+=` and `-=` were called with. -/
structure State where
  savedEvents : List Entry
  samples : List (String × Float64)
  eventsPeak : Int
deriving DecidableEq

/-- How the scan of the events of one entry ends: `notReady` is the `return` of
`flushEventTimes`; otherwise the loop ends with the flag `good` and the sum `total`. -/
inductive Scan where
  | notReady
  | done (good : Bool) (total : Float64)
deriving DecidableEq

/-- The literal `1e-9`: the `double` nearest to `10^-9`. -/
def oneNano : Float64 := Flt.ofRatio binary64 false 1 1000000000

/-- The value `1e-9 * (values[1] - values[0])`: the difference is a `cl_ulong`, converted to
`double` for the product. -/
def duration (event : Event) : Float64 :=
  oneNano * Flt.ofInt binary64
    (((event.commandEnd.value : Int) - (event.commandStart.value : Int)) % 18446744073709551616)

/-- The loop over `i` of `flushEventTimes`: the two profiling queries of one event; the second
one is made only if the first one returns `CL_SUCCESS`, and `good` stays true only if both
do. -/
def profilingGood (event : Event) : Bool :=
  if event.commandStart.status = CL_SUCCESS then
    if event.commandEnd.status = CL_SUCCESS then true else false
  else false

/-- The loop over `j` of `flushEventTimes`: the events of the front entry, in order, with the
sum `total` so far. -/
def scanEvents (finalize : Bool) : List Event → Float64 → Scan
  | [], total => .done true total
  | event :: rest, total =>
    if event.executionStatus ≠ CL_COMPLETE then
      if finalize then .done false total else .notReady
    else if profilingGood event then scanEvents finalize rest (total + duration event)
    else .done false total

/-- The loop `while (!savedEvents.empty())` of `flushEventTimes`. The log lines are left out. -/
def flushLoop (finalize : Bool) : List Entry → List (String × Float64) → Int → State
  | [], samples, eventsPeak => { savedEvents := [], samples := samples, eventsPeak := eventsPeak }
  | entry :: rest, samples, eventsPeak =>
    match scanEvents finalize entry.1 0 with
    | .notReady =>
      { savedEvents := entry :: rest, samples := samples, eventsPeak := eventsPeak }
    | .done good total =>
      flushLoop finalize rest (if good then samples ++ [(entry.2, total)] else samples)
        (eventsPeak - 1)

/-- `flushEventTimes(finalize)`. -/
def flushEventTimes (finalize : Bool) (s : State) : State :=
  flushLoop finalize s.savedEvents s.samples s.eventsPeak

/-- `timeEvents(events, stat)`; the caller holds `savedEventsMutex` throughout. -/
def timeEvents (events : List Event) (stat : String) (s : State) : State :=
  if events ≠ [] then
    flushEventTimes false
      { s with savedEvents := s.savedEvents ++ [(events, stat)], eventsPeak := s.eventsPeak + 1 }
  else s

/-- `timeEvent(event, stat)`. -/
def timeEvent (event : Event) (stat : String) (s : State) : State :=
  timeEvents [event] stat s

/-- `finalizeEventTimes()`. -/
def finalizeEventTimes (s : State) : State := flushEventTimes true s

/-- An event whose time is added to the sum: it is complete and both profiling queries return
`CL_SUCCESS`. -/
def Event.timed (event : Event) : Bool :=
  decide (event.executionStatus = CL_COMPLETE) && decide (event.commandStart.status = CL_SUCCESS)
    && decide (event.commandEnd.status = CL_SUCCESS)

/-- The scan of the events, in order, meets an event that is not complete: the first event that
is not `timed` has a status other than `CL_COMPLETE`. -/
def meetsIncomplete (events : List Event) : Bool :=
  match events.find? (fun event => !event.timed) with
  | some event => decide (event.executionStatus ≠ CL_COMPLETE)
  | none => false

/-- The entries a call of `flushEventTimes` takes off the front of the queue: all of them when
finalizing, and otherwise those before the first entry whose scan meets an event that is not
complete. -/
def removed (finalize : Bool) (queue : List Entry) : List Entry :=
  if finalize then queue else queue.takeWhile (fun entry => !meetsIncomplete entry.1)

/-- The sum of the durations of the events in the order of the events, as the statement
`total += duration` computes it from `total`. -/
def sumDurations (total : Float64) (events : List Event) : Float64 :=
  events.foldl (fun sum event => sum + duration event) total

/-- The sample an entry stands for: the sum of the durations of its events, from `0.0`, if
every event is `timed`, and none otherwise. -/
def sampleOf (entry : Entry) : Option (String × Float64) :=
  if entry.1.all Event.timed then some (entry.2, sumDurations 0 entry.1) else none

/-- One step of a history of the queue: a call of `timeEvents`, `timeEvent` or
`finalizeEventTimes`, or a change of the events of the pending entries by the device between
two calls. -/
inductive Step where
  | timeEvents (events : List Event) (stat : String)
  | timeEvent (event : Event) (stat : String)
  | finalizeEventTimes
  | device (change : List Event → List Event)

/-- The state after one step. -/
def Step.apply (s : State) : Step → State
  | .timeEvents events stat => Statistics.timeEvents events stat s
  | .timeEvent event stat => Statistics.timeEvent event stat s
  | .finalizeEventTimes => Statistics.finalizeEventTimes s
  | .device change =>
    { s with savedEvents := s.savedEvents.map (fun entry => (change entry.1, entry.2)) }

/-- A complete event that ran from 1000 ns to 3500 ns. -/
def completeEvent : Event := ⟨0, ⟨0, 1000⟩, ⟨0, 3500⟩⟩

/-- An event that is still running. -/
def runningEvent : Event := ⟨1, ⟨-7, 0⟩, ⟨-7, 0⟩⟩

/-- A complete event without profiling information. -/
def untimedEvent : Event := ⟨0, ⟨-7, 0⟩, ⟨-7, 0⟩⟩

/-- A queue of four entries: a timed one, one without profiling information, one that is still
running, and a timed one behind it. -/
def sampleState : State :=
  { savedEvents := [([completeEvent, completeEvent], "build"), ([untimedEvent], "sort"),
      ([completeEvent, runningEvent], "scan"), ([completeEvent], "write")],
    samples := [],
    eventsPeak := 4 }

end Statistics

/-! ### The in-memory writer of the tests (`test/memory_writer.cpp`)

`memory_writer.h` and `binary_io.h` are not part of the sources at hand. From the member
functions, `outputs` is a map from file names to strings and `curOutput` a pointer to one of
its values or `NULL`; the pointer is represented by the key it points at. `offset_type` is
taken to be an unsigned 64-bit integer like `std::size_t`, so that `count + offset` is
computed modulo `2^64`. The largest size a `std::string` accepts, `max_size()`, is a
parameter. What C++ leaves undefined (a null or dangling `curOutput`, reading beyond the
buffer, copying beyond the end of the string) is the failure `undefined`. -/

namespace MemoryWriter

/-- One `char`. -/
abbrev Byte := Fin 256

/-- The members of `MemoryWriter`. -/
structure State where
  outputs : String → Option (List Byte)
  curOutput : Option String

/-- The ways a call can fail to return. -/
inductive Failure where
  | undefined
  | lengthError
  deriving DecidableEq, Repr

/-- The constructor `MemoryWriter::MemoryWriter(outputs)`. -/
def new (outputs : String → Option (List Byte)) : State :=
  { outputs := outputs, curOutput := none }

/-- The call `std::string::resize(n)` below `max_size()`: truncate, or pad with zero bytes. -/
def resize (data : List Byte) (n : Nat) : List Byte :=
  data.take n ++ List.replicate (n - data.length) 0

/-- The call `std::copy(p, p + count, data.begin() + offset)` within the string. -/
def copy (buffer : List Byte) (count : Nat) (data : List Byte) (offset : Nat) : List Byte :=
  data.take offset ++ buffer.take count ++ data.drop (offset + count)

/-- The member `MemoryWriter::openImpl(filename)`. -/
def openImpl (filename : String) (s : State) : State :=
  { outputs := fun key => if key = filename then some [] else s.outputs key,
    curOutput := some filename }

/-- The member `MemoryWriter::closeImpl()`. -/
def closeImpl (s : State) : State :=
  { s with curOutput := none }

/-- The member `MemoryWriter::writeImpl(buffer, count, offset)`; `buffer` is the memory that
starts at the pointer. The result is the state after the call and the value returned. -/
def writeImpl (maxSize : Nat) (buffer : List Byte) (count offset : Nat) (s : State) :
    Except Failure (State × Nat) :=
  match s.curOutput with
  | none => .error .undefined
  | some name =>
    match s.outputs name with
    | none => .error .undefined
    | some data =>
      let size := (count + offset) % 18446744073709551616
      if data.length < size ∧ maxSize < size then .error .lengthError
      else
        let resized := if data.length < size then resize data size else data
        if buffer.length < count ∨ resized.length < offset + count then .error .undefined
        else
          .ok ({ s with outputs := fun key =>
                  if key = name then some (copy buffer count resized offset)
                  else s.outputs key }, count)

/-- The content of an output after a call that returned. -/
def output (name : String) (r : Except Failure (State × Nat)) : Option (List Byte) :=
  match r with
  | .ok (s, _) => s.outputs name
  | .error _ => none

/-- The value a call returned. -/
def returned (r : Except Failure (State × Nat)) : Option Nat :=
  match r with
  | .ok (_, n) => some n
  | .error _ => none

end MemoryWriter

/-! ### Lemmas on the ring allocator -/

namespace CircularBuffer

theorem runLength_le (space elementSize requestedCount : Nat) :
    runLength space elementSize requestedCount ≤ requestedCount := by
  unfold runLength
  split
  · exact le_refl _
  · exact min_le_left _ _

theorem runLength_mul_le (space elementSize requestedCount : Nat) :
    runLength space elementSize requestedCount * elementSize ≤ space := by
  unfold runLength
  split
  · next h => simp [h]
  · calc min requestedCount (space / elementSize) * elementSize
        ≤ (space / elementSize) * elementSize := Nat.mul_le_mul_right _ (min_le_right _ _)
      _ ≤ space := Nat.div_mul_le_self _ _

theorem runLength_pos {space elementSize requestedCount : Nat}
    (hn : 1 ≤ requestedCount) (hfit : elementSize ≤ space) :
    1 ≤ runLength space elementSize requestedCount := by
  unfold runLength
  split
  · exact hn
  · next h =>
    have : 1 ≤ space / elementSize :=
      (Nat.one_le_div_iff (Nat.pos_of_ne_zero h)).2 hfit
    exact le_min hn this

theorem runLength_greatest {space elementSize requestedCount k : Nat}
    (hk : k ≤ requestedCount) (hfit : k * elementSize ≤ space) :
    k ≤ runLength space elementSize requestedCount := by
  unfold runLength
  split
  · exact hk
  · next h =>
    exact le_min hk ((Nat.le_div_iff_mul_le (Nat.pos_of_ne_zero h)).2 hfit)

theorem Chain.sum_le {lo hi : Nat} {l : List Allocation} (h : Chain lo hi l) :
    lo + (l.map Allocation.bytes).sum ≤ hi := by
  induction l generalizing lo with
  | nil => simpa [Chain] using h
  | cons a l ih =>
    obtain ⟨h1, h2⟩ := h
    have := ih h2
    simp only [List.map_cons, List.sum_cons]
    omega

theorem Chain.mono {lo lo' hi hi' : Nat} {l : List Allocation} (h : Chain lo hi l)
    (hlo : lo' ≤ lo) (hhi : hi ≤ hi') : Chain lo' hi' l := by
  induction l generalizing lo lo' with
  | nil => simp only [Chain] at h ⊢; omega
  | cons a l ih =>
    obtain ⟨h1, h2⟩ := h
    exact ⟨le_trans hlo h1, ih h2 (le_refl _)⟩

theorem Chain.snoc {lo t hi n : Nat} {l : List Allocation} (h : Chain lo t l)
    (hn : t + n ≤ hi) : Chain lo hi (l ++ [⟨t, n⟩]) := by
  induction l generalizing lo with
  | nil =>
    simp only [Chain] at h
    simp only [List.nil_append, Chain]
    omega
  | cons a l ih =>
    obtain ⟨h1, h2⟩ := h
    exact ⟨h1, ih h2⟩

theorem Inv.liveBytes_le {b : CircularBuffer} (h : Inv b) : b.liveBytes ≤ b.capacity := by
  obtain ⟨c, m, o, n, t⟩ := b
  cases o with
  | nil =>
    obtain ⟨h1, _⟩ := h
    simp only at h1
    simp [liveBytes, live, h1]
  | cons a l =>
    cases n with
    | nil =>
      obtain ⟨h1, h2⟩ := h
      have := h1.sum_le
      simp only [liveBytes, live, List.append_nil] at *
      omega
    | cons x xs =>
      obtain ⟨h1, h2, h3⟩ := h
      have e1 := h1.sum_le
      have e2 := h2.sum_le
      simp only [liveBytes, live, List.map_append, List.sum_append] at *
      omega

theorem inv_new (size maxElement : Nat) : Inv (new size maxElement) := by
  simp [Inv, new]

/-- Everything a successful `allocate` guarantees, given the layout invariant. -/
theorem allocate_granted {b b' : CircularBuffer} {elementSize requestedCount ptr actual : Nat}
    (hinv : Inv b) (h : b.allocate elementSize requestedCount = .granted ptr actual b') :
    Inv b' ∧ 1 ≤ actual ∧ actual ≤ requestedCount ∧ ptr + actual * elementSize ≤ b.capacity
      ∧ b'.capacity = b.capacity ∧ b'.maxElement = b.maxElement
      ∧ b'.live = b.live ++ [⟨ptr, actual * elementSize⟩] := by
  obtain ⟨c, m, o, nw, t⟩ := b
  unfold allocate at h
  simp only at h
  split at h
  · exact absurd h (by simp)
  · next hg =>
    have hn : 1 ≤ requestedCount := by omega
    have hc : elementSize ≤ c := by omega
    cases o with
    | nil =>
      obtain ⟨h1, h2⟩ := hinv
      simp only at h1 h2
      simp only [AllocResult.granted.injEq] at h
      obtain ⟨rfl, rfl, rfl⟩ := h
      have hm := runLength_mul_le c elementSize requestedCount
      refine ⟨?_, runLength_pos hn hc, runLength_le _ _ _, by simp only; omega, rfl, rfl, ?_⟩
      · refine ⟨⟨le_refl _, ?_⟩, hm⟩
        simp [Chain]
      · simp [live, h1]
    | cons a l =>
      cases nw with
      | nil =>
        obtain ⟨h1, h2⟩ := hinv
        simp only at h1 h2
        simp only [if_true] at h
        split at h
        · next hfit =>
          simp only [AllocResult.granted.injEq] at h
          obtain ⟨rfl, rfl, rfl⟩ := h
          have hm := runLength_mul_le (c - t) elementSize requestedCount
          refine ⟨?_, runLength_pos hn hfit, runLength_le _ _ _, by simp only; omega, rfl, rfl, ?_⟩
          · refine ⟨?_, by simp only; omega⟩
            exact Chain.snoc (l := a :: l) h1 (le_refl _)
          · simp [live]
        · split at h
          · next hfit =>
            simp only [AllocResult.granted.injEq] at h
            obtain ⟨rfl, rfl, rfl⟩ := h
            have hm := runLength_mul_le a.offset elementSize requestedCount
            have ha : a.offset + a.bytes ≤ t := by
              have := h1.2.sum_le
              omega
            refine ⟨?_, runLength_pos hn hfit, runLength_le _ _ _, by simp only; omega, rfl, rfl, ?_⟩
            · refine ⟨⟨le_refl _, h1.2.mono (le_refl _) h2⟩, ⟨Nat.zero_le _, ?_⟩, hm⟩
              simp [Chain]
            · simp [live]
          · exact absurd h (by simp)
      | cons x xs =>
        obtain ⟨h1, h2, h3⟩ := hinv
        simp only at h1 h2 h3
        simp only [reduceCtorEq, if_false] at h
        split at h
        · next hfit =>
          simp only [AllocResult.granted.injEq] at h
          obtain ⟨rfl, rfl, rfl⟩ := h
          have hm := runLength_mul_le (a.offset - t) elementSize requestedCount
          have ha : a.offset + a.bytes ≤ c := by
            have := h1.2.sum_le
            omega
          refine ⟨?_, runLength_pos hn hfit, runLength_le _ _ _, by simp only; omega, rfl, rfl, ?_⟩
          · refine ⟨h1, ?_, by simp only; omega⟩
            exact Chain.snoc (l := x :: xs) h2 (le_refl _)
          · simp [live]
        · exact absurd h (by simp)

/-- A FIFO `free` keeps the layout invariant and removes exactly the oldest run. -/
theorem free_some {b b' : CircularBuffer} {ptr elementSize count : Nat}
    (hinv : Inv b) (h : b.free ptr elementSize count = some b') :
    Inv b' ∧ b'.capacity = b.capacity ∧ b'.maxElement = b.maxElement
      ∧ b.live = ⟨ptr, count * elementSize⟩ :: b'.live := by
  obtain ⟨c, m, o, nw, t⟩ := b
  unfold free at h
  simp only at h
  cases o with
  | nil => exact absurd h (by simp)
  | cons a l =>
    simp only at h
    split at h
    · next hm =>
      obtain ⟨rfl, hb⟩ := hm
      have ea : a = ⟨a.offset, count * elementSize⟩ := by
        cases a; simp only at hb; simp [hb]
      cases l with
      | nil =>
        cases nw with
        | nil =>
          simp only [Option.some.injEq] at h
          subst h
          refine ⟨by simp [Inv], rfl, rfl, ?_⟩
          simp only [live, List.append_nil, List.cons.injEq, and_true]
          exact ea
        | cons x xs =>
          simp only [Option.some.injEq] at h
          subst h
          obtain ⟨h1, h2, h3⟩ := hinv
          simp only at h1 h2 h3
          have ha : a.offset + a.bytes ≤ c := by
            have := h1.2.sum_le
            omega
          refine ⟨⟨h2, by simp only; omega⟩, rfl, rfl, ?_⟩
          simp only [live, List.append_nil, List.cons_append, List.nil_append, List.cons.injEq,
            and_true]
          exact ea
      | cons r rs =>
        simp only [Option.some.injEq] at h
        subst h
        refine ⟨?_, rfl, rfl, ?_⟩
        · cases nw with
          | nil =>
            obtain ⟨h1, h2⟩ := hinv
            simp only at h1 h2
            exact ⟨h1.2.mono (Nat.zero_le _) (le_refl _), h2⟩
          | cons x xs =>
            obtain ⟨h1, h2, h3⟩ := hinv
            simp only at h1 h2 h3
            obtain ⟨_, h4, h5⟩ := h1
            refine ⟨⟨le_refl _, h5⟩, h2, ?_⟩
            simp only
            omega
        · simp only [live, List.cons_append, List.cons.injEq, and_true]
          exact ea
    · exact absurd h (by simp)

theorem Reachable.inv {b : CircularBuffer} (h : Reachable b) : Inv b := by
  induction h with
  | fresh size maxElement => exact inv_new _ _
  | alloc _ hg ih => exact (allocate_granted ih hg).1
  | release _ hf ih => exact (free_some ih hf).1

/-- With nothing outstanding, a well-formed request is granted at once. -/
theorem allocate_of_empty {b : CircularBuffer} {elementSize requestedCount : Nat}
    (he : b.older = []) (hn : 1 ≤ requestedCount) (hc : elementSize ≤ b.capacity)
    (hm : elementSize ≤ b.maxElement) :
    ∃ b', b.allocate elementSize requestedCount
      = .granted 0 (runLength b.capacity elementSize requestedCount) b' := by
  unfold allocate
  have hg : ¬ (requestedCount = 0 ∨ b.capacity < elementSize ∨ b.maxElement < elementSize) := by
    omega
  rw [if_neg hg, he]
  exact ⟨_, rfl⟩

theorem Chain.bounds {lo hi : Nat} {l : List Allocation} (h : Chain lo hi l) :
    ∀ a ∈ l, lo ≤ a.offset ∧ a.offset + a.bytes ≤ hi := by
  induction l generalizing lo with
  | nil => intro a ha; exact absurd ha (List.not_mem_nil a)
  | cons x l ih =>
    obtain ⟨h1, h2⟩ := h
    intro a ha
    rcases List.mem_cons.1 ha with rfl | ha
    · have := h2.sum_le
      exact ⟨h1, by omega⟩
    · have := ih h2 a ha
      exact ⟨by omega, this.2⟩

theorem Chain.pairwise {lo hi : Nat} {l : List Allocation} (h : Chain lo hi l) :
    l.Pairwise (fun a c => a.offset + a.bytes ≤ c.offset) := by
  induction l generalizing lo with
  | nil => exact List.Pairwise.nil
  | cons x l ih =>
    obtain ⟨h1, h2⟩ := h
    exact List.Pairwise.cons (fun c hc => (h2.bounds c hc).1) (ih h2)

/-- The outstanding runs lie inside the arena and do not overlap. -/
theorem Inv.disjoint {b : CircularBuffer} (h : Inv b) :
    (∀ a ∈ b.live, a.offset + a.bytes ≤ b.capacity)
      ∧ b.live.Pairwise
          (fun a c => a.offset + a.bytes ≤ c.offset ∨ c.offset + c.bytes ≤ a.offset) := by
  obtain ⟨c, m, o, n, t⟩ := b
  cases o with
  | nil =>
    obtain ⟨h1, _⟩ := h
    simp only at h1
    subst h1
    simp [live]
  | cons a l =>
    cases n with
    | nil =>
      obtain ⟨h1, h2⟩ := h
      simp only at h1 h2
      simp only [live, List.append_nil]
      refine ⟨fun x hx => ?_, h1.pairwise.imp (fun hh => Or.inl hh)⟩
      have := h1.bounds x hx
      omega
    | cons x xs =>
      obtain ⟨h1, h2, h3⟩ := h
      simp only at h1 h2 h3
      simp only [live]
      constructor
      · intro y hy
        rcases List.mem_append.1 hy with hy | hy
        · exact (h1.bounds y hy).2
        · have := h2.bounds y hy
          have := (h1.bounds a (List.mem_cons_self _ _)).2
          omega
      · rw [List.pairwise_append]
        refine ⟨h1.pairwise.imp (fun hh => Or.inl hh), h2.pairwise.imp (fun hh => Or.inl hh), ?_⟩
        intro y hy z hz
        have := h1.bounds y hy
        have := h2.bounds z hz
        exact Or.inr (by omega)

/-- The oldest outstanding run can be freed. -/
theorem free_head {b : CircularBuffer} (h : Inv b) {ptr bytes : Nat} {rest : List Allocation}
    (hl : b.live = ⟨ptr, bytes⟩ :: rest) (elementSize count : Nat)
    (hb : bytes = count * elementSize) : ∃ b', b.free ptr elementSize count = some b' := by
  obtain ⟨c, m, o, n, t⟩ := b
  cases o with
  | nil =>
    obtain ⟨h1, _⟩ := h
    simp only at h1
    subst h1
    simp [live] at hl
  | cons a l =>
    simp only [live, List.cons_append, List.cons.injEq] at hl
    obtain ⟨rfl, _⟩ := hl
    unfold free
    simp only [hb, and_self, if_true]
    cases l with
    | nil =>
      cases n with
      | nil => exact ⟨_, rfl⟩
      | cons x xs => exact ⟨_, rfl⟩
    | cons r rs => exact ⟨_, rfl⟩

end CircularBuffer

/-! ### Ring allocator: the claims -/

/-- C2: `allocate` fails with `InvalidArgument` whenever `requestedCount = 0` and whenever
`elementSize` exceeds the arena's total capacity, whatever is outstanding in the arena (the
arena `b` is arbitrary). -/
theorem allocate_invalid_argument (b : CircularBuffer) (elementSize requestedCount : Nat)
    (h : requestedCount = 0 ∨ b.capacity < elementSize) :
    b.allocate elementSize requestedCount = .invalidArgument := by
  unfold CircularBuffer.allocate
  rw [if_pos]
  rcases h with h | h
  · exact Or.inl h
  · exact Or.inr (Or.inl h)

/-- Witness for C2: `allocate(4, 0)` on the 16-byte arena of `testMaxZero`, and
`allocate(capacity + 1, 1)` on an arena that is partly in use. -/
theorem allocate_invalid_argument_witness :
    ((0 = 0 ∨ (CircularBuffer.new 16 4).capacity < 4)
        ∧ (CircularBuffer.new 16 4).allocate 4 0 = .invalidArgument)
      ∧ ((1 = 0 ∨ testAllocateFreeBuffer.capacity < testAllocateFreeBuffer.capacity + 1)
        ∧ testAllocateFreeBuffer.allocate (testAllocateFreeBuffer.capacity + 1) 1
            = .invalidArgument) :=
  ⟨⟨Or.inl rfl, allocate_invalid_argument (CircularBuffer.new 16 4) 4 0 (Or.inl rfl)⟩,
    ⟨Or.inr (by decide),
      allocate_invalid_argument testAllocateFreeBuffer (testAllocateFreeBuffer.capacity + 1) 1
        (Or.inr (by decide))⟩⟩

/-- C4: in every reachable arena the outstanding allocations total at most `capacity` bytes, and
every run handed out lies inside the arena: `actual * elementSize ≤ capacity`, with
`0 < actual ≤ requestedCount`, however large `requestedCount` is. All quantities are bounded by
the capacity or by `requestedCount`, so nothing overflows when those fit the machine word. -/
theorem liveBytes_le_capacity (b : CircularBuffer) (h : b.Reachable) :
    b.liveBytes ≤ b.capacity
      ∧ ∀ elementSize requestedCount ptr actual b',
          b.allocate elementSize requestedCount = .granted ptr actual b' →
            0 < actual ∧ actual ≤ requestedCount ∧ actual * elementSize ≤ b.capacity
              ∧ ptr + actual * elementSize ≤ b.capacity
              ∧ b'.liveBytes = b.liveBytes + actual * elementSize
              ∧ b'.liveBytes ≤ b.capacity := by
  refine ⟨h.inv.liveBytes_le, ?_⟩
  intro elementSize requestedCount ptr actual b' hg
  obtain ⟨hinv', h1, h2, h3, h4, _, h6⟩ := CircularBuffer.allocate_granted h.inv hg
  refine ⟨h1, h2, by omega, h3, ?_, ?_⟩
  · simp [CircularBuffer.liveBytes, h6]
  · rw [← h4]
    exact hinv'.liveBytes_le

/-- Witness for C4: `testBigMax`, a 1000-byte arena asked for `2^48` elements of 4 bytes, hands
out 250 elements. -/
theorem liveBytes_le_capacity_witness :
    (CircularBuffer.new 1000 4).Reachable
      ∧ (CircularBuffer.new 1000 4).allocate 4 (2 ^ 48)
          = .granted 0 250 { capacity := 1000, maxElement := 4, older := [⟨0, 1000⟩],
                             newer := [], tail := 1000 }
      ∧ (0 < 250 ∧ 250 ≤ 2 ^ 48 ∧ 250 * 4 ≤ (CircularBuffer.new 1000 4).capacity
          ∧ 0 + 250 * 4 ≤ (CircularBuffer.new 1000 4).capacity
          ∧ CircularBuffer.liveBytes { capacity := 1000, maxElement := 4, older := [⟨0, 1000⟩],
                                       newer := [], tail := 1000 }
              = (CircularBuffer.new 1000 4).liveBytes + 250 * 4
          ∧ CircularBuffer.liveBytes { capacity := 1000, maxElement := 4, older := [⟨0, 1000⟩],
                                       newer := [], tail := 1000 }
              ≤ (CircularBuffer.new 1000 4).capacity) :=
  ⟨CircularBuffer.Reachable.fresh 1000 4, by decide,
    (liveBytes_le_capacity (CircularBuffer.new 1000 4) (CircularBuffer.Reachable.fresh 1000 4)).2
      4 (2 ^ 48) 0 250 _ (by decide)⟩

/-! ### The stress test of the ring allocator -/

namespace TestCircularBufferStress

open CircularBuffer

theorem queued_map_some (chunks : List (Nat × Nat)) (rest : List (Option (Nat × Nat))) :
    queued (chunks.map some ++ rest) = chunks ++ queued rest := by
  induction chunks with
  | nil => rfl
  | cons c cs ih =>
    simp only [queued, List.map_cons, List.cons_append, List.filterMap_cons, id] at ih ⊢
    rw [ih]

theorem queued_append (q r : List (Option (Nat × Nat))) :
    queued (q ++ r) = queued q ++ queued r := by
  simp [queued, List.filterMap_append]

theorem Filled.append {memory : Nat → Option Nat} {value : Nat} {l r : List (Nat × Nat)}
    (hl : Filled memory value l) (hr : Filled memory (value + (l.map Prod.snd).sum) r) :
    Filled memory value (l ++ r) := by
  induction l generalizing value with
  | nil => simpa using hr
  | cons c l ih =>
    obtain ⟨p, n⟩ := c
    obtain ⟨h1, h2, h3⟩ := hl
    refine ⟨h1, h2, ih h3 ?_⟩
    simp only [List.map_cons, List.sum_cons] at hr
    rw [Nat.add_assoc]
    exact hr

theorem Filled.store {memory : Nat → Option Nat} {value : Nat} {l : List (Nat × Nat)}
    (hl : Filled memory value l) {address word : Nat}
    (hd : ∀ c ∈ l, ∀ k, k < c.2 →
      c.1 + elementSize * k + elementSize ≤ address ∨ address + elementSize ≤ c.1 + elementSize * k) :
    Filled (store memory address word) value l := by
  induction l generalizing value with
  | nil => trivial
  | cons c l ih =>
    obtain ⟨p, n⟩ := c
    obtain ⟨h1, h2, h3⟩ := hl
    refine ⟨h1, ?_, ih h3 (fun c hc => hd c (List.mem_cons_of_mem _ hc))⟩
    intro k hk
    have := hd (p, n) (List.mem_cons_self _ _) k hk
    simp only [elementSize] at this
    unfold TestCircularBufferStress.store
    simp only [elementSize]
    rw [if_neg (by omega), if_pos (by omega)]
    exact h2 k hk

theorem Filled.one_le {memory : Nat → Option Nat} {value : Nat} {l : List (Nat × Nat)}
    (hl : Filled memory value l) : ∀ c ∈ l, 1 ≤ c.2 := by
  induction l generalizing value with
  | nil => intro c hc; exact absurd hc (List.not_mem_nil c)
  | cons c l ih =>
    obtain ⟨p, n⟩ := c
    obtain ⟨h1, h2, h3⟩ := hl
    intro c hc
    rcases List.mem_cons.1 hc with rfl | hc
    · exact h1
    · exact ih h3 c hc

theorem invariant_start (total maxElement : Nat) :
    Invariant total maxElement (start total maxElement) :=
  { total_eq := rfl
    reachable := Reachable.fresh 123 maxElement
    capacity := rfl
    maxElement_eq := rfl
    live := rfl
    queue := ⟨[], by simp [start]⟩
    length := by simp [start]
    filled := trivial
    count := rfl
    producing := by intro p n i hp; simp [start] at hp
    consuming := by intro p n i hp; simp [start] at hp
    observed := rfl
    bound := Nat.zero_le _
    producerDone := by intro hp; simp [start] at hp
    consumerDone := by intro hp; simp [start] at hp
    failed := rfl }

/-- The chunks held by the consumer and in the queue do not overlap the chunk of the
producer. -/
theorem Invariant.apart {total maxElement : Nat} {s : Stress} (h : Invariant total maxElement s)
    {ptr elements i : Nat} (hp : s.producing = some (ptr, elements, i)) :
    ∀ c ∈ held s.consuming ++ queued s.workQueue,
      c.1 + c.2 * elementSize ≤ ptr ∨ ptr + elements * elementSize ≤ c.1 := by
  have hd := (Inv.disjoint h.reachable.inv).2
  rw [h.live, hp, List.map_append, List.pairwise_append] at hd
  intro c hc
  exact hd.2.2 _ (List.mem_map_of_mem _ hc) ⟨ptr, elements * elementSize⟩ (by simp [held])

/-- Every chunk that is held or queued lies inside the arena. -/
theorem Invariant.inside {total maxElement : Nat} {s : Stress} (h : Invariant total maxElement s) :
    ∀ c ∈ held s.consuming ++ queued s.workQueue ++ held s.producing,
      c.1 + c.2 * elementSize ≤ 123 := by
  have hd := (Inv.disjoint h.reachable.inv).1
  rw [h.live, h.capacity] at hd
  intro c hc
  exact hd _ (List.mem_map_of_mem _ hc)

theorem step_allocate {total maxElement : Nat} {s s' : Stress} {max : Nat}
    (h : Invariant total maxElement s) (hs : step s (.allocate max) = some s') :
    Invariant total maxElement s' ∧ measure s < measure s' := by
  obtain ⟨tot, buffer, memory, wq, cur, prod, pd, exp, cons, cd, obs, failed⟩ := s
  cases prod with
  | some x => simp [step] at hs
  | none =>
    simp only [step] at hs
    split at hs
    · next hg =>
      obtain ⟨hg1, hg2, hg3, hg4⟩ := hg
      split at hs
      · next ptr actual next heq =>
        simp only [Option.some.injEq] at hs
        subst hs
        obtain ⟨hinv, h1, h2, h3, h4, h5, h6⟩ := allocate_granted h.reachable.inv heq
        have hb := h.bound
        simp only at hb hg1 hg2
        refine ⟨{ total_eq := h.total_eq
                  reachable := Reachable.alloc h.reachable heq
                  capacity := by simp only [h4]; exact h.capacity
                  maxElement_eq := by simp only [h5]; exact h.maxElement_eq
                  live := ?_
                  queue := h.queue
                  length := h.length
                  filled := h.filled
                  count := h.count
                  producing := ?_
                  consuming := h.consuming
                  observed := h.observed
                  bound := h.bound
                  producerDone := ?_
                  consumerDone := h.consumerDone
                  failed := ?_ }, ?_⟩
        · simp only [h6]
          have := h.live
          simp only at this
          rw [this]
          simp [held]
        · intro p n i hp
          simp only [Option.some.injEq, Prod.mk.injEq] at hp
          obtain ⟨rfl, rfl, rfl⟩ := hp
          refine ⟨Nat.zero_le _, h1, Nat.zero_le _, ?_, fun k hk => absurd hk (Nat.not_lt_zero k)⟩
          simp only
          have := Nat.min_le_right max (tot - cur)
          omega
        · intro hp
          simp only at hp
          rw [hg1] at hp
          exact absurd hp (by simp)
        · have hf : failed = false := h.failed
          subst hf
          simp only [Bool.false_or, Bool.not_eq_false', decide_eq_true_eq]
          exact ⟨h1, h2⟩
        · simp [measure, progress, index]
      · exact absurd hs (by simp)
    · exact absurd hs (by simp)

theorem step_write {total maxElement : Nat} {s s' : Stress}
    (h : Invariant total maxElement s) (hs : step s .write = some s') :
    Invariant total maxElement s' ∧ measure s < measure s' := by
  obtain ⟨tot, buffer, memory, wq, cur, prod, pd, exp, cons, cd, obs, failed⟩ := s
  cases prod with
  | none => simp [step] at hs
  | some x =>
    obtain ⟨ptr, n, i⟩ := x
    simp only [step] at hs
    split at hs
    · next hg =>
      simp only [Option.some.injEq] at hs
      subst hs
      obtain ⟨hi, hn, hic, hct, hfill⟩ := h.producing ptr n i rfl
      simp only at hic hct hfill
      have hap := h.apart rfl
      have hcount : cur - i
          = exp - index cons + ((held cons ++ queued wq).map Prod.snd).sum := h.count
      refine ⟨{ total_eq := h.total_eq
                reachable := h.reachable
                capacity := h.capacity
                maxElement_eq := h.maxElement_eq
                live := h.live
                queue := h.queue
                length := h.length
                filled := ?_
                count := ?_
                producing := ?_
                consuming := h.consuming
                observed := h.observed
                bound := ?_
                producerDone := ?_
                consumerDone := h.consumerDone
                failed := h.failed }, ?_⟩
      · refine Filled.store h.filled ?_
        intro c hc k hk
        have := hap c hc
        simp only [elementSize] at this ⊢
        omega
      · show cur + 1 - (i + 1) = exp - index cons + ((held cons ++ queued wq).map Prod.snd).sum
        omega
      · intro p m j hp
        simp only [Option.some.injEq, Prod.mk.injEq] at hp
        obtain ⟨rfl, rfl, rfl⟩ := hp
        refine ⟨hg, hn, by simp only; omega, by simp only; omega, ?_⟩
        intro k hk
        simp only [store, elementSize]
        by_cases hki : k = i
        · subst hki
          rw [if_pos rfl]
          congr 1
          omega
        · rw [if_neg (by omega), if_pos (by omega)]
          have := hfill k (by omega)
          simp only [elementSize] at this
          rw [this]
          congr 1
          omega
      · simp only
        omega
      · intro hp
        have := (h.producerDone hp).2
        simp at this
      · simp only [measure, progress, index, Option.isSome_some, if_true]
        omega
    · exact absurd hs (by simp)

theorem step_push {total maxElement : Nat} {s s' : Stress}
    (h : Invariant total maxElement s) (hs : step s .push = some s') :
    Invariant total maxElement s' ∧ measure s < measure s' := by
  obtain ⟨tot, buffer, memory, wq, cur, prod, pd, exp, cons, cd, obs, failed⟩ := s
  cases prod with
  | none => simp [step] at hs
  | some x =>
    obtain ⟨ptr, n, i⟩ := x
    simp only [step] at hs
    split at hs
    · next hg =>
      subst hg
      by_cases hlen : wq.length < queueCapacity
      case neg => simp [WorkQueue.push, hlen] at hs
      simp only [WorkQueue.push, hlen, if_true, Option.some.injEq] at hs
      subst hs
      obtain ⟨hi, hn, hic, hct, hfill⟩ := h.producing ptr i i rfl
      simp only at hic hct hfill
      have hcount : cur - i
          = exp - index cons + ((held cons ++ queued wq).map Prod.snd).sum := h.count
      have hpd : pd = false := by
        cases pd with
        | false => rfl
        | true =>
          have := (h.producerDone rfl).2
          simp at this
      obtain ⟨cs, hcs⟩ := h.queue
      simp only [hpd, Bool.false_eq_true, false_and, if_false, List.append_nil] at hcs
      refine ⟨{ total_eq := h.total_eq
                reachable := h.reachable
                capacity := h.capacity
                maxElement_eq := h.maxElement_eq
                live := ?_
                queue := ?_
                length := ?_
                filled := ?_
                count := ?_
                producing := ?_
                consuming := h.consuming
                observed := h.observed
                bound := h.bound
                producerDone := ?_
                consumerDone := ?_
                failed := h.failed }, ?_⟩
      · have := h.live
        simp only at this ⊢
        rw [this, queued_append]
        simp [held, queued]
      · exact ⟨cs ++ [(ptr, i)], by simp [hcs, hpd]⟩
      · simp only [List.length_append, List.length_singleton]
        simp only [queueCapacity] at hlen ⊢
        omega
      · simp only [queued_append]
        rw [← List.append_assoc]
        refine Filled.append h.filled ?_
        refine ⟨hn, ?_, trivial⟩
        intro k hk
        rw [hfill k hk]
        congr 1
        omega
      · show cur - 0 = exp - index cons
            + ((held cons ++ queued (wq ++ [some (ptr, i)])).map Prod.snd).sum
        have e : queued [some (ptr, i)] = [(ptr, i)] := rfl
        rw [queued_append, ← List.append_assoc, List.map_append, List.sum_append, e]
        simp only [List.map_cons, List.map_nil, List.sum_cons, List.sum_nil]
        omega
      · intro p m j hp
        simp at hp
      · intro hp
        simp only at hp
        rw [hpd] at hp
        exact absurd hp (by simp)
      · intro hc
        have := (h.consumerDone hc).1
        simp only at this
        rw [hpd] at this
        exact absurd this (by simp)
      · simp only [measure, progress, index, Option.isSome_some, Option.isSome_none, if_true]
        simp
        omega
    · exact absurd hs (by simp)

theorem step_finish {total maxElement : Nat} {s s' : Stress}
    (h : Invariant total maxElement s) (hs : step s .finish = some s') :
    Invariant total maxElement s' ∧ measure s < measure s' := by
  obtain ⟨tot, buffer, memory, wq, cur, prod, pd, exp, cons, cd, obs, failed⟩ := s
  cases prod with
  | some x => simp [step] at hs
  | none =>
    simp only [step] at hs
    split at hs
    · next hg =>
      obtain ⟨hpd, hcur⟩ := hg
      subst hpd
      by_cases hlen : wq.length < queueCapacity
      case neg => simp [WorkQueue.push, hlen] at hs
      simp only [WorkQueue.push, hlen, if_true, Option.some.injEq] at hs
      subst hs
      have hcd : cd = false := by
        cases cd with
        | false => rfl
        | true =>
          have := (h.consumerDone rfl).1
          simp at this
      subst hcd
      obtain ⟨cs, hcs⟩ := h.queue
      simp only [Bool.false_eq_true, false_and, if_false, List.append_nil] at hcs
      have hb := h.bound
      simp only at hb
      have e : queued (wq ++ [none]) = queued wq := by
        rw [queued_append]
        simp [queued]
      refine ⟨{ total_eq := h.total_eq
                reachable := h.reachable
                capacity := h.capacity
                maxElement_eq := h.maxElement_eq
                live := ?_
                queue := ⟨cs, by simp [hcs]⟩
                length := ?_
                filled := ?_
                count := ?_
                producing := h.producing
                consuming := h.consuming
                observed := h.observed
                bound := h.bound
                producerDone := ?_
                consumerDone := ?_
                failed := h.failed }, ?_⟩
      · simp only [e]
        exact h.live
      · simp only [List.length_append, List.length_singleton]
        simp only [queueCapacity] at hlen ⊢
        omega
      · simp only [e]
        exact h.filled
      · simp only [e]
        exact h.count
      · intro _
        exact ⟨by simp only; omega, rfl⟩
      · intro hc
        simp at hc
      · simp [measure, progress, index]
    · exact absurd hs (by simp)

theorem step_pop {total maxElement : Nat} {s s' : Stress}
    (h : Invariant total maxElement s) (hs : step s .pop = some s') :
    Invariant total maxElement s' ∧ measure s < measure s' := by
  obtain ⟨tot, buffer, memory, wq, cur, prod, pd, exp, cons, cd, obs, failed⟩ := s
  cases cons with
  | some x => simp [step] at hs
  | none =>
    simp only [step] at hs
    split at hs
    · next hg =>
      obtain ⟨hcd, hf⟩ := hg
      subst hcd
      subst hf
      obtain ⟨cs, hcs⟩ := h.queue
      simp only at hcs
      cases wq with
      | nil => simp [WorkQueue.pop] at hs
      | cons item rest =>
        simp only [WorkQueue.pop] at hs
        cases item with
        | none =>
          simp only [Option.some.injEq] at hs
          subst hs
          cases cs with
          | cons c cs => simp at hcs
          | nil =>
            simp only [List.map_nil, List.nil_append] at hcs
            have hpd : pd = true := by
              cases pd with
              | true => rfl
              | false => simp at hcs
            subst hpd
            simp only [and_self, if_true, List.cons.injEq, true_and] at hcs
            subst hcs
            refine ⟨{ total_eq := h.total_eq
                      reachable := h.reachable
                      capacity := h.capacity
                      maxElement_eq := h.maxElement_eq
                      live := h.live
                      queue := ⟨[], by simp⟩
                      length := by simp
                      filled := h.filled
                      count := h.count
                      producing := h.producing
                      consuming := h.consuming
                      observed := h.observed
                      bound := h.bound
                      producerDone := h.producerDone
                      consumerDone := fun _ => ⟨rfl, rfl, rfl⟩
                      failed := h.failed }, ?_⟩
            simp [measure, progress, index]
        | some chunk =>
          obtain ⟨ptr, n⟩ := chunk
          simp only [Option.some.injEq] at hs
          subst hs
          have hfill := h.filled
          have hn : 1 ≤ n := hfill.1
          have hin := h.inside (ptr, n) (by simp [held, queued])
          have hcap := h.capacity
          simp only at hcap
          simp only [elementSize] at hin
          have hlen := h.length
          simp only [List.length_cons] at hlen
          refine ⟨{ total_eq := h.total_eq
                    reachable := h.reachable
                    capacity := h.capacity
                    maxElement_eq := h.maxElement_eq
                    live := h.live
                    queue := ?_
                    length := by simp only; omega
                    filled := h.filled
                    count := h.count
                    producing := h.producing
                    consuming := ?_
                    observed := h.observed
                    bound := h.bound
                    producerDone := h.producerDone
                    consumerDone := ?_
                    failed := ?_ }, ?_⟩
          · cases cs with
            | nil =>
              simp only [List.map_nil, List.nil_append] at hcs
              split at hcs <;> simp at hcs
            | cons c cs =>
              simp only [List.map_cons, List.cons_append, List.cons.injEq] at hcs
              exact ⟨cs, by simpa using hcs.2⟩
          · intro p m j hp
            simp only [Option.some.injEq, Prod.mk.injEq] at hp
            obtain ⟨rfl, rfl, rfl⟩ := hp
            exact ⟨Nat.zero_le _, Nat.zero_le _⟩
          · intro hc
            simp at hc
          · simp only [hcap, Bool.not_eq_false', decide_eq_true_eq]
            omega
          · simp [measure, progress, index]
    · exact absurd hs (by simp)

theorem step_read {total maxElement : Nat} {s s' : Stress}
    (h : Invariant total maxElement s) (hs : step s .read = some s') :
    Invariant total maxElement s' ∧ measure s < measure s' := by
  obtain ⟨tot, buffer, memory, wq, cur, prod, pd, exp, cons, cd, obs, failed⟩ := s
  cases cons with
  | none => simp [step] at hs
  | some x =>
    obtain ⟨ptr, n, i⟩ := x
    simp only [step] at hs
    split at hs
    · next hg =>
      obtain ⟨hi, hf⟩ := hg
      subst hf
      simp only [Option.some.injEq] at hs
      subst hs
      obtain ⟨hin, hie⟩ := h.consuming ptr n i rfl
      simp only at hie
      have hfill : Filled memory (exp - i) ((ptr, n) :: queued wq) := h.filled
      have hcount : cur - index prod
          = exp - i + (((ptr, n) :: queued wq).map Prod.snd).sum := h.count
      have hword : memory (ptr + elementSize * i) = some exp := by
        rw [hfill.2.1 i hi]
        congr 1
        omega
      have hobs : obs = (List.range exp).map some := h.observed
      refine ⟨{ total_eq := h.total_eq
                reachable := h.reachable
                capacity := h.capacity
                maxElement_eq := h.maxElement_eq
                live := h.live
                queue := h.queue
                length := h.length
                filled := ?_
                count := ?_
                producing := h.producing
                consuming := ?_
                observed := ?_
                bound := h.bound
                producerDone := h.producerDone
                consumerDone := ?_
                failed := ?_ }, ?_⟩
      · show Filled memory (exp + 1 - (i + 1)) ((ptr, n) :: queued wq)
        have e : exp + 1 - (i + 1) = exp - i := by omega
        rw [e]
        exact hfill
      · show cur - index prod
          = exp + 1 - (i + 1) + (((ptr, n) :: queued wq).map Prod.snd).sum
        omega
      · intro p m j hp
        simp only [Option.some.injEq, Prod.mk.injEq] at hp
        obtain ⟨rfl, rfl, rfl⟩ := hp
        exact ⟨hi, by simp only; omega⟩
      · simp only [hword, hobs, List.range_succ, List.map_append, List.map_cons, List.map_nil]
      · intro hc
        have := (h.consumerDone hc).2.2
        simp at this
      · simp [hword]
      · simp only [measure, progress, index, Option.isSome_some, if_true]
        omega
    · exact absurd hs (by simp)

theorem step_free {total maxElement : Nat} {s s' : Stress}
    (h : Invariant total maxElement s) (hs : step s .free = some s') :
    Invariant total maxElement s' ∧ measure s < measure s' := by
  obtain ⟨tot, buffer, memory, wq, cur, prod, pd, exp, cons, cd, obs, failed⟩ := s
  cases cons with
  | none => simp [step] at hs
  | some x =>
    obtain ⟨ptr, n, i⟩ := x
    simp only [step] at hs
    split at hs
    · next hg =>
      obtain ⟨rfl, hf⟩ := hg
      subst hf
      split at hs
      · next next heq =>
        simp only [Option.some.injEq] at hs
        subst hs
        obtain ⟨hinv, h1, h2, h3⟩ := free_some h.reachable.inv heq
        obtain ⟨hin, hie⟩ := h.consuming ptr i i rfl
        simp only at hie
        have hfill : Filled memory (exp - i) ((ptr, i) :: queued wq) := h.filled
        have hcount : cur - index prod
            = exp - i + (((ptr, i) :: queued wq).map Prod.snd).sum := h.count
        have hn : 1 ≤ i := hfill.1
        simp only [List.map_cons, List.sum_cons] at hcount
        refine ⟨{ total_eq := h.total_eq
                  reachable := Reachable.release h.reachable heq
                  capacity := by simp only [h1]; exact h.capacity
                  maxElement_eq := by simp only [h2]; exact h.maxElement_eq
                  live := ?_
                  queue := h.queue
                  length := h.length
                  filled := ?_
                  count := ?_
                  producing := h.producing
                  consuming := ?_
                  observed := h.observed
                  bound := h.bound
                  producerDone := h.producerDone
                  consumerDone := ?_
                  failed := h.failed }, ?_⟩
        · have hl := h.live
          simp only at hl
          rw [h3] at hl
          simp only [held, List.cons_append, List.nil_append, List.map_cons, List.cons.injEq,
            true_and] at hl
          simpa [held] using hl
        · show Filled memory (exp - 0) (queued wq)
          have := hfill.2.2
          have e : exp - i + i = exp - 0 := by omega
          rw [e] at this
          exact this
        · show cur - index prod = exp - 0 + ((queued wq).map Prod.snd).sum
          omega
        · intro p m j hp
          simp at hp
        · intro hc
          have := (h.consumerDone hc).2.2
          simp at this
        · simp only [measure, progress, index, Option.isSome_some, Option.isSome_none, if_true]
          simp
          omega
      · exact absurd hs (by simp)
    · exact absurd hs (by simp)

theorem step_invariant {total maxElement : Nat} {s s' : Stress} {a : Action}
    (h : Invariant total maxElement s) (hs : step s a = some s') :
    Invariant total maxElement s' ∧ measure s < measure s' := by
  cases a with
  | allocate max => exact step_allocate h hs
  | write => exact step_write h hs
  | push => exact step_push h hs
  | finish => exact step_finish h hs
  | pop => exact step_pop h hs
  | read => exact step_read h hs
  | free => exact step_free h hs

theorem run_invariant {total maxElement : Nat} (actions : List Action) :
    ∀ {s s' : Stress}, Invariant total maxElement s → run s actions = some s' →
      Invariant total maxElement s' ∧ measure s + actions.length ≤ measure s' := by
  induction actions with
  | nil =>
    intro s s' h hr
    simp only [run, Option.some.injEq] at hr
    subst hr
    exact ⟨h, le_refl _⟩
  | cons a rest ih =>
    intro s s' h hr
    simp only [run, Option.bind_eq_some] at hr
    obtain ⟨next, hstep, hrest⟩ := hr
    obtain ⟨h1, h2⟩ := step_invariant h hstep
    obtain ⟨h3, h4⟩ := ih h1 hrest
    refine ⟨h3, ?_⟩
    simp only [List.length_cons]
    omega

/-- While the consumer has not seen the last item, one of the two threads can make a step. -/
theorem Invariant.enabled {total maxElement : Nat} {s : Stress}
    (h : Invariant total maxElement s) (hm : 8 ≤ maxElement) (hd : s.consumerDone = false) :
    ∃ a, (step s a).isSome = true := by
  obtain ⟨tot, buffer, memory, wq, cur, prod, pd, exp, cons, cd, obs, failed⟩ := s
  simp only at hd
  subst hd
  have hfailed : failed = false := h.failed
  subst hfailed
  cases cons with
  | some x =>
    obtain ⟨ptr, n, i⟩ := x
    obtain ⟨hin, _⟩ := h.consuming ptr n i rfl
    by_cases hi : i < n
    · exact ⟨.read, by simp [step, hi]⟩
    · have e : i = n := by omega
      subst e
      have hl := h.live
      simp only [held, List.cons_append, List.nil_append, List.map_cons] at hl
      obtain ⟨b', hb'⟩ := free_head h.reachable.inv hl elementSize i rfl
      exact ⟨.free, by simp [step, hb']⟩
  | none =>
    cases wq with
    | cons item rest =>
      refine ⟨.pop, ?_⟩
      cases item with
      | none => simp [step, WorkQueue.pop]
      | some chunk =>
        obtain ⟨ptr, n⟩ := chunk
        simp [step, WorkQueue.pop]
    | nil =>
      obtain ⟨cs, hcs⟩ := h.queue
      have hpd : pd = false := by
        cases pd with
        | false => rfl
        | true => simp at hcs
      subst hpd
      cases prod with
      | some x =>
        obtain ⟨ptr, n, i⟩ := x
        obtain ⟨hin, _⟩ := h.producing ptr n i rfl
        by_cases hi : i < n
        · exact ⟨.write, by simp [step, hi]⟩
        · have e : i = n := by omega
          subst e
          exact ⟨.push, by simp [step, WorkQueue.push, queueCapacity]⟩
      | none =>
        by_cases hc : cur < tot
        · refine ⟨.allocate 1, ?_⟩
          have hl : buffer.live = [] := h.live
          have ho : buffer.older = [] := (List.append_eq_nil.1 hl).1
          have hcap : buffer.capacity = 123 := h.capacity
          have hmax : buffer.maxElement = maxElement := h.maxElement_eq
          obtain ⟨b', hb'⟩ := @allocate_of_empty buffer elementSize (min 1 (tot - cur)) ho (by omega)
            (by rw [hcap]; decide) (by rw [hmax]; exact hm)
          have hg : 1 ≤ maxChunk buffer := by
            simp only [maxChunk, hcap]
            decide
          simp [step, hc, hb', hg]
        · exact ⟨.finish, by simp [step, WorkQueue.push, hc, queueCapacity]⟩

theorem Invariant.expect_le {total maxElement : Nat} {s : Stress}
    (h : Invariant total maxElement s) : s.expect ≤ total := by
  obtain ⟨tot, buffer, memory, wq, cur, prod, pd, exp, cons, cd, obs, failed⟩ := s
  have hb : cur ≤ tot := h.bound
  have ht : tot = total := h.total_eq
  show exp ≤ total
  cases cons with
  | none =>
    have hc : cur - index prod = exp - 0 + ((queued wq).map Prod.snd).sum := h.count
    omega
  | some x =>
    obtain ⟨ptr, n, i⟩ := x
    obtain ⟨hin, hie⟩ := h.consuming ptr n i rfl
    have hie : i ≤ exp := hie
    have hc : cur - index prod = exp - i + (n + ((queued wq).map Prod.snd).sum) := h.count
    omega

theorem Invariant.measure_le {total maxElement : Nat} {s : Stress}
    (h : Invariant total maxElement s) : measure s ≤ 6 * total + 2 := by
  have hc := h.count
  have hb := h.bound
  have ht := h.total_eq
  obtain ⟨tot, buffer, memory, wq, cur, prod, pd, exp, cons, cd, obs, failed⟩ := s
  simp only at hc hb ht
  have hP : progress cur prod pd ≤ 3 * total + 1 ∧ cur - index prod ≤ total := by
    cases prod with
    | none =>
      simp only [progress, index, Option.isSome_none, Bool.false_eq_true, if_false]
      split <;> omega
    | some x =>
      obtain ⟨ptr, n, i⟩ := x
      obtain ⟨hi, hn, hic, hct, _⟩ := h.producing ptr n i rfl
      simp only at hic hct
      have hpd : pd = false := by
        cases pd with
        | false => rfl
        | true =>
          have := (h.producerDone rfl).2
          simp at this
      subst hpd
      simp only [progress, index, Option.isSome_some, if_true, Bool.false_eq_true, if_false]
      omega
  have hC : progress exp cons cd ≤ 3 * total + 1 := by
    cases cons with
    | none =>
      simp only [index, held, List.nil_append] at hc
      simp only [progress, index, Option.isSome_none, Bool.false_eq_true, if_false]
      split <;> omega
    | some x =>
      obtain ⟨ptr, n, i⟩ := x
      obtain ⟨hin, hie⟩ := h.consuming ptr n i rfl
      simp only at hie
      have hfill : Filled memory (exp - i) ((ptr, n) :: queued wq) := h.filled
      have hn : 1 ≤ n := hfill.1
      have hcd : cd = false := by
        cases cd with
        | false => rfl
        | true =>
          have := (h.consumerDone rfl).2.2
          simp at this
      subst hcd
      simp only [index, held, List.cons_append, List.nil_append, List.map_cons, List.sum_cons]
        at hc
      simp only [progress, index, Option.isSome_some, if_true, Bool.false_eq_true, if_false]
      omega
  simp only [measure]
  omega

theorem measure_start (total maxElement : Nat) : measure (start total maxElement) = 0 := rfl

end TestCircularBufferStress

/-- C5: the stress test. From the start of `testStress` with `total` integers to pass on (the
test has `total = 10000000`), a buffer of 123 bytes and a queue of capacity 10, take any
interleaving of the steps of the producer and of the consumer, every chunk length being any
draw of `chunkDist`. In the state reached no assertion of either thread has failed; the
consumer has read exactly the words `0, 1, ..., expect - 1` in this order, with
`expect ≤ total`; every chunk held by a thread or waiting in the queue has at least one
element; if the consumer has popped the last item, then `expect = total` (the last assertion
of the test) and it has read exactly `0, ..., total - 1`; as long as it has not, one of the two
threads can make a step (if the allocator accepts elements of 8 bytes); and at most
`6 * total + 2` steps have been made, so that both threads come to their end. -/
theorem stress_in_order (total maxElement : Nat) (actions : List TestCircularBufferStress.Action)
    (s : TestCircularBufferStress.Stress)
    (h : TestCircularBufferStress.run (TestCircularBufferStress.start total maxElement) actions
      = some s) :
    s.failed = false
      ∧ s.expect ≤ total
      ∧ s.observed = (List.range s.expect).map some
      ∧ (∀ chunk ∈ TestCircularBufferStress.held s.consuming
            ++ TestCircularBufferStress.queued s.workQueue
            ++ TestCircularBufferStress.held s.producing, 1 ≤ chunk.2)
      ∧ (s.consumerDone = true → s.expect = total ∧ s.observed = (List.range total).map some)
      ∧ (8 ≤ maxElement → s.consumerDone = false →
          ∃ a, (TestCircularBufferStress.step s a).isSome = true)
      ∧ actions.length ≤ 6 * total + 2 := by
  obtain ⟨hinv, hlen⟩ := TestCircularBufferStress.run_invariant actions
    (TestCircularBufferStress.invariant_start total maxElement) h
  rw [TestCircularBufferStress.measure_start] at hlen
  have hm := hinv.measure_le
  refine ⟨hinv.failed, hinv.expect_le, hinv.observed, ?_, ?_, fun h8 hd => hinv.enabled h8 hd,
    by omega⟩
  · intro chunk hc
    rcases List.mem_append.1 hc with hc | hc
    · exact TestCircularBufferStress.Filled.one_le hinv.filled chunk hc
    · cases hp : s.producing with
      | none =>
        rw [hp] at hc
        simp [TestCircularBufferStress.held] at hc
      | some x =>
        obtain ⟨ptr, n, i⟩ := x
        rw [hp] at hc
        simp only [TestCircularBufferStress.held, List.mem_singleton] at hc
        subst hc
        exact (hinv.producing ptr n i hp).2.1
  · intro hd
    obtain ⟨hpd, hq, hc⟩ := hinv.consumerDone hd
    obtain ⟨hcur, hp⟩ := hinv.producerDone hpd
    have hcount := hinv.count
    rw [hq, hc, hp] at hcount
    simp only [TestCircularBufferStress.index, TestCircularBufferStress.held,
      TestCircularBufferStress.queued, List.filterMap_nil, List.append_nil, List.map_nil,
      List.sum_nil, Nat.sub_zero, Nat.add_zero] at hcount
    have he : s.expect = total := by
      rw [← hcount, hcur, hinv.total_eq]
    exact ⟨he, by rw [hinv.observed, he]⟩

/-- Witness for C5: the theorem applied to a run with three integers. -/
theorem stress_in_order_witness :
    ∃ s, TestCircularBufferStress.run (TestCircularBufferStress.start 3 8)
          TestCircularBufferStress.sampleRun = some s
      ∧ s.consumerDone = true
      ∧ s.observed = [some 0, some 1, some 2]
      ∧ s.expect = 3 ∧ s.observed = (List.range 3).map some :=
  ⟨_, rfl, rfl, rfl,
    (stress_in_order 3 8 TestCircularBufferStress.sampleRun _ rfl).2.2.2.2.1 rfl⟩

/-! ### Welding: the key table implements the table of names -/

theorem nameStep_extends (tbl : List VertexName) (key : Nat) : tbl <+: nameStep tbl key := by
  unfold nameStep
  split
  · exact List.prefix_refl _
  · exact List.prefix_append _ _

theorem mem_nameStep_self (tbl : List VertexName) (key : Nat) :
    VertexName.external key ∈ nameStep tbl key := by
  unfold nameStep
  split
  · assumption
  · simp

theorem foldl_nameStep_extends (keys : List Nat) (tbl : List VertexName) :
    tbl <+: keys.foldl nameStep tbl := by
  induction keys generalizing tbl with
  | nil => exact List.prefix_refl _
  | cons k ks ih => exact (nameStep_extends tbl k).trans (ih _)

theorem indexOf_of_extends {α : Type} [DecidableEq α] {l₁ l₂ : List α} {x : α}
    (hp : l₁ <+: l₂) (hx : x ∈ l₁) : l₂.indexOf x = l₁.indexOf x := by
  obtain ⟨t, rfl⟩ := hp
  exact List.indexOf_append_of_mem hx

namespace WeldMesher

theorem Sim.addInternal {m : WeldMesher} {tbl : List VertexName} (h : m.Sim tbl)
    (vs : List Vertex) (i : Nat) :
    (m.addInternal vs).Sim (tbl ++ (List.range vs.length).map (VertexName.internal i)) := by
  obtain ⟨h1, h2⟩ := h
  refine ⟨by simp [WeldMesher.addInternal, h1], ?_⟩
  intro k
  have hmem : VertexName.external k ∈ tbl ++ (List.range vs.length).map (VertexName.internal i)
      ↔ VertexName.external k ∈ tbl := by
    simp
  show m.keyMap.lookup k = _
  rw [h2 k]
  by_cases hk : VertexName.external k ∈ tbl
  · rw [if_pos hk, if_pos (hmem.2 hk), List.indexOf_append_of_mem hk]
  · rw [if_neg hk, if_neg (fun h => hk (hmem.1 h))]

theorem Sim.weldVertex {m : WeldMesher} {tbl : List VertexName} (h : m.Sim tbl)
    (v : Vertex) (key : Nat) :
    (m.weldVertex v key).1.Sim (nameStep tbl key)
      ∧ (m.weldVertex v key).2 = (nameStep tbl key).indexOf (VertexName.external key) := by
  obtain ⟨h1, h2⟩ := h
  unfold WeldMesher.weldVertex nameStep
  have hk := h2 key
  by_cases hmem : VertexName.external key ∈ tbl
  · rw [if_pos hmem] at hk ⊢
    rw [hk]
    exact ⟨⟨h1, h2⟩, rfl⟩
  · rw [if_neg hmem] at hk ⊢
    rw [hk]
    refine ⟨⟨by simp [h1], ?_⟩, ?_⟩
    · intro k
      simp only [List.lookup_cons]
      by_cases e : k = key
      · subst e
        simp [h1, List.indexOf_append_of_not_mem hmem]
      · have e' : (k == key) = false := by simpa using e
        rw [e', h2 k]
        by_cases hk' : VertexName.external k ∈ tbl
        · have : VertexName.external k ∈ tbl ++ [VertexName.external key] := by simp [hk']
          rw [if_pos hk', if_pos this, List.indexOf_append_of_mem hk']
        · have : VertexName.external k ∉ tbl ++ [VertexName.external key] := by simp [hk', e]
          rw [if_neg hk', if_neg this]
    · simp [h1, List.indexOf_append_of_not_mem hmem]

theorem Sim.weldExternal (vks : List (Vertex × Nat)) {m : WeldMesher} {tbl : List VertexName}
    (h : m.Sim tbl) :
    (m.weldExternal vks).1.Sim ((vks.map Prod.snd).foldl nameStep tbl)
      ∧ (m.weldExternal vks).2
          = (vks.map Prod.snd).map
              (fun k => ((vks.map Prod.snd).foldl nameStep tbl).indexOf (VertexName.external k)) := by
  induction vks generalizing m tbl with
  | nil => exact ⟨h, rfl⟩
  | cons p rest ih =>
    obtain ⟨v, key⟩ := p
    obtain ⟨s1, e1⟩ := h.weldVertex v key
    obtain ⟨s2, e2⟩ := ih s1
    simp only [WeldMesher.weldExternal, List.map_cons, List.foldl_cons]
    refine ⟨s2, ?_⟩
    rw [e2, e1, indexOf_of_extends (foldl_nameStep_extends _ _) (mem_nameStep_self tbl key)]

theorem foldl_addTriangle (ts : List Triangle) (m : WeldMesher) :
    (ts.foldl addTriangle m).vertices = m.vertices
      ∧ (ts.foldl addTriangle m).keyMap = m.keyMap
      ∧ (ts.foldl addTriangle m).pruneNum = m.pruneNum
      ∧ (ts.foldl addTriangle m).pruneDen = m.pruneDen
      ∧ (ts.foldl addTriangle m).triangles = m.triangles ++ ts := by
  induction ts generalizing m with
  | nil => simp
  | cons t ts ih =>
    obtain ⟨h1, h2, h3, h4, h5⟩ := ih (m.addTriangle t)
    simp only [List.foldl_cons]
    refine ⟨by rw [h1]; rfl, by rw [h2]; rfl, by rw [h3]; rfl, by rw [h4]; rfl, ?_⟩
    rw [h5]
    simp [addTriangle]

theorem Sim.of_fields {m m' : WeldMesher} {tbl : List VertexName} (h : m.Sim tbl)
    (hv : m'.vertices = m.vertices) (hk : m'.keyMap = m.keyMap) : m'.Sim tbl := by
  unfold Sim at *
  rw [hv, hk]
  exact h

end WeldMesher

theorem mem_foldl_nameStep {keys : List Nat} {k : Nat} (hk : k ∈ keys) (tbl : List VertexName) :
    VertexName.external k ∈ keys.foldl nameStep tbl := by
  induction keys generalizing tbl with
  | nil => exact absurd hk (by simp)
  | cons k' ks ih =>
    simp only [List.foldl_cons]
    rcases List.mem_cons.1 hk with e | hmem
    · subst e
      exact (foldl_nameStep_extends ks _).subset (mem_nameStep_self tbl k)
    · exact ih hmem _

theorem mem_foldl_nameStep_iff {keys : List Nat} {tbl : List VertexName} {n : VertexName} :
    n ∈ keys.foldl nameStep tbl ↔ n ∈ tbl ∨ ∃ k ∈ keys, n = VertexName.external k := by
  induction keys generalizing tbl with
  | nil => simp
  | cons k' ks ih =>
    simp only [List.foldl_cons, ih, List.mem_cons, exists_eq_or_imp]
    unfold nameStep
    split
    · next hm =>
      constructor
      · rintro (h | h)
        · exact Or.inl h
        · exact Or.inr (Or.inr h)
      · rintro (h | h | h)
        · exact Or.inl h
        · exact Or.inl (h ▸ hm)
        · exact Or.inr h
    · simp only [List.mem_append, List.mem_singleton]
      tauto

theorem nodup_foldl_nameStep {keys : List Nat} {tbl : List VertexName} (h : tbl.Nodup) :
    (keys.foldl nameStep tbl).Nodup := by
  induction keys generalizing tbl with
  | nil => exact h
  | cons k' ks ih =>
    simp only [List.foldl_cons]
    apply ih
    unfold nameStep
    split
    · exact h
    · next hm =>
      rw [List.nodup_append]
      refine ⟨h, List.nodup_singleton _, ?_⟩
      intro x hx hx'
      rw [List.mem_singleton] at hx'
      exact hm (hx' ▸ hx)

theorem namesAfter_extends (tbl : List VertexName) (i : Nat) (b : Block) :
    tbl <+: namesAfter tbl i b :=
  (List.prefix_append _ _).trans (foldl_nameStep_extends _ _)

theorem mem_namesAfter_iff {tbl : List VertexName} {i : Nat} {b : Block} {n : VertexName} :
    n ∈ namesAfter tbl i b ↔ n ∈ tbl ∨ n ∈ b.names i := by
  unfold namesAfter Block.names
  rw [mem_foldl_nameStep_iff]
  simp only [List.mem_append, List.mem_map]
  constructor
  · rintro ((h | h) | ⟨k, hk, rfl⟩)
    · exact Or.inl h
    · exact Or.inr (Or.inl h)
    · exact Or.inr (Or.inr ⟨k, hk, rfl⟩)
  · rintro (h | h | ⟨k, hk, rfl⟩)
    · exact Or.inl (Or.inl h)
    · exact Or.inl (Or.inr h)
    · exact Or.inr ⟨k, hk, rfl⟩

theorem nodup_internalNames (i : Nat) (b : Block) : (b.internalNames i).Nodup := by
  unfold Block.internalNames
  refine List.Nodup.map ?_ (List.nodup_range _)
  intro x y h
  injection h

theorem FreshFrom.namesAfter {tbl : List VertexName} {i : Nat} (h : FreshFrom tbl i)
    (b : Block) : FreshFrom (namesAfter tbl i b) (i + 1) := by
  intro j a hm
  rcases mem_namesAfter_iff.1 hm with h1 | h1
  · exact Nat.lt_succ_of_lt (h j a h1)
  · unfold Block.names Block.internalNames at h1
    simp only [List.mem_append, List.mem_map, List.mem_range, VertexName.internal.injEq,
      reduceCtorEq, and_false, exists_false, or_false] at h1
    obtain ⟨_, _, h2, _⟩ := h1
    omega

theorem nodup_namesAfter {tbl : List VertexName} {i : Nat} (hn : tbl.Nodup)
    (h : FreshFrom tbl i) (b : Block) : (namesAfter tbl i b).Nodup := by
  unfold namesAfter
  apply nodup_foldl_nameStep
  rw [List.nodup_append]
  refine ⟨hn, nodup_internalNames i b, ?_⟩
  intro x hx hx'
  unfold Block.internalNames at hx'
  simp only [List.mem_map, List.mem_range] at hx'
  obtain ⟨a, _, rfl⟩ := hx'
  exact absurd (h i a hx) (lt_irrefl _)

namespace WeldMesher

theorem Sim.submitBlock {m : WeldMesher} {tbl : List VertexName} (h : m.Sim tbl) (b : Block)
    (i : Nat) (hf : ∀ a, VertexName.internal i a ∉ tbl) :
    (m.submitBlock b).Sim (namesAfter tbl i b)
      ∧ m.blockIds b = (b.names i).map (fun n => (namesAfter tbl i b).indexOf n) := by
  have s1 := h.addInternal b.internalVertices i
  obtain ⟨s2, e2⟩ := Sim.weldExternal (b.externalVertices.zip b.externalKeys) s1
  constructor
  · obtain ⟨f1, f2, _⟩ := foldl_addTriangle
      (b.indices.map (Triangle.map (fun a => (m.blockIds b).getD a 0)))
      ((m.addInternal b.internalVertices).weldExternal (b.externalVertices.zip b.externalKeys)).1
    exact s2.of_fields f1 f2
  · unfold blockIds
    rw [e2]
    unfold Block.names
    rw [List.map_append]
    congr 1
    · unfold Block.internalNames
      rw [List.map_map, List.range'_eq_map_range]
      apply List.map_congr_left
      intro a ha
      rw [List.mem_range] at ha
      have hmem : VertexName.internal i a ∈ b.internalNames i := by
        unfold Block.internalNames
        exact List.mem_map.2 ⟨a, List.mem_range.2 ha, rfl⟩
      have hnot : VertexName.internal i a ∉ tbl := hf a
      have hidx : (b.internalNames i).indexOf (VertexName.internal i a) = a := by
        have hl : a < (b.internalNames i).length := by
          simpa [Block.internalNames] using ha
        have := List.indexOf_getElem (nodup_internalNames i b) a hl
        simpa [Block.internalNames] using this
      simp only [Function.comp]
      unfold namesAfter
      rw [indexOf_of_extends (foldl_nameStep_extends _ _)
          (List.mem_append.2 (Or.inr hmem)),
        List.indexOf_append_of_not_mem hnot, hidx, h.1]
    · simp only [List.map_map, Block.weldKeys, namesAfter, Block.internalNames]
      rfl

end WeldMesher

namespace WeldMesher

theorem weldExternal_fields (vks : List (Vertex × Nat)) (m : WeldMesher) :
    (m.weldExternal vks).1.pruneNum = m.pruneNum
      ∧ (m.weldExternal vks).1.pruneDen = m.pruneDen
      ∧ (m.weldExternal vks).1.triangles = m.triangles := by
  induction vks generalizing m with
  | nil => exact ⟨rfl, rfl, rfl⟩
  | cons p rest ih =>
    obtain ⟨v, key⟩ := p
    obtain ⟨h1, h2, h3⟩ := ih (m.weldVertex v key).1
    have hw : (m.weldVertex v key).1.pruneNum = m.pruneNum
        ∧ (m.weldVertex v key).1.pruneDen = m.pruneDen
        ∧ (m.weldVertex v key).1.triangles = m.triangles := by
      unfold weldVertex
      split <;> exact ⟨rfl, rfl, rfl⟩
    simp only [weldExternal]
    exact ⟨h1.trans hw.1, h2.trans hw.2.1, h3.trans hw.2.2⟩

theorem submitBlock_fields (m : WeldMesher) (b : Block) :
    (m.submitBlock b).pruneNum = m.pruneNum
      ∧ (m.submitBlock b).pruneDen = m.pruneDen
      ∧ (m.submitBlock b).triangles
          = m.triangles ++ b.indices.map (Triangle.map (fun a => (m.blockIds b).getD a 0)) := by
  obtain ⟨_, _, f3, f4, f5⟩ := foldl_addTriangle
    (b.indices.map (Triangle.map (fun a => (m.blockIds b).getD a 0)))
    ((m.addInternal b.internalVertices).weldExternal (b.externalVertices.zip b.externalKeys)).1
  obtain ⟨w1, w2, w3⟩ := weldExternal_fields (b.externalVertices.zip b.externalKeys)
    (m.addInternal b.internalVertices)
  unfold submitBlock
  exact ⟨f3.trans w1, f4.trans w2, by rw [f5, w3]; rfl⟩

theorem submitAll_fields (bs : List Block) (m : WeldMesher) :
    (m.submitAll bs).pruneNum = m.pruneNum
      ∧ (m.submitAll bs).pruneDen = m.pruneDen
      ∧ (m.submitAll bs).triangles
          = m.triangles
            ++ (List.zipWith
                  (fun b ids => b.indices.map (Triangle.map (fun a => ids.getD a 0)))
                  bs (m.idMaps bs)).flatten := by
  induction bs generalizing m with
  | nil => simp [submitAll, idMaps]
  | cons b bs ih =>
    obtain ⟨h1, h2, h3⟩ := ih (m.submitBlock b)
    obtain ⟨g1, g2, g3⟩ := submitBlock_fields m b
    simp only [submitAll, List.foldl_cons, idMaps, List.zipWith_cons_cons, List.flatten_cons] at *
    exact ⟨h1.trans g1, h2.trans g2, by rw [h3, g3, List.append_assoc]⟩

theorem Sim.submitAll (bs : List Block) {m : WeldMesher} {tbl : List VertexName} {i : Nat}
    (h : m.Sim tbl) (hf : FreshFrom tbl i) (hn : tbl.Nodup) :
    (m.submitAll bs).Sim (nameTable tbl i bs) ∧ (nameTable tbl i bs).Nodup
      ∧ tbl <+: nameTable tbl i bs
      ∧ m.idMaps bs
          = (nameLists i bs).map (fun ns => ns.map (fun n => (nameTable tbl i bs).indexOf n))
      ∧ ∀ ns ∈ nameLists i bs, ∀ n ∈ ns, n ∈ nameTable tbl i bs := by
  induction bs generalizing m tbl i with
  | nil =>
    refine ⟨h, hn, List.prefix_refl _, rfl, ?_⟩
    intro ns hns
    exact absurd hns (by simp [nameLists])
  | cons b bs ih =>
    obtain ⟨s1, e1⟩ := h.submitBlock b i (fun a hm => absurd (hf i a hm) (lt_irrefl _))
    obtain ⟨i1, i2, i3, i4, i5⟩ := ih s1 (hf.namesAfter b) (nodup_namesAfter hn hf b)
    have hb : ∀ n ∈ b.names i, n ∈ namesAfter tbl i b :=
      fun n hm => mem_namesAfter_iff.2 (Or.inr hm)
    simp only [WeldMesher.submitAll, List.foldl_cons, nameTable, idMaps, nameLists, List.map_cons,
      List.mem_cons, forall_eq_or_imp] at *
    refine ⟨i1, i2, (namesAfter_extends tbl i b).trans i3, ?_, fun n hm => i3.subset (hb n hm), i5⟩
    rw [i4, e1]
    congr 1
    apply List.map_congr_left
    intro n hm
    exact (indexOf_of_extends i3 (hb n hm)).symm

theorem sim_new : WeldMesher.new.Sim [] := by
  refine ⟨rfl, ?_⟩
  intro k
  simp [WeldMesher.new]

end WeldMesher

theorem length_foldl_nameStep (keys seen : List Nat) (tbl : List VertexName) (c : Nat)
    (hm : ∀ k, VertexName.external k ∈ tbl ↔ k ∈ seen)
    (hl : tbl.length = c + seen.toFinset.card) :
    (keys.foldl nameStep tbl).length = c + (seen ++ keys).toFinset.card := by
  induction keys generalizing seen tbl with
  | nil => simpa using hl
  | cons k ks ih =>
    simp only [List.foldl_cons]
    have := ih (seen ++ [k]) (nameStep tbl k) ?_ ?_
    · simpa using this
    · intro k'
      unfold nameStep
      split
      · next hk =>
        rw [List.mem_append, List.mem_singleton, hm k']
        constructor
        · exact Or.inl
        · rintro (h | h)
          · exact h
          · exact h ▸ (hm k).1 hk
      · simp [hm k']
    · unfold nameStep
      split
      · next hk =>
        have : (seen ++ [k]).toFinset = seen.toFinset := by
          ext x
          simp only [List.toFinset_append, List.toFinset_cons, List.toFinset_nil,
            insert_emptyc_eq, Finset.mem_union, List.mem_toFinset, Finset.mem_singleton]
          constructor
          · rintro (h | h)
            · exact h
            · exact h ▸ (hm k).1 hk
          · exact Or.inl
        rw [this, hl]
      · next hk =>
        have hk' : k ∉ seen.toFinset := by
          rw [List.mem_toFinset]
          exact fun h => hk ((hm k).2 h)
        have : (seen ++ [k]).toFinset = insert k seen.toFinset := by
          ext x
          simp only [List.toFinset_append, List.toFinset_cons, List.toFinset_nil,
            insert_emptyc_eq, Finset.mem_union, List.mem_toFinset, Finset.mem_singleton,
            Finset.mem_insert]
          tauto
        rw [this, Finset.card_insert_of_not_mem hk', List.length_append, hl]
        simp only [List.length_singleton]
        omega

theorem length_nameTable (bs : List Block) (seen : List Nat) (tbl : List VertexName) (i c : Nat)
    (hm : ∀ k, VertexName.external k ∈ tbl ↔ k ∈ seen)
    (hl : tbl.length = c + seen.toFinset.card) :
    (nameTable tbl i bs).length
      = c + (bs.map (fun b => b.internalVertices.length)).sum
        + (seen ++ bs.flatMap Block.weldKeys).toFinset.card := by
  induction bs generalizing seen tbl i c with
  | nil => simpa [nameTable] using hl
  | cons b bs ih =>
    have hm0 : ∀ k, VertexName.external k ∈ tbl ++ b.internalNames i ↔ k ∈ seen := by
      intro k
      simp [Block.internalNames, hm k]
    have hl0 : (tbl ++ b.internalNames i).length
        = (c + b.internalVertices.length) + seen.toFinset.card := by
      simp [Block.internalNames, hl]
      omega
    have hl1 := length_foldl_nameStep b.weldKeys seen _ _ hm0 hl0
    have hm1 : ∀ k, VertexName.external k ∈ namesAfter tbl i b ↔ k ∈ seen ++ b.weldKeys := by
      intro k
      unfold namesAfter
      rw [mem_foldl_nameStep_iff, hm0 k, List.mem_append]
      simp
    have := ih (seen ++ b.weldKeys) (namesAfter tbl i b) (i + 1) (c + b.internalVertices.length)
      hm1 hl1
    simp only [nameTable, List.map_cons, List.sum_cons, List.flatMap_cons]
    rw [this, List.append_assoc]
    omega

theorem weldKeys_eq {b : Block} (h : b.WellFormed) : b.weldKeys = b.externalKeys := by
  unfold Block.weldKeys
  exact List.map_snd_zip _ _ (le_of_eq h.1)

theorem filterMap_range_getElem? {α : Type} (l : List α) :
    (List.range l.length).filterMap (fun i => l[i]?) = l := by
  induction l using List.reverseRecOn with
  | nil => rfl
  | append_singleton init x ih =>
    rw [List.length_append, List.length_singleton, List.range_succ, List.filterMap_append]
    have h1 : (List.range init.length).filterMap (fun i => (init ++ [x])[i]?) = init := by
      conv_rhs => rw [← ih]
      apply List.filterMap_congr
      intro i hi
      rw [List.mem_range] at hi
      exact List.getElem?_append_left hi
    rw [h1]
    simp

namespace WeldMesher

theorem finalize_of_keep_all {m : WeldMesher} (h : ∀ v, m.keep v = true) :
    m.finalize = { vertices := m.vertices, triangles := m.triangles } := by
  have hf : ∀ l : List Nat, l.filter m.keep = l := fun l =>
    List.filter_eq_self.2 (fun v _ => h v)
  have hi : ∀ v, m.newIndex v = v := by
    intro v
    unfold newIndex
    rw [hf, List.length_range]
  unfold finalize
  rw [hf, filterMap_range_getElem?]
  congr 1
  have : (fun t : Triangle => m.keep t.1) = fun _ => true := funext (fun t => h t.1)
  rw [this, List.filter_true]
  have : Triangle.map m.newIndex = id := by
    funext t
    simp [Triangle.map, hi]
  rw [this, List.map_id]

theorem keep_of_pruneNum_zero {m : WeldMesher} (h : m.pruneNum = 0) (v : Nat) :
    m.keep v = true := by
  simp [keep, thresholdVertices, h]

end WeldMesher

theorem nameLists_getElem? (bs : List Block) (s i : Nat) (hi : i < bs.length) :
    (nameLists s bs)[i]? = some (bs[i].names (s + i)) := by
  induction bs generalizing s i with
  | nil => exact absurd hi (by simp)
  | cons b bs ih =>
    cases i with
    | zero => simp [nameLists]
    | succ i =>
      simp only [nameLists, List.getElem?_cons_succ, List.getElem_cons_succ]
      rw [ih (s + 1) i (by simpa using hi)]
      congr 2
      omega

theorem names_getElem? {b : Block} (h : b.WellFormed) (i a : Nat) (ha : a < b.numVertices) :
    (b.names i)[a]? = some (b.nameOf i a) := by
  unfold Block.names Block.nameOf Block.key?
  rw [weldKeys_eq h]
  by_cases hlt : a < b.internalVertices.length
  · rw [if_pos hlt, List.getElem?_append_left (by simpa [Block.internalNames] using hlt)]
    simp [Block.internalNames, hlt]
  · rw [if_neg hlt, List.getElem?_append_right (by simpa [Block.internalNames] using hlt)]
    have hlen : (b.internalNames i).length = b.internalVertices.length := by
      simp [Block.internalNames]
    have hk : a - b.internalVertices.length < b.externalKeys.length := by
      have := h.1
      unfold Block.numVertices at ha
      omega
    rw [hlen, List.getElem?_map, List.getElem?_eq_getElem hk]
    rfl

theorem nameOf_eq_iff {bi bj : Block} {i j a b : Nat} :
    bi.nameOf i a = bj.nameOf j b
      ↔ (i = j ∧ a = b ∧ bi.key? a = none ∧ bj.key? b = none)
        ∨ ∃ k, bi.key? a = some k ∧ bj.key? b = some k := by
  unfold Block.nameOf
  cases hi : bi.key? a <;> cases hj : bj.key? b <;> simp [eq_comm]

theorem flatMap_weldKeys_eq (bs : List Block) (hwf : ∀ b ∈ bs, b.WellFormed) :
    bs.flatMap Block.weldKeys = bs.flatMap Block.externalKeys := by
  induction bs with
  | nil => rfl
  | cons b bs ih =>
    simp only [List.flatMap_cons]
    rw [weldKeys_eq (hwf b (List.mem_cons_self _ _)),
      ih (fun b' hb' => hwf b' (List.mem_cons_of_mem _ hb'))]

theorem names_length {b : Block} (h : b.WellFormed) (i : Nat) :
    (b.names i).length = b.numVertices := by
  unfold Block.names
  rw [weldKeys_eq h]
  simp [Block.internalNames, Block.numVertices, h.1]

/-- The canonical id of a submitted vertex is the position of its name in the final table. -/
theorem idMaps_getD (bs : List Block) (hwf : ∀ b ∈ bs, b.WellFormed) (i a : Nat)
    (hi : i < bs.length) (ha : a < bs[i].numVertices) :
    ((WeldMesher.new.idMaps bs).getD i []).getD a 0
        = (nameTable [] 0 bs).indexOf (bs[i].nameOf i a)
      ∧ bs[i].nameOf i a ∈ nameTable [] 0 bs
      ∧ ((WeldMesher.new.idMaps bs).getD i []).length = bs[i].numVertices := by
  have hfresh : FreshFrom [] 0 := by
    intro j a' hm
    exact absurd hm (by simp)
  obtain ⟨_, _, _, h4, h5⟩ := WeldMesher.Sim.submitAll bs WeldMesher.sim_new hfresh List.nodup_nil
  have hw := hwf bs[i] (List.getElem_mem _)
  have hnl := nameLists_getElem? bs 0 i hi
  rw [Nat.zero_add] at hnl
  have hn := names_getElem? hw i a ha
  have hmem : bs[i].nameOf i a ∈ nameTable [] 0 bs :=
    h5 _ (List.getElem?_mem hnl) _ (List.getElem?_mem hn)
  have hget : (WeldMesher.new.idMaps bs).getD i []
      = (bs[i].names i).map (fun n => (nameTable [] 0 bs).indexOf n) := by
    rw [h4, List.getD_eq_getElem?_getD, List.getElem?_map, hnl]
    rfl
  refine ⟨?_, hmem, ?_⟩
  · rw [hget, List.getD_eq_getElem?_getD, List.getElem?_map, hn]
    rfl
  · rw [hget, List.length_map, names_length hw]

/-! ### Welding: the claims -/

/-- C6: welding rule. After submitting any sequence of well-formed blocks to a welding mesher
with the default prune threshold and finalizing: two submitted vertices (block `i`, local index
`a`; block `j`, local index `b`) receive the same output vertex if and only if they are the same
submitted vertex or both are external and carry the same key; the output has (total internal
vertices) + (number of distinct external keys) vertices; and the output triangles are exactly
the submitted triangles, each once and in order, with every local index replaced by the output
id of its vertex (so the winding is preserved). -/
theorem weld_rule (bs : List Block) (hwf : ∀ b ∈ bs, b.WellFormed) :
    (∀ (i j a b : Nat) (hi : i < bs.length) (hj : j < bs.length),
        a < bs[i].numVertices → b < bs[j].numVertices →
        (((WeldMesher.new.idMaps bs).getD i []).getD a 0
            = ((WeldMesher.new.idMaps bs).getD j []).getD b 0
          ↔ (i = j ∧ a = b) ∨ ∃ k, bs[i].key? a = some k ∧ bs[j].key? b = some k))
      ∧ (WeldMesher.new.submitAll bs).finalize.vertices.length
          = (bs.map (fun b => b.internalVertices.length)).sum
            + (bs.flatMap Block.externalKeys).toFinset.card
      ∧ (WeldMesher.new.submitAll bs).finalize.triangles
          = (List.zipWith (fun b ids => b.indices.map (Triangle.map (fun a => ids.getD a 0)))
              bs (WeldMesher.new.idMaps bs)).flatten
      ∧ ∀ (i a : Nat) (hi : i < bs.length), a < bs[i].numVertices →
          ((WeldMesher.new.idMaps bs).getD i []).length = bs[i].numVertices
            ∧ ((WeldMesher.new.idMaps bs).getD i []).getD a 0
                < (WeldMesher.new.submitAll bs).finalize.vertices.length := by
  have hfresh : FreshFrom [] 0 := by
    intro j a' hm
    exact absurd hm (by simp)
  obtain ⟨hsim, hnd, _, _, _⟩ :=
    WeldMesher.Sim.submitAll bs WeldMesher.sim_new hfresh List.nodup_nil
  obtain ⟨f1, _, f3⟩ := WeldMesher.submitAll_fields bs WeldMesher.new
  have hfin := WeldMesher.finalize_of_keep_all
    (WeldMesher.keep_of_pruneNum_zero (m := WeldMesher.new.submitAll bs) (by rw [f1]; rfl))
  have hlen : (WeldMesher.new.submitAll bs).finalize.vertices.length
      = (nameTable [] 0 bs).length := by
    rw [hfin]
    exact hsim.1
  refine ⟨?_, ?_, ?_, ?_⟩
  · intro i j a b hi hj ha hb
    obtain ⟨e1, m1, _⟩ := idMaps_getD bs hwf i a hi ha
    obtain ⟨e2, m2, _⟩ := idMaps_getD bs hwf j b hj hb
    rw [e1, e2, List.indexOf_inj m1 m2, nameOf_eq_iff]
    constructor
    · rintro (⟨h1, h2, _⟩ | h)
      · exact Or.inl ⟨h1, h2⟩
      · exact Or.inr h
    · rintro (⟨h1, h2⟩ | h)
      · subst h1
        subst h2
        cases hk : bs[i].key? a with
        | none => exact Or.inl ⟨rfl, rfl, rfl, rfl⟩
        | some k => exact Or.inr ⟨k, rfl, rfl⟩
      · exact Or.inr h
  · rw [hlen, length_nameTable bs [] [] 0 0 (by simp) (by simp),
      flatMap_weldKeys_eq bs hwf]
    simp
  · rw [hfin]
    simpa [WeldMesher.new] using f3
  · intro i a hi ha
    obtain ⟨e1, m1, l1⟩ := idMaps_getD bs hwf i a hi ha
    refine ⟨l1, ?_⟩
    rw [e1, hlen]
    exact List.indexOf_lt_length.2 m1

/-- Witness for C6: the four blocks of `testWeld`; the welded mesh has the 16 vertices and 14
triangles the test expects, and vertex 1 of block 1 and vertex 2 of block 3 (both with key
`0x8000000000000000`) are welded into output vertex 6. -/
theorem weld_rule_witness :
    (∀ b ∈ TestWeldMesher.testWeldBlocks, b.WellFormed)
      ∧ (WeldMesher.new.submitAll TestWeldMesher.testWeldBlocks).finalize
          = TestWeldMesher.testWeldExpected
      ∧ ((WeldMesher.new.idMaps TestWeldMesher.testWeldBlocks).getD 1 []).getD 1 0 = 6
      ∧ ((WeldMesher.new.idMaps TestWeldMesher.testWeldBlocks).getD 3 []).getD 2 0 = 6
      ∧ (WeldMesher.new.submitAll TestWeldMesher.testWeldBlocks).finalize.vertices.length
          = (TestWeldMesher.testWeldBlocks.map (fun b => b.internalVertices.length)).sum
            + (TestWeldMesher.testWeldBlocks.flatMap Block.externalKeys).toFinset.card :=
  ⟨by decide, by decide, by decide, by decide,
    (weld_rule TestWeldMesher.testWeldBlocks (by decide)).2.1⟩

/-! ### Union-find and connected components -/

theorem eqvGen_insert {r : Nat → Nat → Prop} {a b u v : Nat} :
    Relation.EqvGen (fun x y => r x y ∨ (x = a ∧ y = b)) u v
      ↔ Relation.EqvGen r u v
        ∨ (Relation.EqvGen r u a ∧ Relation.EqvGen r b v)
        ∨ (Relation.EqvGen r u b ∧ Relation.EqvGen r a v) := by
  constructor
  · intro h
    induction h with
    | rel x y hxy =>
      rcases hxy with h | ⟨rfl, rfl⟩
      · exact Or.inl (Relation.EqvGen.rel _ _ h)
      · exact Or.inr (Or.inl ⟨Relation.EqvGen.refl _, Relation.EqvGen.refl _⟩)
    | refl x => exact Or.inl (Relation.EqvGen.refl _)
    | symm x y _ ih =>
      rcases ih with h | ⟨h1, h2⟩ | ⟨h1, h2⟩
      · exact Or.inl (Relation.EqvGen.symm _ _ h)
      · exact Or.inr (Or.inr ⟨Relation.EqvGen.symm _ _ h2, Relation.EqvGen.symm _ _ h1⟩)
      · exact Or.inr (Or.inl ⟨Relation.EqvGen.symm _ _ h2, Relation.EqvGen.symm _ _ h1⟩)
    | trans x y z _ _ ih1 ih2 =>
      have tr := @Relation.EqvGen.trans Nat r
      have sy := @Relation.EqvGen.symm Nat r
      rcases ih1 with h | ⟨h1, h2⟩ | ⟨h1, h2⟩
      · rcases ih2 with g | ⟨g1, g2⟩ | ⟨g1, g2⟩
        · exact Or.inl (tr _ _ _ h g)
        · exact Or.inr (Or.inl ⟨tr _ _ _ h g1, g2⟩)
        · exact Or.inr (Or.inr ⟨tr _ _ _ h g1, g2⟩)
      · rcases ih2 with g | ⟨g1, g2⟩ | ⟨g1, g2⟩
        · exact Or.inr (Or.inl ⟨h1, tr _ _ _ h2 g⟩)
        · exact Or.inl (tr _ _ _ h1 (tr _ _ _ (sy _ _ (tr _ _ _ h2 g1)) g2))
        · exact Or.inl (tr _ _ _ h1 g2)
      · rcases ih2 with g | ⟨g1, g2⟩ | ⟨g1, g2⟩
        · exact Or.inr (Or.inr ⟨h1, tr _ _ _ h2 g⟩)
        · exact Or.inl (tr _ _ _ h1 g2)
        · exact Or.inl (tr _ _ _ h1 (tr _ _ _ (sy _ _ (tr _ _ _ h2 g1)) g2))
  · have mono : ∀ x y, Relation.EqvGen r x y
        → Relation.EqvGen (fun x y => r x y ∨ (x = a ∧ y = b)) x y := by
      intro x y h
      exact Relation.EqvGen.mono (fun _ _ h => Or.inl h) h
    have edge : Relation.EqvGen (fun x y => r x y ∨ (x = a ∧ y = b)) a b :=
      Relation.EqvGen.rel _ _ (Or.inr ⟨rfl, rfl⟩)
    rintro (h | ⟨h1, h2⟩ | ⟨h1, h2⟩)
    · exact mono _ _ h
    · exact Relation.EqvGen.trans _ _ _ (mono _ _ h1)
        (Relation.EqvGen.trans _ _ _ edge (mono _ _ h2))
    · exact Relation.EqvGen.trans _ _ _ (mono _ _ h1)
        (Relation.EqvGen.trans _ _ _ (Relation.EqvGen.symm _ _ edge) (mono _ _ h2))

theorem eqvGen_le {r s : Nat → Nat → Prop} (h : ∀ x y, r x y → Relation.EqvGen s x y)
    {u v : Nat} (huv : Relation.EqvGen r u v) : Relation.EqvGen s u v := by
  induction huv with
  | rel x y hxy => exact h x y hxy
  | refl x => exact Relation.EqvGen.refl _
  | symm x y _ ih => exact Relation.EqvGen.symm _ _ ih
  | trans x y z _ _ ih1 ih2 => exact Relation.EqvGen.trans _ _ _ ih1 ih2

theorem getD_union {roots : List Nat} {a b u : Nat} (hu : u < roots.length) :
    (WeldMesher.union roots a b).getD u u
      = if roots.getD u u = roots.getD b b then roots.getD a a else roots.getD u u := by
  unfold WeldMesher.union
  simp only [List.getD_eq_getElem?_getD, List.getElem?_map, List.getElem?_eq_getElem hu,
    Option.map_some', Option.getD_some]

/-- One `union` step merges exactly the classes of `a` and `b`. -/
theorem union_iff {roots : List Nat} {r : Nat → Nat → Prop} {n a b : Nat}
    (hlen : roots.length = n) (ha : a < n) (hb : b < n)
    (h : ∀ u v, u < n → v < n → (roots.getD u u = roots.getD v v ↔ Relation.EqvGen r u v))
    (u v : Nat) (hu : u < n) (hv : v < n) :
    (WeldMesher.union roots a b).getD u u = (WeldMesher.union roots a b).getD v v
      ↔ Relation.EqvGen (fun x y => r x y ∨ (x = a ∧ y = b)) u v := by
  have tr := @Relation.EqvGen.trans Nat r
  have sy := @Relation.EqvGen.symm Nat r
  rw [getD_union (hlen ▸ hu), getD_union (hlen ▸ hv), eqvGen_insert]
  have hub := h u b hu hb
  have hvb := h v b hv hb
  have hua := h u a hu ha
  have hva := h v a hv ha
  have huv := h u v hu hv
  by_cases c1 : roots.getD u u = roots.getD b b <;> by_cases c2 : roots.getD v v = roots.getD b b
  · rw [if_pos c1, if_pos c2]
    exact ⟨fun _ => Or.inl (tr _ _ _ (hub.1 c1) (sy _ _ (hvb.1 c2))), fun _ => rfl⟩
  · rw [if_pos c1, if_neg c2]
    constructor
    · intro e
      exact Or.inr (Or.inr ⟨hub.1 c1, sy _ _ (hva.1 e.symm)⟩)
    · rintro (g | ⟨_, g2⟩ | ⟨_, g2⟩)
      · exact absurd (hvb.2 (tr _ _ _ (sy _ _ g) (hub.1 c1))) c2
      · exact absurd (hvb.2 (sy _ _ g2)) c2
      · exact (hva.2 (sy _ _ g2)).symm
  · rw [if_neg c1, if_pos c2]
    constructor
    · intro e
      exact Or.inr (Or.inl ⟨hua.1 e, sy _ _ (hvb.1 c2)⟩)
    · rintro (g | ⟨g1, _⟩ | ⟨g1, _⟩)
      · exact absurd (hub.2 (tr _ _ _ g (hvb.1 c2))) c1
      · exact hua.2 g1
      · exact absurd (hub.2 g1) c1
  · rw [if_neg c1, if_neg c2]
    constructor
    · intro e
      exact Or.inl (huv.1 e)
    · rintro (g | ⟨_, g2⟩ | ⟨g1, _⟩)
      · exact huv.2 g
      · exact absurd (hvb.2 (sy _ _ g2)) c2
      · exact absurd (hub.2 g1) c1

theorem length_union (roots : List Nat) (a b : Nat) :
    (WeldMesher.union roots a b).length = roots.length := by
  simp [WeldMesher.union]

theorem mem_union_lt {roots : List Nat} {n a b : Nat} (hlen : roots.length = n) (ha : a < n)
    (h : ∀ r ∈ roots, r < n) : ∀ r ∈ WeldMesher.union roots a b, r < n := by
  intro r hr
  unfold WeldMesher.union at hr
  rw [List.mem_map] at hr
  obtain ⟨x, hx, rfl⟩ := hr
  split
  · rw [List.getD_eq_getElem?_getD, List.getElem?_eq_getElem (hlen ▸ ha)]
    exact h _ (List.getElem_mem _)
  · exact h x hx

/-- Adding a triangle to the list adds exactly the edges between its corners. -/
theorem connected_append_singleton (ts : List Triangle) (t : Triangle) (u v : Nat) :
    Connected (ts ++ [t]) u v
      ↔ Relation.EqvGen
          (fun x y => (adjacent ts x y ∨ (x = t.1 ∧ y = t.2.1)) ∨ (x = t.1 ∧ y = t.2.2)) u v := by
  unfold Connected
  constructor
  · apply eqvGen_le
    rintro x y ⟨t', ht', hx, hy⟩
    rw [List.mem_append, List.mem_singleton] at ht'
    rcases ht' with ht' | rfl
    · exact Relation.EqvGen.rel _ _ (Or.inl (Or.inl ⟨t', ht', hx, hy⟩))
    · have e1 : Relation.EqvGen
          (fun x y => (adjacent ts x y ∨ (x = t'.1 ∧ y = t'.2.1)) ∨ (x = t'.1 ∧ y = t'.2.2))
          t'.1 t'.2.1 := Relation.EqvGen.rel _ _ (Or.inl (Or.inr ⟨rfl, rfl⟩))
      have e2 : Relation.EqvGen
          (fun x y => (adjacent ts x y ∨ (x = t'.1 ∧ y = t'.2.1)) ∨ (x = t'.1 ∧ y = t'.2.2))
          t'.1 t'.2.2 := Relation.EqvGen.rel _ _ (Or.inr ⟨rfl, rfl⟩)
      have hx' : Relation.EqvGen
          (fun x y => (adjacent ts x y ∨ (x = t'.1 ∧ y = t'.2.1)) ∨ (x = t'.1 ∧ y = t'.2.2))
          x t'.1 := by
        rcases hx with rfl | rfl | rfl
        · exact Relation.EqvGen.refl _
        · exact Relation.EqvGen.symm _ _ e1
        · exact Relation.EqvGen.symm _ _ e2
      have hy' : Relation.EqvGen
          (fun x y => (adjacent ts x y ∨ (x = t'.1 ∧ y = t'.2.1)) ∨ (x = t'.1 ∧ y = t'.2.2))
          t'.1 y := by
        rcases hy with rfl | rfl | rfl
        · exact Relation.EqvGen.refl _
        · exact e1
        · exact e2
      exact Relation.EqvGen.trans _ _ _ hx' hy'
  · apply eqvGen_le
    rintro x y ((⟨t', ht', hx, hy⟩ | ⟨rfl, rfl⟩) | ⟨rfl, rfl⟩)
    · exact Relation.EqvGen.rel _ _ ⟨t', List.mem_append_left _ ht', hx, hy⟩
    · exact Relation.EqvGen.rel _ _
        ⟨t, List.mem_append_right _ (List.mem_singleton_self _), Or.inl rfl, Or.inr (Or.inl rfl)⟩
    · exact Relation.EqvGen.rel _ _
        ⟨t, List.mem_append_right _ (List.mem_singleton_self _), Or.inl rfl, Or.inr (Or.inr rfl)⟩

/-- A connected pair is either a single vertex or lies among the triangles' corners. -/
theorem connected_lt {ts : List Triangle} {n : Nat}
    (h : ∀ t ∈ ts, t.1 < n ∧ t.2.1 < n ∧ t.2.2 < n) {u v : Nat} (huv : Connected ts u v) :
    u = v ∨ (u < n ∧ v < n) := by
  induction huv with
  | rel x y hxy =>
    obtain ⟨t, ht, hx, hy⟩ := hxy
    have := h t ht
    right
    constructor
    · rcases hx with rfl | rfl | rfl <;> omega
    · rcases hy with rfl | rfl | rfl <;> omega
  | refl x => exact Or.inl rfl
  | symm x y _ ih =>
    rcases ih with rfl | ⟨h1, h2⟩
    · exact Or.inl rfl
    · exact Or.inr ⟨h2, h1⟩
  | trans x y z _ _ ih1 ih2 =>
    rcases ih1 with rfl | ⟨h1, h2⟩
    · exact ih2
    · rcases ih2 with rfl | ⟨h3, h4⟩
      · exact Or.inr ⟨h1, h2⟩
      · exact Or.inr ⟨h1, h4⟩

namespace WeldMesher

theorem wf_new (num den : Nat) : (WeldMesher.new.setPruneThreshold num den).Wf := by
  refine ⟨rfl, ?_, ?_, ?_, ?_⟩
  · intro r hr
    exact absurd hr (by simp [WeldMesher.new, setPruneThreshold])
  · intro t ht
    exact absurd ht (by simp [WeldMesher.new, setPruneThreshold])
  · intro p hp
    exact absurd hp (by simp [WeldMesher.new, setPruneThreshold])
  · intro u v hu
    exact absurd hu (by simp [WeldMesher.new, setPruneThreshold])

theorem getD_append_range' (roots : List Nat) (k u : Nat) (hu : u < roots.length + k) :
    (roots ++ List.range' roots.length k).getD u u
      = if u < roots.length then roots.getD u u else u := by
  rw [List.getD_eq_getElem?_getD, List.getD_eq_getElem?_getD]
  split
  · next h => rw [List.getElem?_append_left h]
  · next h =>
    rw [List.getElem?_append_right (by omega)]
    have : u - roots.length < (List.range' roots.length k).length := by
      rw [List.length_range']
      omega
    rw [List.getElem?_eq_getElem this, List.getElem_range']
    simp only [Option.getD_some]
    omega

/-- Appending `k` fresh vertices, each its own component, keeps the state consistent. -/
theorem Wf.fresh {m m' : WeldMesher} (h : m.Wf) (k : Nat)
    (hv : m'.vertices.length = m.vertices.length + k)
    (hr : m'.roots = m.roots ++ List.range' m.vertices.length k)
    (ht : m'.triangles = m.triangles)
    (hk : ∀ p ∈ m'.keyMap, p.2 < m.vertices.length + k) : m'.Wf := by
  have hlen := h.roots_length
  refine ⟨?_, ?_, ?_, ?_, ?_⟩
  · rw [hr, hv, List.length_append, List.length_range', hlen]
  · intro r hmem
    rw [hr, List.mem_append] at hmem
    rw [hv]
    rcases hmem with h1 | h1
    · exact Nat.lt_add_right _ (h.roots_lt r h1)
    · rw [List.mem_range'_1] at h1
      omega
  · intro t hmem
    rw [ht] at hmem
    rw [hv]
    have := h.triangles_lt t hmem
    omega
  · rw [hv]
    exact hk
  · intro u v hu hv'
    rw [hv] at hu hv'
    rw [hr, ht, ← hlen, getD_append_range' _ _ _ (hlen ▸ hu),
      getD_append_range' _ _ _ (hlen ▸ hv'), hlen]
    have rlt : ∀ w, w < m.vertices.length → m.roots.getD w w < m.vertices.length := by
      intro w hw
      rw [List.getD_eq_getElem?_getD, List.getElem?_eq_getElem (hlen ▸ hw)]
      exact h.roots_lt _ (List.getElem_mem _)
    by_cases c1 : u < m.vertices.length <;> by_cases c2 : v < m.vertices.length
    · rw [if_pos c1, if_pos c2]
      exact h.roots_iff u v c1 c2
    · rw [if_pos c1, if_neg c2]
      constructor
      · intro e
        have := rlt u c1
        omega
      · intro e
        rcases connected_lt h.triangles_lt e with e' | ⟨_, e'⟩ <;> omega
    · rw [if_neg c1, if_pos c2]
      constructor
      · intro e
        have := rlt v c2
        omega
      · intro e
        rcases connected_lt h.triangles_lt e with e' | ⟨e', _⟩ <;> omega
    · rw [if_neg c1, if_neg c2]
      constructor
      · intro e
        rw [e]
        exact Relation.EqvGen.refl _
      · intro e
        rcases connected_lt h.triangles_lt e with e' | ⟨e', _⟩
        · exact e'
        · omega

theorem Wf.of_addInternal {m : WeldMesher} (h : m.Wf) (vs : List Vertex) :
    (m.addInternal vs).Wf := by
  refine h.fresh vs.length ?_ rfl rfl ?_
  · simp [WeldMesher.addInternal]
  · intro p hp
    exact Nat.lt_add_right _ (h.keyMap_lt p hp)

theorem Wf.of_weldVertex {m : WeldMesher} (h : m.Wf) (v : Vertex) (key : Nat) :
    (m.weldVertex v key).1.Wf
      ∧ (m.weldVertex v key).2 < (m.weldVertex v key).1.vertices.length
      ∧ m.vertices.length ≤ (m.weldVertex v key).1.vertices.length := by
  unfold WeldMesher.weldVertex
  split
  · next id hid =>
    refine ⟨h, ?_, le_refl _⟩
    have := List.lookup_eq_some_iff.1 hid
    obtain ⟨l1, l2, hl, _⟩ := this
    exact h.keyMap_lt (key, id) (by rw [hl]; simp)
  · refine ⟨?_, by simp, by simp⟩
    refine h.fresh 1 (by simp) (by simp [List.range']) rfl ?_
    intro p hp
    simp only [List.mem_cons] at hp
    rcases hp with rfl | hp
    · simp
    · exact Nat.lt_add_right _ (h.keyMap_lt p hp)

theorem Wf.of_weldExternal (vks : List (Vertex × Nat)) {m : WeldMesher} (h : m.Wf) :
    (m.weldExternal vks).1.Wf
      ∧ (∀ id ∈ (m.weldExternal vks).2, id < (m.weldExternal vks).1.vertices.length)
      ∧ m.vertices.length ≤ (m.weldExternal vks).1.vertices.length
      ∧ (m.weldExternal vks).2.length = vks.length := by
  induction vks generalizing m with
  | nil =>
    refine ⟨h, ?_, le_refl _, rfl⟩
    intro id hid
    exact absurd hid (by simp [WeldMesher.weldExternal])
  | cons p rest ih =>
    obtain ⟨v, key⟩ := p
    obtain ⟨w1, w2, w3⟩ := h.of_weldVertex v key
    obtain ⟨i1, i2, i3, i4⟩ := ih w1
    simp only [WeldMesher.weldExternal, List.mem_cons, forall_eq_or_imp, List.length_cons]
    exact ⟨i1, ⟨by omega, i2⟩, by omega, by rw [i4]⟩

theorem Wf.of_addTriangle {m : WeldMesher} (h : m.Wf) (t : Triangle)
    (ht : t.1 < m.vertices.length ∧ t.2.1 < m.vertices.length ∧ t.2.2 < m.vertices.length) :
    (m.addTriangle t).Wf := by
  have hlen := h.roots_length
  have hl1 : (WeldMesher.union m.roots t.1 t.2.1).length = m.vertices.length := by
    rw [length_union, hlen]
  refine ⟨?_, ?_, ?_, h.keyMap_lt, ?_⟩
  · show (WeldMesher.union (WeldMesher.union m.roots t.1 t.2.1) t.1 t.2.2).length = _
    rw [length_union, hl1]
    rfl
  · exact mem_union_lt hl1 ht.1 (mem_union_lt hlen ht.1 h.roots_lt)
  · intro t' ht'
    simp only [WeldMesher.addTriangle, List.mem_append, List.mem_singleton] at ht'
    rcases ht' with ht' | rfl
    · exact h.triangles_lt t' ht'
    · exact ht
  · intro u v hu hv
    show (WeldMesher.union (WeldMesher.union m.roots t.1 t.2.1) t.1 t.2.2).getD u u
        = (WeldMesher.union (WeldMesher.union m.roots t.1 t.2.1) t.1 t.2.2).getD v v
        ↔ Connected (m.triangles ++ [t]) u v
    rw [connected_append_singleton]
    exact union_iff hl1 ht.1 ht.2.2
      (fun u v hu hv => union_iff hlen ht.1 ht.2.1 h.roots_iff u v hu hv) u v hu hv

theorem Wf.of_foldl_addTriangle (ts : List Triangle) {m : WeldMesher} (h : m.Wf)
    (ht : ∀ t ∈ ts,
      t.1 < m.vertices.length ∧ t.2.1 < m.vertices.length ∧ t.2.2 < m.vertices.length) :
    (ts.foldl WeldMesher.addTriangle m).Wf := by
  induction ts generalizing m with
  | nil => exact h
  | cons t ts ih =>
    simp only [List.foldl_cons]
    exact ih (h.of_addTriangle t (ht t (List.mem_cons_self _ _)))
      (fun t' ht' => ht t' (List.mem_cons_of_mem _ ht'))

theorem Wf.of_submitBlock {m : WeldMesher} (h : m.Wf) {b : Block} (hb : b.WellFormed) :
    (m.submitBlock b).Wf := by
  obtain ⟨w1, w2, w3, w4⟩ := (h.of_addInternal b.internalVertices).of_weldExternal
    (b.externalVertices.zip b.externalKeys)
  have hids : ∀ id ∈ m.blockIds b, id <
      ((m.addInternal b.internalVertices).weldExternal
        (b.externalVertices.zip b.externalKeys)).1.vertices.length := by
    intro id hid
    unfold WeldMesher.blockIds at hid
    rw [List.mem_append] at hid
    rcases hid with hid | hid
    · rw [List.mem_range'_1] at hid
      have : (m.addInternal b.internalVertices).vertices.length
          = m.vertices.length + b.internalVertices.length := by
        simp [WeldMesher.addInternal]
      omega
    · exact w2 id hid
  have hlen : (m.blockIds b).length = b.numVertices := by
    unfold WeldMesher.blockIds Block.numVertices
    rw [List.length_append, List.length_range', w4, List.length_zip, hb.1, Nat.min_self]
  unfold WeldMesher.submitBlock
  refine Wf.of_foldl_addTriangle _ w1 ?_
  intro t ht
  rw [List.mem_map] at ht
  obtain ⟨t0, ht0, rfl⟩ := ht
  have hb0 := hb.2 t0 ht0
  have key : ∀ a, a < b.numVertices → (m.blockIds b).getD a 0 <
      ((m.addInternal b.internalVertices).weldExternal
        (b.externalVertices.zip b.externalKeys)).1.vertices.length := by
    intro a ha
    rw [List.getD_eq_getElem?_getD, List.getElem?_eq_getElem (hlen ▸ ha)]
    exact hids _ (List.getElem_mem _)
  exact ⟨key _ hb0.1, key _ hb0.2.1, key _ hb0.2.2⟩

theorem Wf.of_submitAll (bs : List Block) {m : WeldMesher} (h : m.Wf)
    (hwf : ∀ b ∈ bs, b.WellFormed) : (m.submitAll bs).Wf := by
  induction bs generalizing m with
  | nil => exact h
  | cons b bs ih =>
    simp only [WeldMesher.submitAll, List.foldl_cons]
    exact ih (h.of_submitBlock (hwf b (List.mem_cons_self _ _)))
      (fun b' hb' => hwf b' (List.mem_cons_of_mem _ hb'))

end WeldMesher

/-! ### Pruning -/

theorem filter_range_getElem? (p : Nat → Bool) (n v : Nat) (hv : v < n) (hp : p v = true) :
    ((List.range n).filter p)[((List.range v).filter p).length]? = some v := by
  induction n with
  | zero => omega
  | succ n ih =>
    rw [List.range_succ, List.filter_append]
    by_cases h : v < n
    · have := ih h
      have hlt : ((List.range v).filter p).length < ((List.range n).filter p).length := by
        by_contra hc
        rw [List.getElem?_eq_none (by omega)] at this
        exact absurd this (by simp)
      rw [List.getElem?_append_left hlt]
      exact this
    · have e : v = n := by omega
      subst e
      rw [List.getElem?_append_right (le_refl _)]
      simp [hp]

theorem filterMap_getElem?_of_isSome {α β : Type} (f : α → Option β) (l : List α)
    (h : ∀ x ∈ l, (f x).isSome) (i : Nat) :
    (l.filterMap f)[i]? = (l[i]?).bind f := by
  induction l generalizing i with
  | nil => simp
  | cons x xs ih =>
    have hx := h x (List.mem_cons_self _ _)
    obtain ⟨y, hy⟩ := Option.isSome_iff_exists.1 hx
    rw [List.filterMap_cons_some hy]
    cases i with
    | zero => simp [hy]
    | succ i =>
      simp only [List.getElem?_cons_succ]
      exact ih (fun x' hx' => h x' (List.mem_cons_of_mem _ hx')) i

theorem count_eq_card_filter (l : List Nat) (r : Nat) :
    l.count r = ((Finset.range l.length).filter (fun u => l.getD u u = r)).card := by
  induction l using List.reverseRecOn with
  | nil => simp
  | append_singleton init x ih =>
    rw [List.count_append, ih, List.length_append, List.length_singleton, Finset.range_succ,
      Finset.filter_insert]
    have hcongr : (Finset.range init.length).filter (fun u => (init ++ [x]).getD u u = r)
        = (Finset.range init.length).filter (fun u => init.getD u u = r) := by
      apply Finset.filter_congr
      intro u hu
      rw [Finset.mem_range] at hu
      rw [List.getD_eq_getElem?_getD, List.getD_eq_getElem?_getD, List.getElem?_append_left hu]
    have hlast : (init ++ [x]).getD init.length init.length = x := by
      rw [List.getD_eq_getElem?_getD, List.getElem?_append_right (le_refl _)]
      simp
    rw [hcongr, hlast]
    by_cases hx : x = r
    · rw [if_pos hx, Finset.card_insert_of_not_mem (by simp)]
      simp [hx]
    · rw [if_neg hx, List.count_eq_zero_of_not_mem (by simpa [eq_comm] using hx)]
      simp [hx]

theorem length_filterMap_of_isSome {α β : Type} (f : α → Option β) (l : List α)
    (h : ∀ x ∈ l, (f x).isSome) : (l.filterMap f).length = l.length := by
  induction l with
  | nil => rfl
  | cons x xs ih =>
    obtain ⟨y, hy⟩ := Option.isSome_iff_exists.1 (h x (List.mem_cons_self _ _))
    rw [List.filterMap_cons_some hy, List.length_cons, List.length_cons,
      ih (fun x' hx' => h x' (List.mem_cons_of_mem _ hx'))]

namespace WeldMesher

/-- Size of a root class, counted over canonical ids connected to `v`. -/
theorem Wf.componentSize_eq {m : WeldMesher} (h : m.Wf) (v : Nat) :
    m.componentSize v
      = ((Finset.range m.vertices.length).filter
          (fun u => m.roots.getD u u = m.roots.getD v v)).card := by
  unfold WeldMesher.componentSize
  rw [count_eq_card_filter, h.roots_length]

theorem keep_congr {m : WeldMesher} {u v : Nat} (h : m.roots.getD u u = m.roots.getD v v) :
    m.keep u = m.keep v := by
  unfold WeldMesher.keep WeldMesher.componentSize
  rw [h]

theorem Wf.keep_triangle {m : WeldMesher} (h : m.Wf) {t : Triangle} (ht : t ∈ m.triangles) :
    m.keep t.2.1 = m.keep t.1 ∧ m.keep t.2.2 = m.keep t.1 := by
  obtain ⟨h1, h2, h3⟩ := h.triangles_lt t ht
  constructor
  · exact keep_congr ((h.roots_iff _ _ h2 h1).2
      (Relation.EqvGen.rel _ _ ⟨t, ht, Or.inr (Or.inl rfl), Or.inl rfl⟩))
  · exact keep_congr ((h.roots_iff _ _ h3 h1).2
      (Relation.EqvGen.rel _ _ ⟨t, ht, Or.inr (Or.inr rfl), Or.inl rfl⟩))

/-- The surviving vertices, densely renumbered in canonical-id order. -/
theorem finalize_vertices (m : WeldMesher) :
    m.finalize.vertices.length = ((List.range m.vertices.length).filter m.keep).length
      ∧ ∀ v, v < m.vertices.length → m.keep v = true →
          m.newIndex v < m.finalize.vertices.length
            ∧ ((List.range m.vertices.length).filter m.keep)[m.newIndex v]? = some v
            ∧ m.finalize.vertices[m.newIndex v]? = m.vertices[v]? := by
  have hsome : ∀ x ∈ (List.range m.vertices.length).filter m.keep, (m.vertices[x]?).isSome := by
    intro x hx
    have := (List.mem_filter.1 hx).1
    rw [List.mem_range] at this
    rw [List.getElem?_eq_getElem this]
    rfl
  have hget := filterMap_getElem?_of_isSome (fun i => m.vertices[i]?) _ hsome
  have hlen : m.finalize.vertices.length
      = ((List.range m.vertices.length).filter m.keep).length :=
    length_filterMap_of_isSome (fun i => m.vertices[i]?) _ hsome
  refine ⟨hlen, ?_⟩
  intro v hv hk
  have hidx := filter_range_getElem? m.keep m.vertices.length v hv hk
  refine ⟨?_, hidx, ?_⟩
  · rw [hlen]
    by_contra hc
    have e : m.newIndex v = ((List.range v).filter m.keep).length := rfl
    rw [List.getElem?_eq_none (by omega)] at hidx
    exact absurd hidx (by simp)
  · have := hget (m.newIndex v)
    have e : m.newIndex v = ((List.range v).filter m.keep).length := rfl
    rw [e] at this ⊢
    rw [hidx] at this
    exact this

end WeldMesher

/-! ### Pruning: the claims -/

open Classical in
/-- C8 (as amended): pruning rule. After submitting well-formed blocks with prune threshold
`num / den`, the union-find classes are the connected components of the welded mesh; finalize
discards a component exactly when its vertex count is strictly below
`⌊pruneThreshold × total vertex count⌋`; the surviving vertices are written in canonical-id
order under a dense numbering; the corners of a triangle are kept or discarded together, and the
output triangles are exactly the triangles of the surviving components, renumbered. -/
theorem prune_rule (bs : List Block) (num den : Nat) (hwf : ∀ b ∈ bs, b.WellFormed) :
    (∀ v, v < ((WeldMesher.new.setPruneThreshold num den).submitAll bs).vertices.length →
        ((WeldMesher.new.setPruneThreshold num den).submitAll bs).componentSize v
          = ((Finset.range
                ((WeldMesher.new.setPruneThreshold num den).submitAll bs).vertices.length).filter
              (fun u => Connected
                ((WeldMesher.new.setPruneThreshold num den).submitAll bs).triangles u v)).card)
      ∧ (∀ v, ((WeldMesher.new.setPruneThreshold num den).submitAll bs).keep v = false
          ↔ ((WeldMesher.new.setPruneThreshold num den).submitAll bs).componentSize v
              < num * ((WeldMesher.new.setPruneThreshold num den).submitAll bs).vertices.length
                  / den)
      ∧ (∀ v, v < ((WeldMesher.new.setPruneThreshold num den).submitAll bs).vertices.length →
          ((WeldMesher.new.setPruneThreshold num den).submitAll bs).keep v = true →
          ((WeldMesher.new.setPruneThreshold num den).submitAll bs).newIndex v
              < ((WeldMesher.new.setPruneThreshold num den).submitAll bs).finalize.vertices.length
            ∧ ((List.range
                  ((WeldMesher.new.setPruneThreshold num den).submitAll bs).vertices.length).filter
                ((WeldMesher.new.setPruneThreshold num den).submitAll bs).keep)[
                  ((WeldMesher.new.setPruneThreshold num den).submitAll bs).newIndex v]? = some v
            ∧ ((WeldMesher.new.setPruneThreshold num den).submitAll bs).finalize.vertices[
                  ((WeldMesher.new.setPruneThreshold num den).submitAll bs).newIndex v]?
                = ((WeldMesher.new.setPruneThreshold num den).submitAll bs).vertices[v]?)
      ∧ ((WeldMesher.new.setPruneThreshold num den).submitAll bs).finalize.vertices.length
          = ((List.range
                ((WeldMesher.new.setPruneThreshold num den).submitAll bs).vertices.length).filter
              ((WeldMesher.new.setPruneThreshold num den).submitAll bs).keep).length
      ∧ (∀ t ∈ ((WeldMesher.new.setPruneThreshold num den).submitAll bs).triangles,
          ((WeldMesher.new.setPruneThreshold num den).submitAll bs).keep t.2.1
              = ((WeldMesher.new.setPruneThreshold num den).submitAll bs).keep t.1
            ∧ ((WeldMesher.new.setPruneThreshold num den).submitAll bs).keep t.2.2
              = ((WeldMesher.new.setPruneThreshold num den).submitAll bs).keep t.1)
      ∧ ((WeldMesher.new.setPruneThreshold num den).submitAll bs).finalize.triangles
          = ((((WeldMesher.new.setPruneThreshold num den).submitAll bs).triangles.filter
                (fun t => ((WeldMesher.new.setPruneThreshold num den).submitAll bs).keep t.1)).map
              (Triangle.map ((WeldMesher.new.setPruneThreshold num den).submitAll bs).newIndex)) := by
  have hw := WeldMesher.Wf.of_submitAll bs (WeldMesher.wf_new num den) hwf
  obtain ⟨f1, f2, _⟩ := WeldMesher.submitAll_fields bs (WeldMesher.new.setPruneThreshold num den)
  generalize (WeldMesher.new.setPruneThreshold num den).submitAll bs = m at hw f1 f2 ⊢
  have hnum : m.pruneNum = num := f1
  have hden : m.pruneDen = den := f2
  obtain ⟨v1, v2⟩ := WeldMesher.finalize_vertices m
  refine ⟨?_, ?_, v2, v1, fun t ht => hw.keep_triangle ht, rfl⟩
  · intro v hv
    rw [hw.componentSize_eq v]
    apply congrArg
    apply Finset.filter_congr
    intro u hu
    rw [Finset.mem_range] at hu
    exact hw.roots_iff u v hu hv
  · intro v
    unfold WeldMesher.keep WeldMesher.thresholdVertices
    rw [hnum, hden]
    simp

/-- Witness for C8: `testPrune`. Of the 22 welded vertices, in components of 5, 6, 5 and 6
vertices, the threshold `⌊6.5⌋ = 6` keeps the two components of 6 vertices: 12 vertices and 9
triangles are written. -/
theorem prune_rule_witness :
    (∀ b ∈ TestWeldMesher.testPruneBlocks, b.WellFormed)
      ∧ TestWeldMesher.testPruneMesher.vertices.length = 22
      ∧ (List.range 22).map TestWeldMesher.testPruneMesher.componentSize
          = [5, 5, 5, 5, 5, 6, 6, 6, 6, 6, 6, 6, 6, 6, 5, 5, 5, 5, 6, 6, 5, 6]
      ∧ 13 * TestWeldMesher.testPruneMesher.vertices.length / 44 = 6
      ∧ TestWeldMesher.testPruneMesher.finalize = TestWeldMesher.testPruneOutput
      ∧ TestWeldMesher.testPruneOutput.vertices.length = 12
      ∧ TestWeldMesher.testPruneOutput.triangles.length = 9
      ∧ TestWeldMesher.testPruneOutput.vertices.Perm TestWeldMesher.testPruneExpected.vertices
      ∧ (TestWeldMesher.testPruneMesher.keep 0 = false
          ↔ TestWeldMesher.testPruneMesher.componentSize 0
              < 13 * TestWeldMesher.testPruneMesher.vertices.length / 44) :=
  ⟨by decide, by decide, by decide, by decide, by decide, by decide, by decide, by decide,
    (prune_rule TestWeldMesher.testPruneBlocks 13 44 (by decide)).2.1 0⟩

/-- C8 (counterexample): in `testPrune` the component of canonical id 5 (component D) has 6
vertices, strictly below `pruneThreshold × total = 6.5` (`6 × 44 < 13 × 22`), and yet it is
kept, as the test expects: the output has 12 vertices and 9 triangles. -/
theorem prune_keeps_component_below_product :
    TestWeldMesher.testPruneMesher.vertices.length = 22
      ∧ TestWeldMesher.testPruneMesher.componentSize 5 = 6
      ∧ TestWeldMesher.testPruneMesher.componentSize 5 * 44
          < 13 * TestWeldMesher.testPruneMesher.vertices.length
      ∧ TestWeldMesher.testPruneMesher.keep 5 = true
      ∧ TestWeldMesher.testPruneMesher.finalize.vertices.length = 12
      ∧ TestWeldMesher.testPruneMesher.finalize.triangles.length = 9 := by
  decide

/-! ### Order of submission: positions and tagged runs -/

theorem nodup_namesAfter_of_fresh {tbl : List VertexName} {i : Nat} (hn : tbl.Nodup)
    (h : ∀ a, VertexName.internal i a ∉ tbl) (b : Block) : (namesAfter tbl i b).Nodup := by
  unfold namesAfter
  apply nodup_foldl_nameStep
  rw [List.nodup_append]
  refine ⟨hn, nodup_internalNames i b, ?_⟩
  intro x hx hx'
  unfold Block.internalNames at hx'
  simp only [List.mem_map, List.mem_range] at hx'
  obtain ⟨a, _, rfl⟩ := hx'
  exact h a hx

namespace WeldMesher

theorem weldVertex_of_mem {m : WeldMesher} {tbl : List VertexName} (hs : m.Sim tbl)
    (v : Vertex) {key : Nat} (hk : VertexName.external key ∈ tbl) :
    (m.weldVertex v key).1 = m := by
  unfold WeldMesher.weldVertex
  have := hs.2 key
  rw [if_pos hk] at this
  rw [this]

theorem weldVertex_of_not_mem {m : WeldMesher} {tbl : List VertexName} (hs : m.Sim tbl)
    (v : Vertex) {key : Nat} (hk : VertexName.external key ∉ tbl) :
    (m.weldVertex v key).1.vertices = m.vertices ++ [v] := by
  unfold WeldMesher.weldVertex
  have := hs.2 key
  rw [if_neg hk] at this
  rw [this]

theorem PosOK.pos_addInternal {pos : VertexName → Vertex} {m : WeldMesher} {tbl : List VertexName}
    (hs : m.Sim tbl) (hp : m.PosOK pos tbl) (b : Block) (t : Nat)
    (hr : ∀ (a : Nat) (v : Vertex), b.internalVertices[a]? = some v →
      pos (VertexName.internal t a) = v) :
    (m.addInternal b.internalVertices).PosOK pos (tbl ++ b.internalNames t) := by
  intro v nm h
  show (m.vertices ++ b.internalVertices)[v]? = _
  by_cases hv : v < tbl.length
  · rw [List.getElem?_append_left hv] at h
    rw [List.getElem?_append_left (hs.1 ▸ hv)]
    exact hp v nm h
  · rw [List.getElem?_append_right (by omega)] at h
    rw [List.getElem?_append_right (by rw [hs.1]; omega), hs.1]
    unfold Block.internalNames at h
    rw [List.getElem?_map] at h
    cases hr' : (List.range b.internalVertices.length)[v - tbl.length]? with
    | none =>
      rw [hr'] at h
      exact absurd h (by simp)
    | some a =>
      rw [hr'] at h
      simp only [Option.map_some', Option.some.injEq] at h
      subst h
      have ha : a = v - tbl.length ∧ v - tbl.length < b.internalVertices.length := by
        have := List.getElem?_eq_some.1 hr'
        obtain ⟨h1, h2⟩ := this
        rw [List.length_range] at h1
        rw [List.getElem_range] at h2
        exact ⟨h2.symm, h1⟩
      obtain ⟨rfl, hlt⟩ := ha
      rw [List.getElem?_eq_getElem hlt]
      congr 1
      exact (hr _ _ (List.getElem?_eq_getElem hlt)).symm

theorem PosOK.pos_weldVertex {pos : VertexName → Vertex} {m : WeldMesher} {tbl : List VertexName}
    (hs : m.Sim tbl) (hp : m.PosOK pos tbl) (v : Vertex) (key : Nat)
    (hr : pos (VertexName.external key) = v) :
    (m.weldVertex v key).1.PosOK pos (nameStep tbl key) := by
  by_cases hk : VertexName.external key ∈ tbl
  · rw [weldVertex_of_mem hs v hk]
    unfold nameStep
    rw [if_pos hk]
    exact hp
  · intro u nm h
    rw [weldVertex_of_not_mem hs v hk]
    unfold nameStep at h
    rw [if_neg hk] at h
    by_cases hu : u < tbl.length
    · rw [List.getElem?_append_left hu] at h
      rw [List.getElem?_append_left (hs.1 ▸ hu)]
      exact hp u nm h
    · rw [List.getElem?_append_right (by omega)] at h
      rw [List.getElem?_append_right (by rw [hs.1]; omega), hs.1]
      cases hd : u - tbl.length with
      | zero =>
        rw [hd] at h
        simp only [List.getElem?_cons_zero, Option.some.injEq] at h
        subst h
        simp [hr]
      | succ d =>
        rw [hd] at h
        exact absurd h (by simp)

theorem PosOK.pos_weldExternal {pos : VertexName → Vertex} (vks : List (Vertex × Nat))
    {m : WeldMesher} {tbl : List VertexName}
    (hs : m.Sim tbl) (hp : m.PosOK pos tbl)
    (hr : ∀ p ∈ vks, pos (VertexName.external p.2) = p.1) :
    (m.weldExternal vks).1.PosOK pos ((vks.map Prod.snd).foldl nameStep tbl) := by
  induction vks generalizing m tbl with
  | nil => exact hp
  | cons p rest ih =>
    obtain ⟨v, key⟩ := p
    have h1 := (hs.weldVertex v key).1
    have h2 := PosOK.pos_weldVertex hs hp v key (hr (v, key) (List.mem_cons_self _ _))
    simp only [WeldMesher.weldExternal, List.map_cons, List.foldl_cons]
    exact ih h1 h2 (fun p hp' => hr p (List.mem_cons_of_mem _ hp'))

theorem PosOK.pos_submitBlock {pos : VertexName → Vertex} {m : WeldMesher} {tbl : List VertexName}
    (hs : m.Sim tbl) (hp : m.PosOK pos tbl) (b : Block) (t : Nat) (hr : b.Respects pos t) :
    (m.submitBlock b).PosOK pos (namesAfter tbl t b) := by
  have s1 := hs.addInternal b.internalVertices t
  have p1 := PosOK.pos_addInternal hs hp b t hr.1
  have p2 := PosOK.pos_weldExternal (b.externalVertices.zip b.externalKeys) s1 p1 hr.2
  obtain ⟨f1, _⟩ := foldl_addTriangle
    (b.indices.map (Triangle.map (fun a => (m.blockIds b).getD a 0)))
    ((m.addInternal b.internalVertices).weldExternal (b.externalVertices.zip b.externalKeys)).1
  intro v nm h
  unfold WeldMesher.submitBlock
  rw [f1]
  exact p2 v nm h

end WeldMesher

theorem blockIds_map_congr {tbl₁ tbl₂ : List VertexName} (hp : tbl₁ <+: tbl₂)
    {ns : List VertexName} (hm : ∀ n ∈ ns, n ∈ tbl₁) :
    ns.map (fun n => tbl₁.indexOf n) = ns.map (fun n => tbl₂.indexOf n) := by
  apply List.map_congr_left
  intro n hn
  exact (indexOf_of_extends hp (hm n hn)).symm

namespace WeldMesher

/-- Submitting tagged blocks: the state implements the table of names, with the recorded
positions, and its triangles are the blocks' triangles over the ids of the final table. -/
theorem run_tagged (pos : VertexName → Vertex) (tb : List (Nat × Block)) {m : WeldMesher}
    {tbl : List VertexName} (hs : m.Sim tbl) (hn : tbl.Nodup) (hp : m.PosOK pos tbl)
    (htags : (tb.map Prod.fst).Nodup)
    (hfresh : ∀ p ∈ tb, ∀ a, VertexName.internal p.1 a ∉ tbl)
    (hresp : ∀ p ∈ tb, p.2.Respects pos p.1) :
    (m.submitAll (tb.map Prod.snd)).Sim (nameTableT tbl tb)
      ∧ (nameTableT tbl tb).Nodup
      ∧ tbl <+: nameTableT tbl tb
      ∧ (m.submitAll (tb.map Prod.snd)).PosOK pos (nameTableT tbl tb)
      ∧ (∀ nm, nm ∈ nameTableT tbl tb ↔ nm ∈ tbl ∨ ∃ p ∈ tb, nm ∈ p.2.names p.1)
      ∧ (m.submitAll (tb.map Prod.snd)).triangles
          = m.triangles ++ tb.flatMap (Block.trianglesIn (nameTableT tbl tb)) := by
  induction tb generalizing m tbl with
  | nil =>
    refine ⟨hs, hn, List.prefix_refl _, hp, ?_, ?_⟩
    · intro nm
      simp [nameTableT]
    · simp [WeldMesher.submitAll]
  | cons p rest ih =>
    obtain ⟨t, b⟩ := p
    have hf : ∀ a, VertexName.internal t a ∉ tbl := hfresh (t, b) (List.mem_cons_self _ _)
    obtain ⟨s1, e1⟩ := hs.submitBlock b t hf
    have n1 := nodup_namesAfter_of_fresh hn hf b
    have p1 := PosOK.pos_submitBlock hs hp b t (hresp (t, b) (List.mem_cons_self _ _))
    rw [List.map_cons, List.nodup_cons] at htags
    have hfresh1 : ∀ q ∈ rest, ∀ a, VertexName.internal q.1 a ∉ namesAfter tbl t b := by
      intro q hq a hm
      rcases mem_namesAfter_iff.1 hm with h1 | h1
      · exact hfresh q (List.mem_cons_of_mem _ hq) a h1
      · unfold Block.names Block.internalNames at h1
        simp only [List.mem_append, List.mem_map, List.mem_range, VertexName.internal.injEq,
          reduceCtorEq, and_false, exists_false, or_false] at h1
        obtain ⟨_, _, h2, _⟩ := h1
        apply htags.1
        rw [h2]
        exact List.mem_map.2 ⟨q, hq, rfl⟩
    obtain ⟨i1, i2, i3, i4, i5, i6⟩ := ih s1 n1 p1 htags.2 hfresh1
      (fun q hq => hresp q (List.mem_cons_of_mem _ hq))
    have hsub : (m.submitAll ((t, b) :: rest |>.map Prod.snd))
        = (m.submitBlock b).submitAll (rest.map Prod.snd) := by
      simp [WeldMesher.submitAll]
    rw [hsub]
    simp only [nameTableT]
    refine ⟨i1, i2, (namesAfter_extends tbl t b).trans i3, i4, ?_, ?_⟩
    · intro nm
      rw [i5 nm, mem_namesAfter_iff]
      simp only [List.mem_cons, exists_eq_or_imp]
      tauto
    · rw [i6, (WeldMesher.submitBlock_fields m b).2.2, List.flatMap_cons, List.append_assoc]
      congr 2
      unfold Block.trianglesIn
      simp only
      rw [e1, blockIds_map_congr i3 (fun n hn' => mem_namesAfter_iff.2 (Or.inr hn'))]

end WeldMesher

namespace WeldMesher

theorem sim_start (num den : Nat) : (WeldMesher.new.setPruneThreshold num den).Sim [] :=
  sim_new.of_fields rfl rfl

theorem retag_indexOf {T₁ T₂ : List VertexName} {nm : VertexName} (h : nm ∈ T₁) :
    retag T₁ T₂ (T₁.indexOf nm) = T₂.indexOf nm := by
  unfold retag
  rw [List.getElem?_indexOf h]

/-- Two runs over the same tagged blocks, in different orders, end in corresponding states. -/
theorem iso_of_perm_tagged (num den : Nat) (pos : VertexName → Vertex)
    (tb₁ tb₂ : List (Nat × Block)) (hperm : tb₁.Perm tb₂)
    (htags : (tb₁.map Prod.fst).Nodup) (hwf : ∀ p ∈ tb₁, p.2.WellFormed)
    (hresp : ∀ p ∈ tb₁, p.2.Respects pos p.1) :
    WeldMesher.Iso (retag (nameTableT [] tb₁) (nameTableT [] tb₂))
      ((WeldMesher.new.setPruneThreshold num den).submitAll (tb₁.map Prod.snd))
      ((WeldMesher.new.setPruneThreshold num den).submitAll (tb₂.map Prod.snd)) := by
  have hpos0 : (WeldMesher.new.setPruneThreshold num den).PosOK pos [] := by
    intro v nm h
    exact absurd h (by simp)
  have hfr : ∀ (tb : List (Nat × Block)), ∀ p ∈ tb, ∀ a,
      VertexName.internal p.1 a ∉ ([] : List VertexName) := by
    intro tb p _ a hm
    exact absurd hm (by simp)
  obtain ⟨s1, n1, _, p1, m1, t1⟩ := run_tagged pos tb₁ (sim_start num den) List.nodup_nil hpos0
    htags (hfr tb₁) hresp
  obtain ⟨s2, n2, _, p2, m2, t2⟩ := run_tagged pos tb₂ (sim_start num den) List.nodup_nil hpos0
    ((hperm.map Prod.fst).nodup_iff.1 htags) (hfr tb₂)
    (fun p hp => hresp p (hperm.mem_iff.2 hp))
  have hmem : ∀ nm, nm ∈ nameTableT [] tb₁ ↔ nm ∈ nameTableT [] tb₂ := by
    intro nm
    rw [m1 nm, m2 nm]
    constructor
    · rintro (h | ⟨p, hp, h⟩)
      · exact Or.inl h
      · exact Or.inr ⟨p, hperm.mem_iff.1 hp, h⟩
    · rintro (h | ⟨p, hp, h⟩)
      · exact Or.inl h
      · exact Or.inr ⟨p, hperm.mem_iff.2 hp, h⟩
  have hT : (nameTableT [] tb₁).Perm (nameTableT [] tb₂) :=
    (List.perm_ext_iff_of_nodup n1 n2).2 hmem
  have hlen := hT.length_eq
  obtain ⟨f1, f2, _⟩ := WeldMesher.submitAll_fields (tb₁.map Prod.snd)
    (WeldMesher.new.setPruneThreshold num den)
  obtain ⟨g1, g2, _⟩ := WeldMesher.submitAll_fields (tb₂.map Prod.snd)
    (WeldMesher.new.setPruneThreshold num den)
  generalize (WeldMesher.new.setPruneThreshold num den).submitAll (tb₁.map Prod.snd) = A
    at s1 p1 t1 f1 f2 ⊢
  generalize (WeldMesher.new.setPruneThreshold num den).submitAll (tb₂.map Prod.snd) = B
    at s2 p2 t2 g1 g2 ⊢
  generalize hT1 : nameTableT [] tb₁ = T₁ at *
  generalize hT2 : nameTableT [] tb₂ = T₂ at *
  have hget : ∀ v, v < A.vertices.length → ∃ nm, T₁[v]? = some nm ∧ nm ∈ T₁
      ∧ retag T₁ T₂ v = T₂.indexOf nm := by
    intro v hv
    have hv' : v < T₁.length := s1.1 ▸ hv
    refine ⟨T₁[v], List.getElem?_eq_getElem hv', List.getElem_mem _, ?_⟩
    unfold retag
    rw [List.getElem?_eq_getElem hv']
  refine ⟨by rw [s1.1, s2.1, hlen], ?_, ?_, ?_, ?_, g1.trans f1.symm, g2.trans f2.symm⟩
  · intro v hv
    obtain ⟨nm, _, h2, h3⟩ := hget v hv
    rw [h3, s1.1, hlen]
    exact List.indexOf_lt_length.2 ((hmem nm).1 h2)
  · intro u v hu hv e
    obtain ⟨nu, a1, a2, a3⟩ := hget u hu
    obtain ⟨nv, b1, b2, b3⟩ := hget v hv
    rw [a3, b3, List.indexOf_inj ((hmem nu).1 a2) ((hmem nv).1 b2)] at e
    subst e
    have hu' : u < T₁.length := s1.1 ▸ hu
    have hv' : v < T₁.length := s1.1 ▸ hv
    rw [List.getElem?_eq_getElem hu'] at a1
    rw [List.getElem?_eq_getElem hv'] at b1
    exact (n1.getElem_inj_iff).1 (Option.some.inj (a1.trans b1.symm))
  · intro v hv
    obtain ⟨nm, h1, h2, h3⟩ := hget v hv
    rw [h3, p1 v nm h1]
    exact p2 _ nm (List.getElem?_indexOf ((hmem nm).1 h2))
  · rw [t1, t2]
    simp only [WeldMesher.new, setPruneThreshold, List.nil_append]
    rw [List.map_flatMap]
    refine (hperm.symm.flatMap_right _).trans (List.Perm.of_eq ?_)
    apply List.flatMap_congr
    intro p hp
    unfold Block.trianglesIn
    rw [List.map_map]
    apply List.map_congr_left
    intro t ht
    have hw := hwf p hp
    have hb := hw.2 t ht
    have key : ∀ a, a < p.2.numVertices →
        retag T₁ T₂ (((p.2.names p.1).map (fun n => T₁.indexOf n)).getD a 0)
          = ((p.2.names p.1).map (fun n => T₂.indexOf n)).getD a 0 := by
      intro a ha
      have hn := names_getElem? hw p.1 a ha
      have hin : p.2.nameOf p.1 a ∈ T₁ :=
        (m1 _).2 (Or.inr ⟨p, hp, List.getElem?_mem hn⟩)
      rw [List.getD_eq_getElem?_getD, List.getD_eq_getElem?_getD, List.getElem?_map,
        List.getElem?_map, hn]
      exact retag_indexOf hin
    simp only [Function.comp, Triangle.map]
    rw [key _ hb.1, key _ hb.2.1, key _ hb.2.2]

end WeldMesher

/-! ### Pruning commutes with re-indexing -/

theorem connected_mono {ts ts' : List Triangle} (h : ∀ t ∈ ts, t ∈ ts') {u v : Nat}
    (huv : Connected ts u v) : Connected ts' u v := by
  refine eqvGen_le ?_ huv
  rintro x y ⟨t, ht, hx, hy⟩
  exact Relation.EqvGen.rel _ _ ⟨t, h t ht, hx, hy⟩

theorem connected_map (τ : Nat → Nat) {ts : List Triangle} {u v : Nat}
    (huv : Connected ts u v) : Connected (ts.map (Triangle.map τ)) (τ u) (τ v) := by
  induction huv with
  | rel x y hxy =>
    obtain ⟨t, ht, hx, hy⟩ := hxy
    refine Relation.EqvGen.rel _ _ ⟨Triangle.map τ t, List.mem_map_of_mem _ ht, ?_, ?_⟩
    · rcases hx with rfl | rfl | rfl
      · exact Or.inl rfl
      · exact Or.inr (Or.inl rfl)
      · exact Or.inr (Or.inr rfl)
    · rcases hy with rfl | rfl | rfl
      · exact Or.inl rfl
      · exact Or.inr (Or.inl rfl)
      · exact Or.inr (Or.inr rfl)
  | refl x => exact Relation.EqvGen.refl _
  | symm x y _ ih => exact Relation.EqvGen.symm _ _ ih
  | trans x y z _ _ ih1 ih2 => exact Relation.EqvGen.trans _ _ _ ih1 ih2

theorem connected_of_map {τ : Nat → Nat} {n : Nat} {ts : List Triangle}
    (hinj : ∀ u v, u < n → v < n → τ u = τ v → u = v)
    (hts : ∀ t ∈ ts, t.1 < n ∧ t.2.1 < n ∧ t.2.2 < n) {x y : Nat}
    (hxy : Connected (ts.map (Triangle.map τ)) x y) :
    x = y ∨ ∃ u v, u < n ∧ v < n ∧ x = τ u ∧ y = τ v ∧ Connected ts u v := by
  induction hxy with
  | rel x y h =>
    obtain ⟨t', ht', hx, hy⟩ := h
    rw [List.mem_map] at ht'
    obtain ⟨t, ht, rfl⟩ := ht'
    have hb := hts t ht
    right
    have corner : ∀ z, (z = (Triangle.map τ t).1 ∨ z = (Triangle.map τ t).2.1
        ∨ z = (Triangle.map τ t).2.2) →
        ∃ c, c < n ∧ z = τ c ∧ (c = t.1 ∨ c = t.2.1 ∨ c = t.2.2) := by
      rintro z (rfl | rfl | rfl)
      · exact ⟨t.1, hb.1, rfl, Or.inl rfl⟩
      · exact ⟨t.2.1, hb.2.1, rfl, Or.inr (Or.inl rfl)⟩
      · exact ⟨t.2.2, hb.2.2, rfl, Or.inr (Or.inr rfl)⟩
    obtain ⟨u, hu, rfl, cu⟩ := corner x hx
    obtain ⟨v, hv, rfl, cv⟩ := corner y hy
    exact ⟨u, v, hu, hv, rfl, rfl, Relation.EqvGen.rel _ _ ⟨t, ht, cu, cv⟩⟩
  | refl x => exact Or.inl rfl
  | symm x y _ ih =>
    rcases ih with rfl | ⟨u, v, hu, hv, rfl, rfl, h⟩
    · exact Or.inl rfl
    · exact Or.inr ⟨v, u, hv, hu, rfl, rfl, Relation.EqvGen.symm _ _ h⟩
  | trans x y z _ _ ih1 ih2 =>
    rcases ih1 with rfl | ⟨u, v, hu, hv, rfl, rfl, h⟩
    · exact ih2
    · rcases ih2 with rfl | ⟨v', w, hv', hw, e, rfl, h'⟩
      · exact Or.inr ⟨u, v, hu, hv, rfl, rfl, h⟩
      · have := hinj v v' hv hv' e
        subst this
        exact Or.inr ⟨u, w, hu, hw, rfl, rfl, Relation.EqvGen.trans _ _ _ h h'⟩

theorem surj_of_inj_lt {τ : Nat → Nat} {n : Nat} (hlt : ∀ v, v < n → τ v < n)
    (hinj : ∀ u v, u < n → v < n → τ u = τ v → u = v) (w : Nat) (hw : w < n) :
    ∃ v, v < n ∧ τ v = w := by
  have himg : (Finset.range n).image τ = Finset.range n := by
    apply Finset.eq_of_subset_of_card_le
    · intro x hx
      rw [Finset.mem_image] at hx
      obtain ⟨v, hv, rfl⟩ := hx
      rw [Finset.mem_range] at hv ⊢
      exact hlt v hv
    · rw [Finset.card_image_of_injOn]
      intro u hu v hv e
      rw [Finset.mem_coe, Finset.mem_range] at hu hv
      exact hinj u v hu hv e
  have : w ∈ (Finset.range n).image τ := by
    rw [himg, Finset.mem_range]
    exact hw
  rw [Finset.mem_image] at this
  obtain ⟨v, hv, e⟩ := this
  exact ⟨v, Finset.mem_range.1 hv, e⟩

namespace WeldMesher

theorem Iso.connected_iff {τ : Nat → Nat} {m₁ m₂ : WeldMesher} (h : Iso τ m₁ m₂)
    (w₁ : m₁.Wf) {u v : Nat} (hu : u < m₁.vertices.length) (hv : v < m₁.vertices.length) :
    Connected m₂.triangles (τ u) (τ v) ↔ Connected m₁.triangles u v := by
  constructor
  · intro hc
    have hc' := connected_mono (fun t ht => h.triangles.mem_iff.1 ht) hc
    rcases connected_of_map h.inj w₁.triangles_lt hc' with e | ⟨u', v', hu', hv', eu, ev, hc''⟩
    · rw [h.inj u v hu hv e]
      exact Relation.EqvGen.refl _
    · rw [h.inj u u' hu hu' eu, h.inj v v' hv hv' ev]
      exact hc''
  · intro hc
    exact connected_mono (fun t ht => h.triangles.mem_iff.2 ht) (connected_map τ hc)

open Classical in
theorem Wf.componentSize_connected {m : WeldMesher} (h : m.Wf) {v : Nat}
    (hv : v < m.vertices.length) :
    m.componentSize v
      = ((Finset.range m.vertices.length).filter (fun u => Connected m.triangles u v)).card := by
  rw [h.componentSize_eq v]
  apply congrArg
  apply Finset.filter_congr
  intro u hu
  rw [Finset.mem_range] at hu
  exact h.roots_iff u v hu hv

theorem Iso.componentSize_transfer {τ : Nat → Nat} {m₁ m₂ : WeldMesher} (h : Iso τ m₁ m₂)
    (w₁ : m₁.Wf) (w₂ : m₂.Wf) {v : Nat} (hv : v < m₁.vertices.length) :
    m₂.componentSize (τ v) = m₁.componentSize v := by
  classical
  rw [w₁.componentSize_connected hv, w₂.componentSize_connected (h.length_eq ▸ h.lt v hv),
    ← h.length_eq]
  symm
  apply Finset.card_bij (fun u _ => τ u)
  · intro u hu
    rw [Finset.mem_filter, Finset.mem_range] at hu ⊢
    exact ⟨h.lt u hu.1, (h.connected_iff w₁ hu.1 hv).2 hu.2⟩
  · intro u hu u' hu' e
    rw [Finset.mem_filter, Finset.mem_range] at hu hu'
    exact h.inj u u' hu.1 hu'.1 e
  · intro x hx
    rw [Finset.mem_filter, Finset.mem_range] at hx
    obtain ⟨u, hu, rfl⟩ := surj_of_inj_lt h.lt h.inj x hx.1
    refine ⟨u, ?_, rfl⟩
    rw [Finset.mem_filter, Finset.mem_range]
    exact ⟨hu, (h.connected_iff w₁ hu hv).1 hx.2⟩

theorem Iso.keep_eq {τ : Nat → Nat} {m₁ m₂ : WeldMesher} (h : Iso τ m₁ m₂)
    (w₁ : m₁.Wf) (w₂ : m₂.Wf) {v : Nat} (hv : v < m₁.vertices.length) :
    m₂.keep (τ v) = m₁.keep v := by
  unfold WeldMesher.keep WeldMesher.thresholdVertices
  rw [h.componentSize_transfer w₁ w₂ hv, h.pruneNum, h.pruneDen, h.length_eq]

end WeldMesher

namespace WeldMesher

theorem nodup_kept (m : WeldMesher) : ((List.range m.vertices.length).filter m.keep).Nodup :=
  (List.nodup_range _).filter _

theorem mem_kept {m : WeldMesher} {v : Nat} :
    v ∈ (List.range m.vertices.length).filter m.keep
      ↔ v < m.vertices.length ∧ m.keep v = true := by
  rw [List.mem_filter, List.mem_range]

theorem kept_getElem? {m : WeldMesher} {j v : Nat}
    (h : ((List.range m.vertices.length).filter m.keep)[j]? = some v) :
    v < m.vertices.length ∧ m.keep v = true ∧ m.newIndex v = j := by
  obtain ⟨h1, h2⟩ := mem_kept.1 (List.getElem?_mem h)
  refine ⟨h1, h2, ?_⟩
  obtain ⟨_, h3, _⟩ := (finalize_vertices m).2 v h1 h2
  obtain ⟨a1, a2⟩ := List.getElem?_eq_some.1 h
  obtain ⟨b1, b2⟩ := List.getElem?_eq_some.1 h3
  exact ((nodup_kept m).getElem_inj_iff).1 (b2.trans a2.symm)

theorem Iso.outputMap_newIndex {τ : Nat → Nat} {m₁ m₂ : WeldMesher} {v : Nat}
    (hv : v < m₁.vertices.length) (hk : m₁.keep v = true) :
    outputMap τ m₁ m₂ (m₁.newIndex v) = m₂.newIndex (τ v) := by
  obtain ⟨_, h3, _⟩ := (finalize_vertices m₁).2 v hv hk
  unfold outputMap
  rw [h3]

theorem Iso.kept_length {τ : Nat → Nat} {m₁ m₂ : WeldMesher} (h : Iso τ m₁ m₂)
    (w₁ : m₁.Wf) (w₂ : m₂.Wf) :
    ((List.range m₂.vertices.length).filter m₂.keep).length
      = ((List.range m₁.vertices.length).filter m₁.keep).length := by
  have hn : (((List.range m₁.vertices.length).filter m₁.keep).map τ).Nodup := by
    apply List.Nodup.map_on _ (nodup_kept m₁)
    intro x hx y hy e
    exact h.inj x y (mem_kept.1 hx).1 (mem_kept.1 hy).1 e
  have hp : ((List.range m₂.vertices.length).filter m₂.keep).Perm
      (((List.range m₁.vertices.length).filter m₁.keep).map τ) := by
    rw [List.perm_ext_iff_of_nodup (nodup_kept m₂) hn]
    intro x
    rw [mem_kept, List.mem_map]
    constructor
    · rintro ⟨h1, h2⟩
      obtain ⟨v, hv, rfl⟩ := surj_of_inj_lt h.lt h.inj x (h.length_eq ▸ h1)
      refine ⟨v, mem_kept.2 ⟨hv, ?_⟩, rfl⟩
      rw [← h.keep_eq w₁ w₂ hv]
      exact h2
    · rintro ⟨v, hv, rfl⟩
      obtain ⟨h1, h2⟩ := mem_kept.1 hv
      exact ⟨h.length_eq ▸ h.lt v h1, by rw [h.keep_eq w₁ w₂ h1]; exact h2⟩
  rw [hp.length_eq, List.length_map]

/-- Pruning and renumbering two corresponding states gives isomorphic meshes. -/
theorem Iso.meshIso {τ : Nat → Nat} {m₁ m₂ : WeldMesher} (h : Iso τ m₁ m₂)
    (w₁ : m₁.Wf) (w₂ : m₂.Wf) : MeshIso m₁.finalize m₂.finalize := by
  obtain ⟨l1, v1⟩ := finalize_vertices m₁
  obtain ⟨l2, v2⟩ := finalize_vertices m₂
  have hlen : m₁.finalize.vertices.length = m₂.finalize.vertices.length := by
    rw [l1, l2, h.kept_length w₁ w₂]
  have hj : ∀ j, j < m₁.finalize.vertices.length →
      ∃ v, ((List.range m₁.vertices.length).filter m₁.keep)[j]? = some v
        ∧ v < m₁.vertices.length ∧ m₁.keep v = true ∧ m₁.newIndex v = j
        ∧ outputMap τ m₁ m₂ j = m₂.newIndex (τ v) := by
    intro j hj
    rw [l1] at hj
    have hget := List.getElem?_eq_getElem hj
    obtain ⟨a1, a2, a3⟩ := kept_getElem? hget
    refine ⟨_, hget, a1, a2, a3, ?_⟩
    unfold outputMap
    rw [hget]
  have hk2 : ∀ v, v < m₁.vertices.length → m₁.keep v = true →
      τ v < m₂.vertices.length ∧ m₂.keep (τ v) = true := by
    intro v hv hk
    exact ⟨h.length_eq ▸ h.lt v hv, by rw [h.keep_eq w₁ w₂ hv]; exact hk⟩
  refine ⟨hlen, outputMap τ m₁ m₂, ?_, ?_, ?_, ?_⟩
  · intro j hjlt
    obtain ⟨v, _, b1, b2, _, b4⟩ := hj j hjlt
    obtain ⟨c1, c2⟩ := hk2 v b1 b2
    rw [b4, hlen]
    exact (v2 _ c1 c2).1
  · intro i j hi hjlt e
    obtain ⟨u, _, a1, a2, a3, a4⟩ := hj i hi
    obtain ⟨v, _, b1, b2, b3, b4⟩ := hj j hjlt
    obtain ⟨c1, c2⟩ := hk2 u a1 a2
    obtain ⟨d1, d2⟩ := hk2 v b1 b2
    rw [a4, b4] at e
    have e1 := (v2 _ c1 c2).2.1
    have e2 := (v2 _ d1 d2).2.1
    rw [e, e2] at e1
    have := h.inj u v a1 b1 (Option.some.inj e1).symm
    rw [← a3, ← b3, this]
  · intro j hjlt
    obtain ⟨v, _, b1, b2, b3, b4⟩ := hj j hjlt
    obtain ⟨c1, c2⟩ := hk2 v b1 b2
    rw [b4, (v2 _ c1 c2).2.2, h.vertices v b1, ← b3]
    exact ((v1 v b1 b2).2.2).symm
  · have hfil : (m₂.triangles.filter (fun t => m₂.keep t.1)).Perm
        ((m₁.triangles.filter (fun t => m₁.keep t.1)).map (Triangle.map τ)) := by
      refine (h.triangles.filter _).trans (List.Perm.of_eq ?_)
      rw [List.filter_map]
      congr 1
      apply List.filter_congr
      intro t ht
      exact h.keep_eq w₁ w₂ (w₁.triangles_lt t ht).1
    have hout : m₂.finalize.triangles.Perm
        (m₁.finalize.triangles.map (Triangle.map (outputMap τ m₁ m₂))) := by
      show ((m₂.triangles.filter (fun t => m₂.keep t.1)).map (Triangle.map m₂.newIndex)).Perm
        (((m₁.triangles.filter (fun t => m₁.keep t.1)).map (Triangle.map m₁.newIndex)).map
          (Triangle.map (outputMap τ m₁ m₂)))
      refine (hfil.map _).trans (List.Perm.of_eq ?_)
      rw [List.map_map, List.map_map]
      apply List.map_congr_left
      intro t ht
      obtain ⟨hm, hk⟩ := List.mem_filter.1 ht
      have hb := w₁.triangles_lt t hm
      obtain ⟨k1, k2⟩ := w₁.keep_triangle hm
      rw [hk] at k1 k2
      simp only [Function.comp, Triangle.map]
      rw [Iso.outputMap_newIndex hb.1 hk, Iso.outputMap_newIndex hb.2.1 k1,
        Iso.outputMap_newIndex hb.2.2 k2]
    have := (hout.map Triangle.canonical).symm
    rw [List.map_map] at this
    exact this

end WeldMesher

/-! ### Order of submission: the claim -/

theorem exists_perm_map_snd {α β : Type} {l₁ l₂ : List β} (h : l₁.Perm l₂) :
    ∀ l : List (α × β), l.map Prod.snd = l₁ →
      ∃ l' : List (α × β), l'.Perm l ∧ l'.map Prod.snd = l₂ := by
  induction h with
  | nil =>
    intro l hl
    exact ⟨l, List.Perm.refl _, hl⟩
  | cons x _ ih =>
    intro l hl
    cases l with
    | nil => exact absurd hl (by simp)
    | cons p l0 =>
      rw [List.map_cons, List.cons.injEq] at hl
      obtain ⟨l', h1, h2⟩ := ih l0 hl.2
      exact ⟨p :: l', h1.cons p, by rw [List.map_cons, h2, hl.1]⟩
  | swap x y l =>
    intro l0 hl
    cases l0 with
    | nil => exact absurd hl (by simp)
    | cons p l1 =>
      cases l1 with
      | nil => exact absurd hl (by simp)
      | cons q l2 =>
        simp only [List.map_cons, List.cons.injEq] at hl
        refine ⟨q :: p :: l2, List.Perm.swap _ _ _, ?_⟩
        simp only [List.map_cons, hl.1, hl.2.1, hl.2.2]
  | trans _ _ ih1 ih2 =>
    intro l hl
    obtain ⟨l', h1, h2⟩ := ih1 l hl
    obtain ⟨l'', h3, h4⟩ := ih2 l' h2
    exact ⟨l'', h3.trans h1, h4⟩

theorem lookup_of_mem_of_nodup {β : Type} {tb : List (Nat × β)} (hn : (tb.map Prod.fst).Nodup)
    {t : Nat} {b : β} (h : (t, b) ∈ tb) : tb.lookup t = some b := by
  induction tb with
  | nil => exact absurd h (by simp)
  | cons p rest ih =>
    obtain ⟨t', b'⟩ := p
    rw [List.map_cons, List.nodup_cons] at hn
    rcases List.mem_cons.1 h with e | hm
    · rw [Prod.mk.injEq] at e
      obtain ⟨rfl, rfl⟩ := e
      exact List.lookup_cons_self
    · have hne : t ≠ t' := by
        rintro rfl
        exact hn.1 (List.mem_map.2 ⟨(t, b), hm, rfl⟩)
      rw [List.lookup_cons]
      have : (t == t') = false := by simpa using hne
      rw [this]
      exact ih hn.2 hm

theorem respects_positionOf {tb : List (Nat × Block)} (hn : (tb.map Prod.fst).Nodup)
    (hk : KeysConsistent (tb.map Prod.snd)) : ∀ p ∈ tb, p.2.Respects (positionOf tb) p.1 := by
  intro p hp
  obtain ⟨t, b⟩ := p
  constructor
  · intro a v hv
    simp only [positionOf]
    rw [lookup_of_mem_of_nodup hn hp]
    simp [hv]
  · intro q hq
    simp only [positionOf]
    have hin : q ∈ tb.flatMap (fun p => p.2.externalVertices.zip p.2.externalKeys) :=
      List.mem_flatMap.2 ⟨(t, b), hp, hq⟩
    cases hf : (tb.flatMap (fun p => p.2.externalVertices.zip p.2.externalKeys)).find?
        (fun q' => q'.2 = q.2) with
    | none =>
      rw [List.find?_eq_none] at hf
      exact absurd (hf q hin) (by simp)
    | some q' =>
      have h1 := List.find?_some hf
      have h2 := List.mem_of_find?_eq_some hf
      rw [List.mem_flatMap] at h2
      obtain ⟨p', hp', hq'⟩ := h2
      simp only [Option.map_some', Option.getD_some]
      exact hk p'.2 (List.mem_map.2 ⟨p', hp', rfl⟩) b (List.mem_map.2 ⟨(t, b), hp, rfl⟩)
        q' hq' q hq (by simpa using h1)

namespace SplatTreeCL

/-- Counterexample for C11: `MAX_SPLATS` is not `2^31 / 16 = 134217728`; with 134217728 splats
the documented precondition of the constructor fails. -/
theorem max_splats_ne_two_pow_31_div_16 :
    (2 ^ 31 / 16 : Nat) = 134217728 ∧ MAX_SPLATS ≠ 2 ^ 31 / 16
      ∧ ¬ validLimits MAX_LEVELS (2 ^ 31 / 16) := by
  decide

/-- C11, amended: `MAX_LEVELS = 10` and `MAX_SPLATS = (2^31 - 1) / 16 = 134217727`, one less than
`2^31 / 16`; these are the bounds of the precondition of the constructor and of
`resourceUsage`. -/
theorem limits_values :
    MAX_LEVELS = 10 ∧ MAX_SPLATS = (2 ^ 31 - 1) / 16 ∧ MAX_SPLATS = 134217727
      ∧ MAX_SPLATS + 1 = 2 ^ 31 / 16
      ∧ ∀ maxLevels maxSplats : Nat, validLimits maxLevels maxSplats
          ↔ (1 ≤ maxLevels ∧ maxLevels ≤ 10 ∧ 1 ≤ maxSplats ∧ maxSplats ≤ 134217727) := by
  refine ⟨rfl, by decide, by decide, by decide, fun l s => ?_⟩
  have h : MAX_SPLATS = 134217727 := by decide
  simp only [validLimits, MAX_LEVELS, h]

/-- C20: for `1 ≤ maxSplats ≤ MAX_SPLATS` a command table with 8 entries and 8 jumps per splat
has `16 * maxSplats ≤ 2^31 - 1` slots, every slot index and its negation are values of
`command_type` (`int32_t`), and `MAX_SPLATS` is the largest splat count whose table has at most
`2^31 - 1` slots. -/
theorem max_splats_leaves_room (maxSplats : Nat) (h1 : 1 ≤ maxSplats)
    (h2 : maxSplats ≤ MAX_SPLATS) :
    commandSlots maxSplats = 16 * maxSplats
      ∧ commandSlots maxSplats ≤ 2 ^ 31 - 1
      ∧ (∀ i : Nat, i < commandSlots maxSplats →
          fitsCommandType (i : Int) ∧ fitsCommandType (-(i : Int)))
      ∧ (∀ n : Nat, commandSlots n ≤ 2 ^ 31 - 1 → n ≤ MAX_SPLATS)
      ∧ ¬ commandSlots (MAX_SPLATS + 1) ≤ 2 ^ 31 - 1 := by
  have h : MAX_SPLATS = 134217727 := by decide
  have _ := h1
  rw [h] at h2 ⊢
  simp only [commandSlots, fitsCommandType]
  norm_num
  refine ⟨by omega, by omega, fun i hi => by omega, fun n hn => by omega⟩

/-- Witness for C20: `maxSplats = MAX_SPLATS = 134217727` gives 2147483632 slots. -/
theorem max_splats_leaves_room_witness :
    (1 ≤ 134217727 ∧ 134217727 ≤ MAX_SPLATS) ∧ commandSlots 134217727 = 2147483632
      ∧ commandSlots 134217727 ≤ 2 ^ 31 - 1 :=
  ⟨by decide, by decide,
    (max_splats_leaves_room 134217727 (by decide) (by decide)).2.1⟩

end SplatTreeCL

/-! ### Rounding the extents -/

namespace Mlsgpu

theorem wgs_cases (i : Fin 3) : wgs i = 16 ∨ wgs i = 1 := by
  fin_cases i <;> simp [wgs, vec3]

/-- The arithmetic of the rounding step at a work-group size of 16 or 1. -/
theorem roundDims_spec (w lo hi : Int) (hw : w = 16 ∨ w = 1) (hlo : fitsInt lo)
    (hle : lo ≤ hi) (hhi : hi ≤ 2147483520) :
    roundDims w lo hi = (hi - lo + w) / w * w
      ∧ roundUpper lo (roundDims w lo hi) = lo + roundDims w lo hi - 1 := by
  unfold fitsInt at hlo
  unfold roundDims roundUpper toUInt32 toSizeT toInt32
  rcases hw with rfl | rfl <;> omega

theorem roundGrid_axis (g : Grid) (i : Fin 3) :
    (roundGrid g).1 i = roundDims (wgs i) (g.getExtent i).1 (g.getExtent i).2
      ∧ (roundGrid g).2.getExtent i
          = ((g.getExtent i).1,
              roundUpper (g.getExtent i).1
                (roundDims (wgs i) (g.getExtent i).1 (g.getExtent i).2)) := by
  fin_cases i <;> simp [roundGrid, roundAxis, Grid.getExtent, Grid.setExtent, vec3]

/-- C12: in `run`, for every axis whose fitted extent `[lo, hi]` has `lo ≤ hi`, the rounding
loop leaves the grid with the extent `[lo, lo + dims[i] - 1]`, and `dims[i]` is a positive
multiple of `wgs[i]`. The fitted extent is a pair of `int`s whose upper end was converted from a
`float`, so it is at most `2^31 - 128`, the largest `float` below `2^31`. -/
theorem round_extent_multiple (g : Grid) (i : Fin 3) (hlo : fitsInt (g.getExtent i).1)
    (hle : (g.getExtent i).1 ≤ (g.getExtent i).2) (hhi : (g.getExtent i).2 ≤ 2147483520) :
    (roundGrid g).2.getExtent i
        = ((g.getExtent i).1, (g.getExtent i).1 + (roundGrid g).1 i - 1)
      ∧ 0 < (roundGrid g).1 i ∧ wgs i ∣ (roundGrid g).1 i := by
  obtain ⟨hd, he⟩ := roundGrid_axis g i
  obtain ⟨h1, h2⟩ := roundDims_spec (wgs i) _ _ (wgs_cases i) hlo hle hhi
  rw [he, hd, h2, h1]
  refine ⟨rfl, ?_, Dvd.intro_left _ rfl⟩
  rcases wgs_cases i with h | h <;> rw [h] <;> omega

/-- C19: in `run`, for every axis whose fitted extent `[lo, hi]` has `lo ≤ hi`, the rounding
keeps the lower extent, does not lower the upper extent, and makes `dims[i]` the least multiple
of `wgs[i]` that is at least `hi - lo + 1`; fewer than `wgs[i]` vertices are added, and the z
axis, whose `wgs` is 1, keeps its extent. The upper end of a fitted extent was converted from a
`float`, so it is at most `2^31 - 128`. -/
theorem round_extent_upward (g : Grid) (i : Fin 3) (hlo : fitsInt (g.getExtent i).1)
    (hle : (g.getExtent i).1 ≤ (g.getExtent i).2) (hhi : (g.getExtent i).2 ≤ 2147483520) :
    ((roundGrid g).2.getExtent i).1 = (g.getExtent i).1
      ∧ (g.getExtent i).2 ≤ ((roundGrid g).2.getExtent i).2
      ∧ wgs i ∣ (roundGrid g).1 i
      ∧ (g.getExtent i).2 - (g.getExtent i).1 + 1 ≤ (roundGrid g).1 i
      ∧ (∀ m : Int, wgs i ∣ m → (g.getExtent i).2 - (g.getExtent i).1 + 1 ≤ m →
          (roundGrid g).1 i ≤ m)
      ∧ (roundGrid g).1 i - ((g.getExtent i).2 - (g.getExtent i).1 + 1) < wgs i
      ∧ ((roundGrid g).2.getExtent i).2 - (g.getExtent i).2 < wgs i
      ∧ (i = 2 → (roundGrid g).2.getExtent i = g.getExtent i) := by
  obtain ⟨hd, he⟩ := roundGrid_axis g i
  obtain ⟨h1, h2⟩ := roundDims_spec (wgs i) _ _ (wgs_cases i) hlo hle hhi
  rw [he, hd, h2, h1]
  have hi2 : i = 2 → wgs i = 1 := by rintro rfl; rfl
  have hlast : i = 2 → ((g.getExtent i).1,
      (g.getExtent i).1 + ((g.getExtent i).2 - (g.getExtent i).1 + wgs i) / wgs i * wgs i - 1)
        = g.getExtent i := by
    intro h
    rw [hi2 h]
    refine Prod.ext rfl ?_
    simp only
    omega
  refine ⟨rfl, ?_, Dvd.intro_left _ rfl, ?_, ?_, ?_, ?_, hlast⟩
  all_goals generalize (g.getExtent i).1 = lo at *
  all_goals generalize (g.getExtent i).2 = hi at *
  · rcases wgs_cases i with h | h <;> rw [h] <;> simp only <;> omega
  · rcases wgs_cases i with h | h <;> rw [h] <;> omega
  · rintro m ⟨k, rfl⟩ hm
    rcases wgs_cases i with h | h <;> rw [h] at hm ⊢ <;> omega
  · rcases wgs_cases i with h | h <;> rw [h] <;> omega
  · rcases wgs_cases i with h | h <;> rw [h] <;> simp only <;> omega

/-- Witness for C12: on the y axis of `sampleGrid` the extent `[-3, 13]` (17 vertices) becomes
`[-3, 28]` with `dims[1] = 32`. -/
theorem round_extent_multiple_witness :
    (roundGrid sampleGrid).2.getExtent 1 = (-3, 28) ∧ (roundGrid sampleGrid).1 1 = 32
      ∧ 0 < (roundGrid sampleGrid).1 1 ∧ wgs 1 ∣ (roundGrid sampleGrid).1 1 :=
  ⟨by decide, by decide,
    (round_extent_multiple sampleGrid 1 (by decide) (by decide) (by decide)).2⟩

/-- Witness for C19: on the y axis of `sampleGrid` the 17 vertices of `[-3, 13]` become 32, the
upper extent moves from 13 to 28 (15 vertices added), and on the z axis the extent `[-2, 5]`
stays as it is. -/
theorem round_extent_upward_witness :
    ((roundGrid sampleGrid).1 1 = 32 ∧ (roundGrid sampleGrid).2.getExtent 1 = (-3, 28)
        ∧ (roundGrid sampleGrid).1 1 - ((sampleGrid.getExtent 1).2
            - (sampleGrid.getExtent 1).1 + 1) < wgs 1)
      ∧ (roundGrid sampleGrid).2.getExtent 2 = sampleGrid.getExtent 2 :=
  ⟨⟨by decide, by decide,
      (round_extent_upward sampleGrid 1 (by decide) (by decide) (by decide)).2.2.2.2.2.1⟩,
    (round_extent_upward sampleGrid 2 (by decide) (by decide) (by decide)).2.2.2.2.2.2.2 rfl⟩

/-- The hypothesis on the upper extent is needed: from the extent `[1, 2^31 - 1]`, whose upper
end no conversion from `float` yields, the loop computes `dims = 2^31`, and the upper extent
`1 + 2^31 - 1` handed to `setExtent` is not an `int`. -/
theorem roundUpper_beyond_float :
    roundDims 16 1 2147483647 = 2147483648
      ∧ roundUpper 1 (roundDims 16 1 2147483647) = -2147483648 := by
  decide

end Mlsgpu

/-! ### Binary floating point -/

namespace Flt

theorem bitLengthAux_spec (fuel n : Nat) (h : n ≤ fuel) :
    n < 2 ^ bitLengthAux fuel n ∧ (n ≠ 0 → 2 ^ (bitLengthAux fuel n - 1) ≤ n) := by
  induction fuel generalizing n with
  | zero =>
    have : n = 0 := by omega
    subst this
    simp [bitLengthAux]
  | succ fuel ih =>
    unfold bitLengthAux
    by_cases hn : n = 0
    · subst hn
      simp
    · rw [if_neg hn]
      obtain ⟨h1, h2⟩ := ih (n / 2) (by omega)
      refine ⟨?_, fun _ => ?_⟩
      · rw [pow_succ]
        omega
      · rw [Nat.add_sub_cancel]
        by_cases h0 : n / 2 = 0
        · have : bitLengthAux fuel (n / 2) = 0 := by
            rw [h0]
            cases fuel <;> simp [bitLengthAux]
          rw [this]
          simp only [pow_zero]
          omega
        · have h3 := h2 h0
          have hpos : 0 < bitLengthAux fuel (n / 2) := by
            by_contra hc
            have : bitLengthAux fuel (n / 2) = 0 := by omega
            rw [this] at h1
            simp only [pow_zero] at h1
            omega
          have : 2 ^ bitLengthAux fuel (n / 2)
              = 2 * 2 ^ (bitLengthAux fuel (n / 2) - 1) := by
            rw [← pow_succ']
            congr 1
            omega
          rw [this]
          omega

theorem lt_two_pow_bitLength (n : Nat) : n < 2 ^ bitLength n :=
  (bitLengthAux_spec n n (le_refl n)).1

theorem two_pow_bitLength_le (n : Nat) (h : n ≠ 0) : 2 ^ (bitLength n - 1) ≤ n :=
  (bitLengthAux_spec n n (le_refl n)).2 h

/-- The multiplier `roundRatio` returns is the quotient by the grain or its successor, the
latter only if the division leaves a remainder; it is at most `2^p`, and at least `2^(p-1)`
when the grain is coarser than one unit. -/
theorem roundRatio_spec (p N D : Nat) (hp : 0 < p) (hD : 0 < D) :
    N / (D * 2 ^ (roundRatio p N D).2) ≤ (roundRatio p N D).1
      ∧ ((roundRatio p N D).1 = N / (D * 2 ^ (roundRatio p N D).2)
        ∨ ((roundRatio p N D).1 = N / (D * 2 ^ (roundRatio p N D).2) + 1
            ∧ N % (D * 2 ^ (roundRatio p N D).2) ≠ 0))
      ∧ (roundRatio p N D).1 ≤ 2 ^ p
      ∧ (0 < (roundRatio p N D).2 → 2 ^ (p - 1) ≤ N / (D * 2 ^ (roundRatio p N D).2))
      ∧ (0 < (roundRatio p N D).2 → 2 ^ (p - 1 + (roundRatio p N D).2) ≤ N / D) := by
  have hs : (roundRatio p N D).2 = bitLength (N / D) - p := rfl
  generalize hsv : (roundRatio p N D).2 = s at hs ⊢
  have hG : 0 < D * 2 ^ s := Nat.mul_pos hD (Nat.two_pow_pos s)
  have hq1 : (roundRatio p N D).1
      = if D * 2 ^ s < 2 * (N % (D * 2 ^ s))
          ∨ (D * 2 ^ s = 2 * (N % (D * 2 ^ s)) ∧ N / (D * 2 ^ s) % 2 = 1)
        then N / (D * 2 ^ s) + 1 else N / (D * 2 ^ s) := by
    rw [hs]
    rfl
  have hdiv : N / (D * 2 ^ s) = N / D / 2 ^ s := (Nat.div_div_eq_div_mul N D (2 ^ s)).symm
  have hlt : N / D < 2 ^ bitLength (N / D) := lt_two_pow_bitLength _
  have hqlt : N / (D * 2 ^ s) < 2 ^ p := by
    rw [hdiv, Nat.div_lt_iff_lt_mul (Nat.two_pow_pos s), ← pow_add]
    refine lt_of_lt_of_le hlt (Nat.pow_le_pow_right (by decide) ?_)
    omega
  have hlow : 0 < s → 2 ^ (p - 1 + s) ≤ N / D := by
    intro h0
    have hne : N / D ≠ 0 := by
      intro h
      rw [h] at hs
      have : bitLength 0 = 0 := rfl
      omega
    have := two_pow_bitLength_le (N / D) hne
    refine le_trans (Nat.pow_le_pow_right (by decide) ?_) this
    omega
  refine ⟨?_, ?_, ?_, ?_, hlow⟩
  · rw [hq1]
    split_ifs <;> omega
  · rw [hq1]
    split_ifs with h
    · right
      refine ⟨rfl, ?_⟩
      rcases h with h | ⟨h, -⟩ <;> omega
    · left; rfl
  · rw [hq1]
    split_ifs <;> omega
  · intro h0
    rw [hdiv, Nat.le_div_iff_mul_le (Nat.two_pow_pos s), ← pow_add]
    exact hlow h0

/-- Rounding an integer does not pass a representable value above it. -/
theorem roundRatio_le_of_le (p N m t : Nat) (hp : 0 < p) (hm : m < 2 ^ p)
    (h : N ≤ m * 2 ^ t) :
    (roundRatio p N 1).1 * 2 ^ (roundRatio p N 1).2 ≤ m * 2 ^ t := by
  obtain ⟨-, h2, -, -, h5⟩ := roundRatio_spec p N 1 hp Nat.one_pos
  generalize (roundRatio p N 1).2 = s at h2 h5 ⊢
  generalize (roundRatio p N 1).1 = q' at h2 ⊢
  rw [Nat.one_mul] at h2
  rw [Nat.div_one] at h5
  rcases h2 with h2 | ⟨h2, hr⟩
  · rw [h2]
    exact le_trans (Nat.div_mul_le_self N (2 ^ s)) h
  · have hs : 0 < s := by
      by_contra hc
      have : s = 0 := by omega
      subst this
      exact hr (by rw [pow_zero]; exact Nat.mod_one N)
    have hlt : 2 ^ (p - 1 + s) < 2 ^ (p + t) := by
      calc 2 ^ (p - 1 + s) ≤ N := h5 hs
        _ ≤ m * 2 ^ t := h
        _ < 2 ^ p * 2 ^ t := Nat.mul_lt_mul_of_pos_right hm (Nat.two_pow_pos t)
        _ = 2 ^ (p + t) := (pow_add 2 p t).symm
    have hst : s ≤ t := by
      have := (Nat.pow_lt_pow_iff_right (by decide : 1 < 2)).1 hlt
      omega
    obtain ⟨d, rfl⟩ : ∃ d, t = s + d := ⟨t - s, by omega⟩
    have hk : m * 2 ^ (s + d) = (m * 2 ^ d) * 2 ^ s := by
      rw [pow_add]; ring
    rw [hk] at h ⊢
    rw [h2]
    apply Nat.mul_le_mul_right
    by_contra hc
    have hle : m * 2 ^ d ≤ N / 2 ^ s := by omega
    have h3 : m * 2 ^ d * 2 ^ s ≤ N / 2 ^ s * 2 ^ s := Nat.mul_le_mul_right _ hle
    have h4 := Nat.div_add_mod N (2 ^ s)
    have h6 : N / 2 ^ s * 2 ^ s = 2 ^ s * (N / 2 ^ s) := Nat.mul_comm _ _
    have h7 : 0 < N % 2 ^ s := Nat.pos_of_ne_zero hr
    omega

/-- Rounding an integer does not pass a representable value below it. -/
theorem le_roundRatio_of_le (p N m t : Nat) (hp : 0 < p) (hm : m < 2 ^ p)
    (h : m * 2 ^ t ≤ N) :
    m * 2 ^ t ≤ (roundRatio p N 1).1 * 2 ^ (roundRatio p N 1).2 := by
  obtain ⟨h1, -, -, h4, -⟩ := roundRatio_spec p N 1 hp Nat.one_pos
  generalize (roundRatio p N 1).2 = s at h1 h4 ⊢
  generalize (roundRatio p N 1).1 = q' at h1 ⊢
  rw [Nat.one_mul] at h1 h4
  refine le_trans ?_ (Nat.mul_le_mul_right _ h1)
  by_cases hs : s = 0
  · subst hs
    simpa using h
  · have h4 := h4 (Nat.pos_of_ne_zero hs)
    by_cases hst : s ≤ t
    · obtain ⟨d, rfl⟩ : ∃ d, t = s + d := ⟨t - s, by omega⟩
      have hk : m * 2 ^ (s + d) = (m * 2 ^ d) * 2 ^ s := by
        rw [pow_add]; ring
      rw [hk] at h ⊢
      exact Nat.mul_le_mul_right _ ((Nat.le_div_iff_mul_le (Nat.two_pow_pos s)).2 h)
    · have h5 : m * 2 ^ t ≤ 2 ^ (p - 1) * 2 ^ s := by
        calc m * 2 ^ t ≤ 2 ^ p * 2 ^ t := Nat.mul_le_mul_right _ (le_of_lt hm)
          _ = 2 ^ (p + t) := (pow_add 2 p t).symm
          _ ≤ 2 ^ (p - 1 + s) := Nat.pow_le_pow_right (by decide) (by omega)
          _ = 2 ^ (p - 1) * 2 ^ s := pow_add 2 (p - 1) s
      exact le_trans h5 (Nat.mul_le_mul_right _ h4)

/-- What `round` returns: a finite value that stands for the rounded ratio, or an infinite one
when the rounded ratio is beyond every finite value. -/
theorem round_cases (f : FloatFormat) (hp : 0 < f.precision) (negative : Bool) (N D : Nat)
    (hD : 0 < D) :
    (∃ m e, round f negative N D = .finite negative m e
        ∧ m.1 * 2 ^ e.1
            = (roundRatio f.precision N D).1 * 2 ^ (roundRatio f.precision N D).2)
      ∨ (round f negative N D = .infinite negative
          ∧ ∀ (m : Fin (2 ^ f.precision)) (e : Fin f.shifts),
              m.1 * 2 ^ e.1
                < (roundRatio f.precision N D).1 * 2 ^ (roundRatio f.precision N D).2) := by
  obtain ⟨h1, -, h3, h4, -⟩ := roundRatio_spec f.precision N D hp hD
  unfold round
  dsimp only
  generalize (roundRatio f.precision N D).2 = s at h1 h3 h4 ⊢
  generalize (roundRatio f.precision N D).1 = q' at h1 h3 ⊢
  have hpos : 0 < 2 ^ (f.precision - 1) := Nat.two_pow_pos _
  have hhalf : 2 ^ f.precision = 2 * 2 ^ (f.precision - 1) := by
    rw [← pow_succ']
    congr 1
    omega
  by_cases hq : q' = 2 ^ f.precision
  · rw [if_pos hq]
    have hm : 2 ^ (f.precision - 1) < 2 ^ f.precision := by omega
    unfold pack
    by_cases he : s + 1 < f.shifts
    · left
      rw [dif_pos he, dif_pos hm]
      refine ⟨_, _, rfl, ?_⟩
      simp only
      rw [hq, hhalf, pow_succ]
      ring
    · right
      rw [dif_neg he]
      refine ⟨rfl, fun m e => ?_⟩
      rw [hq]
      have he2 := e.2
      calc m.1 * 2 ^ e.1 < 2 ^ f.precision * 2 ^ e.1 :=
            Nat.mul_lt_mul_of_pos_right m.2 (Nat.two_pow_pos _)
        _ ≤ 2 ^ f.precision * 2 ^ s :=
            Nat.mul_le_mul_left _ (Nat.pow_le_pow_right (by decide) (by omega))
  · rw [if_neg hq]
    have hm : q' < 2 ^ f.precision := lt_of_le_of_ne h3 hq
    unfold pack
    by_cases he : s < f.shifts
    · left
      rw [dif_pos he, dif_pos hm]
      exact ⟨_, _, rfl, rfl⟩
    · right
      rw [dif_neg he]
      refine ⟨rfl, fun m e => ?_⟩
      have he2 := e.2
      have hs : 0 < s := by omega
      have h5 := le_trans (h4 hs) h1
      calc m.1 * 2 ^ e.1 < 2 ^ f.precision * 2 ^ e.1 :=
            Nat.mul_lt_mul_of_pos_right m.2 (Nat.two_pow_pos _)
        _ = 2 ^ (f.precision - 1) * 2 ^ (e.1 + 1) := by
            rw [hhalf, pow_succ]; ring
        _ ≤ 2 ^ (f.precision - 1) * 2 ^ s :=
            Nat.mul_le_mul_left _ (Nat.pow_le_pow_right (by decide) (by omega))
        _ ≤ q' * 2 ^ s := Nat.mul_le_mul_right _ h5

theorem code_finite_false {f : FloatFormat} (m : Fin (2 ^ f.precision)) (e : Fin f.shifts) :
    (Flt.finite false m e).code = ((m.1 * 2 ^ e.1 : Nat) : Int) := rfl

theorem code_finite_true {f : FloatFormat} (m : Fin (2 ^ f.precision)) (e : Fin f.shifts) :
    (Flt.finite true m e).code = -((m.1 * 2 ^ e.1 : Nat) : Int) := rfl

/-- The absolute value of a finite number is `mantissa * 2^shift`. -/
theorem natAbs_code {f : FloatFormat} (s : Bool) (m : Fin (2 ^ f.precision))
    (e : Fin f.shifts) : (Flt.finite s m e).code.natAbs = m.1 * 2 ^ e.1 := by
  cases s
  · rw [code_finite_false, Int.natAbs_ofNat]
  · rw [code_finite_true, Int.natAbs_neg, Int.natAbs_ofNat]

/-- Rounding an integer is monotone with respect to the finite values: the rounded value of
`n` is not above a finite value that is at least `n`, and not below one that is at most `n`.
The integer is given by its absolute value and its sign. -/
theorem round_int_le (f : FloatFormat) (hp : 0 < f.precision) (negative : Bool) (N : Nat)
    (z : Flt f) (hz : z.IsFinite) :
    ((if negative then -(N : Int) else (N : Int)) ≤ z.code → le (round f negative N 1) z = true)
      ∧ (z.code ≤ (if negative then -(N : Int) else (N : Int)) →
          le z (round f negative N 1) = true) := by
  cases z with
  | infinite t => exact absurd hz (by simp [IsFinite])
  | nan => exact absurd hz (by simp [IsFinite])
  | finite t n k =>
    have hA1 := roundRatio_le_of_le f.precision N n.1 k.1 hp n.2
    have hA2 := le_roundRatio_of_le f.precision N n.1 k.1 hp n.2
    have habs := natAbs_code t n k
    rcases round_cases f hp negative N 1 Nat.one_pos with ⟨m, e, hr, hv⟩ | ⟨hr, hbig⟩
    · rw [hr]
      rw [← hv] at hA1 hA2
      unfold le
      simp only [decide_eq_true_eq]
      cases negative <;> cases t <;>
        simp only [code_finite_false, code_finite_true, if_true, if_false, Bool.false_eq_true]
          <;> constructor <;> intro h
      · exact_mod_cast hA1 (by exact_mod_cast h)
      · exact_mod_cast hA2 (by exact_mod_cast h)
      · have h1 : (0 : Int) ≤ ((N : Nat) : Int) := Int.ofNat_nonneg _
        have h2 : (0 : Int) ≤ ((n.1 * 2 ^ k.1 : Nat) : Int) := Int.ofNat_nonneg _
        have h3 : N = 0 := by omega
        have h4 : n.1 * 2 ^ k.1 = 0 := by omega
        have := hA1 (by omega)
        omega
      · have h2 : (0 : Int) ≤ ((m.1 * 2 ^ e.1 : Nat) : Int) := Int.ofNat_nonneg _
        have h3 : (0 : Int) ≤ ((n.1 * 2 ^ k.1 : Nat) : Int) := Int.ofNat_nonneg _
        omega
      · have h2 : (0 : Int) ≤ ((m.1 * 2 ^ e.1 : Nat) : Int) := Int.ofNat_nonneg _
        have h3 : (0 : Int) ≤ ((n.1 * 2 ^ k.1 : Nat) : Int) := Int.ofNat_nonneg _
        omega
      · have h1 : (0 : Int) ≤ ((N : Nat) : Int) := Int.ofNat_nonneg _
        have h2 : (0 : Int) ≤ ((n.1 * 2 ^ k.1 : Nat) : Int) := Int.ofNat_nonneg _
        have h3 : N = 0 := by omega
        have h4 : n.1 * 2 ^ k.1 = 0 := by omega
        have := hA1 (by omega)
        omega
      · have := hA2 (by omega)
        omega
      · have := hA1 (by omega)
        omega
    · rw [hr]
      have hb := hbig n k
      unfold le
      cases negative <;> cases t <;>
        simp only [code_finite_false, code_finite_true, if_true, if_false, Bool.false_eq_true,
          Bool.not_false, Bool.not_true, implies_true, and_true, true_and]
      · intro h
        have := hA1 (by exact_mod_cast h)
        omega
      · intro h
        have h1 : (0 : Int) ≤ ((N : Nat) : Int) := Int.ofNat_nonneg _
        have h2 : (0 : Int) ≤ ((n.1 * 2 ^ k.1 : Nat) : Int) := Int.ofNat_nonneg _
        have := hA1 (by omega)
        omega
      · intro h
        have h1 : (0 : Int) ≤ ((N : Nat) : Int) := Int.ofNat_nonneg _
        have h2 : (0 : Int) ≤ ((n.1 * 2 ^ k.1 : Nat) : Int) := Int.ofNat_nonneg _
        have := hA1 (by omega)
        omega
      · intro h
        have := hA1 (by omega)
        omega

theorem code_neg {f : FloatFormat} (x : Flt f) : (neg x).code = -x.code := by
  cases x with
  | finite s m e => cases s <;> simp [neg, code]
  | infinite s => simp [neg, code]
  | nan => simp [neg, code]

theorem isFinite_neg {f : FloatFormat} {x : Flt f} (h : x.IsFinite) : (neg x).IsFinite := by
  cases x <;> simp_all [neg, IsFinite]

/-- The sum of two finite values is monotone with respect to the finite values: it is not
above a finite value that is at least the exact sum, nor below one that is at most it. -/
theorem add_le (f : FloatFormat) (hp : 0 < f.precision) (x y z : Flt f) (hx : x.IsFinite)
    (hy : y.IsFinite) (hz : z.IsFinite) :
    (x.code + y.code ≤ z.code → le (add x y) z = true)
      ∧ (z.code ≤ x.code + y.code → le z (add x y) = true) := by
  cases x with
  | infinite t => exact absurd hx (by simp [IsFinite])
  | nan => exact absurd hx (by simp [IsFinite])
  | finite s m e =>
    cases y with
    | infinite t => exact absurd hy (by simp [IsFinite])
    | nan => exact absurd hy (by simp [IsFinite])
    | finite t n k =>
      unfold add
      dsimp only
      generalize (finite s m e).code + (finite t n k).code = sum
      by_cases h0 : sum = 0
      · rw [if_pos h0, h0]
        have := round_int_le f hp (s && t) 0 z hz
        simpa using this
      · rw [if_neg h0]
        have := round_int_le f hp (decide (sum < 0)) sum.natAbs z hz
        have hs : (if decide (sum < 0) = true then -(sum.natAbs : Int) else (sum.natAbs : Int))
            = sum := by
          by_cases hneg : sum < 0
          · simp only [hneg, decide_True, if_true]
            omega
          · simp only [hneg, decide_False, Bool.false_eq_true, if_false]
            omega
        rw [hs] at this
        exact this

/-- The difference of two finite values, likewise. -/
theorem sub_le (f : FloatFormat) (hp : 0 < f.precision) (x y z : Flt f) (hx : x.IsFinite)
    (hy : y.IsFinite) (hz : z.IsFinite) :
    (x.code - y.code ≤ z.code → le (sub x y) z = true)
      ∧ (z.code ≤ x.code - y.code → le z (sub x y) = true) := by
  have := add_le f hp x (neg y) z hx (isFinite_neg hy) hz
  rw [code_neg] at this
  exact this

theorem le_refl_of_isFinite {f : FloatFormat} {x : Flt f} (h : x.IsFinite) : le x x = true := by
  cases x <;> simp_all [le, IsFinite]

theorem le_trans {f : FloatFormat} {x y z : Flt f} (h1 : le x y = true) (h2 : le y z = true) :
    le x z = true := by
  rcases x with ⟨s1, m1, e1⟩ | s1 | _ <;> rcases y with ⟨s2, m2, e2⟩ | s2 | _ <;>
    rcases z with ⟨s3, m3, e3⟩ | s3 | _ <;> simp_all [le] <;> first
      | omega
      | (cases s1 <;> cases s2 <;> cases s3 <;> simp_all)

theorem not_nan_of_le {f : FloatFormat} {x y : Flt f} (h : le x y = true) :
    x ≠ .nan ∧ y ≠ .nan := by
  cases x <;> cases y <;> simp_all [le]

theorem le_of_lt {f : FloatFormat} {x y : Flt f} (h : lt x y = true) : le x y = true := by
  rcases x with ⟨s1, m1, e1⟩ | s1 | _ <;> rcases y with ⟨s2, m2, e2⟩ | s2 | _ <;>
    simp_all [le, lt] <;> omega

theorem le_of_not_lt {f : FloatFormat} {x y : Flt f} (hx : x ≠ .nan) (hy : y ≠ .nan)
    (h : lt y x = false) : le x y = true := by
  rcases x with ⟨s1, m1, e1⟩ | s1 | _ <;> rcases y with ⟨s2, m2, e2⟩ | s2 | _ <;>
    simp_all [le, lt] <;> first
      | omega
      | (cases s1 <;> cases s2 <;> simp_all)

theorem le_self {f : FloatFormat} {x : Flt f} (hx : x ≠ .nan) : le x x = true := by
  cases x <;> simp_all [le]

theorem min_le_left {f : FloatFormat} {a b : Flt f} (ha : a ≠ .nan) :
    le (min a b) a = true := by
  unfold min
  split_ifs with h
  · exact le_of_lt h
  · exact le_self ha

theorem min_le_right {f : FloatFormat} {a b : Flt f} (ha : a ≠ .nan) (hb : b ≠ .nan) :
    le (min a b) b = true := by
  unfold min
  split_ifs with h
  · exact le_self hb
  · exact le_of_not_lt ha hb (by simpa using h)

theorem le_max_left {f : FloatFormat} {a b : Flt f} (ha : a ≠ .nan) :
    le a (max a b) = true := by
  unfold max
  split_ifs with h
  · exact le_of_lt h
  · exact le_self ha

theorem le_max_right {f : FloatFormat} {a b : Flt f} (ha : a ≠ .nan) (hb : b ≠ .nan) :
    le b (max a b) = true := by
  unfold max
  split_ifs with h
  · exact le_self hb
  · exact le_of_not_lt hb ha (by simpa using h)

theorem min_eq {f : FloatFormat} (a b : Flt f) : min a b = a ∨ min a b = b := by
  unfold min
  split_ifs
  · exact Or.inr rfl
  · exact Or.inl rfl

theorem max_eq {f : FloatFormat} (a b : Flt f) : max a b = a ∨ max a b = b := by
  unfold max
  split_ifs
  · exact Or.inr rfl
  · exact Or.inl rfl


theorem zero32 : (0 : Float32) = .finite false ⟨0, by decide⟩ ⟨0, by decide⟩ := by decide

theorem code_nonneg_of_zero_le {x : Float32} (hx : x.IsFinite) (h : (0 : Float32) ≤ x) :
    0 ≤ x.code := by
  cases x with
  | infinite t => exact absurd hx (by simp [IsFinite])
  | nan => exact absurd hx (by simp [IsFinite])
  | finite s m e =>
    have h1 : le (0 : Float32) (.finite s m e) = true := h
    rw [zero32] at h1
    simpa [le, code] using h1

theorem code_pos_of_zero_lt {x : Float32} (hx : x.IsFinite) (h : (0 : Float32) < x) :
    0 < x.code := by
  cases x with
  | infinite t => exact absurd hx (by simp [IsFinite])
  | nan => exact absurd hx (by simp [IsFinite])
  | finite s m e =>
    have h1 : lt (0 : Float32) (.finite s m e) = true := h
    rw [zero32] at h1
    simpa [lt, code] using h1

theorem ne_nan_of_isFinite {f : FloatFormat} {x : Flt f} (h : x.IsFinite) : x ≠ .nan := by
  cases x <;> simp_all [IsFinite]

/-- A value that is at most a finite one, minus that finite one, is at most zero. -/
theorem sub_nonpos {a b : Float32} (hb : b.IsFinite) (h : a ≤ b) : a - b ≤ 0 := by
  cases a with
  | nan => exact absurd h (by simp [LE.le, le])
  | infinite s =>
    cases b with
    | infinite t => exact absurd hb (by simp [IsFinite])
    | nan => exact absurd hb (by simp [IsFinite])
    | finite t n k =>
      have hs : s = true := by simpa [LE.le, le] using h
      subst hs
      show le (sub (.infinite true) (.finite t n k)) 0 = true
      rw [zero32]
      rfl
  | finite s m e =>
    have hz : (0 : Float32).IsFinite := by rw [zero32]; trivial
    have hc : (Flt.finite s m e).code ≤ b.code := by
      cases b with
      | infinite t => exact absurd hb (by simp [IsFinite])
      | nan => exact absurd hb (by simp [IsFinite])
      | finite t n k => simpa [LE.le, le] using h
    have h0 : (0 : Float32).code = 0 := by rw [zero32]; rfl
    exact (sub_le binary32 (by decide) (.finite s m e) b 0 trivial hb hz).1 (by rw [h0]; omega)

/-- A value that is at least a finite one, minus that finite one, is at least zero. -/
theorem sub_nonneg {a b : Float32} (hb : b.IsFinite) (h : b ≤ a) : 0 ≤ a - b := by
  cases a with
  | nan =>
    have := (not_nan_of_le h).2
    exact absurd rfl this
  | infinite s =>
    cases b with
    | infinite t => exact absurd hb (by simp [IsFinite])
    | nan => exact absurd hb (by simp [IsFinite])
    | finite t n k =>
      have hs : s = false := by simpa [LE.le, le] using h
      subst hs
      show le 0 (sub (.infinite false) (.finite t n k)) = true
      rw [zero32]
      rfl
  | finite s m e =>
    have hz : (0 : Float32).IsFinite := by rw [zero32]; trivial
    have hc : b.code ≤ (Flt.finite s m e).code := by
      cases b with
      | infinite t => exact absurd hb (by simp [IsFinite])
      | nan => exact absurd hb (by simp [IsFinite])
      | finite t n k => simpa [LE.le, le] using h
    have h0 : (0 : Float32).code = 0 := by rw [zero32]; rfl
    exact (sub_le binary32 (by decide) (.finite s m e) b 0 trivial hb hz).2 (by rw [h0]; omega)

/-- The rounded value of a ratio has the sign it is given, or is zero. -/
theorem round_sign (negative : Bool) (N D : Nat) (hD : 0 < D) :
    (negative = true → round binary32 negative N D ≤ 0)
      ∧ (negative = false → (0 : Float32) ≤ round binary32 negative N D) := by
  rcases round_cases binary32 (by decide) negative N D hD with ⟨m, e, hr, -⟩ | ⟨hr, -⟩
  · rw [hr]
    constructor
    · rintro rfl
      show le _ 0 = true
      rw [zero32]
      simp only [le, code_finite_true, code_finite_false, decide_eq_true_eq]
      have : (0 : Int) ≤ ((m.1 * 2 ^ e.1 : Nat) : Int) := Int.ofNat_nonneg _
      simp only [pow_zero, mul_one, Nat.cast_zero] at *
      omega
    · rintro rfl
      show le 0 _ = true
      rw [zero32]
      simp only [le, code_finite_false, decide_eq_true_eq]
      have : (0 : Int) ≤ ((m.1 * 2 ^ e.1 : Nat) : Int) := Int.ofNat_nonneg _
      simp only [pow_zero, mul_one, Nat.cast_zero] at *
      omega
  · rw [hr]
    constructor
    · rintro rfl
      show le _ 0 = true
      rw [zero32]
      rfl
    · rintro rfl
      show le 0 _ = true
      rw [zero32]
      rfl

/-- The ratio `0 / D` rounds to zero. -/
theorem round_zero (negative : Bool) (D : Nat) (hD : 0 < D) :
    round binary32 negative 0 D ≤ 0 ∧ (0 : Float32) ≤ round binary32 negative 0 D := by
  obtain ⟨-, h2, -, -, -⟩ := roundRatio_spec 24 0 D (by decide) hD
  have hq : (roundRatio 24 0 D).1 = 0 := by
    rcases h2 with h | ⟨-, h⟩
    · simpa using h
    · simp at h
  rcases round_cases binary32 (by decide) negative 0 D hD with ⟨m, e, hr, hv⟩ | ⟨hr, hbig⟩
  · have hv0 : m.1 * 2 ^ e.1 = 0 := by
      rw [hv]
      show (roundRatio 24 0 D).1 * _ = 0
      rw [hq, Nat.zero_mul]
    rw [hr]
    constructor
    · show le _ 0 = true
      rw [zero32]
      cases negative <;>
        simp only [le, code_finite_true, code_finite_false, decide_eq_true_eq, hv0] <;> simp
    · show le 0 _ = true
      rw [zero32]
      cases negative <;>
        simp only [le, code_finite_true, code_finite_false, decide_eq_true_eq, hv0] <;> simp
  · have := hbig ⟨0, by decide⟩ ⟨0, by decide⟩
    have hq' : (roundRatio binary32.precision 0 D).1 = 0 := hq
    rw [hq'] at this
    simp at this

/-- A value that is at most zero, divided by a positive finite one, is at most zero. -/
theorem div_nonpos {x y : Float32} (hy : y.IsFinite) (hpos : (0 : Float32) < y)
    (h : x ≤ 0) : x / y ≤ 0 := by
  have hyc := code_pos_of_zero_lt hy hpos
  cases y with
  | infinite t => exact absurd hy (by simp [IsFinite])
  | nan => exact absurd hy (by simp [IsFinite])
  | finite t n k =>
    have ht : t = false := by
      cases t
      · rfl
      · rw [code_finite_true] at hyc
        have : (0 : Int) ≤ ((n.1 * 2 ^ k.1 : Nat) : Int) := Int.ofNat_nonneg _
        omega
    subst ht
    rw [code_finite_false] at hyc
    have hn : n.1 ≠ 0 := by
      intro h0
      rw [h0] at hyc
      simp at hyc
    have hD : 0 < n.1 * 2 ^ k.1 := Nat.mul_pos (Nat.pos_of_ne_zero hn) (Nat.two_pow_pos _)
    cases x with
    | nan => exact absurd h (by simp [LE.le, le])
    | infinite s =>
      have hs : s = true := by
        have h1 : le (.infinite s) (0 : Float32) = true := h
        rw [zero32] at h1
        simpa [le] using h1
      subst hs
      show le (div (.infinite true) (.finite false n k)) 0 = true
      rw [zero32]
      rfl
    | finite s m e =>
      have hx : (Flt.finite s m e).code ≤ 0 := by
        have h1 : le (.finite s m e) (0 : Float32) = true := h
        rw [zero32] at h1
        simpa [le, code] using h1
      show le (div (.finite s m e) (.finite false n k)) 0 = true
      unfold div
      simp only [hn, if_false, Bool.xor_false]
      cases s
      · rw [code_finite_false] at hx
        have hm : m.1 * 2 ^ e.1 = 0 := by
          have : (0 : Int) ≤ ((m.1 * 2 ^ e.1 : Nat) : Int) := Int.ofNat_nonneg _
          omega
        rw [hm, Nat.zero_mul]
        exact (round_zero false _ hD).1
      · exact (round_sign true _ _ hD).1 rfl

/-- A value that is at least zero, divided by a positive finite one, is at least zero. -/
theorem div_nonneg {x y : Float32} (hy : y.IsFinite) (hpos : (0 : Float32) < y)
    (h : (0 : Float32) ≤ x) : 0 ≤ x / y := by
  have hyc := code_pos_of_zero_lt hy hpos
  cases y with
  | infinite t => exact absurd hy (by simp [IsFinite])
  | nan => exact absurd hy (by simp [IsFinite])
  | finite t n k =>
    have ht : t = false := by
      cases t
      · rfl
      · rw [code_finite_true] at hyc
        have : (0 : Int) ≤ ((n.1 * 2 ^ k.1 : Nat) : Int) := Int.ofNat_nonneg _
        omega
    subst ht
    rw [code_finite_false] at hyc
    have hn : n.1 ≠ 0 := by
      intro h0
      rw [h0] at hyc
      simp at hyc
    have hD : 0 < n.1 * 2 ^ k.1 := Nat.mul_pos (Nat.pos_of_ne_zero hn) (Nat.two_pow_pos _)
    cases x with
    | nan =>
      have := (not_nan_of_le h).2
      exact absurd rfl this
    | infinite s =>
      have hs : s = false := by
        have h1 : le (0 : Float32) (.infinite s) = true := h
        rw [zero32] at h1
        simpa [le] using h1
      subst hs
      show le 0 (div (.infinite false) (.finite false n k)) = true
      rw [zero32]
      rfl
    | finite s m e =>
      have hx : 0 ≤ (Flt.finite s m e).code := by
        have h1 : le (0 : Float32) (.finite s m e) = true := h
        rw [zero32] at h1
        simpa [le, code] using h1
      show le 0 (div (.finite s m e) (.finite false n k)) = true
      unfold div
      simp only [hn, if_false, Bool.xor_false]
      cases s
      · exact (round_sign false _ _ hD).2 rfl
      · rw [code_finite_true] at hx
        have hm : m.1 * 2 ^ e.1 = 0 := by
          have : (0 : Int) ≤ ((m.1 * 2 ^ e.1 : Nat) : Int) := Int.ofNat_nonneg _
          omega
        rw [hm, Nat.zero_mul]
        exact (round_zero true _ hD).2

end Flt

/-! ### Fitting the grid -/

namespace Mlsgpu

theorem except_bind_ok {ε α β : Type} {x : Except ε α} {f : α → Except ε β} {b : β}
    (h : x >>= f = .ok b) : ∃ a, x = .ok a ∧ f a = .ok b := by
  cases x with
  | error e => simp [bind, Except.bind] at h
  | ok a => exact ⟨a, rfl, h⟩

/-- The invariant of the loop of `makeGrid` on axis `j`: `low` is finite and lies between
`bboxMin` and `bboxMax`. -/
theorem Bounds.first_ordered (s : Splat) (hs : s.IsFinite) (hr : 0 ≤ s.radius) (j : Fin 3) :
    ((Bounds.first s).low j).IsFinite
      ∧ (Bounds.first s).bboxMin j ≤ (Bounds.first s).low j
      ∧ (Bounds.first s).low j ≤ (Bounds.first s).bboxMax j := by
  have hrc := Flt.code_nonneg_of_zero_le hs.2 hr
  refine ⟨hs.1 j, ?_, ?_⟩
  · exact (Flt.sub_le binary32 (by decide) (s.position j) s.radius (s.position j) (hs.1 j)
      hs.2 (hs.1 j)).1 (by omega)
  · exact (Flt.add_le binary32 (by decide) (s.position j) s.radius (s.position j) (hs.1 j)
      hs.2 (hs.1 j)).2 (by omega)

theorem Bounds.add_ordered (b : Bounds) (s : Splat) (hs : s.IsFinite) (hr : 0 ≤ s.radius)
    (j : Fin 3)
    (hb : (b.low j).IsFinite ∧ b.bboxMin j ≤ b.low j ∧ b.low j ≤ b.bboxMax j) :
    ((b.add s).low j).IsFinite
      ∧ (b.add s).bboxMin j ≤ (b.add s).low j
      ∧ (b.add s).low j ≤ (b.add s).bboxMax j := by
  obtain ⟨h1, h2, h3⟩ := hb
  obtain ⟨-, p2, p3⟩ := Bounds.first_ordered s hs hr j
  have p2 : s.position j - s.radius ≤ s.position j := p2
  have hlow : b.low j ≠ .nan := Flt.ne_nan_of_isFinite h1
  have hpos : s.position j ≠ .nan := Flt.ne_nan_of_isFinite (hs.1 j)
  have hmin : b.bboxMin j ≠ .nan := (Flt.not_nan_of_le h2).1
  have hmax : b.bboxMax j ≠ .nan := (Flt.not_nan_of_le h3).2
  have hsub : s.position j - s.radius ≠ .nan := (Flt.not_nan_of_le p2).1
  refine ⟨?_, ?_, ?_⟩
  · show (Flt.min (b.low j) (s.position j)).IsFinite
    rcases Flt.min_eq (b.low j) (s.position j) with h | h <;> rw [h]
    · exact h1
    · exact hs.1 j
  · show Flt.le (Flt.min (b.bboxMin j) (s.position j - s.radius))
      (Flt.min (b.low j) (s.position j)) = true
    rcases Flt.min_eq (b.low j) (s.position j) with h | h <;> rw [h]
    · exact Flt.le_trans (Flt.min_le_left hmin) h2
    · exact Flt.le_trans (Flt.min_le_right hmin hsub) p2
  · show Flt.le (Flt.min (b.low j) (s.position j))
      (Flt.max (b.bboxMax j) (s.position j + s.radius)) = true
    exact Flt.le_trans (Flt.le_trans (Flt.min_le_left hlow) h3) (Flt.le_max_left hmax)

theorem Bounds.foldl_ordered (l : List Splat) (b : Bounds) (j : Fin 3)
    (hs : ∀ s ∈ l, s.IsFinite) (hr : ∀ s ∈ l, 0 ≤ s.radius)
    (hb : (b.low j).IsFinite ∧ b.bboxMin j ≤ b.low j ∧ b.low j ≤ b.bboxMax j) :
    ((l.foldl Bounds.add b).low j).IsFinite
      ∧ (l.foldl Bounds.add b).bboxMin j ≤ (l.foldl Bounds.add b).low j
      ∧ (l.foldl Bounds.add b).low j ≤ (l.foldl Bounds.add b).bboxMax j := by
  induction l generalizing b with
  | nil => exact hb
  | cons x l ih =>
    rw [List.foldl_cons]
    exact ih (b.add x) (fun s h => hs s (List.mem_cons_of_mem _ h))
      (fun s h => hr s (List.mem_cons_of_mem _ h))
      (Bounds.add_ordered b x (hs x (List.mem_cons_self _ _)) (hr x (List.mem_cons_self _ _)) j
        hb)

theorem roundDown_convert_ok {x : Float32} {z : Int} (h : RoundDown.convert x = .ok z) :
    x.IsFinite ∧ z = x.floor ∧ fitsInt z := by
  unfold RoundDown.convert at h
  split at h
  · split at h
    · cases h; exact ⟨trivial, rfl, by assumption⟩
    · cases h
  · cases h
  · cases h

theorem roundUp_convert_ok {x : Float32} {z : Int} (h : RoundUp.convert x = .ok z) :
    x.IsFinite ∧ z = x.ceil ∧ fitsInt z := by
  unfold RoundUp.convert at h
  split at h
  · split at h
    · cases h; exact ⟨trivial, rfl, by assumption⟩
    · cases h
  · cases h
  · cases h

theorem roundDown_convert_error {x : Float32} {e : Exn} (h : RoundDown.convert x = .error e) :
    e = .badNumericCast ∨ (x = .nan ∧ e = .other "conversion of a NaN") := by
  unfold RoundDown.convert at h
  split at h
  · split at h
    · cases h
    · cases h; exact Or.inl rfl
  · cases h; exact Or.inl rfl
  · cases h; exact Or.inr ⟨rfl, rfl⟩

theorem roundUp_convert_error {x : Float32} {e : Exn} (h : RoundUp.convert x = .error e) :
    e = .badNumericCast ∨ (x = .nan ∧ e = .other "conversion of a NaN") := by
  unfold RoundUp.convert at h
  split at h
  · split at h
    · cases h
    · cases h; exact Or.inl rfl
  · cases h; exact Or.inl rfl
  · cases h; exact Or.inr ⟨rfl, rfl⟩

theorem Bounds.extent_ok {b : Bounds} {spacing : Float32} {i : Fin 3} {e : Int × Int}
    (h : b.extent spacing i = .ok e) :
    e.1 = ((b.bboxMin i - b.low i) / spacing).floor
      ∧ e.2 = ((b.bboxMax i - b.low i) / spacing).ceil
      ∧ fitsInt e.1 ∧ fitsInt e.2 := by
  unfold Bounds.extent at h
  obtain ⟨lo, h1, h⟩ := except_bind_ok h
  obtain ⟨hi, h2, h⟩ := except_bind_ok h
  cases h
  obtain ⟨-, a1, a2⟩ := roundDown_convert_ok h1
  obtain ⟨-, b1, b2⟩ := roundUp_convert_ok h2
  exact ⟨a1, b1, a2, b2⟩

theorem Bounds.extent_error {b : Bounds} {spacing : Float32} {i : Fin 3} {e : Exn}
    (h : b.extent spacing i = .error e) :
    e = .badNumericCast
      ∨ (((b.bboxMin i - b.low i) / spacing = .nan ∨ (b.bboxMax i - b.low i) / spacing = .nan)
          ∧ e = .other "conversion of a NaN") := by
  unfold Bounds.extent at h
  dsimp only at h
  cases h1 : RoundDown.convert ((b.bboxMin i - b.low i) / spacing) with
  | error e1 =>
    rw [h1] at h
    cases h
    rcases roundDown_convert_error h1 with h | ⟨h, h'⟩
    · exact Or.inl h
    · exact Or.inr ⟨Or.inl h, h'⟩
  | ok lo =>
    rw [h1] at h
    cases h2 : RoundUp.convert ((b.bboxMax i - b.low i) / spacing) with
    | error e2 =>
      rw [h2] at h
      cases h
      rcases roundUp_convert_error h2 with h | ⟨h, h'⟩
      · exact Or.inl h
      · exact Or.inr ⟨Or.inr h, h'⟩
    | ok hi =>
      rw [h2] at h
      cases h

theorem floor_nonpos {x : Float32} (h : x ≤ 0) (hx : x.IsFinite) : x.floor ≤ 0 := by
  cases x with
  | infinite t => exact absurd hx (by simp [Flt.IsFinite])
  | nan => exact absurd hx (by simp [Flt.IsFinite])
  | finite s m e =>
    have h1 : Flt.le (.finite s m e) (0 : Float32) = true := h
    rw [Flt.zero32] at h1
    have h2 : (Flt.finite s m e : Float32).code ≤ 0 := by simpa [Flt.le, Flt.code] using h1
    unfold Flt.floor
    have := Int.ediv_le_ediv (by positivity : (0 : Int) < 2 ^ binary32.unit) h2
    rwa [Int.zero_ediv] at this

theorem ceil_nonneg {x : Float32} (h : (0 : Float32) ≤ x) (hx : x.IsFinite) : 0 ≤ x.ceil := by
  cases x with
  | infinite t => exact absurd hx (by simp [Flt.IsFinite])
  | nan => exact absurd hx (by simp [Flt.IsFinite])
  | finite s m e =>
    have h1 : Flt.le (0 : Float32) (.finite s m e) = true := h
    rw [Flt.zero32] at h1
    have h2 : 0 ≤ (Flt.finite s m e : Float32).code := by simpa [Flt.le, Flt.code] using h1
    unfold Flt.ceil
    have h3 : -(Flt.finite s m e : Float32).code ≤ 0 := by omega
    have := Int.ediv_le_ediv (by positivity : (0 : Int) < 2 ^ binary32.unit) h3
    rw [Int.zero_ediv] at this
    omega


theorem makeGrid_cons (first : Splat) (rest : List Splat) (spacing : Float32) :
    makeGrid (first :: rest) spacing
      = ((rest.foldl Bounds.add (Bounds.first first)).extent spacing 0 >>= fun e0 =>
          (rest.foldl Bounds.add (Bounds.first first)).extent spacing 1 >>= fun e1 =>
          (rest.foldl Bounds.add (Bounds.first first)).extent spacing 2 >>= fun e2 =>
          pure { reference := (rest.foldl Bounds.add (Bounds.first first)).low,
                 directions := fun i j => if i = j then spacing else 0,
                 extents := vec3 e0 e1 e2 }) := rfl

theorem makeGrid_cons_ok {first : Splat} {rest : List Splat} {spacing : Float32} {g : Grid}
    (h : makeGrid (first :: rest) spacing = .ok g) :
    g.reference = (rest.foldl Bounds.add (Bounds.first first)).low
      ∧ ∀ i, (rest.foldl Bounds.add (Bounds.first first)).extent spacing i
          = .ok (g.getExtent i) := by
  rw [makeGrid_cons] at h
  obtain ⟨e0, h0, h⟩ := except_bind_ok h
  obtain ⟨e1, h1, h⟩ := except_bind_ok h
  obtain ⟨e2, h2, h⟩ := except_bind_ok h
  cases h
  refine ⟨rfl, fun i => ?_⟩
  fin_cases i
  · exact h0
  · exact h1
  · exact h2

/-- An exception of `makeGrid` on a non-empty range comes from the conversion of one axis. -/
theorem makeGrid_cons_error {first : Splat} {rest : List Splat} {spacing : Float32} {e : Exn}
    (h : makeGrid (first :: rest) spacing = .error e) :
    ∃ i, (rest.foldl Bounds.add (Bounds.first first)).extent spacing i = .error e := by
  rw [makeGrid_cons] at h
  cases h0 : (rest.foldl Bounds.add (Bounds.first first)).extent spacing 0 with
  | error e0 =>
    rw [h0] at h
    cases h
    exact ⟨0, h0⟩
  | ok e0 =>
    rw [h0] at h
    cases h1 : (rest.foldl Bounds.add (Bounds.first first)).extent spacing 1 with
    | error e1 =>
      rw [h1] at h
      cases h
      exact ⟨1, h1⟩
    | ok e1 =>
      rw [h1] at h
      cases h2 : (rest.foldl Bounds.add (Bounds.first first)).extent spacing 2 with
      | error e2 =>
        rw [h2] at h
        cases h
        exact ⟨2, h2⟩
      | ok e2 =>
        rw [h2] at h
        cases h

/-- C14: `makeGrid` raises `std::invalid_argument` exactly when the splat range is empty. -/
theorem makeGrid_invalid_argument (splats : List Splat) (spacing : Float32) :
    makeGrid splats spacing = .error .invalidArgument ↔ splats = [] := by
  constructor
  · intro h
    cases splats with
    | nil => rfl
    | cons first rest =>
      obtain ⟨i, hi⟩ := makeGrid_cons_error h
      rcases Bounds.extent_error hi with h | ⟨-, h⟩ <;> exact absurd h (by decide)
  · rintro rfl
    rfl

/-- With `low` between `bboxMin` and `bboxMax` and a positive finite spacing, the two quotients
of an axis are at most and at least zero. -/
theorem Bounds.quotients_sign (b : Bounds) (spacing : Float32) (i : Fin 3)
    (hspf : spacing.IsFinite) (hsp : 0 < spacing)
    (hb : (b.low i).IsFinite ∧ b.bboxMin i ≤ b.low i ∧ b.low i ≤ b.bboxMax i) :
    (b.bboxMin i - b.low i) / spacing ≤ 0 ∧ 0 ≤ (b.bboxMax i - b.low i) / spacing :=
  ⟨Flt.div_nonpos hspf hsp (Flt.sub_nonpos hb.1 hb.2.1),
    Flt.div_nonneg hspf hsp (Flt.sub_nonneg hb.1 hb.2.2)⟩

theorem eq_ok_of_toOption {ε α : Type} {x : Except ε α} {a : α} (h : x.toOption = some a) :
    x = .ok a := by
  cases x with
  | error e => simp [Except.toOption] at h
  | ok b =>
    simp only [Except.toOption, Option.some.injEq] at h
    rw [h]

theorem makeGrid_sample :
    (makeGrid sampleSplats (1 / 2)).toOption.map Grid.extents
      = some (vec3 (-1, 8) (-2, 3) (-1, 6)) := by
  have h0 : (List.foldl Bounds.add (Bounds.first ⟨vec3 0 0 0, 1 / 2⟩)
      [⟨vec3 3 (-1) 2, 3 / 4⟩]).extent (1 / 2) 0 = .ok (-1, 8) :=
    eq_ok_of_toOption (by decide!)
  have h1 : (List.foldl Bounds.add (Bounds.first ⟨vec3 0 0 0, 1 / 2⟩)
      [⟨vec3 3 (-1) 2, 3 / 4⟩]).extent (1 / 2) 1 = .ok (-2, 3) :=
    eq_ok_of_toOption (by decide!)
  have h2 : (List.foldl Bounds.add (Bounds.first ⟨vec3 0 0 0, 1 / 2⟩)
      [⟨vec3 3 (-1) 2, 3 / 4⟩]).extent (1 / 2) 2 = .ok (-1, 6) :=
    eq_ok_of_toOption (by decide!)
  unfold sampleSplats
  rw [makeGrid_cons, h0, h1, h2]
  rfl


theorem makeGrid_tight :
    (makeGrid tightSplats (1 / 100)).toOption.map Grid.extents
      = some (vec3 (-5, 5) (-5, 5) (-5, 5)) := by
  have h : ∀ i, (List.foldl Bounds.add (Bounds.first ⟨vec3 0 0 0, 1 / 20⟩) []).extent
      (1 / 100) i = .ok (-5, 5) := by
    intro i
    apply eq_ok_of_toOption
    fin_cases i <;> decide!
  unfold tightSplats
  rw [makeGrid_cons, h 0, h 1, h 2]
  rfl

/-- C13 fails in `float` arithmetic: for one splat at the origin with radius `0.05f` and the
spacing `0.01f`, the quotient `0.05f / 0.01f` is rounded to `5`, so `makeGrid` returns the
extent `[-5, 5]` on every axis, while five cells of `0.01f` are shorter than `0.05f`: the
bounding sphere reaches beyond the grid on both sides. -/
theorem makeGrid_sphere_outside :
    (0 : Float32) < 1 / 100
      ∧ ∃ g, makeGrid tightSplats (1 / 100) = .ok g
        ∧ (∀ i, g.getExtent i = (-5, 5))
        ∧ ∀ s ∈ tightSplats, ∀ i,
          ¬ ((g.reference i).toRat + (g.getExtent i).1 * (1 / 100 : Float32).toRat
              ≤ (s.position i).toRat - s.radius.toRat)
            ∧ ¬ ((s.position i).toRat + s.radius.toRat
              ≤ (g.reference i).toRat + (g.getExtent i).2 * (1 / 100 : Float32).toRat) := by
  refine ⟨by decide!, ?_⟩
  have h := makeGrid_tight
  cases hg : makeGrid tightSplats (1 / 100) with
  | error e => rw [hg] at h; simp [Except.toOption] at h
  | ok g =>
    rw [hg] at h
    simp only [Except.toOption, Option.map_some', Option.some.injEq] at h
    have hext : ∀ i, g.getExtent i = (-5, 5) := by
      intro i
      unfold Grid.getExtent
      rw [h]
      fin_cases i <;> rfl
    have href : g.reference = vec3 0 0 0 := (makeGrid_cons_ok hg).1
    have c0 : (0 : Float32).code = 0 := by decide!
    have c1 : (1 / 100 : Float32).code = 10737418 * 2 ^ 119 := by decide!
    have c2 : (1 / 20 : Float32).code = 13421773 * 2 ^ 121 := by decide!
    refine ⟨g, rfl, hext, fun s hs i => ?_⟩
    simp only [tightSplats, List.mem_singleton] at hs
    subst hs
    rw [hext i, href]
    have hp : ∀ j : Fin 3, (vec3 (0 : Float32) 0 0 j).toRat = 0 := by
      intro j
      fin_cases j <;> simp [vec3, Flt.toRat, c0]
    rw [hp i]
    simp only [Flt.toRat, c1, c2]
    norm_num [binary32]

/-! ### Loading the splats -/

/-- C15: if the files before file `k` are read without an exception and reading file `k` raises
`PLY::FormatError` with message `m`, then `loadInputSplats` raises `PLY::FormatError` with the
message `filename_k + ": " + m`, and the files read are exactly the files up to `k`. -/
theorem loadInputSplats_format_error (files : List InputFile) (out : List Splat)
    (read : List String) (k : Nat) (f : InputFile) (m : String)
    (hbefore : ∀ j, j < k → ∀ f1, files[j]? = some f1 → f1.failure = none)
    (hk : files[k]? = some f) (hfail : f.failure = some (.formatError m)) :
    (loadInputSplats files out read).result = .error (.formatError (f.filename ++ ": " ++ m))
      ∧ (loadInputSplats files out read).read
          = read ++ (files.take (k + 1)).map InputFile.filename := by
  induction files generalizing k out read with
  | nil => simp at hk
  | cons x rest ih =>
    cases k with
    | zero =>
      simp only [List.getElem?_cons_zero, Option.some.injEq] at hk
      subst hk
      simp [loadInputSplats, hfail]
    | succ k =>
      have hx : x.failure = none := hbefore 0 (Nat.succ_pos _) x (by simp)
      simp only [List.getElem?_cons_succ] at hk
      have hb : ∀ j, j < k → ∀ f1, rest[j]? = some f1 → f1.failure = none := by
        intro j hj f1 hf1
        exact hbefore (j + 1) (Nat.succ_lt_succ hj) f1 (by simpa using hf1)
      obtain ⟨h1, h2⟩ := ih (out ++ x.splats) (read ++ [x.filename]) k hb hk
      simp only [loadInputSplats, hx]
      refine ⟨h1, ?_⟩
      rw [h2]
      simp

/-- Witness for C15: of the three files `a.ply`, `b.ply`, `c.ply` the second is malformed; the
exception carries `b.ply: Unexpected end of file` and `c.ply` is not read. -/
theorem loadInputSplats_format_error_witness :
    (loadInputSplats malformedFiles [] []).result
        = .error (.formatError "b.ply: Unexpected end of file")
      ∧ (loadInputSplats malformedFiles [] []).read = ["a.ply", "b.ply"] :=
  loadInputSplats_format_error malformedFiles [] [] 1
    ⟨"b.ply", [], some (.formatError "Unexpected end of file")⟩ "Unexpected end of file"
    (by
      intro j hj f1 hf1
      have h0 : j = 0 := by omega
      subst h0
      simp only [malformedFiles, List.getElem?_cons_zero, Option.some.injEq] at hf1
      subst hf1
      rfl)
    rfl rfl


/-! ### The driver -/

theorem RunM.bind_def {α β : Type} (m : RunM α) (f : α → RunM β) (w : World) :
    (m >>= f) w = (match m w with
      | (.ok a, w1) => f a w1
      | (.error e, w1) => (.error e, w1)) := rfl

theorem RunM.call_bind_ok {α β : Type} (a : α) (f : α → RunM β) (w : World) :
    (RunM.call (.ok a) >>= f) w = f a w := rfl

theorem RunM.call_bind_error {α β : Type} (e : Exn) (f : α → RunM β) (w : World) :
    (RunM.call (.error e : Except Exn α) >>= f) w = (.error e, w) := rfl

/-- A call that precedes an output to the sink has returned. -/
theorem RunM.call_bind_sink {α β : Type} {x : Except Exn α} {f : α → RunM β} {w : World}
    {s : List PLY.ElementStream} (hw : w.sink = s)
    (h : ((RunM.call x >>= f) w).2.sink ≠ s) : ∃ a, x = .ok a ∧ (f a w).2.sink ≠ s := by
  cases x with
  | error e => exact absurd hw h
  | ok a => exact ⟨a, rfl, h⟩

/-- A buffer read that precedes an output to the sink has returned. -/
theorem RunM.read_bind_sink {β : Type} {r : ReadRequest} {x : Except Exn Unit}
    {f : Unit → RunM β} {w : World} {s : List PLY.ElementStream} (hw : w.sink = s)
    (h : ((RunM.enqueueReadBuffer r x >>= f) w).2.sink ≠ s) :
    x = .ok () ∧ (f () { w with reads := w.reads ++ [r] }).2.sink ≠ s := by
  cases x with
  | error e => exact absurd hw h
  | ok a => exact ⟨rfl, h⟩

/-- A call that precedes the return of the computation has returned. -/
theorem RunM.call_bind_result {α β : Type} {x : Except Exn α} {f : α → RunM β} {w : World}
    {b : β} (h : ((RunM.call x >>= f) w).1 = .ok b) : ∃ a, x = .ok a ∧ (f a w).1 = .ok b := by
  cases x with
  | error e => cases h
  | ok a => exact ⟨a, rfl, h⟩

/-- A buffer read that precedes the return of the computation has returned. -/
theorem RunM.read_bind_result {β : Type} {r : ReadRequest} {x : Except Exn Unit}
    {f : Unit → RunM β} {w : World} {b : β}
    (h : ((RunM.enqueueReadBuffer r x >>= f) w).1 = .ok b) :
    x = .ok () ∧ (f () { w with reads := w.reads ++ [r] }).1 = .ok b := by
  cases x with
  | error e => cases h
  | ok a => exact ⟨rfl, h⟩

theorem RunEnv.mem_deviceOps {env : RunEnv} {p : Except Exn Unit → Prop}
    (d1 : p env.createQueue) (d2 : p env.createTree) (d3 : p env.enqueueBuild)
    (d4 : p env.finishBuild) (d5 : p env.buildProgram) (d6 : p env.createKernel)
    (d7 : p env.setArgs) (d8 : p env.createMarching) (d9 : p env.createBuffers)
    (d10 : p env.marchingEnqueue) (d11 : p env.finishMarching) (d12 : p env.readVertices)
    (d13 : p env.readIndices) (d14 : p env.finishRead) : ∀ op ∈ env.deviceOps, p op := by
  intro op hop
  simp only [RunEnv.deviceOps, List.mem_cons, List.mem_singleton, List.not_mem_nil,
    or_false] at hop
  rcases hop with rfl | rfl | rfl | rfl | rfl | rfl | rfl | rfl | rfl | rfl | rfl | rfl | rfl | rfl
  all_goals assumption

/-- If anything reached the sink, `writer.write()` was reached. -/
theorem run_reaches_of_sink (env : RunEnv) (h : (run env World.empty).2.sink ≠ []) :
    env.ReachesWrite := by
  unfold run at h
  obtain ⟨files, h1, h⟩ := RunM.call_bind_sink rfl h
  obtain ⟨⟨⟩, h2, h⟩ := RunM.call_bind_sink rfl h
  obtain ⟨grid, h3, h⟩ := RunM.call_bind_sink rfl h
  dsimp only at h
  obtain ⟨⟨⟩, d1, h⟩ := RunM.call_bind_sink rfl h
  obtain ⟨⟨⟩, d2, h⟩ := RunM.call_bind_sink rfl h
  obtain ⟨⟨⟩, d3, h⟩ := RunM.call_bind_sink rfl h
  obtain ⟨⟨⟩, d4, h⟩ := RunM.call_bind_sink rfl h
  obtain ⟨⟨⟩, d5, h⟩ := RunM.call_bind_sink rfl h
  obtain ⟨⟨⟩, d6, h⟩ := RunM.call_bind_sink rfl h
  obtain ⟨⟨⟩, d7, h⟩ := RunM.call_bind_sink rfl h
  obtain ⟨⟨⟩, d8, h⟩ := RunM.call_bind_sink rfl h
  obtain ⟨⟨⟩, d9, h⟩ := RunM.call_bind_sink rfl h
  obtain ⟨⟨⟩, d10, h⟩ := RunM.call_bind_sink rfl h
  obtain ⟨⟨⟩, d11, h⟩ := RunM.call_bind_sink rfl h
  obtain ⟨d12, h⟩ := RunM.read_bind_sink rfl h
  obtain ⟨d13, h⟩ := RunM.read_bind_sink rfl h
  obtain ⟨⟨⟩, d14, h⟩ := RunM.call_bind_sink rfl h
  exact ⟨files, grid, h1, h2, h3,
    RunEnv.mem_deviceOps d1 d2 d3 d4 d5 d6 d7 d8 d9 d10 d11 d12 d13 d14⟩

/-- If `run` returned, `writer.write()` was reached and returned. -/
theorem run_reaches_of_ok (env : RunEnv) (h : (run env World.empty).1 = .ok ()) :
    env.ReachesWrite ∧ env.write = .ok () := by
  unfold run at h
  obtain ⟨files, h1, h⟩ := RunM.call_bind_result h
  obtain ⟨⟨⟩, h2, h⟩ := RunM.call_bind_result h
  obtain ⟨grid, h3, h⟩ := RunM.call_bind_result h
  dsimp only at h
  obtain ⟨⟨⟩, d1, h⟩ := RunM.call_bind_result h
  obtain ⟨⟨⟩, d2, h⟩ := RunM.call_bind_result h
  obtain ⟨⟨⟩, d3, h⟩ := RunM.call_bind_result h
  obtain ⟨⟨⟩, d4, h⟩ := RunM.call_bind_result h
  obtain ⟨⟨⟩, d5, h⟩ := RunM.call_bind_result h
  obtain ⟨⟨⟩, d6, h⟩ := RunM.call_bind_result h
  obtain ⟨⟨⟩, d7, h⟩ := RunM.call_bind_result h
  obtain ⟨⟨⟩, d8, h⟩ := RunM.call_bind_result h
  obtain ⟨⟨⟩, d9, h⟩ := RunM.call_bind_result h
  obtain ⟨⟨⟩, d10, h⟩ := RunM.call_bind_result h
  obtain ⟨⟨⟩, d11, h⟩ := RunM.call_bind_result h
  obtain ⟨d12, h⟩ := RunM.read_bind_result h
  obtain ⟨d13, h⟩ := RunM.read_bind_result h
  obtain ⟨⟨⟩, d14, h⟩ := RunM.call_bind_result h
  exact ⟨⟨files, grid, h1, h2, h3,
    RunEnv.mem_deviceOps d1 d2 d3 d4 d5 d6 d7 d8 d9 d10 d11 d12 d13 d14⟩, h⟩

/-- When `writer.write()` is reached, `run` ends with its outcome, and the sink holds the
stream of vertices and then the stream of faces. -/
theorem run_of_reaches (env : RunEnv) (h : env.ReachesWrite) :
    run env World.empty = (env.write, env.written) := by
  obtain ⟨files, grid, h1, h2, h3, hd⟩ := h
  have d : ∀ op ∈ env.deviceOps, op = .ok () := hd
  simp only [RunEnv.deviceOps, List.forall_mem_cons, List.not_mem_nil, false_implies,
    implies_true, and_true] at d
  obtain ⟨d1, d2, d3, d4, d5, d6, d7, d8, d9, d10, d11, d12, d13, d14⟩ := d
  unfold run
  rw [h1, RunM.call_bind_ok]
  dsimp only
  rw [h2, RunM.call_bind_ok, h3, RunM.call_bind_ok]
  rw [d1, d2, d3, d4, d5, d6, d7, d8, d9, d10, d11, d12, d13, d14]
  rfl

theorem makeGrid_sample_ok : ∃ g, makeGrid sampleSplats (1 / 2) = .ok g := by
  cases h : makeGrid sampleSplats (1 / 2) with
  | ok g => exact ⟨g, rfl⟩
  | error e =>
    have h2 := makeGrid_sample
    rw [h] at h2
    simp [Except.toOption] at h2

theorem sampleEnv_reaches : sampleEnv.ReachesWrite := by
  obtain ⟨g, hg⟩ := makeGrid_sample_ok
  exact ⟨sampleFiles, g, rfl, rfl, hg,
    RunEnv.mem_deviceOps rfl rfl rfl rfl rfl rfl rfl rfl rfl rfl rfl rfl rfl rfl⟩

theorem run_failingEnv :
    (run failingEnv World.empty).1 = .error (.clError "clEnqueueNDRangeKernel" (-5)) := by
  obtain ⟨g, hg⟩ := makeGrid_sample_ok
  have h3 : makeGrid (loadInputSplats sampleFiles [] []).out failingEnv.spacing = .ok g := hg
  unfold run
  rw [show failingEnv.makeInputFiles = .ok sampleFiles from rfl, RunM.call_bind_ok]
  dsimp only
  rw [show (loadInputSplats sampleFiles [] []).result = .ok () from rfl, RunM.call_bind_ok, h3,
    RunM.call_bind_ok]
  rfl

theorem main_eq (env : MainEnv) (hopt : env.options = .parsed) (hdev : env.deviceFound = true)
    (hctx : env.makeContext = .ok ()) (hout : env.openOutput = .ok ()) :
    main env = (match (run env.run World.empty).1 with
      | .ok () => { exit := some 0, stderr := [], world := (run env.run World.empty).2 }
      | .error (.iosFailure what) =>
        { exit := some 1, stderr := [what ++ "\n"], world := (run env.run World.empty).2 }
      | .error (.formatError what) =>
        { exit := some 1, stderr := [what ++ "\n"], world := (run env.run World.empty).2 }
      | .error (.clError what err) =>
        { exit := some 1,
          stderr := ["OpenCL error in " ++ what ++ " (" ++ toString err ++ ")\n"],
          world := (run env.run World.empty).2 }
      | .error _ => { exit := none, stderr := [], world := (run env.run World.empty).2 }) := by
  unfold main mainTry
  rw [hopt]
  simp only [hdev, if_true, hctx, hout, RunM.call_bind_ok]

/-- C16: when `main` reaches `run` (the options parse, a device is found, the context and the
output file are created), then: if `run` raises `std::ios::failure` or `PLY::FormatError`, `main`
prints the message and a newline to `cerr` and returns 1; if `run` raises `cl::Error`, `main`
prints `OpenCL error in <what> (<err>)` to `cerr` and returns 1; if `run` returns, `main` prints
nothing to `cerr` and returns 0. -/
theorem main_exit_status (env : MainEnv) (hopt : env.options = .parsed)
    (hdev : env.deviceFound = true) (hctx : env.makeContext = .ok ())
    (hout : env.openOutput = .ok ()) :
    (∀ what, (run env.run World.empty).1 = .error (.iosFailure what) →
        (main env).exit = some 1 ∧ (main env).stderr = [what ++ "\n"])
      ∧ (∀ what, (run env.run World.empty).1 = .error (.formatError what) →
        (main env).exit = some 1 ∧ (main env).stderr = [what ++ "\n"])
      ∧ (∀ what err, (run env.run World.empty).1 = .error (.clError what err) →
        (main env).exit = some 1
          ∧ (main env).stderr = ["OpenCL error in " ++ what ++ " (" ++ toString err ++ ")\n"])
      ∧ ((run env.run World.empty).1 = .ok () →
        (main env).exit = some 0 ∧ (main env).stderr = []) := by
  have key := main_eq env hopt hdev hctx hout
  refine ⟨fun what h => ?_, fun what h => ?_, fun what err h => ?_, fun h => ?_⟩
  all_goals rw [key, h]
  all_goals exact ⟨rfl, rfl⟩

/-- Witness for C16: in the execution `failingEnv` the marching pass raises `cl::Error`; `main`
prints `OpenCL error in clEnqueueNDRangeKernel (-5)` and returns 1. In the execution `sampleEnv`
every call returns and `main` returns 0. -/
theorem main_exit_status_witness :
    ((main (sampleMain failingEnv)).exit = some 1
        ∧ (main (sampleMain failingEnv)).stderr
            = ["OpenCL error in clEnqueueNDRangeKernel (-5)\n"])
      ∧ (main (sampleMain sampleEnv)).exit = some 0
        ∧ (main (sampleMain sampleEnv)).stderr = [] :=
  ⟨(main_exit_status (sampleMain failingEnv) rfl rfl rfl rfl).2.2.1
      "clEnqueueNDRangeKernel" (-5) run_failingEnv,
    (main_exit_status (sampleMain sampleEnv) rfl rfl rfl rfl).2.2.2
      (by rw [show (sampleMain sampleEnv).run = sampleEnv from rfl,
            run_of_reaches sampleEnv sampleEnv_reaches]; rfl)⟩

/-- C17: in `run`, if any call into OpenCL (the command queue, the octree and its build, the
kernel build, the kernel arguments, the marching pass and its buffers, either buffer read, any
`queue.finish()`) raises, then `run` raises and nothing has been written to the output sink:
`writer.write()` comes last and is reached only if every such call returned. -/
theorem device_error_no_output (env : RunEnv) (op : Except Exn Unit) (e : Exn)
    (hop : op ∈ env.deviceOps) (he : op = .error e) :
    (run env World.empty).2.sink = [] ∧ ∃ e1, (run env World.empty).1 = .error e1 := by
  have hnot : ¬ env.ReachesWrite := by
    rintro ⟨-, -, -, -, -, hd⟩
    have h := hd op hop
    rw [he] at h
    cases h
  constructor
  · by_contra h
    exact hnot (run_reaches_of_sink env h)
  · cases h : (run env World.empty).1 with
    | error e1 => exact ⟨e1, rfl⟩
    | ok u =>
      cases u
      exact absurd (run_reaches_of_ok env h).1 hnot

/-- Witness for C17: in the execution `failingEnv` the marching pass raises `cl::Error`; `run`
raises that exception and the sink is empty. -/
theorem device_error_no_output_witness :
    (run failingEnv World.empty).1 = .error (.clError "clEnqueueNDRangeKernel" (-5))
      ∧ (run failingEnv World.empty).2.sink = [] :=
  ⟨run_failingEnv,
    (device_error_no_output failingEnv (.error (.clError "clEnqueueNDRangeKernel" (-5))) _
      (by simp [RunEnv.deviceOps, failingEnv]) rfl).1⟩

/-- C18: when `run` returns, the output sink has received exactly two element streams, once and
in this order: `vertex` with one element per generated vertex (`totals.s0`), then `face` with
one element per generated triangle (`totals.s1 / 3`). -/
theorem output_two_streams (env : RunEnv) (h : (run env World.empty).1 = .ok ()) :
    (run env World.empty).2.sink
      = [⟨"vertex", env.totals.1⟩, ⟨"face", env.totals.2 / 3⟩] := by
  rw [run_of_reaches env (run_reaches_of_ok env h).1]
  rfl

/-- Witness for C18: in the execution `sampleEnv` the device reports 8 vertices and 36 indices;
the sink receives `vertex` with 8 elements and then `face` with 12 elements. -/
theorem output_two_streams_witness :
    (run sampleEnv World.empty).1 = .ok ()
      ∧ (run sampleEnv World.empty).2.sink = [⟨"vertex", 8⟩, ⟨"face", 12⟩] :=
  have h : (run sampleEnv World.empty).1 = .ok () := by
    rw [run_of_reaches sampleEnv sampleEnv_reaches]
    rfl
  ⟨h, output_two_streams sampleEnv h⟩

end Mlsgpu

/-! ### Canonical form of a triangle -/

namespace TestMesherBase

theorem canonicalTriangle_eq_iff (a b c a' b' c' : Nat) :
    canonicalTriangle a b c = canonicalTriangle a' b' c'
      ↔ Triangle.IsRotation (a, b, c) (a', b', c') := by
  unfold canonicalTriangle arrayLess Triangle.IsRotation
  simp only [Bool.or_eq_true, Bool.and_eq_true, decide_eq_true_eq, Prod.mk.injEq]
  by_cases h1 : b < a ∨ b = a ∧ (c < b ∨ c = b ∧ a < c) <;>
    by_cases h2 : b' < a' ∨ b' = a' ∧ (c' < b' ∨ c' = b' ∧ a' < c') <;>
    simp only [h1, h2, if_true, if_false] <;>
    split_ifs <;> simp only [Prod.mk.injEq] <;> omega

theorem canonicalTriangle_isRotation (a b c : Nat) :
    Triangle.IsRotation (a, b, c) (canonicalTriangle a b c) := by
  unfold canonicalTriangle arrayLess Triangle.IsRotation
  simp only [Bool.or_eq_true, Bool.and_eq_true, decide_eq_true_eq]
  by_cases h1 : b < a ∨ b = a ∧ (c < b ∨ c = b ∧ a < c) <;>
    simp only [h1, if_true, if_false] <;>
    split_ifs <;> simp

theorem canonicalTriangle_least (a b c : Nat) (r : Triangle)
    (hr : Triangle.IsRotation (a, b, c) r) : arrayLess r (canonicalTriangle a b c) = false := by
  obtain ⟨r0, r1, r2⟩ := r
  unfold Triangle.IsRotation at hr
  simp only [Prod.mk.injEq] at hr
  rw [Bool.eq_false_iff]
  unfold canonicalTriangle arrayLess
  simp only [Bool.or_eq_true, Bool.and_eq_true, decide_eq_true_eq, ne_eq]
  by_cases h1 : b < a ∨ b = a ∧ (c < b ∨ c = b ∧ a < c) <;>
    simp only [h1, if_true, if_false] <;>
    split_ifs <;> dsimp only at * <;> omega

/-- C21: `canonicalTriangle(idx0, idx1, idx2)` is one of the three rotations of its argument and
no rotation is lexicographically smaller; two index triples have the same canonical triangle
exactly when one is a rotation of the other; and for pairwise distinct indices the canonical
triangle of `(a, b, c)` differs from that of the reflection `(a, c, b)`. -/
theorem canonicalTriangle_canonical (a b c : Nat) :
    Triangle.IsRotation (a, b, c) (canonicalTriangle a b c)
      ∧ (∀ r, Triangle.IsRotation (a, b, c) r → arrayLess r (canonicalTriangle a b c) = false)
      ∧ (∀ a1 b1 c1, canonicalTriangle a b c = canonicalTriangle a1 b1 c1
          ↔ Triangle.IsRotation (a, b, c) (a1, b1, c1))
      ∧ (a ≠ b → b ≠ c → a ≠ c → canonicalTriangle a b c ≠ canonicalTriangle a c b) := by
  refine ⟨canonicalTriangle_isRotation a b c, canonicalTriangle_least a b c,
    canonicalTriangle_eq_iff a b c, fun hab hbc hac h => ?_⟩
  rw [canonicalTriangle_eq_iff] at h
  unfold Triangle.IsRotation at h
  simp only [Prod.mk.injEq] at h
  omega

/-- Witness for C21: the canonical triangle of `(2, 0, 1)` is `(0, 1, 2)`, which is also that
of `(0, 1, 2)` and `(1, 2, 0)`, and differs from `(0, 2, 1)`, that of the reflection. -/
theorem canonicalTriangle_canonical_witness :
    canonicalTriangle 2 0 1 = (0, 1, 2) ∧ canonicalTriangle 1 2 0 = (0, 1, 2)
      ∧ canonicalTriangle 0 2 1 = (0, 2, 1)
      ∧ canonicalTriangle 0 1 2 ≠ canonicalTriangle 0 2 1 :=
  ⟨by decide, by decide, by decide,
    (canonicalTriangle_canonical 0 1 2).2.2.2 (by decide) (by decide) (by decide)⟩

end TestMesherBase

/-! ### The maps of `checkIsomorphic` -/

theorem lookup_append_single {α β : Type} [BEq α] [LawfulBEq α] [DecidableEq α]
    (m : List (α × β)) (k w : α) (v : β) :
    (m ++ [(k, v)]).lookup w
      = (match m.lookup w with
        | some x => some x
        | none => if w = k then some v else none) := by
  induction m with
  | nil =>
    by_cases h : w = k
    · subst h; simp [List.lookup]
    · have hb : (w == k) = false := by simpa using h
      simp [List.lookup, hb, h]
  | cons p rest ih =>
    obtain ⟨k1, v1⟩ := p
    by_cases h : w = k1
    · subst h; simp [List.lookup]
    · have hb : (w == k1) = false := by simpa using h
      simp only [List.cons_append, List.lookup, hb]
      exact ih

theorem mem_of_lookup_eq_some {α β : Type} [BEq α] [LawfulBEq α] {m : List (α × β)} {k : α} {v : β}
    (h : m.lookup k = some v) : (k, v) ∈ m := by
  induction m with
  | nil => simp [List.lookup] at h
  | cons p rest ih =>
    obtain ⟨k1, v1⟩ := p
    by_cases hk : k = k1
    · subst hk
      simp [List.lookup] at h
      subst h
      exact List.mem_cons_self _ _
    · have hb : (k == k1) = false := by simpa using hk
      simp only [List.lookup, hb] at h
      exact List.mem_cons_of_mem _ (ih h)

theorem lookup_of_mem_nodupKeys {α β : Type} [BEq α] [LawfulBEq α] {m : List (α × β)}
    (hn : (m.map Prod.fst).Nodup) {k : α} {v : β} (h : (k, v) ∈ m) : m.lookup k = some v := by
  induction m with
  | nil => exact absurd h (by simp)
  | cons p rest ih =>
    obtain ⟨k1, v1⟩ := p
    rw [List.map_cons, List.nodup_cons] at hn
    rcases List.mem_cons.1 h with e | hm
    · rw [Prod.mk.injEq] at e
      obtain ⟨rfl, rfl⟩ := e
      simp [List.lookup]
    · have hne : k ≠ k1 := by
        rintro rfl
        exact hn.1 (List.mem_map.2 ⟨(k, v), hm, rfl⟩)
      have hb : (k == k1) = false := by simpa using hne
      simp only [List.lookup, hb]
      exact ih hn.2 hm

namespace TestMesherBase

theorem insertVertices_ok {vs : List Vertex} {i : Nat} {m m1 : List (Vertex × Nat)}
    (h : insertVertices i vs m = .ok m1) :
    vs.Nodup ∧ (∀ v ∈ vs, m.lookup v = none)
      ∧ (∀ w x, m.lookup w = some x → m1.lookup w = some x)
      ∧ (∀ w, m.lookup w = none →
          m1.lookup w = if w ∈ vs then some (i + vs.indexOf w) else none) := by
  induction vs generalizing i m with
  | nil =>
    simp only [insertVertices, Except.ok.injEq] at h
    subst h
    simp
  | cons v rest ih =>
    unfold insertVertices at h
    split at h
    · cases h
    · rename_i hv
      have hvn : m.lookup v = none := Option.not_isSome_iff_eq_none.1 hv
      obtain ⟨h1, h2, h3, h4⟩ := ih h
      have hv1 : (m ++ [(v, i)]).lookup v = some i := by
        rw [lookup_append_single, hvn]; simp
      have hvrest : v ∉ rest := by
        intro hmem
        rw [h2 v hmem] at hv1
        cases hv1
      refine ⟨List.nodup_cons.2 ⟨hvrest, h1⟩, ?_, ?_, ?_⟩
      · intro w hw
        rcases List.mem_cons.1 hw with rfl | hw
        · exact hvn
        · have := h2 w hw
          rw [lookup_append_single] at this
          cases hl : m.lookup w with
          | none => rfl
          | some x => rw [hl] at this; cases this
      · intro w x hw
        apply h3
        rw [lookup_append_single, hw]
      · intro w hw
        by_cases hwv : w = v
        · subst hwv
          rw [h3 w i hv1]
          simp
        · have hl : (m ++ [(v, i)]).lookup w = none := by
            rw [lookup_append_single, hw]; simp [hwv]
          rw [h4 w hl]
          have hvw : ¬ v = w := fun e => hwv e.symm
          by_cases hwr : w ∈ rest
          · simp only [hwr, if_true, List.mem_cons, hwv, false_or,
              List.indexOf_cons_ne _ hvw]
            congr 1
            omega
          · simp [hwr, hwv]

theorem insertVertices_of_nodup {vs : List Vertex} (i : Nat) (m : List (Vertex × Nat))
    (hn : vs.Nodup) (hm : ∀ v ∈ vs, m.lookup v = none) :
    ∃ m1, insertVertices i vs m = .ok m1 := by
  induction vs generalizing i m with
  | nil => exact ⟨m, rfl⟩
  | cons v rest ih =>
    rw [List.nodup_cons] at hn
    unfold insertVertices
    rw [hm v (List.mem_cons_self _ _)]
    simp only [Option.isSome_none, Bool.false_eq_true, if_false]
    apply ih _ _ hn.2
    intro w hw
    rw [lookup_append_single, hm w (List.mem_cons_of_mem _ hw)]
    have : w ≠ v := by
      rintro rfl
      exact hn.1 hw
    simp [this]

/-- After the loop that fills it, `vertexMap` sends every expected vertex to its position. -/
theorem insertVertices_lookup {vs : List Vertex} {m1 : List (Vertex × Nat)}
    (h : insertVertices 0 vs [] = .ok m1) (w : Vertex) :
    m1.lookup w = if w ∈ vs then some (vs.indexOf w) else none := by
  have := (insertVertices_ok h).2.2.2 w rfl
  simpa using this

theorem matchVertices_ok {vm : List (Vertex × Nat)} {vs : List Vertex} {i : Nat} :
    matchVertices vm i vs = .ok () ↔ ∀ v ∈ vs, (vm.lookup v).isSome = true := by
  induction vs generalizing i with
  | nil => simp [matchVertices]
  | cons v rest ih =>
    unfold matchVertices
    by_cases hv : (vm.lookup v).isSome = true
    · simp only [hv, if_true, List.forall_mem_cons, true_and]
      exact ih
    · simp only [hv, if_false]
      constructor
      · intro h
        cases h
      · intro h
        exact absurd (h v (List.mem_cons_self _ _)) hv


theorem lookup_bump (d : Nat) (key k : Triangle) (m : List (Triangle × Nat)) :
    (bump d key m).lookup k
      = if k = key then some (((m.lookup key).getD 0 + d) % 18446744073709551616)
        else m.lookup k := by
  induction m with
  | nil =>
    by_cases h : k = key
    · subst h; simp [bump, List.lookup]
    · have hb : (k == key) = false := by simpa using h
      simp [bump, List.lookup, hb, h]
  | cons p rest ih =>
    obtain ⟨k1, c1⟩ := p
    unfold bump
    by_cases h1 : k1 = key
    · subst h1
      simp only [if_true]
      by_cases h : k = k1
      · subst h; simp [List.lookup]
      · have hb : (k == k1) = false := by simpa using h
        simp [List.lookup, hb, h]
    · simp only [h1, if_false]
      by_cases h : k = k1
      · subst h
        have : ¬ k = key := h1
        simp [List.lookup, this]
      · have hb : (k == k1) = false := by simpa using h
        simp only [List.lookup, hb]
        rw [ih]
        by_cases hk : k = key
        · subst hk
          have hb2 : (k == k1) = false := hb
          simp [List.lookup, hb2]
        · simp [hk]

theorem keys_bump (d : Nat) (key : Triangle) (m : List (Triangle × Nat)) :
    (bump d key m).map Prod.fst
      = if key ∈ m.map Prod.fst then m.map Prod.fst else m.map Prod.fst ++ [key] := by
  induction m with
  | nil => simp [bump]
  | cons p rest ih =>
    obtain ⟨k1, c1⟩ := p
    unfold bump
    by_cases h1 : k1 = key
    · subst h1; simp
    · have h2 : ¬ key = k1 := fun e => h1 e.symm
      simp only [h1, if_false, List.map_cons, ih, List.mem_cons, h2, false_or]
      split_ifs <;> simp

theorem nodup_keys_bump (d : Nat) (key : Triangle) {m : List (Triangle × Nat)}
    (h : (m.map Prod.fst).Nodup) : ((bump d key m).map Prod.fst).Nodup := by
  rw [keys_bump]
  split_ifs with hk
  · exact h
  · exact List.Nodup.append h (List.nodup_singleton _) (by simpa using hk)

theorem lt_of_mem_bump (d : Nat) (key : Triangle) {m : List (Triangle × Nat)}
    (h : ∀ p ∈ m, p.2 < 18446744073709551616) :
    ∀ p ∈ bump d key m, p.2 < 18446744073709551616 := by
  induction m with
  | nil =>
    intro p hp
    simp only [bump, List.mem_singleton] at hp
    subst hp
    exact Nat.mod_lt _ (by decide)
  | cons q rest ih =>
    intro p hp
    unfold bump at hp
    split_ifs at hp with h1
    · rcases List.mem_cons.1 hp with rfl | hp
      · exact Nat.mod_lt _ (by decide)
      · exact h p (List.mem_cons_of_mem _ hp)
    · rcases List.mem_cons.1 hp with rfl | hp
      · exact h _ (List.mem_cons_self _ _)
      · exact ih (fun p hp => h p (List.mem_cons_of_mem _ hp)) p hp

/-- The counts after a run of updates `triangleMap[key] += d`, one per key of the list. -/
theorem foldl_bump (d : Nat) (ks : List Triangle) (m : List (Triangle × Nat)) :
    ((m.map Prod.fst).Nodup → ((ks.foldl (fun m k => bump d k m) m).map Prod.fst).Nodup)
      ∧ ((∀ p ∈ m, p.2 < 18446744073709551616) →
          ∀ p ∈ ks.foldl (fun m k => bump d k m) m, p.2 < 18446744073709551616)
      ∧ ∀ k, ((ks.foldl (fun m k => bump d k m) m).lookup k).getD 0 % 18446744073709551616
          = ((m.lookup k).getD 0 + d * ks.count k) % 18446744073709551616 := by
  induction ks generalizing m with
  | nil => simp
  | cons key rest ih =>
    obtain ⟨h1, h2, h3⟩ := ih (bump d key m)
    simp only [List.foldl_cons]
    refine ⟨fun hn => h1 (nodup_keys_bump d key hn), fun hl => h2 (lt_of_mem_bump d key hl),
      fun k => ?_⟩
    rw [h3 k, lookup_bump]
    by_cases hk : k = key
    · subst hk
      simp only [if_true, Option.getD_some, List.count_cons_self, Nat.mul_succ]
      generalize d * List.count k rest = x
      omega
    · have hk2 : ¬ key = k := fun e => hk e.symm
      have hb : (key == k) = false := by simpa using hk2
      simp only [hk, if_false, List.count_cons, hb, Bool.false_eq_true, if_false, Nat.add_zero]


theorem remapIndex_ok {n : Nat} {vm : List (Vertex × Nat)} {av : List Vertex} {i j idx x : Nat}
    (h : remapIndex n vm av i j idx = .ok x) : idx < n ∧ x = mapIndex vm av idx := by
  unfold remapIndex at h
  split at h
  · cases h
    exact ⟨by assumption, rfl⟩
  · cases h

theorem remapIndex_of_lt {n : Nat} (vm : List (Vertex × Nat)) (av : List Vertex) (i j : Nat)
    {idx : Nat} (h : idx < n) : remapIndex n vm av i j idx = .ok (mapIndex vm av idx) := by
  unfold remapIndex
  rw [if_pos h]

theorem matchTriangles_ok {n : Nat} {vm : List (Vertex × Nat)} {av : List Vertex}
    {ts : List Triangle} {i : Nat} {m m1 : List (Triangle × Nat)}
    (h : matchTriangles n vm av i ts m = .ok m1) :
    (∀ t ∈ ts, t.1 < n ∧ t.2.1 < n ∧ t.2.2 < n)
      ∧ m1 = (ts.map (fun t => canonicalTriangle (mapIndex vm av t.1) (mapIndex vm av t.2.1)
            (mapIndex vm av t.2.2))).foldl (fun m k => bump 18446744073709551615 k m) m := by
  induction ts generalizing i m with
  | nil =>
    simp only [matchTriangles, Except.ok.injEq] at h
    subst h
    simp
  | cons t rest ih =>
    unfold matchTriangles at h
    obtain ⟨t0, h0, h⟩ := Mlsgpu.except_bind_ok h
    obtain ⟨t1, h1, h⟩ := Mlsgpu.except_bind_ok h
    obtain ⟨t2, h2, h⟩ := Mlsgpu.except_bind_ok h
    obtain ⟨a0, rfl⟩ := remapIndex_ok h0
    obtain ⟨a1, rfl⟩ := remapIndex_ok h1
    obtain ⟨a2, rfl⟩ := remapIndex_ok h2
    obtain ⟨b1, b2⟩ := ih h
    refine ⟨?_, ?_⟩
    · intro u hu
      rcases List.mem_cons.1 hu with rfl | hu
      · exact ⟨a0, a1, a2⟩
      · exact b1 u hu
    · rw [b2]
      rfl

theorem matchTriangles_of_lt {n : Nat} (vm : List (Vertex × Nat)) (av : List Vertex)
    {ts : List Triangle} (i : Nat) (m : List (Triangle × Nat))
    (h : ∀ t ∈ ts, t.1 < n ∧ t.2.1 < n ∧ t.2.2 < n) :
    matchTriangles n vm av i ts m
      = .ok ((ts.map (fun t => canonicalTriangle (mapIndex vm av t.1) (mapIndex vm av t.2.1)
            (mapIndex vm av t.2.2))).foldl (fun m k => bump 18446744073709551615 k m) m) := by
  induction ts generalizing i m with
  | nil => rfl
  | cons t rest ih =>
    obtain ⟨a0, a1, a2⟩ := h t (List.mem_cons_self _ _)
    unfold matchTriangles
    rw [remapIndex_of_lt vm av i 0 a0, remapIndex_of_lt vm av i 1 a1,
      remapIndex_of_lt vm av i 2 a2]
    exact ih (i + 1) _ (fun u hu => h u (List.mem_cons_of_mem _ hu))

theorem triples_indices (ts : List Triangle) : triples (Triangle.indices ts) = ts := by
  induction ts with
  | nil => rfl
  | cons t rest ih =>
    obtain ⟨a, b, c⟩ := t
    simp only [Triangle.indices, triples, ih]

theorem length_indices (ts : List Triangle) : (Triangle.indices ts).length = 3 * ts.length := by
  induction ts with
  | nil => rfl
  | cons t rest ih =>
    simp only [Triangle.indices, List.length_cons, ih]
    omega

/-- With at most `2^32` expected vertices, the index `vertexMap[actualVertices[idx]]` is the
position of the matching expected vertex. -/
theorem mapIndex_eq_matched {eV av : List Vertex} {vm : List (Vertex × Nat)}
    (hvm : insertVertices 0 eV [] = .ok vm) (hsz : eV.length ≤ 4294967296)
    (hsub : ∀ v ∈ av, v ∈ eV) {idx : Nat} (hidx : idx < av.length) :
    mapIndex vm av idx = matched eV av idx := by
  have hmem : av.getD idx ⟨0, 0, 0⟩ ∈ eV := by
    rw [List.getD_eq_getElem _ _ hidx]
    exact hsub _ (List.getElem_mem _)
  unfold mapIndex matched
  rw [insertVertices_lookup hvm, if_pos hmem, Option.getD_some]
  have := List.indexOf_lt_length.2 hmem
  exact Nat.mod_eq_of_lt (by omega)


/-- The canonical triangles the last loop of `checkIsomorphic` counts down: the actual
triangles, renamed by the matching of the vertices. -/
theorem map_mapIndex_eq {eV : List Vertex} {actual : Mesh} {vm : List (Vertex × Nat)}
    (hvm : insertVertices 0 eV [] = .ok vm) (hsz : eV.length ≤ 4294967296)
    (hlen : eV.length = actual.vertices.length) (hsub : ∀ v ∈ actual.vertices, v ∈ eV)
    (hidx : ∀ t ∈ actual.triangles,
      t.1 < eV.length ∧ t.2.1 < eV.length ∧ t.2.2 < eV.length) :
    actual.triangles.map (fun t => canonicalTriangle (mapIndex vm actual.vertices t.1)
        (mapIndex vm actual.vertices t.2.1) (mapIndex vm actual.vertices t.2.2))
      = actual.triangles.map
          (fun t => (Triangle.map (matched eV actual.vertices) t).canonical) := by
  apply List.map_congr_left
  intro t ht
  obtain ⟨a0, a1, a2⟩ := hidx t ht
  rw [hlen] at a0 a1 a2
  simp only [Triangle.canonical, Triangle.map, mapIndex_eq_matched hvm hsz hsub a0,
    mapIndex_eq_matched hvm hsz hsub a1, mapIndex_eq_matched hvm hsz hsub a2]

theorem checkIsomorphic_ok_iff (eV : List Vertex) (eI : List Nat) (actual : Mesh)
    (hsz : eV.length ≤ 4294967296) :
    checkIsomorphic eV eI actual = .ok ()
      ↔ eV.length = actual.vertices.length
        ∧ eI.length = (3 * actual.triangles.length) % 18446744073709551616
        ∧ eV.Nodup
        ∧ (∀ v ∈ actual.vertices, v ∈ eV)
        ∧ (∀ t ∈ actual.triangles, t.1 < eV.length ∧ t.2.1 < eV.length ∧ t.2.2 < eV.length)
        ∧ ∀ k, (((triples eI).map Triangle.canonical).count k
            + 18446744073709551615 * (actual.triangles.map
                (fun t => (Triangle.map (matched eV actual.vertices) t).canonical)).count k)
              % 18446744073709551616 = 0 := by
  constructor
  · intro h
    unfold checkIsomorphic at h
    dsimp only at h
    split_ifs at h with h1 h2
    have h1 : eV.length = actual.vertices.length := not_not.1 h1
    have h2 : eI.length = (3 * actual.triangles.length) % 18446744073709551616 := not_not.1 h2
    obtain ⟨vm, hvm, h⟩ := Mlsgpu.except_bind_ok h
    obtain ⟨⟨⟩, hmv, h⟩ := Mlsgpu.except_bind_ok h
    obtain ⟨tm, hmt, h⟩ := Mlsgpu.except_bind_ok h
    have hsub : ∀ v ∈ actual.vertices, v ∈ eV := by
      intro v hv
      have := matchVertices_ok.1 hmv v hv
      rw [insertVertices_lookup hvm] at this
      by_contra hne
      rw [if_neg hne] at this
      cases this
    obtain ⟨hidx, htm⟩ := matchTriangles_ok hmt
    refine ⟨h1, h2, (insertVertices_ok hvm).1, hsub, hidx, fun k => ?_⟩
    have hzero : ∀ p ∈ tm, p.2 = 0 := by
      by_contra hne
      have : tm.all (fun p => decide (p.2 = 0)) = false := by
        rw [Bool.eq_false_iff]
        intro hall
        apply hne
        intro p hp
        exact of_decide_eq_true (List.all_eq_true.1 hall p hp)
      rw [this] at h
      cases h
    have hk : (tm.lookup k).getD 0 = 0 := by
      cases hl : tm.lookup k with
      | none => rfl
      | some c => exact hzero _ (mem_of_lookup_eq_some hl)
    rw [map_mapIndex_eq hvm hsz h1 hsub hidx] at htm
    have e1 := (foldl_bump 18446744073709551615 (actual.triangles.map
      (fun t => (Triangle.map (matched eV actual.vertices) t).canonical))
      ((triples eI).foldl (fun m t => bump 1 (canonicalTriangle t.1 t.2.1 t.2.2) m) [])).2.2 k
    rw [← htm, hk] at e1
    have e2 := (foldl_bump 1 ((triples eI).map Triangle.canonical) []).2.2 k
    rw [List.foldl_map] at e2
    simp only [Triangle.canonical, List.lookup, Option.getD_none] at e1 e2 ⊢
    omega
  · rintro ⟨h1, h2, hnd, hsub, hidx, hcount⟩
    obtain ⟨vm, hvm⟩ := @insertVertices_of_nodup eV 0 [] hnd (fun _ _ => rfl)
    have hmv : matchVertices vm 0 actual.vertices = .ok () := by
      rw [matchVertices_ok]
      intro v hv
      rw [insertVertices_lookup hvm, if_pos (hsub v hv)]
      rfl
    have hmt := matchTriangles_of_lt vm actual.vertices 0
      ((triples eI).foldl (fun m t => bump 1 (canonicalTriangle t.1 t.2.1 t.2.2) m) []) hidx
    rw [map_mapIndex_eq hvm hsz h1 hsub hidx] at hmt
    have f1 := foldl_bump 1 ((triples eI).map Triangle.canonical) []
    rw [List.foldl_map] at f1
    have f2 := foldl_bump 18446744073709551615 (actual.triangles.map
      (fun t => (Triangle.map (matched eV actual.vertices) t).canonical))
      ((triples eI).foldl (fun m t => bump 1 (canonicalTriangle t.1 t.2.1 t.2.2) m) [])
    have hnk := f2.1 (f1.1 List.nodup_nil)
    have hlt := f2.2.1 (f1.2.1 (fun p hp => absurd hp (List.not_mem_nil _)))
    have hall : ((actual.triangles.map
        (fun t => (Triangle.map (matched eV actual.vertices) t).canonical)).foldl
          (fun m k => bump 18446744073709551615 k m)
          ((triples eI).foldl (fun m t => bump 1 (canonicalTriangle t.1 t.2.1 t.2.2) m)
            [])).all (fun p => decide (p.2 = 0)) = true := by
      rw [List.all_eq_true]
      intro p hp
      apply decide_eq_true
      have hl := lookup_of_mem_nodupKeys hnk (show (p.1, p.2) ∈ _ from hp)
      have e1 := f2.2.2 p.1
      have e2 := f1.2.2 p.1
      have e3 := hcount p.1
      have e4 := hlt p hp
      rw [hl] at e1
      simp only [Triangle.canonical, List.lookup, Option.getD_none, Option.getD_some]
        at e1 e2 e3
      omega
    unfold checkIsomorphic
    dsimp only
    rw [if_neg (not_not.2 h1), if_neg (not_not.2 h2), hvm]
    show (matchVertices vm 0 actual.vertices >>= fun _ => _) = _
    rw [hmv]
    show (matchTriangles eV.length vm actual.vertices 0 actual.triangles _ >>= fun _ => _) = _
    rw [hmt]
    show (if _ then _ else _) = _
    rw [if_pos hall]

end TestMesherBase

theorem Triangle.canonical_eq_iff (x y : Triangle) :
    x.canonical = y.canonical ↔ x.IsRotation y := by
  obtain ⟨a, b, c⟩ := x
  obtain ⟨a1, b1, c1⟩ := y
  exact TestMesherBase.canonicalTriangle_eq_iff a b c a1 b1 c1

theorem Triangle.canonical_canonical (x : Triangle) : x.canonical.canonical = x.canonical := by
  obtain ⟨a, b, c⟩ := x
  exact ((Triangle.canonical_eq_iff _ _).2
    (TestMesherBase.canonicalTriangle_isRotation a b c)).symm

theorem Triangle.IsRotation.map (f : Nat → Nat) {x y : Triangle} (h : x.IsRotation y) :
    (Triangle.map f x).IsRotation (Triangle.map f y) := by
  obtain ⟨a, b, c⟩ := x
  rcases h with rfl | rfl | rfl
  · exact Or.inl rfl
  · exact Or.inr (Or.inl rfl)
  · exact Or.inr (Or.inr rfl)

theorem Triangle.canonical_map_congr (f : Nat → Nat) {x y : Triangle}
    (h : x.canonical = y.canonical) :
    (Triangle.map f x).canonical = (Triangle.map f y).canonical :=
  (Triangle.canonical_eq_iff _ _).2 (((Triangle.canonical_eq_iff _ _).1 h).map f)

theorem Triangle.canonical_map_canonical (f : Nat → Nat) (x : Triangle) :
    (Triangle.map f x.canonical).canonical = (Triangle.map f x).canonical :=
  Triangle.canonical_map_congr f (Triangle.canonical_canonical x)

namespace TestMesherBase

theorem count_triangle (k : Triangle) (l : List Triangle) :
    @List.count Triangle instBEqProd k l = @List.count Triangle instBEqOfDecidableEq k l := by
  unfold List.count
  apply List.countP_congr
  intro x _
  rw [beq_iff_eq]
  exact decide_eq_true_iff.symm

theorem perm_of_count {l₁ l₂ : List Triangle} (h : ∀ k, l₁.count k = l₂.count k) :
    l₁.Perm l₂ := by
  apply List.perm_iff_count.2
  intro k
  rw [← count_triangle, ← count_triangle]
  exact h k

theorem count_of_perm {l₁ l₂ : List Triangle} (h : l₁.Perm l₂) (k : Triangle) :
    l₁.count k = l₂.count k := by
  rw [count_triangle, count_triangle]
  exact h.count_eq k

theorem mem_of_isRotation {x y : Triangle} (h : x.IsRotation y) {n : Nat}
    (hx : x.1 < n ∧ x.2.1 < n ∧ x.2.2 < n) : y.1 < n ∧ y.2.1 < n ∧ y.2.2 < n := by
  obtain ⟨a, b, c⟩ := x
  rcases h with rfl | rfl | rfl
  · exact hx
  · exact ⟨hx.2.1, hx.2.2, hx.1⟩
  · exact ⟨hx.2.2, hx.1, hx.2.1⟩

/-- C22: if the expected vertices are pairwise distinct, the expected indices are below the
number of vertices, and the actual mesh is the expected one with the vertices permuted (and the
indices renamed accordingly), the triangles permuted and the indices of any triangle rotated,
then every assertion of `checkIsomorphic` passes. The sizes are those of the types: at most
`2^32` vertices (indices are `uint32_t`) and an index count that is a `size_t`. -/
theorem checkIsomorphic_accepts (expected actual : Mesh) (hnd : expected.vertices.Nodup)
    (hidx : ∀ t ∈ expected.triangles, t.1 < expected.vertices.length
      ∧ t.2.1 < expected.vertices.length ∧ t.2.2 < expected.vertices.length)
    (hiso : MeshIso expected actual) (hsz : expected.vertices.length ≤ 4294967296)
    (hszt : 3 * expected.triangles.length < 18446744073709551616) :
    checkIsomorphic expected.vertices (Triangle.indices expected.triangles) actual = .ok () := by
  obtain ⟨hlen, σ, hlt, hinj, hvert, hperm⟩ := hiso
  have hsub : ∀ v ∈ actual.vertices, v ∈ expected.vertices := by
    intro v hv
    obtain ⟨w, hw, rfl⟩ := List.getElem_of_mem hv
    obtain ⟨u, hu, rfl⟩ := surj_of_inj_lt hlt hinj w (hlen ▸ hw)
    have := hvert u hu
    rw [List.getElem?_eq_getElem hw, List.getElem?_eq_getElem hu, Option.some.injEq] at this
    rw [this]
    exact List.getElem_mem _
  have hτσ : ∀ v, v < expected.vertices.length →
      matched expected.vertices actual.vertices (σ v) = v := by
    intro v hv
    have hσ : σ v < actual.vertices.length := hlen ▸ hlt v hv
    have := hvert v hv
    rw [List.getElem?_eq_getElem hσ, List.getElem?_eq_getElem hv, Option.some.injEq] at this
    unfold matched
    rw [List.getD_eq_getElem _ _ hσ, this]
    exact List.indexOf_getElem hnd v hv
  have hidxA : ∀ t ∈ actual.triangles, t.1 < expected.vertices.length
      ∧ t.2.1 < expected.vertices.length ∧ t.2.2 < expected.vertices.length := by
    intro t ht
    have : t.canonical ∈ expected.triangles.map (fun t => (Triangle.map σ t).canonical) :=
      hperm.symm.subset (List.mem_map.2 ⟨t, ht, rfl⟩)
    obtain ⟨e, he, hc⟩ := List.mem_map.1 this
    obtain ⟨e0, e1, e2⟩ := hidx e he
    exact mem_of_isRotation ((Triangle.canonical_eq_iff _ _).1 hc)
      ⟨hlt _ e0, hlt _ e1, hlt _ e2⟩
  have hp : (actual.triangles.map
      (fun t => (Triangle.map (matched expected.vertices actual.vertices) t).canonical)).Perm
      (expected.triangles.map Triangle.canonical) := by
    have h1 : actual.triangles.map
        (fun t => (Triangle.map (matched expected.vertices actual.vertices) t).canonical)
        = (actual.triangles.map Triangle.canonical).map
          (fun t => (Triangle.map (matched expected.vertices actual.vertices) t).canonical) := by
      rw [List.map_map]
      apply List.map_congr_left
      intro t _
      exact (Triangle.canonical_map_canonical _ t).symm
    have h2 : (expected.triangles.map (fun t => (Triangle.map σ t).canonical)).map
        (fun t => (Triangle.map (matched expected.vertices actual.vertices) t).canonical)
        = expected.triangles.map Triangle.canonical := by
      rw [List.map_map]
      apply List.map_congr_left
      intro t ht
      obtain ⟨e0, e1, e2⟩ := hidx t ht
      simp only [Function.comp, Triangle.canonical_map_canonical]
      simp only [Triangle.map, hτσ _ e0, hτσ _ e1, hτσ _ e2]
    rw [h1, ← h2]
    exact (hperm.map _).symm
  rw [checkIsomorphic_ok_iff _ _ _ hsz]
  refine ⟨hlen, ?_, hnd, hsub, hidxA, fun k => ?_⟩
  · have hl := hperm.length_eq
    rw [List.length_map, List.length_map] at hl
    rw [length_indices, ← hl]
    exact (Nat.mod_eq_of_lt hszt).symm
  · rw [triples_indices, count_of_perm hp k]
    omega


theorem length_triples_le (l : List Nat) : (triples l).length ≤ l.length := by
  induction l using triples.induct with
  | case1 a b c rest ih =>
    simp only [triples, List.length_cons]
    omega
  | case2 l h =>
    rw [triples]
    · exact Nat.zero_le _
    · exact h

/-- When the check passes, the actual triangles, renamed by the matching of the vertices, are
the expected triangles up to order and rotation. -/
theorem perm_of_checkIsomorphic {eV : List Vertex} {eI : List Nat} {actual : Mesh}
    (hsz : eV.length ≤ 4294967296) (hszt : 3 * actual.triangles.length < 18446744073709551616)
    (h : checkIsomorphic eV eI actual = .ok ()) :
    (actual.triangles.map
      (fun t => (Triangle.map (matched eV actual.vertices) t).canonical)).Perm
      ((triples eI).map Triangle.canonical) := by
  obtain ⟨-, h2, -, -, -, hcount⟩ := (checkIsomorphic_ok_iff eV eI actual hsz).1 h
  apply perm_of_count
  intro k
  have e1 := hcount k
  have e2 : ((triples eI).map Triangle.canonical).count k ≤ eI.length :=
    le_trans (List.count_le_length _ _) (by rw [List.length_map]; exact length_triples_le eI)
  have e3 : (actual.triangles.map
      (fun t => (Triangle.map (matched eV actual.vertices) t).canonical)).count k
      ≤ actual.triangles.length :=
    le_trans (List.count_le_length _ _) (by rw [List.length_map])
  omega

theorem matched_self {eV : List Vertex} (hnd : eV.Nodup) {idx : Nat} (h : idx < eV.length) :
    matched eV eV idx = idx := by
  unfold matched
  rw [List.getD_eq_getElem _ _ h]
  exact List.indexOf_getElem hnd idx h


/-- A passing check with pairwise distinct actual vertices: the matching of the vertices by
equality is a bijection that carries the actual mesh to the expected one. -/
theorem iso_of_checkIsomorphic {eV : List Vertex} {eI : List Nat} {actual : Mesh}
    (hsz : eV.length ≤ 4294967296) (hszt : 3 * actual.triangles.length < 18446744073709551616)
    (h : checkIsomorphic eV eI actual = .ok ()) (hnd : actual.vertices.Nodup) :
    (∀ v, v < actual.vertices.length → matched eV actual.vertices v < eV.length
        ∧ eV[matched eV actual.vertices v]? = actual.vertices[v]?)
      ∧ (∀ u v, u < actual.vertices.length → v < actual.vertices.length →
          matched eV actual.vertices u = matched eV actual.vertices v → u = v)
      ∧ (∀ w, w < eV.length →
          ∃ v, v < actual.vertices.length ∧ matched eV actual.vertices v = w)
      ∧ (actual.triangles.map
          (fun t => (Triangle.map (matched eV actual.vertices) t).canonical)).Perm
          ((triples eI).map Triangle.canonical)
      ∧ MeshIso actual ⟨eV, triples eI⟩ := by
  obtain ⟨h1, -, hndE, hsub, -, -⟩ := (checkIsomorphic_ok_iff eV eI actual hsz).1 h
  have hperm := perm_of_checkIsomorphic hsz hszt h
  have hmem : ∀ v, v < actual.vertices.length → actual.vertices.getD v ⟨0, 0, 0⟩ ∈ eV := by
    intro v hv
    rw [List.getD_eq_getElem _ _ hv]
    exact hsub _ (List.getElem_mem _)
  have hA : ∀ v, v < actual.vertices.length → matched eV actual.vertices v < eV.length
      ∧ eV[matched eV actual.vertices v]? = actual.vertices[v]? := by
    intro v hv
    have hlt : matched eV actual.vertices v < eV.length :=
      List.indexOf_lt_length.2 (hmem v hv)
    refine ⟨hlt, ?_⟩
    rw [List.getElem?_eq_getElem hlt, List.getElem?_eq_getElem hv, Option.some.injEq]
    unfold matched
    rw [List.getElem_indexOf, List.getD_eq_getElem _ _ hv]
  have hB : ∀ u v, u < actual.vertices.length → v < actual.vertices.length →
      matched eV actual.vertices u = matched eV actual.vertices v → u = v := by
    intro u v hu hv e
    have e1 := (hA u hu).2
    have e2 := (hA v hv).2
    rw [e, e2, List.getElem?_eq_getElem hu, List.getElem?_eq_getElem hv,
      Option.some.injEq] at e1
    exact ((List.Nodup.getElem_inj_iff hnd).1 e1).symm
  have hC : ∀ w, w < eV.length →
      ∃ v, v < actual.vertices.length ∧ matched eV actual.vertices v = w := by
    intro w hw
    rw [h1] at hw
    exact surj_of_inj_lt (fun v hv => h1 ▸ (hA v hv).1) hB w hw
  exact ⟨hA, hB, hC, hperm, h1.symm, matched eV actual.vertices,
    fun v hv => h1 ▸ (hA v hv).1, hB, fun v hv => (hA v hv).2, hperm⟩

/-- C23: if `checkIsomorphic` passes and the actual vertices are pairwise distinct, then the
matching of actual to expected vertices by equality is a bijection, and under it the actual
triangles are the expected triangles up to order and up to rotation of each triangle, so the
actual mesh is isomorphic to the expected one. In particular the check fails on the expected
mesh with one triangle of three distinct vertices replaced by a reflection of it. The sizes are
those of the types: at most `2^32` vertices and a triangle array of fewer than `2^64` bytes. -/
theorem checkIsomorphic_sound (eV : List Vertex) (eI : List Nat) (actual : Mesh)
    (hsz : eV.length ≤ 4294967296) (hszt : 3 * actual.triangles.length < 18446744073709551616) :
    (checkIsomorphic eV eI actual = .ok () → actual.vertices.Nodup →
        (∀ v, v < actual.vertices.length → matched eV actual.vertices v < eV.length
            ∧ eV[matched eV actual.vertices v]? = actual.vertices[v]?)
          ∧ (∀ u v, u < actual.vertices.length → v < actual.vertices.length →
              matched eV actual.vertices u = matched eV actual.vertices v → u = v)
          ∧ (∀ w, w < eV.length →
              ∃ v, v < actual.vertices.length ∧ matched eV actual.vertices v = w)
          ∧ (actual.triangles.map
              (fun t => (Triangle.map (matched eV actual.vertices) t).canonical)).Perm
              ((triples eI).map Triangle.canonical)
          ∧ MeshIso actual ⟨eV, triples eI⟩)
      ∧ ∀ (before after : List Triangle) (a b c : Nat) (t : Triangle),
          a ≠ b → b ≠ c → a ≠ c → Triangle.IsRotation (a, c, b) t →
          eI = Triangle.indices (before ++ (a, b, c) :: after) →
          actual = ⟨eV, before ++ t :: after⟩ →
          checkIsomorphic eV eI actual ≠ .ok () := by
  refine ⟨fun h hnd => iso_of_checkIsomorphic hsz hszt h hnd, ?_⟩
  · rintro before after a b c t hab hbc hac hrot rfl rfl h
    obtain ⟨-, -, hndE, -, hidx, -⟩ := (checkIsomorphic_ok_iff _ _ _ hsz).1 h
    have hperm := perm_of_checkIsomorphic hsz hszt h
    rw [triples_indices] at hperm
    have hid : (before ++ t :: after).map
        (fun t => (Triangle.map (matched eV eV) t).canonical)
        = (before ++ t :: after).map Triangle.canonical := by
      apply List.map_congr_left
      intro u hu
      obtain ⟨u0, u1, u2⟩ := hidx u hu
      simp only [Triangle.map, matched_self hndE u0, matched_self hndE u1,
        matched_self hndE u2]
    simp only [hid, List.map_append, List.map_cons] at hperm
    have hc := count_of_perm hperm t.canonical
    have hc1 : t.canonical = Triangle.canonical (a, b, c) := by
      by_contra hne
      have hne2 : ¬ Triangle.canonical (a, b, c) = t.canonical := fun e => hne e.symm
      have hb : (Triangle.canonical (a, b, c) == t.canonical) = false := by simpa using hne2
      simp only [List.count_append, List.count_cons_self, List.count_cons, hb,
        Bool.false_eq_true, if_false] at hc
      omega
    have hc2 := (Triangle.canonical_eq_iff _ _).2 hrot
    rw [hc1, Triangle.canonical_eq_iff] at hc2
    unfold Triangle.IsRotation at hc2
    simp only [Prod.mk.injEq] at hc2
    omega

/-- Witness for C23: the check passes on the mesh the model writes for `testPrune`, whose
triangles are therefore the expected ones up to order and rotation; it fails on the mesh of
three vertices whose triangle `(0, 1, 2)` was replaced by its reflection `(0, 2, 1)`. -/
theorem checkIsomorphic_sound_witness :
    (checkIsomorphic TestWeldMesher.testPruneExpected.vertices
        (Triangle.indices TestWeldMesher.testPruneExpected.triangles)
        TestWeldMesher.testPruneOutput = .ok ()
      ∧ (TestWeldMesher.testPruneOutput.triangles.map
          (fun t => (Triangle.map (matched TestWeldMesher.testPruneExpected.vertices
            TestWeldMesher.testPruneOutput.vertices) t).canonical)).Perm
          ((triples (Triangle.indices TestWeldMesher.testPruneExpected.triangles)).map
            Triangle.canonical))
      ∧ checkIsomorphic [⟨0, 0, 1⟩, ⟨0, 0, 2⟩, ⟨0, 0, 3⟩] [0, 1, 2]
          ⟨[⟨0, 0, 1⟩, ⟨0, 0, 2⟩, ⟨0, 0, 3⟩], [(0, 2, 1)]⟩ ≠ .ok () :=
  ⟨⟨rfl, ((checkIsomorphic_sound TestWeldMesher.testPruneExpected.vertices
      (Triangle.indices TestWeldMesher.testPruneExpected.triangles)
      TestWeldMesher.testPruneOutput (by decide) (by decide)).1 rfl (by decide)).2.2.2.1⟩,
    (checkIsomorphic_sound [⟨0, 0, 1⟩, ⟨0, 0, 2⟩, ⟨0, 0, 3⟩] [0, 1, 2]
      ⟨[⟨0, 0, 1⟩, ⟨0, 0, 2⟩, ⟨0, 0, 3⟩], [(0, 2, 1)]⟩ (by decide) (by decide)).2
      [] [] 0 1 2 (0, 2, 1) (by decide) (by decide) (by decide) (by decide) rfl rfl⟩

/-- Witness for C22: the mesh the model writes for `testPrune` is the expected mesh of the test
up to the order of the vertices and triangles and the rotation of the triangles, and every
assertion of `checkIsomorphic` passes on it. -/
theorem checkIsomorphic_accepts_witness :
    TestWeldMesher.testPruneExpected.vertices.Nodup
      ∧ checkIsomorphic TestWeldMesher.testPruneExpected.vertices
          (Triangle.indices TestWeldMesher.testPruneExpected.triangles)
          TestWeldMesher.testPruneOutput = .ok () :=
  ⟨by decide,
    checkIsomorphic_accepts TestWeldMesher.testPruneExpected TestWeldMesher.testPruneOutput
      (by decide) (by decide)
      (@iso_of_checkIsomorphic TestWeldMesher.testPruneOutput.vertices
        (Triangle.indices TestWeldMesher.testPruneOutput.triangles)
        TestWeldMesher.testPruneExpected (by decide) (by decide) rfl (by decide)).2.2.2.2
      (by decide) (by decide)⟩

theorem inj_of_surj_lt {τ : Nat → Nat} {n : Nat}
    (hsurj : ∀ w, w < n → ∃ v, v < n ∧ τ v = w) (u v : Nat) (hu : u < n) (hv : v < n)
    (e : τ u = τ v) : u = v := by
  have hsub : Finset.range n ⊆ (Finset.range n).image τ := by
    intro w hw
    obtain ⟨x, hx, rfl⟩ := hsurj w (Finset.mem_range.1 hw)
    exact Finset.mem_image.2 ⟨x, Finset.mem_range.2 hx, rfl⟩
  have hcard : (Finset.range n).card ≤ ((Finset.range n).image τ).card :=
    Finset.card_le_card hsub
  have hinj := Finset.injOn_of_card_image_eq
    (le_antisymm Finset.card_image_le hcard)
  exact hinj (Finset.mem_coe.2 (Finset.mem_range.2 hu)) (Finset.mem_coe.2 (Finset.mem_range.2 hv)) e

/-- When the check passes and every expected vertex is used by an expected triangle, every
expected position is the match of an actual vertex. -/
theorem matched_surjective {eV : List Vertex} {eI : List Nat} {actual : Mesh}
    (hsz : eV.length ≤ 4294967296) (hszt : 3 * actual.triangles.length < 18446744073709551616)
    (h : checkIsomorphic eV eI actual = .ok ())
    (hused : ∀ w, w < eV.length → ∃ t ∈ triples eI, w = t.1 ∨ w = t.2.1 ∨ w = t.2.2)
    (w : Nat) (hw : w < eV.length) :
    ∃ v, v < actual.vertices.length ∧ matched eV actual.vertices v = w := by
  obtain ⟨h1, -, -, -, hidx, -⟩ := (checkIsomorphic_ok_iff eV eI actual hsz).1 h
  have hperm := perm_of_checkIsomorphic hsz hszt h
  obtain ⟨t, ht, hwt⟩ := hused w hw
  have hmem : t.canonical ∈ (triples eI).map Triangle.canonical :=
    List.mem_map.2 ⟨t, ht, rfl⟩
  obtain ⟨t', ht', he⟩ := List.mem_map.1 (hperm.mem_iff.2 hmem)
  have hrot : (Triangle.map (matched eV actual.vertices) t').IsRotation t :=
    (Triangle.canonical_eq_iff _ _).1 he
  obtain ⟨i0, i1, i2⟩ := hidx t' ht'
  rw [h1] at i0 i1 i2
  obtain ⟨a, b, c⟩ := t'
  obtain ⟨x, y, z⟩ := t
  unfold Triangle.IsRotation Triangle.map at hrot
  simp only [Prod.mk.injEq] at hrot hwt
  rcases hrot with ⟨r1, r2, r3⟩ | ⟨r1, r2, r3⟩ | ⟨r1, r2, r3⟩ <;>
    rcases hwt with rfl | rfl | rfl
  · exact ⟨a, i0, r1.symm⟩
  · exact ⟨b, i1, r2.symm⟩
  · exact ⟨c, i2, r3.symm⟩
  · exact ⟨b, i1, r1.symm⟩
  · exact ⟨c, i2, r2.symm⟩
  · exact ⟨a, i0, r3.symm⟩
  · exact ⟨c, i2, r1.symm⟩
  · exact ⟨a, i0, r2.symm⟩
  · exact ⟨b, i1, r3.symm⟩

end TestMesherBase

namespace Mlsgpu

theorem roundDims_eq_roundSum (w lo hi : Int) :
    roundDims w lo hi = toUInt32 (toSizeT (roundSum w lo hi / w * w)) := rfl

theorem makeGrid_wide :
    (makeGrid wideSplats 1).toOption.map Grid.extents
      = some (vec3 (-1073741824, 1073741824) (-1073741824, 1073741824)
          (-1073741824, 1073741824)) := by
  have h : ∀ i, (List.foldl Bounds.add (Bounds.first ⟨vec3 0 0 0, 1073741824⟩) []).extent 1 i
      = .ok (-1073741824, 1073741824) := by
    intro i
    apply eq_ok_of_toOption
    fin_cases i <;> decide!
  unfold wideSplats
  rw [makeGrid_cons, h 0, h 1, h 2]
  rfl

/-- Counterexample for C25: for one splat at the origin with radius `2^30` and a spacing of 1,
`makeGrid` returns the extent `[-2^30, 2^30]` on every axis; the difference `hi - lo = 2^31`
is not an `int`, and the sum with `wgs[0] = 16` wraps around as a `size_t`: it is
`2^64 - 2^31 + 16`, not `2^31 + 16`. -/
theorem makeGrid_wide_extent_wraps :
    (∀ s ∈ wideSplats, 0 ≤ s.radius)
      ∧ (makeGrid wideSplats 1).toOption.map (fun g => g.getExtent 0)
          = some (-1073741824, 1073741824)
      ∧ roundSum (wgs 0) (-1073741824) 1073741824 = 18446744071562067984
      ∧ roundSum (wgs 0) (-1073741824) 1073741824 ≠ 1073741824 - (-1073741824) + wgs 0 := by
  refine ⟨?_, ?_, by decide, by decide⟩
  · intro s hs
    simp only [wideSplats, List.mem_singleton] at hs
    subst hs
    decide!
  · have h := makeGrid_wide
    cases hg : makeGrid wideSplats 1 with
    | error e => rw [hg] at h; simp [Except.toOption] at h
    | ok g =>
      rw [hg] at h
      simp only [Except.toOption, Option.map_some', Option.some.injEq] at h ⊢
      simp [Grid.getExtent, h, vec3]

/-- C25, amended: for a non-empty list of splats with finite positions and radii `≥ 0` and a
finite `spacing > 0`, unless a conversion to `int` overflows, `makeGrid` returns extents with
`lo ≤ 0 ≤ hi` on every axis, so `lo ≤ hi`; and if in addition `hi - lo` is an `int`
(`hi - lo ≤ 2^31 - 1`), the sum `hi - lo + wgs[i]` of the rounding step does not wrap around. -/
theorem makeGrid_reference_inside (splats : List Splat) (spacing : Float32) (hne : splats ≠ [])
    (hfin : ∀ s ∈ splats, s.IsFinite) (hrad : ∀ s ∈ splats, 0 ≤ s.radius)
    (hspf : spacing.IsFinite) (hsp : 0 < spacing)
    (hconv : makeGrid splats spacing ≠ .error .badNumericCast) :
    ∃ g, makeGrid splats spacing = .ok g
      ∧ ∀ i, (g.getExtent i).1 ≤ 0 ∧ 0 ≤ (g.getExtent i).2
          ∧ (g.getExtent i).1 ≤ (g.getExtent i).2
          ∧ ((g.getExtent i).2 - (g.getExtent i).1 ≤ 2147483647 →
              roundSum (wgs i) (g.getExtent i).1 (g.getExtent i).2
                = (g.getExtent i).2 - (g.getExtent i).1 + wgs i) := by
  cases splats with
  | nil => exact absurd rfl hne
  | cons first rest =>
    have hord : ∀ i, ((rest.foldl Bounds.add (Bounds.first first)).low i).IsFinite
        ∧ (rest.foldl Bounds.add (Bounds.first first)).bboxMin i
            ≤ (rest.foldl Bounds.add (Bounds.first first)).low i
        ∧ (rest.foldl Bounds.add (Bounds.first first)).low i
            ≤ (rest.foldl Bounds.add (Bounds.first first)).bboxMax i := fun i =>
      Bounds.foldl_ordered rest (Bounds.first first) i
        (fun s h => hfin s (List.mem_cons_of_mem _ h))
        (fun s h => hrad s (List.mem_cons_of_mem _ h))
        (Bounds.first_ordered first (hfin first (List.mem_cons_self _ _))
          (hrad first (List.mem_cons_self _ _)) i)
    cases hm : makeGrid (first :: rest) spacing with
    | error e =>
      exfalso
      obtain ⟨i, hi⟩ := makeGrid_cons_error hm
      obtain ⟨q1, q2⟩ := Bounds.quotients_sign _ spacing i hspf hsp (hord i)
      rcases Bounds.extent_error hi with h | ⟨h, -⟩
      · rw [hm, h] at hconv
        exact hconv rfl
      · rcases h with h | h
        · exact (Flt.not_nan_of_le q1).1 h
        · exact (Flt.not_nan_of_le q2).2 h
    | ok g =>
      obtain ⟨-, hext⟩ := makeGrid_cons_ok hm
      refine ⟨g, rfl, fun i => ?_⟩
      obtain ⟨hlo, hhi, -, -⟩ := Bounds.extent_ok (hext i)
      obtain ⟨q1, q2⟩ := Bounds.quotients_sign _ spacing i hspf hsp (hord i)
      have hfl : ∀ (x : Float32) (z : Int), RoundDown.convert x = .ok z → x.IsFinite :=
        fun x z h => (roundDown_convert_ok h).1
      have hext' := hext i
      unfold Bounds.extent at hext'
      obtain ⟨lo, h1, hext'⟩ := except_bind_ok hext'
      obtain ⟨hi, h2, -⟩ := except_bind_ok hext'
      have hlo0 : (g.getExtent i).1 ≤ 0 := by
        rw [hlo]
        exact floor_nonpos q1 (roundDown_convert_ok h1).1
      have hhi0 : 0 ≤ (g.getExtent i).2 := by
        rw [hhi]
        exact ceil_nonneg q2 (roundUp_convert_ok h2).1
      refine ⟨hlo0, hhi0, hlo0.trans hhi0, fun hw => ?_⟩
      unfold roundSum toSizeT toInt32
      rcases wgs_cases i with h | h <;> rw [h] <;> omega

/-- Witness for C25: for the two splats of `sampleSplats` and a spacing of `1/2` the extents are
`[-1, 8]`, `[-2, 3]` and `[-1, 6]`. -/
theorem makeGrid_reference_inside_witness :
    (makeGrid sampleSplats (1 / 2)).toOption.map Grid.extents
        = some (vec3 (-1, 8) (-2, 3) (-1, 6))
      ∧ ∃ g, makeGrid sampleSplats (1 / 2) = .ok g
          ∧ ∀ i, (g.getExtent i).1 ≤ 0 ∧ 0 ≤ (g.getExtent i).2
              ∧ (g.getExtent i).1 ≤ (g.getExtent i).2
              ∧ ((g.getExtent i).2 - (g.getExtent i).1 ≤ 2147483647 →
                  roundSum (wgs i) (g.getExtent i).1 (g.getExtent i).2
                    = (g.getExtent i).2 - (g.getExtent i).1 + wgs i) :=
  ⟨makeGrid_sample,
    makeGrid_reference_inside sampleSplats (1 / 2) (List.cons_ne_nil _ _)
      (by decide!) (by decide!) (by decide!) (by decide!)
      (fun h => by
        have h2 := makeGrid_sample
        rw [h] at h2
        simp [Except.toOption] at h2)⟩

/-- A property of the outcome of a call followed by the rest of `run`: it holds if it holds when
the call raises and when the rest runs. -/
theorem RunM.call_bind_cases {α β : Type} {Q : Except Exn β × World → Prop}
    {x : Except Exn α} {f : α → RunM β} {w : World}
    (herr : ∀ e, Q (.error e, w)) (hok : ∀ a, Q (f a w)) : Q ((RunM.call x >>= f) w) := by
  cases x with
  | error e => exact herr e
  | ok a => exact hok a

theorem RunM.read_bind_cases {β : Type} {Q : Except Exn β × World → Prop}
    {r : ReadRequest} {x : Except Exn Unit} {f : Unit → RunM β} {w : World}
    (herr : ∀ e, Q (.error e, { w with reads := w.reads ++ [r] }))
    (hok : Q (f () { w with reads := w.reads ++ [r] })) :
    Q ((RunM.enqueueReadBuffer r x >>= f) w) := by
  cases x with
  | error e => exact herr e
  | ok a => exact hok

/-- In every execution of `run` the buffer reads requested are an initial part of the two reads
of a complete execution: the vertices, then the indices. -/
theorem run_reads (env : RunEnv) :
    (run env World.empty).2.reads <+: env.written.reads := by
  have hnil : ∀ e : Exn, (fun r : Except Exn Unit × World => r.2.reads <+: env.written.reads)
      (.error e, World.empty) := fun _ => List.nil_prefix
  unfold run
  refine RunM.call_bind_cases (Q := fun r => r.2.reads <+: env.written.reads) hnil
    (fun inFiles => ?_)
  dsimp only
  refine RunM.call_bind_cases (Q := fun r => r.2.reads <+: env.written.reads) hnil (fun _ => ?_)
  refine RunM.call_bind_cases (Q := fun r => r.2.reads <+: env.written.reads) hnil
    (fun grid => ?_)
  dsimp only
  refine RunM.call_bind_cases (Q := fun r => r.2.reads <+: env.written.reads) hnil (fun _ => ?_)
  refine RunM.call_bind_cases (Q := fun r => r.2.reads <+: env.written.reads) hnil (fun _ => ?_)
  refine RunM.call_bind_cases (Q := fun r => r.2.reads <+: env.written.reads) hnil (fun _ => ?_)
  refine RunM.call_bind_cases (Q := fun r => r.2.reads <+: env.written.reads) hnil (fun _ => ?_)
  refine RunM.call_bind_cases (Q := fun r => r.2.reads <+: env.written.reads) hnil (fun _ => ?_)
  refine RunM.call_bind_cases (Q := fun r => r.2.reads <+: env.written.reads) hnil (fun _ => ?_)
  refine RunM.call_bind_cases (Q := fun r => r.2.reads <+: env.written.reads) hnil (fun _ => ?_)
  refine RunM.call_bind_cases (Q := fun r => r.2.reads <+: env.written.reads) hnil (fun _ => ?_)
  refine RunM.call_bind_cases (Q := fun r => r.2.reads <+: env.written.reads) hnil (fun _ => ?_)
  refine RunM.call_bind_cases (Q := fun r => r.2.reads <+: env.written.reads) hnil (fun _ => ?_)
  refine RunM.call_bind_cases (Q := fun r => r.2.reads <+: env.written.reads) hnil (fun _ => ?_)
  refine RunM.read_bind_cases (Q := fun r => r.2.reads <+: env.written.reads)
    (fun _ => ⟨[_], rfl⟩) ?_
  refine RunM.read_bind_cases (Q := fun r => r.2.reads <+: env.written.reads)
    (fun _ => List.prefix_refl _) ?_
  refine RunM.call_bind_cases (Q := fun r => r.2.reads <+: env.written.reads)
    (fun _ => List.prefix_refl _) (fun _ => ?_)
  exact List.prefix_refl _

/-- C26: in `run`, the read of the index buffer asks for `totals.s1 * 4` bytes into a host
array of `floor(totals.s1 / 3)` triangles of 12 bytes: the bytes read fit the array exactly when
`totals.s1` is a multiple of 3, the read exceeds the array by `4 * (totals.s1 mod 3)` bytes
otherwise, and when `run` returns `floor(totals.s1 / 3)` faces have been written. -/
theorem index_read_size (env : RunEnv) (r : ReadRequest)
    (h : (run env World.empty).2.reads[1]? = some r) :
    r.bytes = env.totals.2 * 4 ∧ r.hostBytes = env.totals.2 / 3 * 12
      ∧ (r.bytes ≤ r.hostBytes ↔ env.totals.2 % 3 = 0)
      ∧ r.bytes = r.hostBytes + 4 * (env.totals.2 % 3)
      ∧ ((run env World.empty).1 = .ok () →
          (run env World.empty).2.sink[1]? = some ⟨"face", env.totals.2 / 3⟩) := by
  have hr : r = ⟨env.totals.2 * sizeofUInt, env.totals.2 / 3 * (3 * sizeofUInt)⟩ := by
    obtain ⟨t, ht⟩ := run_reads env
    have h2 : ((run env World.empty).2.reads ++ t)[1]? = some r := by
      rw [List.getElem?_append_left]
      · exact h
      · by_contra hlt
        rw [List.getElem?_eq_none (by omega)] at h
        cases h
    rw [ht] at h2
    simp only [RunEnv.written, List.getElem?_cons_succ, List.getElem?_cons_zero,
      Option.some.injEq] at h2
    exact h2.symm
  subst hr
  refine ⟨rfl, ?_, ?_, ?_, fun hok => ?_⟩
  · simp only [sizeofUInt]
  · simp only [sizeofUInt]
    omega
  · simp only [sizeofUInt]
    omega
  · rw [run_of_reaches env (run_reaches_of_ok env hok).1]
    rfl

theorem unevenEnv_reaches : unevenEnv.ReachesWrite := by
  obtain ⟨g, hg⟩ := makeGrid_sample_ok
  exact ⟨sampleFiles, g, rfl, rfl, hg,
    RunEnv.mem_deviceOps rfl rfl rfl rfl rfl rfl rfl rfl rfl rfl rfl rfl rfl rfl⟩

/-- Witness for C26: in the execution `sampleEnv` the device reports 36 indices: 144 bytes are
read into 12 triangles of 12 bytes, and 12 faces are written. In the execution `unevenEnv` it
reports 37 indices: 148 bytes are read into the same 144 bytes, 4 bytes too many. -/
theorem index_read_size_witness :
    ((run sampleEnv World.empty).2.reads[1]? = some ⟨144, 144⟩
        ∧ (run sampleEnv World.empty).2.sink[1]? = some ⟨"face", 12⟩)
      ∧ (run unevenEnv World.empty).2.reads[1]? = some ⟨148, 144⟩
      ∧ ((148 : Nat) ≤ 144 ↔ unevenEnv.totals.2 % 3 = 0) :=
  have h : (run sampleEnv World.empty).2.reads[1]? = some ⟨144, 144⟩ := by
    rw [run_of_reaches sampleEnv sampleEnv_reaches]
    rfl
  have h2 : (run unevenEnv World.empty).2.reads[1]? = some ⟨148, 144⟩ := by
    rw [run_of_reaches unevenEnv unevenEnv_reaches]
    rfl
  ⟨⟨h, (index_read_size sampleEnv ⟨144, 144⟩ h).2.2.2.2
      (by rw [run_of_reaches sampleEnv sampleEnv_reaches]; rfl)⟩,
    h2, (index_read_size unevenEnv ⟨148, 144⟩ h2).2.2.1⟩

end Mlsgpu

/-! ### Timing of OpenCL events -/

namespace Statistics

theorem timed_iff (event : Event) :
    event.timed = true ↔ event.executionStatus = CL_COMPLETE
      ∧ event.commandStart.status = CL_SUCCESS ∧ event.commandEnd.status = CL_SUCCESS := by
  simp [Event.timed, and_assoc]

theorem profilingGood_iff (event : Event) :
    profilingGood event = true
      ↔ event.commandStart.status = CL_SUCCESS ∧ event.commandEnd.status = CL_SUCCESS := by
  unfold profilingGood
  split_ifs <;> simp [*]

/-- How the scan of the events of an entry ends. -/
theorem scanEvents_spec (finalize : Bool) (events : List Event) (total : Float64) :
    scanEvents finalize events total
      = (match events.find? (fun event => !event.timed) with
        | none => .done true (sumDurations total events)
        | some event =>
          if event.executionStatus ≠ CL_COMPLETE ∧ finalize = false then .notReady
          else .done false (sumDurations total (events.takeWhile Event.timed))) := by
  induction events generalizing total with
  | nil => simp [scanEvents, sumDurations]
  | cons e rest ih =>
    unfold scanEvents
    by_cases hc : e.executionStatus = CL_COMPLETE
    · by_cases hp : profilingGood e = true
      · have ht : e.timed = true := (timed_iff e).2 ⟨hc, (profilingGood_iff e).1 hp⟩
        simp only [hc, ne_eq, not_true_eq_false, if_false, hp, if_true, ih, List.find?_cons,
          ht, Bool.not_true, List.takeWhile_cons, sumDurations, List.foldl_cons]
      · have ht : e.timed = false := by
          rw [Bool.eq_false_iff]
          intro h
          exact hp ((profilingGood_iff e).2 ((timed_iff e).1 h).2)
        simp [hc, hp, List.find?_cons, ht, sumDurations]
    · have ht : e.timed = false := by
        rw [Bool.eq_false_iff]
        intro h
        exact hc ((timed_iff e).1 h).1
      cases finalize <;> simp [hc, List.find?_cons, ht, sumDurations]

theorem scanEvents_notReady_iff (finalize : Bool) (events : List Event) (total : Float64) :
    scanEvents finalize events total = .notReady
      ↔ finalize = false ∧ meetsIncomplete events = true := by
  rw [scanEvents_spec]
  unfold meetsIncomplete
  cases h : events.find? (fun event => !event.timed) with
  | none => simp
  | some e =>
    by_cases hc : e.executionStatus = CL_COMPLETE <;> cases finalize <;> simp [hc]

theorem scanEvents_good_iff (finalize : Bool) (events : List Event) (total t : Float64) :
    scanEvents finalize events total = .done true t
      ↔ events.all Event.timed = true ∧ t = sumDurations total events := by
  rw [scanEvents_spec]
  cases h : events.find? (fun event => !event.timed) with
  | none =>
    have hall : events.all Event.timed = true := by
      rw [List.all_eq_true]
      intro e he
      have := List.find?_eq_none.1 h e he
      simpa using this
    simp [hall, eq_comm]
  | some e =>
    have hmem := List.mem_of_find?_eq_some h
    have hne := List.find?_some h
    have hall : ¬ events.all Event.timed = true := by
      rw [List.all_eq_true]
      intro hall
      have := hall e hmem
      simp [this] at hne
    by_cases hx : e.executionStatus ≠ CL_COMPLETE ∧ finalize = false <;> simp [hx, hall]


/-- What the loop of `flushEventTimes` does to the queue, the samples and the counter. -/
theorem flushLoop_spec (finalize : Bool) (queue : List Entry)
    (samples : List (String × Float64))
    (eventsPeak : Int) :
    flushLoop finalize queue samples eventsPeak
      = { savedEvents :=
            if finalize then [] else queue.dropWhile (fun entry => !meetsIncomplete entry.1),
          samples := samples ++ (removed finalize queue).filterMap sampleOf,
          eventsPeak := eventsPeak - (removed finalize queue).length } := by
  induction queue generalizing samples eventsPeak with
  | nil => cases finalize <;> simp [flushLoop, removed]
  | cons entry rest ih =>
    unfold flushLoop
    cases hs : scanEvents finalize entry.1 0 with
    | notReady =>
      obtain ⟨rfl, hm⟩ := (scanEvents_notReady_iff _ _ _).1 hs
      simp [removed, hm]
    | done good total =>
      have hnr : ¬ (finalize = false ∧ meetsIncomplete entry.1 = true) := by
        intro h
        rw [(scanEvents_notReady_iff finalize entry.1 0).2 h] at hs
        cases hs
      have hrem : removed finalize (entry :: rest) = entry :: removed finalize rest := by
        unfold removed
        cases finalize with
        | true => simp
        | false =>
          have : meetsIncomplete entry.1 = false := by
            cases hmi : meetsIncomplete entry.1 with
            | false => rfl
            | true => exact absurd ⟨rfl, hmi⟩ hnr
          simp [this]
      have hdrop : (if finalize then ([] : List Entry)
            else (entry :: rest).dropWhile (fun entry => !meetsIncomplete entry.1))
          = if finalize then [] else rest.dropWhile (fun entry => !meetsIncomplete entry.1) := by
        cases finalize with
        | true => simp
        | false =>
          have : meetsIncomplete entry.1 = false := by
            cases hmi : meetsIncomplete entry.1 with
            | false => rfl
            | true => exact absurd ⟨rfl, hmi⟩ hnr
          simp [this]
      have hsample : (if good then samples ++ [(entry.2, total)] else samples)
          = samples ++ (sampleOf entry).toList := by
        cases good with
        | true =>
          obtain ⟨hall, rfl⟩ := (scanEvents_good_iff _ _ _ _).1 hs
          simp [sampleOf, hall]
        | false =>
          have hall : ¬ entry.1.all Event.timed = true := by
            intro hall
            rw [(scanEvents_good_iff finalize entry.1 0 _).2 ⟨hall, rfl⟩] at hs
            cases hs
          simp [sampleOf, hall]
      simp only [ih, hrem, hdrop, hsample, List.filterMap_cons, List.length_cons]
      congr 1
      · cases sampleOf entry <;> simp
      · push_cast
        ring


theorem meetsIncomplete_iff (events : List Event) :
    meetsIncomplete events = true
      ↔ ∃ before event after, events = before ++ event :: after
          ∧ (∀ e ∈ before, e.timed = true) ∧ event.executionStatus ≠ CL_COMPLETE := by
  unfold meetsIncomplete
  constructor
  · intro h
    cases hf : events.find? (fun event => !event.timed) with
    | none => rw [hf] at h; cases h
    | some e =>
      rw [hf] at h
      obtain ⟨-, before, after, rfl, hb⟩ := List.find?_eq_some.1 hf
      exact ⟨before, e, after, rfl, fun x hx => by simpa using hb x hx, by simpa using h⟩
  · rintro ⟨before, e, after, rfl, hb, hc⟩
    have hnt : e.timed = false := by
      rw [Bool.eq_false_iff]
      intro h
      exact hc ((timed_iff e).1 h).1
    have : (before ++ e :: after).find? (fun event => !event.timed) = some e := by
      rw [List.find?_eq_some]
      exact ⟨by simp [hnt], before, after, rfl, fun x hx => by simp [hb x hx]⟩
    rw [this]
    simpa using hc

theorem removed_append_remaining (finalize : Bool) (s : State) :
    removed finalize s.savedEvents ++ (flushEventTimes finalize s).savedEvents
      = s.savedEvents := by
  unfold flushEventTimes
  rw [flushLoop_spec]
  cases finalize with
  | true => simp [removed]
  | false => simp [removed, List.takeWhile_append_dropWhile]

theorem flushEventTimes_finalize_empty (s : State) :
    (flushEventTimes true s).savedEvents = [] := by
  unfold flushEventTimes
  rw [flushLoop_spec]
  simp

/-- C27: `flushEventTimes` takes entries off the front of the queue only: the queue after a call
is a suffix of the queue before it. With `finalize = true` the queue is left empty. With
`finalize = false` the queue is left from the first entry on whose scan, in the order of its
events, meets an event that is not `CL_COMPLETE` (all events before it being complete with
successful profiling queries); that entry and all later ones stay. -/
theorem flushEventTimes_fifo (finalize : Bool) (s : State) :
    (flushEventTimes finalize s).savedEvents <:+ s.savedEvents
      ∧ removed finalize s.savedEvents ++ (flushEventTimes finalize s).savedEvents
          = s.savedEvents
      ∧ (flushEventTimes true s).savedEvents = []
      ∧ (flushEventTimes false s).savedEvents
          = s.savedEvents.dropWhile (fun entry => !meetsIncomplete entry.1)
      ∧ (∀ entry ∈ removed false s.savedEvents, meetsIncomplete entry.1 = false)
      ∧ (∀ entry, (flushEventTimes false s).savedEvents.head? = some entry →
          ∃ before event after, entry.1 = before ++ event :: after
            ∧ (∀ e ∈ before, e.timed = true) ∧ event.executionStatus ≠ CL_COMPLETE) := by
  have hsplit := removed_append_remaining finalize s
  have hfalse : (flushEventTimes false s).savedEvents
      = s.savedEvents.dropWhile (fun entry => !meetsIncomplete entry.1) := by
    unfold flushEventTimes
    rw [flushLoop_spec]
    simp
  refine ⟨⟨_, hsplit⟩, hsplit, flushEventTimes_finalize_empty s, hfalse, ?_, ?_⟩
  · intro entry he
    have := List.mem_takeWhile_imp (by simpa [removed] using he)
    simpa using this
  · intro entry he
    rw [hfalse] at he
    have := List.head?_dropWhile_not (fun entry : Entry => !meetsIncomplete entry.1)
      s.savedEvents
    rw [he] at this
    exact (meetsIncomplete_iff entry.1).1 (by simpa using this)


/-- Witness for C27: from the queue of `sampleState` a call with `finalize = false` takes the
first two entries and stops at the third, whose second event is still running; the complete
fourth entry stays behind it. A call with `finalize = true` empties the queue. -/
theorem flushEventTimes_fifo_witness :
    (flushEventTimes false sampleState).savedEvents
        = [([completeEvent, runningEvent], "scan"), ([completeEvent], "write")]
      ∧ (flushEventTimes true sampleState).savedEvents = [] :=
  ⟨by rw [(flushEventTimes_fifo false sampleState).2.2.2.1]; decide,
    (flushEventTimes_fifo true sampleState).2.2.1⟩

/-- C28: for every entry a call of `flushEventTimes` removes, in order, the statistic of the
entry receives one sample if every event is `CL_COMPLETE` and both profiling queries of every
event return `CL_SUCCESS`, and nothing otherwise; no other sample is added. The sample is the
sum over the events, in their order and starting from `0.0`, of `1e-9 * (END - START)`, with
the difference taken modulo `2^64` and the conversion, the products and the sums those of
`double`. -/
theorem flushEventTimes_samples (finalize : Bool) (s : State) :
    (flushEventTimes finalize s).samples
        = s.samples ++ (removed finalize s.savedEvents).filterMap sampleOf
      ∧ (∀ entry : Entry,
          (∀ e ∈ entry.1, e.executionStatus = CL_COMPLETE
            ∧ e.commandStart.status = CL_SUCCESS ∧ e.commandEnd.status = CL_SUCCESS) →
          sampleOf entry = some (entry.2, entry.1.foldl (fun sum e =>
            sum + Flt.ofRatio binary64 false 1 1000000000
              * Flt.ofInt binary64 (((e.commandEnd.value : Int) - (e.commandStart.value : Int))
                  % 18446744073709551616)) 0))
      ∧ (∀ entry : Entry,
          (∃ e ∈ entry.1, ¬ (e.executionStatus = CL_COMPLETE
            ∧ e.commandStart.status = CL_SUCCESS ∧ e.commandEnd.status = CL_SUCCESS)) →
          sampleOf entry = none) := by
  refine ⟨?_, ?_, ?_⟩
  · unfold flushEventTimes
    rw [flushLoop_spec]
  · intro entry h
    have hall : entry.1.all Event.timed = true := by
      rw [List.all_eq_true]
      intro e he
      exact (timed_iff e).2 (h e he)
    unfold sampleOf
    rw [if_pos hall]
    rfl
  · rintro entry ⟨e, he, hne⟩
    have hall : ¬ entry.1.all Event.timed = true := by
      rw [List.all_eq_true]
      intro hall
      exact hne ((timed_iff e).1 (hall e he))
    unfold sampleOf
    rw [if_neg hall]

/-- Witness for C28: finalizing the queue of `sampleState` adds one sample for `build` (two
events of 2500 ns) and one for `write` (one event of 2500 ns), and nothing for `sort` (no
profiling information) and `scan` (an event that is not complete). The samples are the
`double` values `0x1.4f8b588e368f1p-18` and `0x1.4f8b588e368f1p-19`; the second one is
`5902958103587057 / 2^71`, which is not `2500 / 10^9`. -/
theorem flushEventTimes_samples_witness :
    (flushEventTimes true sampleState).samples
        = [("build", .finite false ⟨5902958103587057, by decide⟩ ⟨1004, by decide⟩),
           ("write", .finite false ⟨5902958103587057, by decide⟩ ⟨1003, by decide⟩)]
      ∧ sampleOf ([completeEvent], "write")
          = some ("write", (0 : Float64) + Flt.ofRatio binary64 false 1 1000000000
              * Flt.ofInt binary64 (((3500 : Int) - 1000) % 18446744073709551616))
      ∧ (Flt.finite false ⟨5902958103587057, by decide⟩ ⟨1003, by decide⟩ : Float64).toRat
          = 5902958103587057 / 2 ^ 71
      ∧ (5902958103587057 / 2 ^ 71 : ℚ) ≠ 2500 / 1000000000 := by
  refine ⟨by decide!, ?_, ?_, by norm_num⟩
  · exact (flushEventTimes_samples true sampleState).2.1 ([completeEvent], "write") (by decide)
  · have hc : (Flt.finite false ⟨5902958103587057, by decide⟩ ⟨1003, by decide⟩ : Float64).code
        = 5902958103587057 * 2 ^ 1003 := by decide!
    rw [Flt.toRat, hc]
    have h2 : ((2 : ℚ) ^ binary64.unit) = 2 ^ 71 * 2 ^ 1003 := by
      rw [← pow_add]
      rfl
    rw [h2]
    push_cast
    field_simp
    ring

theorem flushEventTimes_peak (finalize : Bool) (s : State) :
    (flushEventTimes finalize s).eventsPeak
      = s.eventsPeak - (removed finalize s.savedEvents).length := by
  unfold flushEventTimes
  rw [flushLoop_spec]

theorem flushEventTimes_balance (finalize : Bool) (s : State) :
    (flushEventTimes finalize s).eventsPeak - (flushEventTimes finalize s).savedEvents.length
      = s.eventsPeak - s.savedEvents.length := by
  have h1 := flushEventTimes_peak finalize s
  have h2 := congrArg List.length (removed_append_remaining finalize s)
  rw [List.length_append] at h2
  omega

theorem step_balance (s : State) (step : Step) :
    (step.apply s).eventsPeak - (step.apply s).savedEvents.length
      = s.eventsPeak - s.savedEvents.length := by
  have hte : ∀ events stat, (timeEvents events stat s).eventsPeak
      - (timeEvents events stat s).savedEvents.length = s.eventsPeak - s.savedEvents.length := by
    intro events stat
    unfold timeEvents
    split_ifs with h
    · rw [flushEventTimes_balance]
      simp only [List.length_append, List.length_singleton]
      push_cast
      ring
    · rfl
  cases step with
  | timeEvents events stat => exact hte events stat
  | timeEvent event stat => exact hte [event] stat
  | finalizeEventTimes => exact flushEventTimes_balance true s
  | device change => simp [Step.apply]

/-- C29: `timeEvents` with a non-empty event list appends one entry and adds 1 to `events.peak`
before it flushes; every entry `flushEventTimes` removes subtracts 1; `timeEvents` with an empty
list changes nothing. So the value of `events.peak` minus the length of the queue is the same
before and after `timeEvents`, `timeEvent` and `finalizeEventTimes`, and after
`finalizeEventTimes` the counter has the value it had when the queue was last empty, whatever
calls were made and however the events changed in between. -/
theorem eventsPeak_tracks_queue (s : State) :
    (∀ events stat, events ≠ [] → timeEvents events stat s
        = flushEventTimes false { s with savedEvents := s.savedEvents ++ [(events, stat)],
                                         eventsPeak := s.eventsPeak + 1 })
      ∧ (∀ finalize, (flushEventTimes finalize s).eventsPeak
          = s.eventsPeak - (removed finalize s.savedEvents).length
        ∧ removed finalize s.savedEvents ++ (flushEventTimes finalize s).savedEvents
            = s.savedEvents)
      ∧ (∀ stat, timeEvents [] stat s = s)
      ∧ (∀ events stat, (timeEvents events stat s).eventsPeak
          - (timeEvents events stat s).savedEvents.length
            = s.eventsPeak - s.savedEvents.length)
      ∧ (∀ event stat, (timeEvent event stat s).eventsPeak
          - (timeEvent event stat s).savedEvents.length
            = s.eventsPeak - s.savedEvents.length)
      ∧ ((finalizeEventTimes s).eventsPeak - (finalizeEventTimes s).savedEvents.length
          = s.eventsPeak - s.savedEvents.length)
      ∧ (s.savedEvents = [] → ∀ steps : List Step,
          (finalizeEventTimes (steps.foldl Step.apply s)).savedEvents = []
            ∧ (finalizeEventTimes (steps.foldl Step.apply s)).eventsPeak = s.eventsPeak) := by
  refine ⟨fun events stat h => ?_, fun finalize => ⟨flushEventTimes_peak finalize s,
    removed_append_remaining finalize s⟩, fun stat => ?_,
    fun events stat => step_balance s (.timeEvents events stat),
    fun event stat => step_balance s (.timeEvent event stat),
    step_balance s .finalizeEventTimes, fun hs steps => ?_⟩
  · unfold timeEvents
    rw [if_pos h]
  · unfold timeEvents
    simp
  · have hinv : ∀ (steps : List Step) (t : State),
        (steps.foldl Step.apply t).eventsPeak - (steps.foldl Step.apply t).savedEvents.length
          = t.eventsPeak - t.savedEvents.length := by
      intro steps
      induction steps with
      | nil => intro t; rfl
      | cons step rest ih =>
        intro t
        rw [List.foldl_cons, ih, step_balance]
    have hempty : (finalizeEventTimes (steps.foldl Step.apply s)).savedEvents = [] :=
      flushEventTimes_finalize_empty _
    refine ⟨hempty, ?_⟩
    have h1 := flushEventTimes_balance true (steps.foldl Step.apply s)
    have h2 := hinv steps s
    unfold finalizeEventTimes at hempty ⊢
    rw [hempty] at h1
    rw [hs] at h2
    simp only [List.length_nil, Int.Nat.cast_ofNat_Int, sub_zero] at h1 h2
    omega

/-- Witness for C29: starting from an empty queue with the counter at 7, four calls (one with
an empty event list) and a change of the pending events by the device leave two entries pending
and the counter at 9; `finalizeEventTimes` brings the queue to empty and the counter back
to 7. -/
theorem eventsPeak_tracks_queue_witness :
    ((([Step.timeEvents [completeEvent, runningEvent] "scan", Step.timeEvents [] "sort",
          Step.timeEvent completeEvent "write", Step.device (fun events => events),
          Step.timeEvent runningEvent "build"].foldl Step.apply
          ⟨[], [], 7⟩).savedEvents.map Prod.snd = ["scan", "write", "build"])
      ∧ (finalizeEventTimes ([Step.timeEvents [completeEvent, runningEvent] "scan",
          Step.timeEvents [] "sort", Step.timeEvent completeEvent "write",
          Step.device (fun events => events), Step.timeEvent runningEvent "build"].foldl
          Step.apply ⟨[], [], 7⟩)).eventsPeak = 7) :=
  ⟨by decide,
    ((eventsPeak_tracks_queue ⟨[], [], 7⟩).2.2.2.2.2.2 rfl _).2⟩

end Statistics

namespace MemoryWriter

theorem length_resize (data : List Byte) (n : Nat) : (resize data n).length = n := by
  simp only [resize, List.length_append, List.length_take, List.length_replicate]
  omega

theorem resize_eq_append (data : List Byte) (n : Nat) (h : data.length ≤ n) :
    resize data n = data ++ List.replicate (n - data.length) 0 := by
  simp only [resize, List.take_of_length_le h]

theorem length_copy (buffer : List Byte) (count : Nat) (data : List Byte) (offset : Nat)
    (hb : count ≤ buffer.length) (hd : offset + count ≤ data.length) :
    (copy buffer count data offset).length = data.length := by
  simp only [copy, List.length_append, List.length_take, List.length_drop]
  omega

theorem copy_inside (buffer : List Byte) (count : Nat) (data : List Byte) (offset : Nat)
    (hb : count ≤ buffer.length) (hd : offset + count ≤ data.length) (i : Nat)
    (hi : i < count) : (copy buffer count data offset)[offset + i]? = buffer[i]? := by
  have h1 : (List.take offset data).length = offset := by
    rw [List.length_take]; omega
  have h2 : (List.take count buffer).length = count := by
    rw [List.length_take]; omega
  unfold copy
  rw [List.append_assoc, List.getElem?_append_right (by omega), h1, Nat.add_sub_cancel_left,
    List.getElem?_append_left (by omega), List.getElem?_take_of_lt hi]

theorem copy_before (buffer : List Byte) (count : Nat) (data : List Byte) (offset : Nat)
    (hd : offset + count ≤ data.length) (i : Nat) (hi : i < offset) :
    (copy buffer count data offset)[i]? = data[i]? := by
  have h1 : (List.take offset data).length = offset := by
    rw [List.length_take]; omega
  unfold copy
  rw [List.append_assoc, List.getElem?_append_left (by omega), List.getElem?_take_of_lt hi]

theorem copy_after (buffer : List Byte) (count : Nat) (data : List Byte) (offset : Nat)
    (hb : count ≤ buffer.length) (hd : offset + count ≤ data.length) (i : Nat)
    (hi : offset + count ≤ i) : (copy buffer count data offset)[i]? = data[i]? := by
  have h1 : (List.take offset data ++ List.take count buffer).length = offset + count := by
    rw [List.length_append, List.length_take, List.length_take]; omega
  unfold copy
  rw [List.getElem?_append_right (by omega), h1, List.getElem?_drop]
  congr 1
  omega

theorem copy_copy (buffer : List Byte) (count : Nat) (data : List Byte) (offset : Nat)
    (hb : count ≤ buffer.length) (hd : offset + count ≤ data.length) :
    copy buffer count (copy buffer count data offset) offset = copy buffer count data offset := by
  apply List.ext_getElem?
  intro i
  have hlen := length_copy buffer count data offset hb hd
  by_cases h1 : i < offset
  · rw [copy_before _ _ _ _ (by omega) i h1]
  · by_cases h2 : offset + count ≤ i
    · rw [copy_after _ _ _ _ hb (by omega) i h2]
    · obtain ⟨j, rfl⟩ : ∃ j, i = offset + j := ⟨i - offset, by omega⟩
      rw [copy_inside _ _ _ _ hb (by omega) j (by omega),
        copy_inside _ _ _ _ hb hd j (by omega)]

theorem writeImpl_eq (maxSize : Nat) (buffer : List Byte) (count offset : Nat) (s : State)
    (name : String) (data : List Byte) (hmax : maxSize < 18446744073709551616)
    (hcur : s.curOutput = some name) (hout : s.outputs name = some data)
    (hbuf : count ≤ buffer.length) (hsize : offset + count ≤ maxSize) :
    writeImpl maxSize buffer count offset s
      = .ok ({ s with outputs := fun key =>
                if key = name then
                  some (copy buffer count (resize data (max data.length (offset + count))) offset)
                else s.outputs key }, count) := by
  have hmod : (count + offset) % 18446744073709551616 = offset + count := by
    rw [Nat.mod_eq_of_lt (by omega), Nat.add_comm]
  unfold writeImpl
  simp only [hcur, hout, hmod]
  rw [if_neg (by omega)]
  by_cases hlt : data.length < offset + count
  · have hm : max data.length (offset + count) = offset + count := max_eq_right (by omega)
    simp only [hlt, if_true, hm]
    rw [if_neg (by rw [length_resize]; omega)]
  · have hm : max data.length (offset + count) = data.length := max_eq_left (by omega)
    have hr : resize data data.length = data := by
      rw [resize_eq_append _ _ (le_refl _)]; simp
    have hc : ¬ (buffer.length < count ∨ False) := by
      rw [or_false]
      omega
    simp only [hlt, if_false, hm, hr]
    rw [if_neg hc]

/-- C30: with an output open, a buffer of at least `count` bytes and `offset + count` within
the largest size of a string, `writeImpl` returns `count`; the open output then has length
`max oldLength (offset + count)`, its bytes at `offset .. offset + count` are those of the
buffer, every other byte below `oldLength` is unchanged, the gap from `oldLength` to `offset`
holds zero bytes, the other outputs and the open output stay as they are, and a second call
with the same arguments returns `count` again and changes nothing. -/
theorem writeImpl_overwrite (maxSize : Nat) (buffer : List Byte) (count offset : Nat)
    (s : State) (name : String) (data : List Byte) (hmax : maxSize < 18446744073709551616)
    (hcur : s.curOutput = some name) (hout : s.outputs name = some data)
    (hbuf : count ≤ buffer.length) (hsize : offset + count ≤ maxSize) :
    ∃ (after : State) (written : List Byte),
      writeImpl maxSize buffer count offset s = .ok (after, count)
        ∧ after.curOutput = some name
        ∧ after.outputs name = some written
        ∧ (∀ other, other ≠ name → after.outputs other = s.outputs other)
        ∧ written.length = max data.length (offset + count)
        ∧ (∀ i, i < count → written[offset + i]? = buffer[i]?)
        ∧ (∀ i, i < data.length → (i < offset ∨ offset + count ≤ i) → written[i]? = data[i]?)
        ∧ (∀ i, data.length ≤ i → i < offset → written[i]? = some 0)
        ∧ writeImpl maxSize buffer count offset after = .ok (after, count) := by
  have hle : data.length ≤ max data.length (offset + count) := le_max_left _ _
  have hlen := length_resize data (max data.length (offset + count))
  have hfit : offset + count ≤ (resize data (max data.length (offset + count))).length := by
    rw [hlen]; exact le_max_right _ _
  have hres : ∀ i, i < data.length →
      (resize data (max data.length (offset + count)))[i]? = data[i]? := by
    intro i hi
    rw [resize_eq_append _ _ hle, List.getElem?_append_left hi]
  have hzero : ∀ i, data.length ≤ i → i < offset →
      (resize data (max data.length (offset + count)))[i]? = some 0 := by
    intro i h1 h2
    have h3 : i - data.length < max data.length (offset + count) - data.length := by
      have hm := le_max_right data.length (offset + count)
      generalize max data.length (offset + count) = m at hm
      omega
    rw [resize_eq_append _ _ hle, List.getElem?_append_right h1,
      List.getElem?_replicate, if_pos h3]
  refine ⟨_, _, writeImpl_eq maxSize buffer count offset s name data hmax hcur hout hbuf hsize,
    hcur, if_pos rfl, fun other ho => if_neg ho, ?_, ?_, ?_, ?_, ?_⟩
  · rw [length_copy _ _ _ _ hbuf hfit, hlen]
  · exact copy_inside _ _ _ _ hbuf hfit
  · intro i hi hor
    rcases hor with h | h
    · rw [copy_before _ _ _ _ hfit i h, hres i hi]
    · rw [copy_after _ _ _ _ hbuf hfit i h, hres i hi]
  · intro i h1 h2
    rw [copy_before _ _ _ _ hfit i h2, hzero i h1 h2]
  · have hagain := writeImpl_eq maxSize buffer count offset
      { s with outputs := fun key =>
          if key = name then
            some (copy buffer count (resize data (max data.length (offset + count))) offset)
          else s.outputs key } name
      (copy buffer count (resize data (max data.length (offset + count))) offset) hmax hcur
      (if_pos rfl) hbuf hsize
    rw [hagain]
    have hcc : copy buffer count (resize (copy buffer count
          (resize data (max data.length (offset + count))) offset)
          (max (copy buffer count (resize data (max data.length (offset + count)))
            offset).length (offset + count))) offset
        = copy buffer count (resize data (max data.length (offset + count))) offset := by
      rw [length_copy _ _ _ _ hbuf hfit, hlen, max_eq_left (le_max_right _ _)]
      have hr : resize (copy buffer count (resize data (max data.length (offset + count)))
          offset) (max data.length (offset + count))
          = copy buffer count (resize data (max data.length (offset + count))) offset := by
        rw [resize_eq_append _ _ (by rw [length_copy _ _ _ _ hbuf hfit, hlen]),
          length_copy _ _ _ _ hbuf hfit, hlen]
        simp
      rw [hr, copy_copy _ _ _ _ hbuf hfit]
    congr 2
    simp only [State.mk.injEq, and_true]
    funext key
    by_cases hk : key = name
    · simp only [hk, if_true, hcc]
    · simp only [hk, if_false]

/-- Witness for C30: after `openImpl "out.ply"`, writing three bytes at offset 5 returns 3 and
gives an output of 8 bytes, five zero bytes and the buffer; writing two bytes at offset 1
afterwards keeps the length and the bytes around them. -/
theorem writeImpl_overwrite_witness :
    (∃ (after : State) (written : List Byte),
      writeImpl 4611686018427387897 [1, 2, 3] 3 5 (openImpl "out.ply" (new fun _ => none))
          = .ok (after, 3)
        ∧ after.curOutput = some "out.ply"
        ∧ after.outputs "out.ply" = some written
        ∧ (∀ other, other ≠ "out.ply" →
            after.outputs other = (openImpl "out.ply" (new fun _ => none)).outputs other)
        ∧ written.length = max ([] : List Byte).length (5 + 3)
        ∧ (∀ i, i < 3 → written[5 + i]? = ([1, 2, 3] : List Byte)[i]?)
        ∧ (∀ i, i < ([] : List Byte).length → (i < 5 ∨ 5 + 3 ≤ i) →
            written[i]? = ([] : List Byte)[i]?)
        ∧ (∀ i, ([] : List Byte).length ≤ i → i < 5 → written[i]? = some 0)
        ∧ writeImpl 4611686018427387897 [1, 2, 3] 3 5 after = .ok (after, 3))
      ∧ output "out.ply" (writeImpl 4611686018427387897 [1, 2, 3] 3 5
          (openImpl "out.ply" (new fun _ => none))) = some [0, 0, 0, 0, 0, 1, 2, 3]
      ∧ output "out.ply" ((writeImpl 4611686018427387897 [1, 2, 3] 3 5
          (openImpl "out.ply" (new fun _ => none))).bind
            (fun r => writeImpl 4611686018427387897 [9, 8] 2 1 r.1))
          = some [0, 9, 8, 0, 0, 1, 2, 3] :=
  ⟨writeImpl_overwrite 4611686018427387897 [1, 2, 3] 3 5
      (openImpl "out.ply" (new fun _ => none)) "out.ply" [] (by decide) rfl (by simp [openImpl])
      (by decide) (by decide),
    by decide, by decide⟩

end MemoryWriter
